import Mathlib

/-!
# Diagonal scoring engine

A shallow embedding of `src/dp/diag_scores.cpp` and of the ordered output sink of
`src/output/output_sink.cpp`.

Conventions of the embedding.

* C++ `int` values are `Int`; machine overflow is outside the model (all
  coordinates are sequence positions and all scores are bounded by
  `255 * length`), except for the sentinel `std::numeric_limits<int>::max()`,
  which is kept as the constant `INT_MAX`.
* A `uint8_t` grid cell is a `Fin 256`; reading it promotes it to `Int`, as the
  usual arithmetic conversions of the source do.
* A pointer into a sequence or a grid row is a total function of the index;
  `&query[i0]` is the shifted function.
* `while` and `for` loops whose trip count is known on entry are structural
  recursions on that count; the loops whose termination depends on the data
  (the range form of `get_diag`, the shift loop of `scan_ends`, the
  `do ... while` loop of `OutputSink::flush`) take explicit fuel and return
  `none` when it runs out.
* The linking pass (`scan_ends`, `scan_vicinity`, the window loop of
  `scan_diags`) is embedded once over a handler for the calls of
  `Diag_scores::get_diag`, so that the same definitions run the calls and
  record their arguments.
* `size_t` values of the output sink are `Nat` with explicit `% 2 ^ 64`; a
  `TextBuffer*` is an `Option`, and a `std::map` or `std::multimap` is the list
  of its entries in key order.
* Debug-build `assert`s are not part of the behaviour.
* The SSE vectors of `scan_cols` are embedded lane by lane: the 16 lanes of a
  vector never interact, so one lane is one diagonal of the band.
-/

namespace Diamond

/-! ## Data model -/

/-- A sequence residue, `Letter` in the source: one byte. -/
abbrev Letter := Nat

/-- The sequence terminator, written `'\xff'` in the source. -/
def delimiter : Letter := 255

/-- The record `Diagonal_segment(i, j, len, score)`: query start, subject start,
length and score. -/
structure Diagonal_segment where
  i : Int
  j : Int
  len : Int
  score : Int
deriving DecidableEq, Repr

/-- A `Diagonal_node` is a `Diagonal_segment` with linkage fields that none of
the functions embedded here read or write. -/
abbrev Diagonal_node := Diagonal_segment

/-- The accessor `Diagonal_segment::subject_end`. -/
def Diagonal_segment.subject_end (s : Diagonal_segment) : Int := s.j + s.len

/-- The accessor `Diagonal_segment::query_end`. -/
def Diagonal_segment.query_end (s : Diagonal_segment) : Int := s.i + s.len

/-- The accessor `Diagonal_segment::diag`. -/
def Diagonal_segment.diag (s : Diagonal_segment) : Int := s.i - s.j

/-! ## Scalar scanners -/

/-- The local variables of the scalar scanning loops. -/
structure ScanState where
  j : Int
  max_score : Int
  score : Int
  begin : Int
  end_ : Int
  diags : List Diagonal_node
deriving Repr

/-- The constant `xdrop` of `score_diagonal2`. -/
def xdrop : Int := 10

/-- One pass through the body of the `while` loop of `score_diagonal2`, at
index `i`. -/
def score_diagonal2_step (score_matrix : Letter → Letter → Int) (query subject : Int → Letter)
    (qbegin jbegin cutoff : Int) (i : Int) (st : ScanState) : ScanState :=
  let score := st.score + score_matrix (query i) (subject i)
  if score ≤ 0 ∨ st.max_score - score > xdrop then
    { st with
      diags :=
        if st.max_score ≥ cutoff then
          st.diags ++ [⟨qbegin + st.begin, jbegin + st.begin, st.end_ - st.begin, st.max_score⟩]
        else st.diags
      score := 0
      max_score := 0
      begin := i + 1 }
  else if score > st.max_score then
    { st with score := score, max_score := score, end_ := i + 1 }
  else
    { st with score := score }

/-- The `while (l < len)` loop of `score_diagonal2`: `n` passes from index `i`. -/
def score_diagonal2_loop (score_matrix : Letter → Letter → Int) (query subject : Int → Letter)
    (qbegin jbegin cutoff : Int) : Nat → Int → ScanState → ScanState
  | 0, _, st => st
  | n + 1, i, st =>
    score_diagonal2_loop score_matrix query subject qbegin jbegin cutoff n (i + 1)
      (score_diagonal2_step score_matrix query subject qbegin jbegin cutoff i st)

/-- The function `score_diagonal2`: the x-drop scalar scanner. Returns the list
`diags` after the call. -/
def score_diagonal2 (score_matrix : Letter → Letter → Int) (query subject : Int → Letter)
    (len qbegin jbegin : Int) (diags : List Diagonal_node) (cutoff : Int) : List Diagonal_node :=
  let st := score_diagonal2_loop score_matrix query subject qbegin jbegin cutoff len.toNat 0
    ⟨0, 0, 0, 0, 0, diags⟩
  if st.max_score ≥ cutoff then
    st.diags ++ [⟨qbegin + st.begin, jbegin + st.begin, st.end_ - st.begin, st.max_score⟩]
  else st.diags

/-- One pass through the body of the `while` loop of the bounded
`score_diagonal`, at index `i`. -/
def score_diagonal_step (score_matrix : Letter → Letter → Int) (query subject : Int → Letter)
    (i : Int) (st : ScanState) : ScanState :=
  let score := st.score + score_matrix (query i) (subject i)
  let st1 : ScanState := if score ≤ 0 then { st with score := 0, j := i + 1 } else { st with score := score }
  if st1.score > st1.max_score then
    { st1 with max_score := st1.score, begin := st1.j, end_ := i + 1 }
  else st1

/-- The loop `while (i < n && query[i] != '\xff' && subject[i] != '\xff')` of the
bounded `score_diagonal`: at most `n` passes from index `i`. -/
def score_diagonal_loop (score_matrix : Letter → Letter → Int) (query subject : Int → Letter) :
    Nat → Int → ScanState → ScanState
  | 0, _, st => st
  | n + 1, i, st =>
    if query i ≠ delimiter ∧ subject i ≠ delimiter then
      score_diagonal_loop score_matrix query subject n (i + 1)
        (score_diagonal_step score_matrix query subject i st)
    else st

/-- The bounded function `score_diagonal(query, subject, n, qbegin, jbegin)`. -/
def score_diagonal (score_matrix : Letter → Letter → Int) (query subject : Int → Letter)
    (n qbegin jbegin : Int) : Diagonal_segment :=
  let st := score_diagonal_loop score_matrix query subject n.toNat 0 ⟨0, 0, 0, 0, 0, []⟩
  ⟨qbegin + st.begin, jbegin + st.begin, st.end_ - st.begin, st.max_score⟩

/-- The sum of the substitution scores of the first `k` positions of a window. -/
def prefix_score (score_matrix : Letter → Letter → Int) (query subject : Int → Letter) : Nat → Int
  | 0 => 0
  | k + 1 => prefix_score score_matrix query subject k + score_matrix (query k) (subject k)

/-- The sum of the substitution scores over the positions `[a, b)` of a window. -/
def window_score (score_matrix : Letter → Letter → Int) (query subject : Int → Letter)
    (a b : Nat) : Int :=
  prefix_score score_matrix query subject b - prefix_score score_matrix query subject a


/-! ## Band grids -/

/-- A `uint8_t` grid cell. -/
abbrev Cell := Fin 256

/-- A `Band::Iterator`: one diagonal of a band grid, indexed by column (raw
grid) or by block (block-maximum grid). -/
abbrev Iterator := Int → Cell

/-- The read `d[k]` of a grid cell, promoted to `int`. -/
def Iterator.rd (d : Iterator) (k : Int) : Int := ((d k).val : Int)

/-- Modelled from the spec: the type `Band` is declared in `dp.h`, which is not
among the sources; the spec describes it as a dense matrix over (diagonal
offset within the band, subject position). `cell o k` is the cell of diagonal
offset `o` at column (or block) `k`, and `cols` is what `Band::cols()` returns. -/
structure Band where
  cols : Int
  cell : Int → Int → Cell

/-- The accessor `Band::diag(o)`. -/
def Band.diag (b : Band) (o : Int) : Iterator := b.cell o

/-- The constant `std::numeric_limits<int>::max()`. -/
def INT_MAX : Int := 2147483647

/-! ## Block-grid reconstruction -/

/-- The `for` loop of `get_max_idx`: `n` passes from index `j`, with the current
best index `i` and its value `s`. -/
def get_max_idx_loop (d : Iterator) : Nat → Int → Int → Int → Int
  | 0, _, i, _ => i
  | n + 1, j, i, s =>
    if d.rd j > s then get_max_idx_loop d n (j + 1) j (d.rd j)
    else get_max_idx_loop d n (j + 1) i s

/-- The function `get_max_idx(d, begin, end)`. -/
def get_max_idx (d : Iterator) (begin end_ : Int) : Int :=
  get_max_idx_loop d (end_ - (begin + 1)).toNat (begin + 1) begin (d.rd begin)

/-- The `for` loop of `get_low_idx` together with the final `return`: `n`
passes downwards from index `i`, with the current minimum `low` and its
index `j`. -/
def get_low_idx_loop (d : Iterator) (begin d0 : Int) : Nat → Int → Int → Int → Int
  | 0, _, _, j => if begin > d0 then j else d0 - 1
  | n + 1, i, low, j =>
    if d.rd i = 0 then i
    else if d.rd i < low then get_low_idx_loop d begin d0 n (i - 1) (d.rd i) i
    else get_low_idx_loop d begin d0 n (i - 1) low j

/-- The function `get_low_idx(d, begin, end, d0)`. -/
def get_low_idx (d : Iterator) (begin end_ d0 : Int) : Int :=
  get_low_idx_loop d begin d0 (end_ - begin).toNat (end_ - 1) 255 end_

/-- The local variables of the range form of `get_diag` that change from one
pass of its loop to the next. -/
structure RangeState where
  end_ : Int
  z : Int
  diags : List Diagonal_node
deriving Repr

/-- The peak `p1` located by one pass of the loop of the range form of
`get_diag`, when the range ends at `end_`. -/
def get_diag_p1 (d : Iterator) (begin block_len end_ : Int) : Int :=
  let mod := Int.tmod end_ block_len
  get_max_idx d (max begin (end_ - (if mod = 0 then block_len else mod))) end_

/-- One pass through the body of the `while (end > begin)` loop of the range
form of `get_diag`. -/
def get_diag_range_step (i j : Int) (d : Iterator) (begin last d0 block_len cutoff best_score : Int)
    (st : RangeState) : RangeState :=
  let p1 := get_diag_p1 d begin block_len st.end_
  let p0 := get_low_idx d last p1 d0
  let score := d.rd p1 - (if p0 ≥ d0 then d.rd p0 else 0)
  if score ≥ cutoff ∨ (d.rd p1 = best_score ∧ score > 0) then
    { end_ := p0, z := p0 + 1, diags := st.diags ++ [⟨i + p0 + 1, j + p0 + 1, p1 - p0, score⟩] }
  else
    { st with end_ := p0 }

/-- The `while (end > begin)` loop of the range form of `get_diag`, with fuel:
`none` when the fuel runs out before the loop exits. -/
def get_diag_range_loop (i j : Int) (d : Iterator) (begin last d0 block_len cutoff best_score : Int) :
    Nat → RangeState → Option RangeState
  | 0, _ => none
  | fuel + 1, st =>
    if st.end_ > begin then
      get_diag_range_loop i j d begin last d0 block_len cutoff best_score fuel
        (get_diag_range_step i j d begin last d0 block_len cutoff best_score st)
    else some st

/-- The range form of `get_diag` (multi-block reconstruction):
`get_diag(i, j, d, begin, last, end, d0, diags, block_len, log, cutoff, best_score)`.
Returns the value `z` and the list `diags` after the call. -/
def get_diag_range (fuel : Nat) (i j : Int) (d : Iterator) (begin last end_ d0 : Int)
    (diags : List Diagonal_node) (block_len cutoff best_score : Int) :
    Option (Int × List Diagonal_node) :=
  (get_diag_range_loop i j d begin last d0 block_len cutoff best_score fuel
    ⟨end_, INT_MAX, diags⟩).map (fun st => (st.z, st.diags))

/-! ## Scan session state and active-range tracking -/

/-- The members of `Diag_scores` that the embedded functions use. The class is
declared in `dp.h`, which is not among the sources: the member functions `dj0`
and `dj1`, the constant `block_len` and the thresholds `min_diag_score` and
`min_low_score` (static members, initialised to 19 and 13 in
`diag_scores.cpp`) are taken as parameters. The vector `active` is indexed by
the flat index `o * local_max.cols() + block`. -/
structure Diag_scores where
  fast : Bool
  active : Int → Bool
  local_max : Band
  score_buf : Band
  sv_max : Int → Cell
  dj0 : Int → Int
  dj1 : Int → Int
  block_len : Int
  min_diag_score : Int
  min_low_score : Int
  d_begin : Int
  d_end : Int
  i_begin : Int
  j_begin : Int
  qlen : Int
  slen : Int

/-- The `for` loop of `Diag_scores::set_active`: `n` assignments of `true` from
the flat index `k`. -/
def set_active_loop : Nat → Int → (Int → Bool) → (Int → Bool)
  | 0, _, active => active
  | n + 1, k, active => set_active_loop n (k + 1) (Function.update active k true)

/-- The member function `Diag_scores::set_active(o, begin, end)`. -/
def Diag_scores.set_active (ds : Diag_scores) (o begin end_ : Int) : Diag_scores :=
  if !ds.fast then
    { ds with active :=
        set_active_loop (end_ - begin).toNat (o * ds.local_max.cols + begin) ds.active }
  else ds

/-- The member function `Diag_scores::is_active(o, i)`. -/
def Diag_scores.is_active (ds : Diag_scores) (o i : Int) : Bool :=
  if ds.fast then false else ds.active (o * ds.local_max.cols + i)

/-! ## Per-diagonal orchestration -/

/-- The local variables of `Diag_scores::get_diag` that change in its `for`
loop, with the session state and the segment list. -/
structure RowState where
  best : Int
  best_score : Int
  begin : Int
  last : Int
  ds : Diag_scores
  diags : List Diagonal_node

/-- The loop `while (last > b0 && !is_active(o, last - 1)) --last;` of
`Diag_scores::get_diag`. -/
def walk_back (ds : Diag_scores) (o b0 : Int) : Nat → Int → Int
  | 0, last => last
  | n + 1, last =>
    if last > b0 ∧ ds.is_active o (last - 1) = false then walk_back ds o b0 n (last - 1)
    else last

/-- The call of the range form made by `Diag_scores::get_diag` for the run
`[begin, best]`, followed by the marking of the exploited blocks. The flag is
true when a segment was appended (`z < INT_MAX`). -/
def exploit_run (fuel : Nat) (i j o cutoff : Int) (st : RowState) :
    Option (Bool × Diag_scores × List Diagonal_node) :=
  let ds := st.ds
  let j0 := ds.dj0 o
  let j1 := ds.dj1 o
  match get_diag_range fuel i j (ds.score_buf.diag o)
      (max (st.begin * ds.block_len) (j0 - j)) (max (st.last * ds.block_len) (j0 - j))
      (min ((st.best + 1) * ds.block_len) (j1 - j)) (j0 - j) st.diags ds.block_len cutoff
      st.best_score with
  | none => none
  | some (z, diags) =>
    if z < INT_MAX then some (true, ds.set_active o (Int.tdiv z ds.block_len) (st.best + 1), diags)
    else some (false, ds, diags)

/-- One pass through the body of the `for (; p < p_end; ++p)` loop of
`Diag_scores::get_diag`, at block `p`. -/
def get_diag_step (fuel : Nat) (i j o cutoff : Int) (p : Int) (st : RowState) : Option RowState :=
  let d := st.ds.local_max.diag o
  let st1 : Option RowState :=
    if st.ds.is_active o p = false ∧ d.rd p ≥ cutoff ∧ (p = 0 ∨ d.rd p > d.rd (p - 1)) then
      some { st with begin := if st.begin = -1 then p else st.begin, best := p, best_score := d.rd p }
    else if st.begin ≠ -1 then
      match exploit_run fuel i j o cutoff st with
      | none => none
      | some (true, ds, diags) =>
        some { st with ds := ds, diags := diags, last := st.best + 1, begin := -1, best := -1 }
      | some (false, ds, diags) =>
        some { st with ds := ds, diags := diags, begin := -1, best := -1 }
    else some st
  st1.map (fun s => if s.ds.is_active o p then { s with last := p + 1 } else s)

/-- The `for (; p < p_end; ++p)` loop of `Diag_scores::get_diag`: `n` passes
from block `p`. -/
def get_diag_blocks (fuel : Nat) (i j o cutoff : Int) : Nat → Int → RowState → Option RowState
  | 0, _, st => some st
  | n + 1, p, st =>
    match get_diag_step fuel i j o cutoff p st with
    | none => none
    | some st1 => get_diag_blocks fuel i j o cutoff n (p + 1) st1

/-- The loop `for (; best < b1 && !is_active(o, best) && d[best] >= cutoff &&
(best == 0 || d[best] > d[best - 1]); ++best);` of `Diag_scores::get_diag`. -/
def extend_best (ds : Diag_scores) (o cutoff b1 : Int) : Nat → Int → Int
  | 0, best => best
  | n + 1, best =>
    let d := ds.local_max.diag o
    if best < b1 ∧ ds.is_active o best = false ∧ d.rd best ≥ cutoff
        ∧ (best = 0 ∨ d.rd best > d.rd (best - 1)) then
      extend_best ds o cutoff b1 n (best + 1)
    else best

/-- The member function
`Diag_scores::get_diag(i, j, o, j_begin, j_end, diags, cutoff, log)`. Returns the
session state and the list `diags` after the call; `none` when a call of the
range form runs out of fuel. -/
def Diag_scores.get_diag (ds : Diag_scores) (fuel : Nat) (i j o j_begin j_end : Int)
    (diags : List Diagonal_node) (cutoff : Int) : Option (Diag_scores × List Diagonal_node) :=
  let d := ds.local_max.diag o
  let block_len := ds.block_len
  let j0 := ds.dj0 o
  let j1 := ds.dj1 o
  let b0 := Int.tdiv (j0 - j) block_len
  let b1 := Int.tdiv (j1 - j + block_len - 1) block_len
  let p := max (Int.tdiv (j_begin - j) block_len) b0
  let p_end := min (Int.tdiv (j_end - j + block_len - 1) block_len) b1
  let last := walk_back ds o b0 (p - b0).toNat p
  match get_diag_blocks fuel i j o cutoff (p_end - p).toNat p ⟨-1, -1, -1, last, ds, diags⟩ with
  | none => none
  | some st =>
    if st.begin ≠ -1 then
      let st1 : RowState :=
        if st.best = p_end - 1 then
          let best := extend_best st.ds o cutoff b1 (b1 - st.best).toNat st.best - 1
          { st with best := best, best_score := d.rd best }
        else st
      (exploit_run fuel i j o cutoff st1).map (fun r => (r.2.1, r.2.2))
    else some (st.ds, st.diags)

/-- A sequence of calls of `Diag_scores::get_diag` on one diagonal offset `o`,
each with its column range and cutoff `(j_begin, j_end, cutoff)`; the callers
in the source always pass `i = i_begin + o` and `j = j_begin`. -/
def get_diag_calls (fuel : Nat) (i j o : Int) :
    Diag_scores → List Diagonal_node → List (Int × Int × Int) →
    Option (Diag_scores × List Diagonal_node)
  | ds, diags, [] => some (ds, diags)
  | ds, diags, c :: rest =>
    match ds.get_diag fuel i j o c.1 c.2.1 diags c.2.2 with
    | none => none
    | some r => get_diag_calls fuel i j o r.1 r.2 rest

/-! ## Vectorized column scanner, one lane -/

/-- Modelled from the spec: the type `score_vector<uint8_t>` is not among the
sources; the spec describes its accumulator as biased and saturating. This is
the lane-wise `operator+`. -/
def sat_add (a b : Cell) : Cell := ⟨min (a.val + b.val) 255, by omega⟩

/-- Modelled from the spec: the lane-wise `operator-=` of `score_vector<uint8_t>`,
saturating at zero. -/
def sat_sub (a b : Cell) : Cell := ⟨a.val - b.val, by omega⟩

/-- The state of one lane of the vectors `v`, `max` and `global_max` of
`scan_cols`, the rows of the two grids that belong to the lane, and the
positions of the two output pointers within these rows. -/
structure LaneState where
  v : Cell
  max : Cell
  global_max : Cell
  buf : Iterator
  buf_ptr : Int
  local_max : Iterator
  local_max_ptr : Int

/-- One pass through the body of the inner loop of the band form of
`scan_cols`, at subject position `j2`, for one lane; `q j2` is the lane of the
profile row `qp.get(s[j2], i3)`. On a two's-complement `int` the test
`(x & 15) == 15` is `x % 16 = 15`. -/
def scan_cols_step (bias : Cell) (q : Int → Cell) (j : Int) (j2 : Int) (st : LaneState) : LaneState :=
  let v := sat_sub (sat_add st.v (q j2)) bias
  let mx := if st.max < v then v else st.max
  let st1 : LaneState :=
    { st with v := v, max := mx, buf := Function.update st.buf st.buf_ptr v, buf_ptr := st.buf_ptr + 1 }
  if (j2 - j) % 16 = 15 then
    { st1 with
      global_max := if st1.global_max < mx then mx else st1.global_max
      local_max := Function.update st1.local_max st1.local_max_ptr mx
      local_max_ptr := st1.local_max_ptr + 1
      max := 0 }
  else st1

/-- The inner loop `for (; j2 < j2_end; ++j2, ++i3)` of the band form of
`scan_cols`, for one lane: `n` passes from subject position `j2`. Returns the
lane state and the final value of `j2`. -/
def scan_cols_loop (bias : Cell) (q : Int → Cell) (j : Int) : Nat → Int → LaneState → LaneState × Int
  | 0, j2, st => (st, j2)
  | n + 1, j2, st => scan_cols_loop bias q j n (j2 + 1) (scan_cols_step bias q j j2 st)

/-- The band form of `scan_cols`, for one lane of one group of 16 diagonals:
the inner loop from `j2` to `j2_end`, the final partial block and the store of
`global_max`. `buf` and `local_max` are the rows of the two grids for this
diagonal before the call. The parameter `block_len` is not used by the
source. -/
def scan_cols (bias : Cell) (q : Int → Cell) (j j2 j2_end : Int) (buf local_max : Iterator)
    (_block_len : Int) : LaneState :=
  let r := scan_cols_loop bias q j (j2_end - j2).toNat j2
    ⟨0, 0, 0, buf, j2 - j, local_max, Int.tdiv (j2 - j) 16⟩
  let st := r.1
  if (r.2 - j) % 16 ≠ 0 then
    { st with
      global_max := if st.global_max < st.max then st.max else st.global_max
      local_max := Function.update st.local_max st.local_max_ptr st.max }
  else st

/-- The function `set_global_max`, for one lane. -/
def set_global_max (st : LaneState) : LaneState :=
  { st with
    global_max := if st.global_max < st.max then st.max else st.global_max
    local_max := Function.update st.local_max st.local_max_ptr st.max
    max := 0
    local_max_ptr := st.local_max_ptr + 1 }

/-- One pass through the body of the loop of the pointer form of `scan_cols`,
for one lane, with the counter `n`; `q j` is the lane of the profile row
`qp.get(s[j], i)`. -/
def scan_cols_ptr_step (bias : Cell) (q : Int → Cell) (j : Int) (n : Int) (st : LaneState) : LaneState :=
  let v := sat_sub (sat_add st.v (q j)) bias
  let mx := if st.max < v then v else st.max
  let st1 : LaneState :=
    { st with v := v, max := mx, buf := Function.update st.buf st.buf_ptr v, buf_ptr := st.buf_ptr + 1 }
  if n % 16 = 15 then set_global_max st1 else st1

/-- The loop `for (; j < j_end; ++j)` of the pointer form of `scan_cols`, for
one lane: `k` passes from subject position `j` with counter `n`. Returns the
lane state and the final value of `n`. -/
def scan_cols_ptr_loop (bias : Cell) (q : Int → Cell) : Nat → Int → Int → LaneState → LaneState × Int
  | 0, _, n, st => (st, n)
  | k + 1, j, n, st => scan_cols_ptr_loop bias q k (j + 1) (n + 1) (scan_cols_ptr_step bias q j n st)

/-- The pointer form of `scan_cols`, for one lane. `buf` and `local_max` are
indexed by column and by block from the positions the two pointers have on
entry. -/
def scan_cols_ptr (bias : Cell) (q : Int → Cell) (j j_end : Int) (buf local_max : Iterator)
    (block_len : Int) : LaneState :=
  let r := scan_cols_ptr_loop bias q (j_end - j).toNat j 0 ⟨0, 0, 0, buf, 0, local_max, 0⟩
  if Int.tmod r.2 block_len ≠ 0 then set_global_max r.1 else r.1

/-! ## Band driver: per-diagonal reconstruction -/

/-- One pass through the body of the loop `for (int o = 0; o < band; ++o)` of
`Diag_scores::scan_diags`, at diagonal offset `o`; `j1` is the local of that
name, `bias` is `score_matrix.bias()`. -/
def scan_diags_step (ds : Diag_scores) (fuel : Nat) (score_matrix : Letter → Letter → Int)
    (bias : Int) (query subject : Int → Letter) (j1 : Int) (o : Int)
    (diags : List Diagonal_node) : Option (Diag_scores × List Diagonal_node) :=
  if ((ds.sv_max o).val : Int) ≥ ds.min_diag_score then
    if ((ds.sv_max o).val : Int) ≥ 255 - bias then
      let s := min (ds.i_begin + o) 0
      let i0 := ds.i_begin + o - s
      let j0 := ds.j_begin - s
      some (ds.set_active o 0 ds.local_max.cols,
        score_diagonal2 score_matrix (fun k => query (i0 + k)) (fun k => subject (j0 + k))
          (min (ds.qlen - i0) (ds.slen - j0)) i0 j0 diags
          (if ds.fast then ds.min_diag_score else ds.min_low_score))
    else
      ds.get_diag fuel (ds.i_begin + o) ds.j_begin o ds.j_begin j1 diags ds.min_diag_score
  else some (ds, diags)

/-! ## A concrete session -/

/-- A session for examples: the subject has `n` positions, `j_begin = 0`, and
the row of every diagonal offset holds what `scan_cols` writes into zeroed
grids for a lane with profile row `q` over the subject positions `[0, n)`. -/
def scanned_session (bias : Cell) (q : Int → Cell) (n : Int) (fast : Bool) : Diag_scores :=
  { fast := fast
    active := fun _ => false
    local_max := ⟨(n + 15) / 16, fun _ => (scan_cols bias q 0 0 n (fun _ => 0) (fun _ => 0) 16).local_max⟩
    score_buf := ⟨n, fun _ => (scan_cols bias q 0 0 n (fun _ => 0) (fun _ => 0) 16).buf⟩
    sv_max := fun _ => (scan_cols bias q 0 0 n (fun _ => 0) (fun _ => 0) 16).global_max
    dj0 := fun _ => 0
    dj1 := fun _ => n
    block_len := 16
    min_diag_score := 19
    min_low_score := 13
    d_begin := 0
    d_end := 16
    i_begin := 0
    j_begin := 0
    qlen := n
    slen := n }

/-! ## Specification predicates -/

/-- What `score_diagonal2` guarantees of a node it appends while scanning a
window that starts at `(qbegin, jbegin)`, once `bound` positions are scanned. -/
def NodeWithin (qbegin jbegin cutoff bound : Int) (s : Diagonal_node) : Prop :=
  s.score ≥ cutoff ∧ s.len > 0 ∧ qbegin ≤ s.i ∧ s.i + s.len ≤ qbegin + bound
    ∧ jbegin ≤ s.j ∧ s.j + s.len ≤ jbegin + bound

/-- The loop invariant of `score_diagonal2` before the pass at index `i`. -/
def Scan2Inv (qbegin jbegin cutoff : Int) (diags : List Diagonal_node) (i : Int)
    (st : ScanState) : Prop :=
  (∃ fresh, st.diags = diags ++ fresh ∧ ∀ s ∈ fresh, NodeWithin qbegin jbegin cutoff i s)
    ∧ 0 ≤ st.max_score ∧ 0 ≤ st.begin ∧ st.begin ≤ i
    ∧ (0 < st.max_score → st.begin < st.end_ ∧ st.end_ ≤ i)

/-- The loop invariant of the bounded `score_diagonal` after `k` positions:
`score` is the best sum of a window ending at `k`, attained from `j`, and
`max_score` is the best sum of any window within the first `k` positions,
attained on `[begin, end)`. -/
def KadaneInv (score_matrix : Letter → Letter → Int) (query subject : Int → Letter) (k : Nat)
    (st : ScanState) : Prop :=
  ∃ jn bn en : Nat, st.j = jn ∧ st.begin = bn ∧ st.end_ = en ∧ jn ≤ k ∧ bn ≤ en ∧ en ≤ k
    ∧ st.score = window_score score_matrix query subject jn k
    ∧ st.max_score = window_score score_matrix query subject bn en
    ∧ (∀ a, a ≤ k → window_score score_matrix query subject a k ≤ st.score)
    ∧ (∀ a b, a ≤ b → b ≤ k → window_score score_matrix query subject a b ≤ st.max_score)

/-- Two segments do not overlap in subject-coordinate range. -/
def SubjectDisjoint (s t : Diagonal_segment) : Prop :=
  s.subject_end ≤ t.j ∨ t.subject_end ≤ s.j

/-- What the range form of `get_diag`, called with `(i, j)`, lower search bound
`last`, `cutoff` and `best_score` on a range ending at `E`, guarantees of a
segment it appends: positive length and score; a score of at least the cutoff
unless the peak cell equals `best_score`; the diagonal of `(i, j)`; columns
within `[last, E)`. -/
def RangeSegOK (d : Iterator) (i j last cutoff best_score E : Int) (s : Diagonal_node) : Prop :=
  s.len > 0 ∧ s.score > 0 ∧ (s.score ≥ cutoff ∨ d.rd (s.j - j + s.len - 1) = best_score)
    ∧ s.i - i = s.j - j ∧ last ≤ s.j - j ∧ s.j - j + s.len ≤ E

/-- The loop invariant of the range form of `get_diag`: the segments appended
so far are pairwise disjoint and all start beyond the current range end, and
`z` is the smallest of their starting columns (`INT_MAX` when there is none). -/
def RangeInv (d : Iterator) (i j last cutoff best_score E : Int) (diags0 : List Diagonal_node)
    (st : RangeState) : Prop :=
  ∃ acc, st.diags = diags0 ++ acc
    ∧ (∀ s ∈ acc, RangeSegOK d i j last cutoff best_score E s ∧ st.end_ < s.j - j
        ∧ st.z ≤ s.j - j)
    ∧ acc.Pairwise SubjectDisjoint
    ∧ (acc = [] → st.z = INT_MAX)
    ∧ (acc ≠ [] → last ≤ st.z ∧ st.z < E ∧ ∃ s ∈ acc, s.j - j = st.z)
    ∧ st.end_ ≤ E

/-- The blocks that hold the columns of segment `s` of diagonal offset `o` are
all marked active (`j` is the subject position of column 0). -/
def SegCovered (ds : Diag_scores) (o j : Int) (s : Diagonal_node) : Prop :=
  0 < s.len ∧ 0 ≤ s.j - j
    ∧ ∀ p, (s.j - j) / ds.block_len ≤ p → p ≤ (s.j - j + s.len - 1) / ds.block_len →
        ds.is_active o p = true

/-- The invariant of a diagonal between calls of `Diag_scores::get_diag`: the
segments appended so far do not overlap one another and lie in active blocks. -/
def SessionInv (ds : Diag_scores) (o j : Int) (acc : List Diagonal_node) : Prop :=
  acc.Pairwise SubjectDisjoint ∧ ∀ s ∈ acc, SegCovered ds o j s

/-- The state `ds1` differs from `ds` in the active mask at most. -/
def SameSession (ds ds1 : Diag_scores) : Prop :=
  ds1 = { ds with active := ds1.active }

/-- The invariant of the `for` loop of `Diag_scores::get_diag` before the pass at
block `p`: the blocks `[last, p)` are not active, an open run `[begin, best]`
ends at `p - 1` and starts at `last` or later, and the segments appended since
`base` satisfy the session invariant. -/
def RowInv (ds0 : Diag_scores) (o j : Int) (base : List Diagonal_node) (p : Int)
    (st : RowState) : Prop :=
  SameSession ds0 st.ds ∧ st.last ≤ p
    ∧ (∀ q, st.last ≤ q → q < p → st.ds.is_active o q = false)
    ∧ (st.begin ≠ -1 → st.last ≤ st.begin ∧ st.begin ≤ st.best ∧ st.best = p - 1)
    ∧ ∃ acc, st.diags = base ++ acc ∧ SessionInv st.ds o j acc

/-- The loop invariant of `scan_cols` for one lane that starts in column `d0`
and whose running score after `k` columns is `P k`, the lane never saturating:
the cells written so far, the complete blocks snapshot so far, the block
accumulator and the overall maximum. -/
def LaneInv (P : Nat → Int) (d0 : Int) (k : Nat) (st : LaneState) : Prop :=
  ((st.v.val : Int) = P k) ∧ st.buf_ptr = d0 + k ∧ st.local_max_ptr = (d0 + k) / 16
    ∧ ((st.max.val : Int) = if (d0 + k) % 16 = 0 then 0 else P k)
    ∧ ((st.global_max.val : Int)
        = if d0 / 16 < (d0 + k) / 16 then P ((d0 + k) / 16 * 16 - d0).toNat else 0)
    ∧ (∀ x, st.buf.rd x = if d0 ≤ x ∧ x < d0 + k then P (x - d0 + 1).toNat else 0)
    ∧ (∀ b, st.local_max.rd b
        = if d0 / 16 ≤ b ∧ (b + 1) * 16 ≤ d0 + k then P ((b + 1) * 16 - d0).toNat else 0)

/-- The invariant of the `for` loop of `Diag_scores::get_diag` on a diagonal
whose block maxima rise from block `b0` on, before the pass at block `p`:
nothing is appended or marked yet, and a run is open exactly when a block
before `p` has reached the cutoff. -/
def RisingInv (ds : Diag_scores) (o cutoff b0 : Int) (diags : List Diagonal_node) (p : Int)
    (st : RowState) : Prop :=
  st.ds = ds ∧ st.diags = diags ∧ st.last = b0
    ∧ ((st.begin = -1 ∧ ∀ b, b0 ≤ b → b < p → (ds.local_max.diag o).rd b < cutoff)
      ∨ (st.begin ≠ -1 ∧ b0 ≤ st.begin ∧ st.begin ≤ st.best ∧ st.best = p - 1
          ∧ (ds.local_max.diag o).rd (p - 1) ≥ cutoff))

/-! ## Segment linker -/

/-- The arguments of one call
`get_diag(i, j, o, j_begin, j_end, diags, cutoff, log)` of the member function. -/
structure Probe where
  i : Int
  j : Int
  o : Int
  j_begin : Int
  j_end : Int
  cutoff : Int
deriving DecidableEq, Repr

/-- What the linker needs of the state it runs in: how a call of
`Diag_scores::get_diag` changes the state, and how the members of the session
and the segment list are read from it. The linker is embedded once, over any
such state, so that the same definition runs the calls and records them. -/
structure Linker (σ : Type) where
  call : σ → Probe → Option σ
  ds : σ → Diag_scores
  diags : σ → List Diagonal_node

/-- The linker on the session itself: a call is `Diag_scores::get_diag`, with the
fuel given to the range form. -/
def session_linker (fuel : Nat) : Linker (Diag_scores × List Diagonal_node) where
  call := fun st p => st.1.get_diag fuel p.i p.j p.o p.j_begin p.j_end st.2 p.cutoff
  ds := fun st => st.1
  diags := fun st => st.2

/-- The state of the recording linker: the session and the segment list, which
it leaves as they are, and the calls made so far, in order. -/
structure Trace where
  ds : Diag_scores
  diags : List Diagonal_node
  probes : List Probe

/-- The recording linker: a call is appended to the record. -/
def recorder : Linker Trace where
  call := fun st p => some { st with probes := st.probes ++ [p] }
  ds := fun st => st.ds
  diags := fun st => st.diags

/-- The read `diags[k]` of the segment list. -/
def node_at (diags : List Diagonal_node) (k : Nat) : Diagonal_node :=
  diags.getD k ⟨0, 0, 0, 0⟩

/-- The constant `len` of `scan_ends`. -/
def scan_ends_len : Int := 20

/-- The two calls of `get_diag` that `scan_ends` makes on diagonal offset `o`:
the window before the start `dj` of the segment and the window after its end
`dj1`. -/
def scan_ends_pair {σ : Type} (L : Linker σ) (o dj dj1 subject_len min_score : Int) (st : σ) :
    Option σ :=
  match L.call st ⟨(L.ds st).i_begin + o, (L.ds st).j_begin, o, max (dj - scan_ends_len) 0, dj,
      min_score⟩ with
  | none => none
  | some st1 =>
    L.call st1 ⟨(L.ds st1).i_begin + o, (L.ds st1).j_begin, o, dj1,
      min (dj1 + scan_ends_len) subject_len, min_score⟩

/-- One pass through the body of the `for` loop of `Diag_scores::scan_ends`, for
the value `shift` and the value `min_score` the loop header computed. -/
def scan_ends_step {σ : Type} (L : Linker σ) (dd dj dj1 subject_len shift min_score : Int)
    (st : σ) : Option σ :=
  let r1 : Option σ :=
    if dd + shift < (L.ds st).d_end then
      let o := dd + shift - (L.ds st).d_begin
      if (((L.ds st).sv_max o).val : Int) ≥ min_score then
        scan_ends_pair L o dj dj1 subject_len min_score st
      else some st
    else some st
  match r1 with
  | none => none
  | some st1 =>
    if dd - shift ≥ (L.ds st1).d_begin then
      let o := dd - shift - (L.ds st1).d_begin
      if (((L.ds st1).sv_max o).val : Int) ≥ min_score then
        scan_ends_pair L o dj dj1 subject_len min_score st1
      else some st1
    else some st1

/-- The loop `for (int shift = 1; (min_score = config.gap_open +
shift*config.gap_extend + 1) < min_diag_score; shift++)` of
`Diag_scores::scan_ends`, with fuel: `none` when the fuel runs out before the
loop exits. -/
def scan_ends_loop {σ : Type} (L : Linker σ) (gap_open gap_extend dd dj dj1 subject_len : Int) :
    Nat → Int → σ → Option σ
  | 0, _, _ => none
  | fuel + 1, shift, st =>
    let min_score := gap_open + shift * gap_extend + 1
    if min_score < (L.ds st).min_diag_score then
      match scan_ends_step L dd dj dj1 subject_len shift min_score st with
      | none => none
      | some st1 => scan_ends_loop L gap_open gap_extend dd dj dj1 subject_len fuel (shift + 1) st1
    else some st

/-- The member function
`Diag_scores::scan_ends(d_idx, diags, log, sv_max, subject_len)`; `gap_open` and
`gap_extend` are the members of the global `config`, which is not among the
sources. -/
def scan_ends {σ : Type} (L : Linker σ) (fuel : Nat) (gap_open gap_extend : Int) (d_idx : Nat)
    (subject_len : Int) (st : σ) : Option σ :=
  let seg := node_at (L.diags st) d_idx
  scan_ends_loop L gap_open gap_extend seg.diag seg.j seg.subject_end subject_len fuel 1 st

/-- The constant `reverse_diags` of `scan_vicinity`. -/
def reverse_diags : Int := 2

/-- The guarded call `if (sv_max[o] >= min_low_score) get_diag(i_begin + o,
j_begin, o, j0, j1, diags, min_low_score, log)` of `scan_vicinity`, for the
diagonal `diag`. -/
def vicinity_probe {σ : Type} (L : Linker σ) (diag j0 j1 : Int) (st : σ) : Option σ :=
  let o := diag - (L.ds st).d_begin
  if (((L.ds st).sv_max o).val : Int) ≥ (L.ds st).min_low_score then
    L.call st ⟨(L.ds st).i_begin + o, (L.ds st).j_begin, o, j0, j1, (L.ds st).min_low_score⟩
  else some st

/-- A loop of `scan_vicinity` that goes up through the diagonals with a fixed
column range: `n` passes from `diag`. -/
def vicinity_up {σ : Type} (L : Linker σ) (j0 j1 : Int) : Nat → Int → σ → Option σ
  | 0, _, st => some st
  | n + 1, diag, st =>
    match vicinity_probe L diag j0 j1 st with
    | none => none
    | some st1 => vicinity_up L j0 j1 n (diag + 1) st1

/-- The loop `for (int diag = de - 1; diag > dd; --diag)` of `scan_vicinity`,
which goes down through the diagonals while `j` goes up: `n` passes from
`diag` with the column range `[j, j + l)`. -/
def vicinity_down {σ : Type} (L : Linker σ) (l : Int) : Nat → Int → Int → σ → Option σ
  | 0, _, _, st => some st
  | n + 1, diag, j, st =>
    match vicinity_probe L diag j (j + l) st with
    | none => none
    | some st1 => vicinity_down L l n (diag - 1) (j + 1) st1

/-- The two loops of the branch `shift < 0` of `scan_vicinity`: the diagonals
`de - 1` down to `dd + 1`, the column range moving by one each time, then the
diagonals above `de`. -/
def vicinity_sweep {σ : Type} (L : Linker σ) (dd de j0 l : Int) (st : σ) : Option σ :=
  match vicinity_down L l (de - 1 - dd).toNat (de - 1) j0 st with
  | none => none
  | some st1 =>
    vicinity_up L j0 (j0 + l)
      (min (de + reverse_diags + 1) (L.ds st1).d_end - (de + 1)).toNat (de + 1) st1

/-- The member function
`Diag_scores::scan_vicinity(d_idx, e_idx, diags, log, sv_max)`. -/
def scan_vicinity {σ : Type} (L : Linker σ) (d_idx e_idx : Nat) (st : σ) : Option σ :=
  let d := node_at (L.diags st) d_idx
  let e := node_at (L.diags st) e_idx
  let dd := d.diag
  let de := e.diag
  let jd := d.j
  let je := e.j
  let je1 := e.subject_end
  let jd1 := d.subject_end
  let ld := d.len
  let le := e.len
  let shift := dd - de
  if shift > 0 then
    let j0 := min je1 jd
    let j1 := min (max jd je1) jd1
    match vicinity_up L j0 j1 (dd - (de + 1)).toNat (de + 1) st with
    | none => none
    | some st1 =>
      let first := max (de - reverse_diags) (L.ds st1).d_begin
      vicinity_up L j0 j1 (de - first).toNat first st1
  else if shift < 0 then
    let jde := jd + shift
    let jde1 := jd1 + shift
    let r : Option (Int × Int) :=
      if jde > je1 then some (je1, jde - je1)
      else if jde > je then some (jde, min (je1 - jde) ld)
      else if min (jde1 - je) le ≤ 0 then none
      else some (je, min (jde1 - je) le)
    match r with
    | none => some st
    | some (j0, l) => vicinity_sweep L dd de j0 l st
  else some st

/-! ## Band driver: linking pass -/

/-- The constant `max_dist` of `scan_diags`. -/
def max_dist : Int := 60

/-- The sliding window, a `std::multimap<int, unsigned>`: the pairs of subject
end and node index, in the order of the keys. -/
abbrev Window := List (Int × Nat)

/-- The call `window.insert(std::make_pair(key, node))`: the pair goes behind
the pairs whose key is not greater. -/
def window_insert (key : Int) (node : Nat) : Window → Window
  | [] => [(key, node)]
  | e :: w => if e.1 ≤ key then e :: window_insert key node w else (key, node) :: e :: w

/-- The loop `while (!window.empty() && diags[node].j - window.begin()->first >
max_dist) window.erase(window.begin());` of `scan_diags`, for the segment `d`
that `diags[node]` is. -/
def window_evict (d : Diagonal_node) : Window → Window
  | [] => []
  | e :: w => if d.j - e.1 > max_dist then window_evict d w else e :: w

/-- The loop over the window entries of `scan_diags`, which calls
`scan_vicinity(node, i->second, ...)` for the entries within `max_dist` in
diagonal index. -/
def link_window {σ : Type} (L : Linker σ) (node : Nat) : Window → σ → Option σ
  | [], st => some st
  | e :: w, st =>
    if |(node_at (L.diags st) node).diag - (node_at (L.diags st) e.2).diag| > max_dist then
      link_window L node w st
    else
      match scan_vicinity L node e.2 st with
      | none => none
      | some st1 => link_window L node w st1

/-- One pass through the body of the loop `for (unsigned node = 0; node < nodes;
++node)` of `scan_diags`. -/
def link_node {σ : Type} (L : Linker σ) (fuel : Nat) (gap_open gap_extend : Int) (node : Nat)
    (st : σ) (window : Window) : Option (σ × Window) :=
  if (node_at (L.diags st) node).score < (L.ds st).min_diag_score then some (st, window)
  else
    match scan_ends L fuel gap_open gap_extend node (L.ds st).slen st with
    | none => none
    | some st1 =>
      let w1 := window_evict (node_at (L.diags st1) node) window
      match link_window L node w1 st1 with
      | none => none
      | some st2 =>
        some (st2, window_insert (node_at (L.diags st2) node).subject_end node w1)

/-- The loop `for (unsigned node = 0; node < nodes; ++node)` of `scan_diags`: `n`
passes from `node`. -/
def link_nodes {σ : Type} (L : Linker σ) (fuel : Nat) (gap_open gap_extend : Int) :
    Nat → Nat → σ → Window → Option (σ × Window)
  | 0, _, st, window => some (st, window)
  | n + 1, node, st, window =>
    match link_node L fuel gap_open gap_extend node st window with
    | none => none
    | some r => link_nodes L fuel gap_open gap_extend n (node + 1) r.1 r.2

/-- The linking pass of `scan_diags`, from `const unsigned nodes = diags.size()`
to `window.clear()`, on the sorted segment list and the window the caller
passed in. -/
def link_pass {σ : Type} (L : Linker σ) (fuel : Nat) (gap_open gap_extend : Int) (st : σ)
    (window : Window) : Option (σ × Window) :=
  match link_nodes L fuel gap_open gap_extend (L.diags st).length 0 st window with
  | none => none
  | some r => some (r.1, [])

/-- The calls that the end scan makes for one shift, as the specification
describes them: on the diagonal at `+shift` when it lies below `d_end`, then on
the diagonal at `-shift` when it lies at `d_begin` or above, each gated by the
overall maximum of the diagonal, and each over the window of 20 columns before
the start `dj` of the segment (clipped at 0) and the window of 20 columns after
its end `dj1` (clipped at `subject_len`). -/
def shift_probes (ds : Diag_scores) (dd dj dj1 subject_len shift min_score : Int) : List Probe :=
  (if dd + shift < ds.d_end
      ∧ ((ds.sv_max (dd + shift - ds.d_begin)).val : Int) ≥ min_score then
    [⟨ds.i_begin + (dd + shift - ds.d_begin), ds.j_begin, dd + shift - ds.d_begin,
        max (dj - 20) 0, dj, min_score⟩,
      ⟨ds.i_begin + (dd + shift - ds.d_begin), ds.j_begin, dd + shift - ds.d_begin,
        dj1, min (dj1 + 20) subject_len, min_score⟩]
  else [])
  ++ (if dd - shift ≥ ds.d_begin
      ∧ ((ds.sv_max (dd - shift - ds.d_begin)).val : Int) ≥ min_score then
    [⟨ds.i_begin + (dd - shift - ds.d_begin), ds.j_begin, dd - shift - ds.d_begin,
        max (dj - 20) 0, dj, min_score⟩,
      ⟨ds.i_begin + (dd - shift - ds.d_begin), ds.j_begin, dd - shift - ds.d_begin,
        dj1, min (dj1 + 20) subject_len, min_score⟩]
  else [])

/-- The calls of the end scan for the shifts `s, s + 1, ..., s + n - 1`, in this
order. -/
def shifts_probes (ds : Diag_scores) (gap_open gap_extend dd dj dj1 subject_len : Int) :
    Nat → Int → List Probe
  | 0, _ => []
  | n + 1, s =>
    shift_probes ds dd dj dj1 subject_len s (gap_open + s * gap_extend + 1)
      ++ shifts_probes ds gap_open gap_extend dd dj dj1 subject_len n (s + 1)

/-- What `scan_vicinity` guarantees of a call it makes for the segments on the
diagonals `dd` (current) and `de` (window entry): the cutoff is
`min_low_score`, the overall maximum of the probed diagonal reaches it, and
the probed diagonal `g` lies strictly between `dd` and `de`, or is one of the
two diagonals beyond `de` on the side away from `dd`, within `[d_begin, d_end)`. -/
def VicinityProbe (ds : Diag_scores) (dd de : Int) (p : Probe) : Prop :=
  p.cutoff = ds.min_low_score ∧ ((ds.sv_max p.o).val : Int) ≥ ds.min_low_score
    ∧ p.i = ds.i_begin + p.o ∧ p.j = ds.j_begin
    ∧ ∃ g, p.o = g - ds.d_begin
        ∧ ((min dd de < g ∧ g < max dd de)
          ∨ (de < dd ∧ de - 2 ≤ g ∧ g < de ∧ ds.d_begin ≤ g)
          ∨ (dd < de ∧ de < g ∧ g ≤ de + 2 ∧ g < ds.d_end))

/-- What holds of the state of the loop of the range form of `get_diag` after
any number of passes, whatever the cutoff: `z` is `INT_MAX` as long as nothing
was appended; afterwards it is the least start of the appended segments, it is
attained, it is not below `last`, and the range end lies below it. -/
def RangeRunInv (j last : Int) (diags0 : List Diagonal_node) (st : RangeState) : Prop :=
  ∃ acc, st.diags = diags0 ++ acc
    ∧ (acc = [] → st.z = INT_MAX)
    ∧ (acc ≠ [] → last ≤ st.z ∧ st.end_ < st.z ∧ (∃ s ∈ acc, s.j - j = st.z)
        ∧ ∀ s ∈ acc, st.z ≤ s.j - j)

/-- A row of raw scores for examples, two blocks of 16 columns: 20 at column 5,
1 at column 16, 30 at column 30, and 0 elsewhere. -/
def two_block_row : Iterator :=
  fun k => if k = 5 then 20 else if k = 16 then 1 else if k = 30 then 30 else 0

/-! ## Single-block reconstruction -/

/-- The inner loop `for (i -= 1; i >= begin; --i)` of `get_zero_index`, with the
`return` that follows it: `n` passes downwards from index `i`; the result is the
value of `z0`. -/
def get_zero_index_inner (d : Iterator) : Nat → Int → Int
  | 0, _ => -1
  | n + 1, i => if d.rd i = 0 then i else get_zero_index_inner d n (i - 1)

/-- The outer loop `for (int i = end - 1; i >= begin; --i)` of `get_zero_index`:
`n` passes downwards from index `i`, with the current value of `z1`. Returns
`(z0, z1)`. -/
def get_zero_index_loop (d : Iterator) (max_score : Int) : Nat → Int → Int → Int × Int
  | 0, _, z1 => (-1, z1)
  | n + 1, i, z1 =>
    if d.rd i = 0 ∧ z1 = -1 then get_zero_index_loop d max_score n (i - 1) i
    else if d.rd i = max_score then (get_zero_index_inner d n (i - 1), z1)
    else get_zero_index_loop d max_score n (i - 1) z1

/-- The function `get_zero_index(d, begin, end, max_score, z0, z1)`, the form
with six parameters. Returns `(z0, z1)`. -/
def get_zero_index (d : Iterator) (begin end_ max_score : Int) : Int × Int :=
  get_zero_index_loop d max_score (end_ - begin).toNat (end_ - 1) (-1)

/-- The loop `for (; p < p_end; ++p) if (d[p] == max_score) ... break;` of the
single-block form of `get_diag`, without the body of the `if`: `n` passes from
`p`. Returns the final `p` and whether the `if` was entered. -/
def get_diag_find (d : Iterator) (max_score : Int) : Nat → Int → Int × Bool
  | 0, p => (p, false)
  | n + 1, p => if d.rd p = max_score then (p, true) else get_diag_find d max_score n (p + 1)

/-- The loop `for (int q = p + 1; q < cols && d[q] > 0; ++q)` of the
single-block form of `get_diag`: at most `n` passes from `q`. Returns
`(max_score, p)`. -/
def get_diag_extend (d : Iterator) (cols : Int) : Nat → Int → Int → Int → Int × Int
  | 0, _, max_score, p => (max_score, p)
  | n + 1, q, max_score, p =>
    if q < cols ∧ d.rd q > 0 then
      if d.rd q > max_score then get_diag_extend d cols n (q + 1) (d.rd q) q
      else get_diag_extend d cols n (q + 1) max_score p
    else (max_score, p)

/-- The local variables of the second part of the single-block form of
`get_diag`, with the segment list. -/
structure TailState where
  low : Int
  low_pos : Int
  high : Int
  high_pos : Int
  p : Int
  diags : List Diagonal_node
deriving Repr

/-- One pass through the body of the loop `while (p < cols && d[p] > 0)` of the
single-block form of `get_diag`. -/
def get_diag_tail_step (i j : Int) (d : Iterator) (min_diag_score : Int) (st : TailState) :
    TailState :=
  let st1 : TailState :=
    if d.rd st.p < st.low then
      { st with
        diags :=
          if st.high ≥ min_diag_score then
            st.diags ++ [⟨i + st.low_pos + 1, j + st.low_pos + 1, st.high_pos - st.low_pos, st.high⟩]
          else st.diags
        high := 0
        high_pos := st.p
        low := d.rd st.p
        low_pos := st.p }
    else st
  let st2 : TailState :=
    if d.rd st1.p - st1.low > st1.high then
      { st1 with high := d.rd st1.p - st1.low, high_pos := st1.p }
    else st1
  { st2 with p := st2.p + 1 }

/-- The loop `while (p < cols && d[p] > 0)` of the single-block form of
`get_diag`: at most `n` passes. -/
def get_diag_tail (i j : Int) (d : Iterator) (cols min_diag_score : Int) :
    Nat → TailState → TailState
  | 0, st => st
  | n + 1, st =>
    if st.p < cols ∧ d.rd st.p > 0 then
      get_diag_tail i j d cols min_diag_score n (get_diag_tail_step i j d min_diag_score st)
    else st

/-- The single-block form of `get_diag`:
`get_diag(i, j, d, begin, max_score, zero, diags, block_len, cols, extend, log)`;
`min_diag_score` is the static member `Diag_scores::min_diag_score`. Returns
the value returned and the list `diags` after the call. -/
def get_diag_block (i j : Int) (d : Iterator) (begin max_score zero : Int)
    (diags : List Diagonal_node) (block_len cols : Int) (extend : Bool) (min_diag_score : Int) :
    Int × List Diagonal_node :=
  let f := get_diag_find d max_score block_len.toNat begin
  let r : Int × Int :=
    if f.2 ∧ extend then get_diag_extend d cols (cols - (f.1 + 1)).toNat (f.1 + 1) max_score f.1
    else (max_score, f.1)
  let max_score1 := r.1
  let p := r.2
  let diags1 := diags ++ [⟨i + zero + 1, j + zero + 1, p - zero, max_score1⟩]
  let st := get_diag_tail i j d cols min_diag_score (cols - (p + 1)).toNat
    ⟨max_score1, p, 0, p, p + 1, diags1⟩
  (st.p,
    if st.high ≥ min_diag_score then
      st.diags ++ [⟨i + st.low_pos + 1, j + st.low_pos + 1, st.high_pos - st.low_pos, st.high⟩]
    else st.diags)

/-- A row of raw scores for examples: 5 at the columns 0 and 2, and 0
elsewhere. -/
def split_peak_row : Iterator := fun k => if k = 0 ∨ k = 2 then 5 else 0

/-! ## Ordered output sink -/

/-- Modelled from the spec: the class `TextBuffer` is declared in a header that
is not among the sources. `addr` is the address of the object, by which a
`TextBuffer*` compares, `data` holds the bytes from `get_begin()` to
`get_begin() + size()`, and `alloc_size` is the value of `alloc_size()`. A
`TextBuffer*` is an `Option TextBuffer`, with `none` for the null pointer. -/
structure TextBuffer where
  addr : Nat
  data : List Nat
  alloc_size : Nat
deriving DecidableEq, Repr

/-- The number of values of `size_t`. -/
def SIZE_MOD : Nat := 2 ^ 64

/-- The members of `OutputSink` that `push` and `flush` use. The class is
declared in `output.h`, which is not among the sources. `backlog_` is the
`std::map<size_t, TextBuffer*>` as the list of its entries in the order of the
keys; `f_` is the consumer, as the list of the buffers that were handed to
`consume`, oldest first. The mutex is left out: a push is one step. -/
structure OutputSink where
  next_ : Nat
  backlog_ : List (Nat × Option TextBuffer)
  size_ : Nat
  max_size_ : Nat
  f_ : List TextBuffer
deriving DecidableEq, Repr

/-- Modelled from the spec: the sink before the first push, with `next_ = 0`, an
empty backlog, `size_ = 0` and `max_size_ = 0` (the constructor is in
`output.h`). -/
def OutputSink.init : OutputSink := ⟨0, [], 0, 0, []⟩

/-- The expression `buf ? buf->alloc_size() : 0` of `OutputSink::push`. -/
def alloc_of (buf : Option TextBuffer) : Nat :=
  match buf with
  | none => 0
  | some b => b.alloc_size

/-- The assignment `backlog_[n] = buf` on the map. -/
def backlog_assign (n : Nat) (buf : Option TextBuffer) :
    List (Nat × Option TextBuffer) → List (Nat × Option TextBuffer)
  | [] => [(n, buf)]
  | e :: w =>
    if n < e.1 then (n, buf) :: e :: w
    else if n = e.1 then (n, buf) :: w
    else e :: backlog_assign n buf w

/-- The loop `while ((i = backlog_.begin()) != backlog_.end() && i->first == n)`
of `OutputSink::flush`. Returns the backlog, `n` and `out` after the loop. -/
def flush_drain : List (Nat × Option TextBuffer) → Nat → List (Option TextBuffer) →
    List (Nat × Option TextBuffer) × Nat × List (Option TextBuffer)
  | [], n, out => ([], n, out)
  | e :: w, n, out =>
    if e.1 = n then flush_drain w ((n + 1) % SIZE_MOD) (out ++ [e.2]) else (e :: w, n, out)

/-- The loop over `out` of `OutputSink::flush`, which hands every buffer that is
not null to the consumer and adds up the allocated sizes of those that are not
`buf`. Returns the consumer and the local `size` after the loop. -/
def flush_consume (buf : Option TextBuffer) :
    List (Option TextBuffer) → List TextBuffer → Nat → List TextBuffer × Nat
  | [], f, size => (f, size)
  | none :: out, f, size => flush_consume buf out f size
  | some b :: out, f, size =>
    flush_consume buf out (f ++ [b])
      (if some b.addr ≠ buf.map TextBuffer.addr then (size + b.alloc_size) % SIZE_MOD else size)

/-- One pass through the body of the `do ... while` loop of `OutputSink::flush`,
entered with the locals `n` and `out`. Returns the sink and `n` after the
pass. -/
def flush_pass (buf : Option TextBuffer) (s : OutputSink) (n : Nat)
    (out : List (Option TextBuffer)) : OutputSink × Nat :=
  let r := flush_drain s.backlog_ n out
  let c := flush_consume buf r.2.2 s.f_ 0
  ({ s with backlog_ := r.1, f_ := c.1, size_ := (s.size_ + SIZE_MOD - c.2) % SIZE_MOD }, r.2.1)

/-- The `do ... while` loop of `OutputSink::flush` and the assignment
`next_ = n` behind it, with fuel: `none` when the fuel runs out before the loop
exits. -/
def flush_loop (buf : Option TextBuffer) :
    Nat → OutputSink → Nat → List (Option TextBuffer) → Option OutputSink
  | 0, _, _, _ => none
  | fuel + 1, s, n, out =>
    let r := flush_pass buf s n out
    match r.1.backlog_ with
    | [] => some { r.1 with next_ := r.2 }
    | e :: _ =>
      if e.1 = r.2 then flush_loop buf fuel r.1 r.2 [] else some { r.1 with next_ := r.2 }

/-- The member function `OutputSink::flush(buf)`. -/
def OutputSink.flush (s : OutputSink) (fuel : Nat) (buf : Option TextBuffer) : Option OutputSink :=
  flush_loop buf fuel s ((s.next_ + 1) % SIZE_MOD) [buf]

/-- The member function `OutputSink::push(n, buf)`. -/
def OutputSink.push (s : OutputSink) (fuel : Nat) (n : Nat) (buf : Option TextBuffer) :
    Option OutputSink :=
  if n ≠ s.next_ then
    some { s with
      backlog_ := backlog_assign n buf s.backlog_
      size_ := (s.size_ + alloc_of buf) % SIZE_MOD
      max_size_ := max s.max_size_ ((s.size_ + alloc_of buf) % SIZE_MOD) }
  else s.flush fuel buf

/-- The pushes of the indices of `order`, one after the other, each with its
buffer `bufs n`. -/
def pushes (fuel : Nat) (bufs : Nat → Option TextBuffer) : List Nat → OutputSink → Option OutputSink
  | [], s => some s
  | n :: rest, s =>
    match s.push fuel n (bufs n) with
    | none => none
    | some s1 => pushes fuel bufs rest s1

/-- The sum of the allocated sizes of the buffers that the backlog holds. -/
def OutputSink.held (s : OutputSink) : Nat := (s.backlog_.map (fun e => alloc_of e.2)).sum

/-- What holds of the sink after the indices of `pre`, all below `K`, were
pushed once each: `next_` is the least index that was not pushed, the backlog
holds the pushed indices above `next_` with their buffers, in the order of the
indices, and the consumer got the buffers of the indices below `next_`, in the
order of the indices. -/
def SinkInv (K : Nat) (bufs : Nat → Option TextBuffer) (pre : List Nat) (s : OutputSink) : Prop :=
  (∀ k ∈ pre, k < K)
    ∧ (∀ k, k < s.next_ → k ∈ pre)
    ∧ s.next_ ∉ pre
    ∧ s.backlog_.Pairwise (fun a b => a.1 < b.1)
    ∧ (∀ e ∈ s.backlog_, e.1 ∈ pre ∧ s.next_ < e.1 ∧ e.2 = bufs e.1)
    ∧ (∀ k ∈ pre, s.next_ < k → (k, bufs k) ∈ s.backlog_)
    ∧ s.f_ = (List.range s.next_).filterMap bufs

/-- Buffers for examples: index `n` has the address `100 + n`, the one byte `n`
and the allocated size `8 * (n + 1)`, and index 2 has no buffer. -/
def sample_bufs (n : Nat) : Option TextBuffer :=
  if n = 2 then none else some ⟨100 + n, [n], 8 * (n + 1)⟩

/-- The sum of the allocated sizes of the buffers of the indices below `K`. -/
def total_alloc (K : Nat) (bufs : Nat → Option TextBuffer) : Nat :=
  ((List.range K).map (fun k => alloc_of (bufs k))).sum

/-- The maximum of the sum of the allocated sizes of the buffers held in the
backlog, over the sink `s` and the sinks after each of the pushes of `order`
made from `s`. -/
def peak_held (fuel : Nat) (bufs : Nat → Option TextBuffer) : List Nat → OutputSink → Nat
  | [], s => s.held
  | n :: rest, s =>
    max s.held
      (match s.push fuel n (bufs n) with
        | none => 0
        | some s1 => peak_held fuel bufs rest s1)

/-! ## Exploited runs -/

/-- The block grid of diagonal offset `o` agrees with the raw grid over the
columns `[dj0 - j, dj1 - j)` of the diagonal: no raw cell of a block exceeds
the block maximum, and a block maximum that is not 0 is the value of a raw cell
of the block. -/
def GridOK (ds : Diag_scores) (o j : Int) : Prop :=
  (∀ b c, b * ds.block_len ≤ c → c < (b + 1) * ds.block_len → ds.dj0 o - j ≤ c →
      c < ds.dj1 o - j → (ds.score_buf.diag o).rd c ≤ (ds.local_max.diag o).rd b)
    ∧ (∀ b, ds.dj0 o - j < (b + 1) * ds.block_len → b * ds.block_len < ds.dj1 o - j →
        1 ≤ (ds.local_max.diag o).rd b →
        ∃ c, b * ds.block_len ≤ c ∧ c < (b + 1) * ds.block_len ∧ ds.dj0 o - j ≤ c
          ∧ c < ds.dj1 o - j ∧ (ds.score_buf.diag o).rd c = (ds.local_max.diag o).rd b)

/-- The invariant of the active mask of diagonal offset `o` between calls of
`Diag_scores::get_diag`: where an active block is followed by a block of the
diagonal that is not active, the block maximum does not rise. -/
def BoundaryInv (ds : Diag_scores) (o j : Int) : Prop :=
  ∀ a, 0 ≤ a → (a + 1) * ds.block_len < ds.dj1 o - j → ds.is_active o a = true →
    ds.is_active o (a + 1) = false →
    (ds.local_max.diag o).rd (a + 1) ≤ (ds.local_max.diag o).rd a

/-- The invariant of the `for` loop of `Diag_scores::get_diag` before the pass at
block `p`, for the runs: the blocks `[last, p)` are not active, an open run
`[begin, best]` ends at `p - 1`, its block maxima reach the cutoff and rise
strictly, `best_score` is the maximum of its last block, and `last` is the
first block of the diagonal, or follows an active block, or lies below the
run. -/
def RunInv (ds0 : Diag_scores) (o j cutoff p : Int) (st : RowState) : Prop :=
  SameSession ds0 st.ds
    ∧ ds0.dj0 o - j < (st.last + 1) * ds0.block_len
    ∧ st.last ≤ p
    ∧ (∀ q, st.last ≤ q → q < p → st.ds.is_active o q = false)
    ∧ (st.begin ≠ -1 → st.last ≤ st.begin ∧ st.begin ≤ st.best ∧ st.best = p - 1
        ∧ st.best_score = (ds0.local_max.diag o).rd st.best
        ∧ ∀ q, st.begin ≤ q → q ≤ st.best →
            (ds0.local_max.diag o).rd q ≥ cutoff
            ∧ (q = 0 ∨ (ds0.local_max.diag o).rd q > (ds0.local_max.diag o).rd (q - 1)))
    ∧ (st.last * ds0.block_len ≤ ds0.dj0 o - j ∨ st.ds.is_active o (st.last - 1) = true
        ∨ (st.begin = -1 ∧ st.last < p) ∨ (st.begin ≠ -1 ∧ st.last < st.begin))
    ∧ BoundaryInv st.ds o j

/-- The call of the range form that `Diag_scores::get_diag` makes in state `st`
returns and appends at least one segment (so that `z < INT_MAX`). -/
def RunReported (fuel : Nat) (i j o cutoff : Int) (st : RowState) : Prop :=
  ∃ ds1 acc, exploit_run fuel i j o cutoff st = some (true, ds1, st.diags ++ acc) ∧ acc ≠ []

/-- In the pass at block `p` of the `for` loop of `Diag_scores::get_diag`, the
run is reported if one is exploited (the `else if (begin != -1)` branch). -/
def StepReports (fuel : Nat) (i j o cutoff p : Int) (st : RowState) : Prop :=
  ¬ (st.ds.is_active o p = false ∧ (st.ds.local_max.diag o).rd p ≥ cutoff
      ∧ (p = 0 ∨ (st.ds.local_max.diag o).rd p > (st.ds.local_max.diag o).rd (p - 1))) →
    st.begin ≠ -1 → RunReported fuel i j o cutoff st

/-- Every run exploited in the `n` passes from block `p` of the `for` loop of
`Diag_scores::get_diag` is reported. -/
def BlocksReport (fuel : Nat) (i j o cutoff : Int) : Nat → Int → RowState → Prop
  | 0, _, _ => True
  | n + 1, p, st =>
    StepReports fuel i j o cutoff p st
      ∧ ∀ st1, get_diag_step fuel i j o cutoff p st = some st1 →
          BlocksReport fuel i j o cutoff n (p + 1) st1

/-- Every run exploited by the call
`get_diag(i, j, o, j_begin, j_end, diags, cutoff, log)` of the member function
is reported: those exploited in the `for` loop, and the one exploited behind
it. -/
def Diag_scores.get_diag_reports (ds : Diag_scores) (fuel : Nat) (i j o j_begin j_end : Int)
    (diags : List Diagonal_node) (cutoff : Int) : Prop :=
  let d := ds.local_max.diag o
  let block_len := ds.block_len
  let j0 := ds.dj0 o
  let j1 := ds.dj1 o
  let b0 := Int.tdiv (j0 - j) block_len
  let b1 := Int.tdiv (j1 - j + block_len - 1) block_len
  let p := max (Int.tdiv (j_begin - j) block_len) b0
  let p_end := min (Int.tdiv (j_end - j + block_len - 1) block_len) b1
  let last := walk_back ds o b0 (p - b0).toNat p
  BlocksReport fuel i j o cutoff (p_end - p).toNat p ⟨-1, -1, -1, last, ds, diags⟩
    ∧ ∀ st, get_diag_blocks fuel i j o cutoff (p_end - p).toNat p ⟨-1, -1, -1, last, ds, diags⟩
          = some st →
        st.begin ≠ -1 →
        RunReported fuel i j o cutoff
          (if st.best = p_end - 1 then
            { st with
              best := extend_best st.ds o cutoff b1 (b1 - st.best).toNat st.best - 1
              best_score := d.rd (extend_best st.ds o cutoff b1 (b1 - st.best).toNat st.best - 1) }
          else st)

/-! ## Scalar scanners: scores and order -/

/-- A node reports the window positions `[a, b)` with `b <= bound`, and its score
is the sum of the substitution scores over these positions. -/
def NodeSum (score_matrix : Letter → Letter → Int) (query subject : Int → Letter)
    (qbegin jbegin bound : Int) (s : Diagonal_node) : Prop :=
  ∃ a b : Nat, a < b ∧ (b : Int) ≤ bound ∧ s.i = qbegin + a ∧ s.j = jbegin + a
    ∧ s.len = (b : Int) - a ∧ s.score = window_score score_matrix query subject a b

/-- The loop invariant of `score_diagonal2` before the pass at index `k`, for
the scores: `score` is the sum over `[begin, k)`, a positive `max_score` is the
sum over `[begin, end)`, and the nodes appended so far report their sums, end
at `begin` or before, and follow one another without overlap. -/
def Scan2SumInv (score_matrix : Letter → Letter → Int) (query subject : Int → Letter)
    (qbegin jbegin : Int) (diags : List Diagonal_node) (k : Nat) (st : ScanState) : Prop :=
  ∃ bn : Nat, st.begin = bn ∧ bn ≤ k
    ∧ st.score = window_score score_matrix query subject bn k
    ∧ 0 ≤ st.max_score
    ∧ (0 < st.max_score → ∃ en : Nat, st.end_ = en ∧ bn < en ∧ en ≤ k
        ∧ st.max_score = window_score score_matrix query subject bn en)
    ∧ ∃ fresh, st.diags = diags ++ fresh
        ∧ (∀ s ∈ fresh, NodeSum score_matrix query subject qbegin jbegin bn s)
        ∧ fresh.Pairwise (fun s t => s.subject_end ≤ t.j ∧ s.j < t.j)

/-! ## Recursive list scanner -/

/-- One pass through the body of the `while` loop of the list-producing
`score_diagonal`, at index `i`; `call end len diags` stands for the recursive
call `score_diagonal(query + end, subject + end, len, qbegin + end,
jbegin + end, diags)`. -/
def score_diagonal_list_step (score_matrix : Letter → Letter → Int)
    (query subject : Int → Letter) (qbegin jbegin min_low_score : Int)
    (call : Int → Int → List Diagonal_node → Option (List Diagonal_node)) (i : Int)
    (st : ScanState) : Option ScanState :=
  let score := st.score + score_matrix (query i) (subject i)
  if score ≤ 0 then
    if st.max_score ≥ min_low_score then
      match call st.end_ (i - st.end_)
          (st.diags ++ [⟨qbegin + st.begin, jbegin + st.begin, st.end_ - st.begin,
            st.max_score⟩]) with
      | none => none
      | some diags => some { st with diags := diags, max_score := 0, score := 0, j := i + 1 }
    else some { st with score := 0, j := i + 1 }
  else if score > st.max_score then
    some { st with score := score, max_score := score, begin := st.j, end_ := i + 1 }
  else some { st with score := score }

/-- The `while (l < len)` loop of the list-producing `score_diagonal`: `n`
passes from index `i`. -/
def score_diagonal_list_loop (score_matrix : Letter → Letter → Int)
    (query subject : Int → Letter) (qbegin jbegin min_low_score : Int)
    (call : Int → Int → List Diagonal_node → Option (List Diagonal_node)) :
    Nat → Int → ScanState → Option ScanState
  | 0, _, st => some st
  | n + 1, i, st =>
    match score_diagonal_list_step score_matrix query subject qbegin jbegin min_low_score call i
        st with
    | none => none
    | some st1 =>
      score_diagonal_list_loop score_matrix query subject qbegin jbegin min_low_score call n
        (i + 1) st1

/-- The body of the list-producing `score_diagonal`, over the handler `call`
for its recursive calls: the loop, then the final node and the recursive call
behind the loop. Returns the list `diags` after the call. -/
def score_diagonal_list_body (score_matrix : Letter → Letter → Int)
    (query subject : Int → Letter) (len qbegin jbegin min_low_score : Int)
    (call : Int → Int → List Diagonal_node → Option (List Diagonal_node))
    (diags : List Diagonal_node) : Option (List Diagonal_node) :=
  match score_diagonal_list_loop score_matrix query subject qbegin jbegin min_low_score call
      len.toNat 0 ⟨0, 0, 0, 0, 0, diags⟩ with
  | none => none
  | some st =>
    if st.max_score ≥ min_low_score then
      call st.end_ ((len.toNat : Int) - st.end_)
        (st.diags ++ [⟨qbegin + st.begin, jbegin + st.begin, st.end_ - st.begin, st.max_score⟩])
    else some st.diags

/-- The list-producing function
`score_diagonal(query, subject, len, qbegin, jbegin, diags)`, with fuel for the
depth of the recursion: `none` when the fuel runs out. `min_low_score` is the
static member `Diag_scores::min_low_score`. -/
def score_diagonal_list (score_matrix : Letter → Letter → Int) (min_low_score : Int) :
    Nat → (Int → Letter) → (Int → Letter) → Int → Int → Int → List Diagonal_node →
    Option (List Diagonal_node)
  | 0, _, _, _, _, _, _ => none
  | fuel + 1, query, subject, len, qbegin, jbegin, diags =>
    score_diagonal_list_body score_matrix query subject len qbegin jbegin min_low_score
      (fun e l d =>
        score_diagonal_list score_matrix min_low_score fuel (fun k => query (e + k))
          (fun k => subject (e + k)) l (qbegin + e) (jbegin + e) d)
      diags

/-- A handler for the recursive calls that refuses every call whose window is
not shorter than `len`. -/
def shorter_only (len : Int)
    (call : Int → Int → List Diagonal_node → Option (List Diagonal_node)) :
    Int → Int → List Diagonal_node → Option (List Diagonal_node) :=
  fun e l d => if 0 ≤ l ∧ l < len then call e l d else none

/-- The loop invariant of the list-producing `score_diagonal` before the pass at
index `k`: a positive `max_score` belongs to positions `[begin, end)` with
`0 <= begin < end <= k`. -/
def ListScanInv (k : Int) (st : ScanState) : Prop :=
  0 ≤ st.max_score ∧ 0 ≤ st.j ∧ st.j ≤ k
    ∧ (0 < st.max_score → 0 ≤ st.begin ∧ st.begin < st.end_ ∧ st.end_ ≤ k)

/-! ## Linker: probed offsets and diagonals -/

/-- The assignments of the session geometry at the head of
`Diag_scores::scan_diags(d_begin, d_end, query, subject, ...)`, from
`qlen = (int)query.length()` to `j_begin = i_begin - d_begin`, for the lengths
`qlen` and `slen` of the query and the subject. The grids, which the function
initialises next, are left as they are. -/
def scan_diags_geometry (ds : Diag_scores) (d_begin d_end qlen slen : Int) (fast : Bool) :
    Diag_scores :=
  let d_begin1 := max d_begin (-(slen - 1))
  let d_end1 := min d_end qlen
  let d_end2 := d_end1
    + (if Int.tmod (d_end1 - d_begin1) 16 = 0 then 0 else 16 - Int.tmod (d_end1 - d_begin1) 16)
  let band := d_end2 - d_begin1
  let i_begin := max 0 (d_end2 - 1) - band + 1
  { ds with
    qlen := qlen
    slen := slen
    fast := fast
    d_begin := d_begin1
    d_end := d_end2
    i_begin := i_begin
    j_begin := i_begin - d_begin1 }

/-- What holds in the `for` loop of `Diag_scores::get_diag(i, j, o, ...)` before
the pass at block `p`, in both modes and whatever the cutoff: the session
differs from the initial one in the active mask at most, `last` is not beyond
`p`, an open run starts at `last` or later and ends before `p`, and the list is
`base` followed by segments of the diagonal `i - j`. -/
def RowGrowInv (ds0 : Diag_scores) (i j : Int) (base : List Diagonal_node) (p : Int)
    (st : RowState) : Prop :=
  SameSession ds0 st.ds ∧ st.last ≤ p
    ∧ (st.begin ≠ -1 → st.last ≤ st.begin ∧ st.best < p)
    ∧ ∃ acc, st.diags = base ++ acc ∧ ∀ s ∈ acc, s.diag = i - j

/-- A session for examples whose band holds the negative diagonals `-16, ..., -1`:
the geometry is the one `scan_diags` assigns for `d_begin = -16`, `d_end = 0` and
sequences of 40 positions (`i_begin = -15`, `j_begin = 1`); the row of the
diagonal offset `o`, which is the diagonal `o - 16`, starts at the subject
position `16 - o`, and the grids are those of `scanned_session`. -/
def negative_band_session : Diag_scores :=
  scan_diags_geometry
    { scanned_session 4 (fun _ => 9) 40 false with dj0 := fun o => max (16 - o) 0 }
    (-16) 0 40 40 false

/-! ## Linking pass: frame -/

/-- What the proofs about the linking pass use of a linker and of an invariant
`Inv` of its states, for a band `[lo, hi)` of diagonals: a call of `get_diag`
with `j = j_begin` on a diagonal offset of the band returns and keeps `Inv`,
the threshold `min_diag_score` is `m` and the band is `[lo, hi)` in every state
with `Inv`, and the entries of the segment list at the indices of `base` are
those of `base` in every state with `Inv`. -/
def LinkFrame {σ : Type} (L : Linker σ) (Inv : σ → Prop) (base : List Diagonal_node)
    (m lo hi : Int) : Prop :=
  (∀ st p, Inv st → p.j = (L.ds st).j_begin → 0 ≤ p.o → p.o < hi - lo →
      ∃ st1, L.call st p = some st1 ∧ Inv st1)
    ∧ (∀ st, Inv st →
        (L.ds st).min_diag_score = m ∧ (L.ds st).d_begin = lo ∧ (L.ds st).d_end = hi)
    ∧ (∀ st, Inv st → ∀ k, k < base.length → node_at (L.diags st) k = node_at base k)

/-- The segments of `base` lie on diagonals of the band `[lo, hi)`. -/
def InBand (base : List Diagonal_node) (lo hi : Int) : Prop :=
  ∀ k, k < base.length → lo ≤ (node_at base k).diag ∧ (node_at base k).diag < hi

/-- What holds of the sliding window of the linking pass before the pass at
`node`: every entry is an earlier node that reached the threshold `m`, under
the subject end of the segment that `base` holds at its index. -/
def WindowRefers (base : List Diagonal_node) (m : Int) (node : Nat) (w : Window) : Prop :=
  ∀ e ∈ w, e.2 < node ∧ m ≤ (node_at base e.2).score ∧ e.1 = (node_at base e.2).subject_end

/-! ## Vectorized column scanner, one lane: block maxima -/

theorem NodeWithin.mono {qbegin jbegin cutoff b1 b2 : Int} {s : Diagonal_node}
    (h : NodeWithin qbegin jbegin cutoff b1 s) (hb : b1 ≤ b2) :
    NodeWithin qbegin jbegin cutoff b2 s := by
  obtain ⟨h1, h2, h3, h4, h5, h6⟩ := h
  exact ⟨h1, h2, h3, by omega, h5, by omega⟩

theorem score_diagonal2_step_inv (score_matrix : Letter → Letter → Int)
    (query subject : Int → Letter) (qbegin jbegin cutoff : Int) (diags : List Diagonal_node)
    (hc : 1 ≤ cutoff) (i : Int) (st : ScanState)
    (h : Scan2Inv qbegin jbegin cutoff diags i st) :
    Scan2Inv qbegin jbegin cutoff diags (i + 1)
      (score_diagonal2_step score_matrix query subject qbegin jbegin cutoff i st) := by
  obtain ⟨⟨fresh, hd, hf⟩, hm, hb0, hbi, hpos⟩ := h
  have hf1 : ∀ s ∈ fresh, NodeWithin qbegin jbegin cutoff (i + 1) s :=
    fun s hs => (hf s hs).mono (by omega)
  unfold score_diagonal2_step
  simp only []
  split_ifs with h1 h2 h3
  · refine ⟨⟨fresh ++ [⟨qbegin + st.begin, jbegin + st.begin, st.end_ - st.begin, st.max_score⟩],
      by simp [hd], ?_⟩, ?_, ?_, ?_, ?_⟩
    · intro s hs
      rcases List.mem_append.mp hs with hs | hs
      · exact hf1 s hs
      · have hs1 : s = ⟨qbegin + st.begin, jbegin + st.begin, st.end_ - st.begin, st.max_score⟩ := by
          simpa using hs
        have hp := hpos (by omega)
        subst hs1
        refine ⟨h2, ?_, ?_, ?_, ?_, ?_⟩ <;> dsimp only <;> omega
    all_goals dsimp only
    all_goals omega
  · refine ⟨⟨fresh, hd, hf1⟩, ?_, ?_, ?_, ?_⟩
    all_goals dsimp only
    all_goals omega
  · refine ⟨⟨fresh, hd, hf1⟩, ?_, ?_, ?_, ?_⟩
    all_goals dsimp only
    all_goals omega
  · refine ⟨⟨fresh, hd, hf1⟩, ?_, ?_, ?_, ?_⟩
    all_goals dsimp only
    · exact hm
    · exact hb0
    · omega
    · intro hp
      have := hpos hp
      omega

theorem score_diagonal2_loop_inv (score_matrix : Letter → Letter → Int)
    (query subject : Int → Letter) (qbegin jbegin cutoff : Int) (diags : List Diagonal_node)
    (hc : 1 ≤ cutoff) (n : Nat) : ∀ (i : Int) (st : ScanState),
    Scan2Inv qbegin jbegin cutoff diags i st →
    Scan2Inv qbegin jbegin cutoff diags (i + n)
      (score_diagonal2_loop score_matrix query subject qbegin jbegin cutoff n i st) := by
  induction n with
  | zero => intro i st h; simpa [score_diagonal2_loop] using h
  | succ n ih =>
    intro i st h
    have h1 := ih (i + 1) _
      (score_diagonal2_step_inv score_matrix query subject qbegin jbegin cutoff diags hc i st h)
    have e : i + 1 + (n : Int) = i + ((n + 1 : Nat) : Int) := by push_cast; ring
    rw [e] at h1
    exact h1

/-- C2. Every node that `score_diagonal2` appends, for a cutoff of at least 1,
has a score of at least the cutoff, a positive length, and lies inside the
scanned window: `qbegin ≤ i`, `i + len ≤ qbegin + len`, and the same in the
subject. -/
theorem score_diagonal2_nodes_within (score_matrix : Letter → Letter → Int)
    (query subject : Int → Letter) (len qbegin jbegin : Int) (diags : List Diagonal_node)
    (cutoff : Int) (hc : 1 ≤ cutoff) :
    ∃ fresh, score_diagonal2 score_matrix query subject len qbegin jbegin diags cutoff
        = diags ++ fresh
      ∧ ∀ s ∈ fresh, s.score ≥ cutoff ∧ s.len > 0
          ∧ qbegin ≤ s.i ∧ s.i + s.len ≤ qbegin + len
          ∧ jbegin ≤ s.j ∧ s.j + s.len ≤ jbegin + len := by
  have h0 : Scan2Inv qbegin jbegin cutoff diags 0 ⟨0, 0, 0, 0, 0, diags⟩ :=
    ⟨⟨[], by simp, by simp⟩, le_refl _, le_refl _, le_refl _, fun h => absurd h (lt_irrefl _)⟩
  have h := score_diagonal2_loop_inv score_matrix query subject qbegin jbegin cutoff diags hc
    len.toNat 0 _ h0
  obtain ⟨⟨fresh, hd, hf⟩, hm, hb0, hbi, hpos⟩ := h
  unfold score_diagonal2
  simp only []
  by_cases hlen : 0 ≤ len
  · have e : (0 : Int) + (len.toNat : Int) = len := by rw [Int.toNat_of_nonneg hlen]; ring
    rw [e] at hf hbi hpos
    split_ifs with h2
    · refine ⟨fresh ++ [_], by rw [hd, List.append_assoc], ?_⟩
      intro s hs
      rcases List.mem_append.mp hs with hs | hs
      · exact hf s hs
      · have hs1 := List.mem_singleton.mp hs
        have hp := hpos (by omega)
        subst hs1
        refine ⟨h2, ?_, ?_, ?_, ?_, ?_⟩ <;> dsimp only <;> omega
    · exact ⟨fresh, hd, hf⟩
  · have e : len.toNat = 0 := Int.toNat_eq_zero.mpr (by omega)
    simp only [e, score_diagonal2_loop] at *
    have hcn : ¬ ((0 : Int) ≥ cutoff) := by omega
    simp [hcn]

/-- C2, at a concrete window: cutoff 1 over ten positions. -/
theorem score_diagonal2_nodes_within_witness :
    ∃ fresh, score_diagonal2 (fun a b => if a = b then 5 else -6) (fun k => k.toNat % 3)
        (fun _ => 1) 10 100 200 [] 1 = [] ++ fresh
      ∧ ∀ s ∈ fresh, s.score ≥ 1 ∧ s.len > 0
          ∧ 100 ≤ s.i ∧ s.i + s.len ≤ 100 + 10
          ∧ 200 ≤ s.j ∧ s.j + s.len ≤ 200 + 10 :=
  score_diagonal2_nodes_within _ _ _ 10 100 200 [] 1 (by decide)

/-! ## The bounded local running-max scanner -/

theorem window_score_succ (score_matrix : Letter → Letter → Int) (query subject : Int → Letter)
    (a k : Nat) :
    window_score score_matrix query subject a (k + 1)
      = window_score score_matrix query subject a k + score_matrix (query k) (subject k) := by
  simp only [window_score, prefix_score]; ring

theorem window_score_self (score_matrix : Letter → Letter → Int) (query subject : Int → Letter)
    (a : Nat) : window_score score_matrix query subject a a = 0 := by
  simp [window_score]

theorem score_diagonal_step_inv (score_matrix : Letter → Letter → Int)
    (query subject : Int → Letter) (k : Nat) (st : ScanState)
    (h : KadaneInv score_matrix query subject k st) :
    KadaneInv score_matrix query subject (k + 1)
      (score_diagonal_step score_matrix query subject k st) := by
  obtain ⟨jn, bn, en, hj, hb, he, hjk, hbe, hek, hs, hm, hsuf, hall⟩ := h
  have hwin : ∀ a b, a ≤ b → b ≤ k + 1 →
      window_score score_matrix query subject a b
        ≤ max st.max_score (st.score + score_matrix (query k) (subject k)) := by
    intro a b hab hbk
    rcases Nat.lt_or_ge b (k + 1) with hlt | hge
    · exact le_trans (hall a b hab (by omega)) (le_max_left _ _)
    · have hbe1 : b = k + 1 := by omega
      subst hbe1
      rcases Nat.lt_or_ge a (k + 1) with hlt | hge
      · rw [window_score_succ]
        have := hsuf a (by omega)
        exact le_trans (by omega) (le_max_right _ _)
      · have : a = k + 1 := by omega
        subst this
        rw [window_score_self]
        have h0 := hall 0 0 (le_refl _) (Nat.zero_le _)
        rw [window_score_self] at h0
        exact le_trans h0 (le_max_left _ _)
  have hsc0 : 0 ≤ st.score := by
    have := hsuf k (le_refl _)
    rwa [window_score_self] at this
  have hsm : st.score ≤ st.max_score := by
    rw [hs]; exact hall jn k hjk (le_refl _)
  unfold score_diagonal_step
  simp only []
  by_cases h1 : st.score + score_matrix (query k) (subject k) ≤ 0
  · rw [if_pos h1]
    have h2 : ¬ ((0 : Int) > st.max_score) := by omega
    simp only []
    rw [if_neg h2]
    refine ⟨k + 1, bn, en, by push_cast; rfl, hb, he, le_refl _, hbe, by omega, ?_, hm, ?_, ?_⟩
    · show (0 : Int) = _
      rw [window_score_self]
    · intro a ha
      show _ ≤ (0 : Int)
      rcases Nat.lt_or_ge a (k + 1) with hlt | hge
      · rw [window_score_succ]
        have := hsuf a (by omega)
        omega
      · have : a = k + 1 := by omega
        subst this
        rw [window_score_self]
    · intro a b hab hbk
      show _ ≤ st.max_score
      have := hwin a b hab hbk
      rw [max_eq_left (by omega)] at this
      exact this
  · rw [if_neg h1]
    simp only []
    have hsuf1 : ∀ a, a ≤ k + 1 → window_score score_matrix query subject a (k + 1)
        ≤ st.score + score_matrix (query k) (subject k) := by
      intro a ha
      rcases Nat.lt_or_ge a (k + 1) with hlt | hge
      · rw [window_score_succ]
        have := hsuf a (by omega)
        omega
      · have : a = k + 1 := by omega
        subst this
        rw [window_score_self]
        omega
    by_cases h2 : st.score + score_matrix (query k) (subject k) > st.max_score
    · rw [if_pos h2]
      refine ⟨jn, jn, k + 1, hj, hj, by push_cast; rfl, by omega, by omega, le_refl _, ?_, ?_,
        hsuf1, ?_⟩
      · show st.score + _ = _
        rw [window_score_succ, hs]
      · show st.score + _ = _
        rw [window_score_succ, hs]
      · intro a b hab hbk
        show _ ≤ st.score + score_matrix (query k) (subject k)
        have := hwin a b hab hbk
        rw [max_eq_right (by omega)] at this
        exact this
    · rw [if_neg h2]
      refine ⟨jn, bn, en, hj, hb, he, by omega, hbe, by omega, ?_, hm, hsuf1, ?_⟩
      · show st.score + _ = _
        rw [window_score_succ, hs]
      · intro a b hab hbk
        show _ ≤ st.max_score
        have := hwin a b hab hbk
        rw [max_eq_left (by omega)] at this
        exact this

theorem score_diagonal_loop_inv (score_matrix : Letter → Letter → Int)
    (query subject : Int → Letter) (n : Nat) : ∀ (k m : Nat) (st : ScanState),
    k ≤ m → m ≤ k + n →
    (∀ t : Nat, k ≤ t → t < m → query t ≠ delimiter ∧ subject t ≠ delimiter) →
    (m = k + n ∨ query m = delimiter ∨ subject m = delimiter) →
    KadaneInv score_matrix query subject k st →
    KadaneInv score_matrix query subject m
      (score_diagonal_loop score_matrix query subject n k st) := by
  induction n with
  | zero =>
    intro k m st hkm hmn _ _ h
    have : m = k := by omega
    subst this
    simpa [score_diagonal_loop] using h
  | succ n ih =>
    intro k m st hkm hmn hscan hstop h
    unfold score_diagonal_loop
    rcases Nat.eq_or_lt_of_le hkm with heq | hlt
    · subst heq
      have hd : ¬ (query (k : Int) ≠ delimiter ∧ subject (k : Int) ≠ delimiter) := by
        rcases hstop with h1 | h1 | h1
        · omega
        · exact fun hc => hc.1 h1
        · exact fun hc => hc.2 h1
      rw [if_neg hd]
      exact h
    · rw [if_pos (hscan k (le_refl _) hlt)]
      have h1 := score_diagonal_step_inv score_matrix query subject k st h
      have := ih (k + 1) m _ (by omega) (by omega)
        (fun t ht htm => hscan t (by omega) htm)
        (by rcases hstop with h2 | h2 | h2
            · left; omega
            · right; left; exact h2
            · right; right; exact h2) h1
      simpa using this

/-- C7. The bounded `score_diagonal` scans the positions before the first
delimiter, `n` at most; the score it returns is the maximum of the window sums
over all contiguous windows of the scanned positions (the empty window
counting 0), and the range it returns is a window whose sum is that score. -/
theorem score_diagonal_max_window (score_matrix : Letter → Letter → Int)
    (query subject : Int → Letter) (n qbegin jbegin : Int) (m : Nat)
    (hm : m ≤ n.toNat)
    (hscan : ∀ t : Nat, t < m → query t ≠ delimiter ∧ subject t ≠ delimiter)
    (hstop : m = n.toNat ∨ query m = delimiter ∨ subject m = delimiter) :
    (∀ a b, a ≤ b → b ≤ m → window_score score_matrix query subject a b
        ≤ (score_diagonal score_matrix query subject n qbegin jbegin).score)
    ∧ ∃ a b : Nat, a ≤ b ∧ b ≤ m
        ∧ (score_diagonal score_matrix query subject n qbegin jbegin).i = qbegin + a
        ∧ (score_diagonal score_matrix query subject n qbegin jbegin).j = jbegin + a
        ∧ (score_diagonal score_matrix query subject n qbegin jbegin).len = (b : Int) - a
        ∧ window_score score_matrix query subject a b
            = (score_diagonal score_matrix query subject n qbegin jbegin).score := by
  have h0 : KadaneInv score_matrix query subject 0 ⟨0, 0, 0, 0, 0, []⟩ :=
    ⟨0, 0, 0, rfl, rfl, rfl, le_refl _, le_refl _, le_refl _, by simp [window_score],
      by simp [window_score], fun a ha => by
        have : a = 0 := by omega
        subst this; simp [window_score],
      fun a b hab hb => by
        have : b = 0 := by omega
        subst this
        have : a = 0 := by omega
        subst this; simp [window_score]⟩
  have h := score_diagonal_loop_inv score_matrix query subject n.toNat 0 m _ (Nat.zero_le _)
    (by omega) (fun t _ ht => hscan t ht) (by simpa using hstop) h0
  obtain ⟨jn, bn, en, hj, hb, he, hjk, hbe, hek, hs, hmx, hsuf, hall⟩ := h
  simp only [Nat.cast_zero] at hj hb he hs hmx hsuf hall
  refine ⟨fun a b hab hbm => ?_, bn, en, hbe, hek, ?_, ?_, ?_, ?_⟩
  · exact hall a b hab hbm
  · show qbegin + _ = _
    rw [hb]
  · show jbegin + _ = _
    rw [hb]
  · show _ - _ = _
    rw [hb, he]
  · exact hmx.symm

/-- C7, at a concrete window of six scanned positions followed by a delimiter. -/
theorem score_diagonal_max_window_witness :
    (∀ a b, a ≤ b → b ≤ 6 →
        window_score (fun a b => if a = b then 5 else -6)
          (fun k => if k < 6 then k.toNat % 3 else 255) (fun _ => 1) a b
        ≤ (score_diagonal (fun a b => if a = b then 5 else -6)
            (fun k => if k < 6 then k.toNat % 3 else 255) (fun _ => 1) 10 100 200).score)
    ∧ ∃ a b : Nat, a ≤ b ∧ b ≤ 6
        ∧ (score_diagonal (fun a b => if a = b then 5 else -6)
            (fun k => if k < 6 then k.toNat % 3 else 255) (fun _ => 1) 10 100 200).i = 100 + a
        ∧ (score_diagonal (fun a b => if a = b then 5 else -6)
            (fun k => if k < 6 then k.toNat % 3 else 255) (fun _ => 1) 10 100 200).j = 200 + a
        ∧ (score_diagonal (fun a b => if a = b then 5 else -6)
            (fun k => if k < 6 then k.toNat % 3 else 255) (fun _ => 1) 10 100 200).len
            = (b : Int) - a
        ∧ window_score (fun a b => if a = b then 5 else -6)
            (fun k => if k < 6 then k.toNat % 3 else 255) (fun _ => 1) a b
            = (score_diagonal (fun a b => if a = b then 5 else -6)
                (fun k => if k < 6 then k.toNat % 3 else 255) (fun _ => 1) 10 100 200).score :=
  score_diagonal_max_window _ _ _ 10 100 200 6 (by decide)
    (fun t ht => by
      have h6 : (t : Int) < 6 := by exact_mod_cast ht
      have h3 : t % 3 < 3 := Nat.mod_lt _ (by decide)
      simp only [h6, if_true, delimiter, Int.toNat_ofNat]
      constructor
      · intro h
        have h255 : t % 3 = 255 := h
        omega
      · decide)
    (Or.inr (Or.inl (by decide)))

/-! ## Peak and low-point search -/

theorem get_max_idx_loop_spec (d : Iterator) (lo : Int) (n : Nat) : ∀ (j i s : Int),
    s = d.rd i → lo ≤ i → i < j →
    (∀ k, lo ≤ k → k < j → d.rd k ≤ s) → (∀ k, lo ≤ k → k < i → d.rd k < s) →
    lo ≤ get_max_idx_loop d n j i s ∧ get_max_idx_loop d n j i s < j + n
      ∧ (∀ k, lo ≤ k → k < j + n → d.rd k ≤ d.rd (get_max_idx_loop d n j i s))
      ∧ (∀ k, lo ≤ k → k < get_max_idx_loop d n j i s →
          d.rd k < d.rd (get_max_idx_loop d n j i s)) := by
  induction n with
  | zero =>
    intro j i s hs hlo hij hmax hfirst
    simp only [get_max_idx_loop, Nat.cast_zero, add_zero]
    subst hs
    exact ⟨hlo, hij, hmax, hfirst⟩
  | succ n ih =>
    intro j i s hs hlo hij hmax hfirst
    unfold get_max_idx_loop
    have e : j + ((n + 1 : Nat) : Int) = j + 1 + n := by push_cast; ring
    rw [e]
    split_ifs with h
    · refine ih (j + 1) j (d.rd j) rfl (by omega) (by omega) ?_ ?_
      · intro k hk1 hk2
        rcases lt_or_le k j with hlt | hge
        · have := hmax k hk1 hlt; omega
        · have : k = j := by omega
          subst this; exact le_refl _
      · intro k hk1 hk2
        have := hmax k hk1 hk2; omega
    · refine ih (j + 1) i s hs hlo (by omega) ?_ hfirst
      intro k hk1 hk2
      rcases lt_or_le k j with hlt | hge
      · exact hmax k hk1 hlt
      · have : k = j := by omega
        subst this; omega

/-- On a non-empty range `get_max_idx` returns the first index of the range
that holds the maximum of the range. -/
theorem get_max_idx_spec (d : Iterator) (begin end_ : Int) (h : begin < end_) :
    begin ≤ get_max_idx d begin end_ ∧ get_max_idx d begin end_ < end_
      ∧ (∀ k, begin ≤ k → k < end_ → d.rd k ≤ d.rd (get_max_idx d begin end_))
      ∧ (∀ k, begin ≤ k → k < get_max_idx d begin end_ →
          d.rd k < d.rd (get_max_idx d begin end_)) := by
  have hs := get_max_idx_loop_spec d begin (end_ - (begin + 1)).toNat (begin + 1) begin
    (d.rd begin) rfl (le_refl _) (by omega)
    (fun k h1 h2 => by
      have : k = begin := by omega
      subst this; exact le_refl _)
    (fun k h1 h2 => by omega)
  have e : begin + 1 + ((end_ - (begin + 1)).toNat : Int) = end_ := by
    rw [Int.toNat_of_nonneg (by omega)]; ring
  rw [e] at hs
  exact hs

theorem Iterator.rd_le (d : Iterator) (k : Int) : d.rd k ≤ 255 := by
  unfold Iterator.rd
  have := (d k).isLt
  omega

/-- The loop of `get_low_idx` stops at the first zero cell it meets going
down. -/
theorem get_low_idx_loop_zero (d : Iterator) (begin d0 : Int) (n : Nat) : ∀ (i low j k : Int),
    begin + n = i + 1 → begin ≤ k → k ≤ i → d.rd k = 0 →
    (∀ t, k < t → t ≤ i → d.rd t ≠ 0) →
    get_low_idx_loop d begin d0 n i low j = k := by
  induction n with
  | zero => intro i low j k hn hk1 hk2; simp only [Nat.cast_zero] at hn; omega
  | succ n ih =>
    intro i low j k hn hk1 hk2 hz hnz
    unfold get_low_idx_loop
    rcases lt_or_le k i with hlt | hge
    · have hi : d.rd i ≠ 0 := hnz i hlt (le_refl _)
      rw [if_neg hi]
      have hn1 : begin + (n : Int) = i - 1 + 1 := by push_cast at hn; omega
      split_ifs
      · exact ih (i - 1) _ _ k hn1 hk1 (by omega) hz (fun t h1 h2 => hnz t h1 (by omega))
      · exact ih (i - 1) _ _ k hn1 hk1 (by omega) hz (fun t h1 h2 => hnz t h1 (by omega))
    · have : k = i := by omega
      subst this
      rw [if_pos hz]

/-- Without a zero cell and with `begin ≤ d0` the loop of `get_low_idx` returns
`d0 - 1`. -/
theorem get_low_idx_loop_bound (d : Iterator) (begin d0 : Int) (hb : begin ≤ d0) (n : Nat) :
    ∀ (i low j : Int), begin + n = i + 1 →
    (∀ t, begin ≤ t → t ≤ i → d.rd t ≠ 0) →
    get_low_idx_loop d begin d0 n i low j = d0 - 1 := by
  induction n with
  | zero =>
    intro i low j _ _
    unfold get_low_idx_loop
    rw [if_neg (by omega)]
  | succ n ih =>
    intro i low j hn hnz
    unfold get_low_idx_loop
    have hi : d.rd i ≠ 0 := hnz i (by push_cast at hn; omega) (le_refl _)
    rw [if_neg hi]
    have hn1 : begin + (n : Int) = i - 1 + 1 := by push_cast at hn; omega
    split_ifs
    · exact ih (i - 1) _ _ hn1 (fun t h1 h2 => hnz t h1 (by omega))
    · exact ih (i - 1) _ _ hn1 (fun t h1 h2 => hnz t h1 (by omega))

/-- Without a zero cell and with `begin > d0` the loop of `get_low_idx` returns
either the index `j` it started with, when no remaining cell is below `low`, or
the largest index of a minimum of the remaining cells. -/
theorem get_low_idx_loop_min (d : Iterator) (begin d0 : Int) (hb : begin > d0) (n : Nat) :
    ∀ (i low j : Int), begin + n = i + 1 →
    (∀ t, begin ≤ t → t ≤ i → d.rd t ≠ 0) →
    (get_low_idx_loop d begin d0 n i low j = j ∧ ∀ t, begin ≤ t → t ≤ i → low ≤ d.rd t)
    ∨ (begin ≤ get_low_idx_loop d begin d0 n i low j
        ∧ get_low_idx_loop d begin d0 n i low j ≤ i
        ∧ d.rd (get_low_idx_loop d begin d0 n i low j) < low
        ∧ (∀ t, begin ≤ t → t ≤ i → d.rd (get_low_idx_loop d begin d0 n i low j) ≤ d.rd t)
        ∧ (∀ t, get_low_idx_loop d begin d0 n i low j < t → t ≤ i →
            d.rd (get_low_idx_loop d begin d0 n i low j) < d.rd t)) := by
  induction n with
  | zero =>
    intro i low j hn _
    left
    unfold get_low_idx_loop
    rw [if_pos hb]
    exact ⟨rfl, fun t h1 h2 => by simp only [Nat.cast_zero] at hn; omega⟩
  | succ n ih =>
    intro i low j hn hnz
    unfold get_low_idx_loop
    have hbi : begin ≤ i := by push_cast at hn; omega
    have hi : d.rd i ≠ 0 := hnz i hbi (le_refl _)
    rw [if_neg hi]
    have hn1 : begin + (n : Int) = i - 1 + 1 := by push_cast at hn; omega
    have hnz1 : ∀ t, begin ≤ t → t ≤ i - 1 → d.rd t ≠ 0 := fun t h1 h2 => hnz t h1 (by omega)
    split_ifs with hlt
    · rcases ih (i - 1) (d.rd i) i hn1 hnz1 with ⟨hr, hall⟩ | ⟨h1, h2, h3, h4, h5⟩
      · right
        rw [hr]
        refine ⟨hbi, le_refl _, hlt, ?_, fun t h1 h2 => by omega⟩
        intro t h1 h2
        rcases lt_or_le t i with hti | hti
        · exact hall t h1 (by omega)
        · have : t = i := by omega
          subst this; exact le_refl _
      · right
        refine ⟨h1, by omega, by omega, ?_, ?_⟩
        · intro t ht1 ht2
          rcases lt_or_le t i with hti | hti
          · exact h4 t ht1 (by omega)
          · have : t = i := by omega
            subst this; omega
        · intro t ht1 ht2
          rcases lt_or_le t i with hti | hti
          · exact h5 t ht1 (by omega)
          · have : t = i := by omega
            subst this; exact h3
    · rcases ih (i - 1) low j hn1 hnz1 with ⟨hr, hall⟩ | ⟨h1, h2, h3, h4, h5⟩
      · left
        refine ⟨hr, ?_⟩
        intro t h1 h2
        rcases lt_or_le t i with hti | hti
        · exact hall t h1 (by omega)
        · have : t = i := by omega
          subst this; omega
      · right
        refine ⟨h1, by omega, h3, ?_, ?_⟩
        · intro t ht1 ht2
          rcases lt_or_le t i with hti | hti
          · exact h4 t ht1 (by omega)
          · have : t = i := by omega
            subst this; omega
        · intro t ht1 ht2
          rcases lt_or_le t i with hti | hti
          · exact h5 t ht1 (by omega)
          · have : t = i := by omega
            subst this; omega

/-- The result of the loop of `get_low_idx` is an index it visited, the index
`j` it started with (only when `begin > d0`), or `d0 - 1` (only when
`begin ≤ d0`). -/
theorem get_low_idx_loop_range (d : Iterator) (begin d0 : Int) (n : Nat) :
    ∀ (i low j : Int), begin + n = i + 1 →
    (begin ≤ get_low_idx_loop d begin d0 n i low j ∧ get_low_idx_loop d begin d0 n i low j ≤ i)
    ∨ (get_low_idx_loop d begin d0 n i low j = j ∧ begin > d0)
    ∨ (get_low_idx_loop d begin d0 n i low j = d0 - 1 ∧ begin ≤ d0) := by
  induction n with
  | zero =>
    intro i low j _
    unfold get_low_idx_loop
    split_ifs with h
    · exact Or.inr (Or.inl ⟨rfl, h⟩)
    · exact Or.inr (Or.inr ⟨rfl, by omega⟩)
  | succ n ih =>
    intro i low j hn
    unfold get_low_idx_loop
    have hbi : begin ≤ i := by push_cast at hn; omega
    have hn1 : begin + (n : Int) = i - 1 + 1 := by push_cast at hn; omega
    split_ifs with h1 h2
    · exact Or.inl ⟨hbi, le_refl _⟩
    · rcases ih (i - 1) (d.rd i) i hn1 with h | h | h
      · exact Or.inl ⟨h.1, by omega⟩
      · exact Or.inl ⟨by rw [h.1]; exact hbi, by rw [h.1]⟩
      · exact Or.inr (Or.inr h)
    · rcases ih (i - 1) low j hn1 with h | h | h
      · exact Or.inl ⟨h.1, by omega⟩
      · exact Or.inr (Or.inl h)
      · exact Or.inr (Or.inr h)

/-- Where the low point of a search over `[begin, end)` can lie. -/
theorem get_low_idx_range (d : Iterator) (begin end_ d0 : Int) (h : begin ≤ end_) :
    (begin ≤ get_low_idx d begin end_ d0 ∧ get_low_idx d begin end_ d0 ≤ end_ ∧ begin > d0)
    ∨ (begin ≤ get_low_idx d begin end_ d0 ∧ get_low_idx d begin end_ d0 < end_)
    ∨ (get_low_idx d begin end_ d0 = d0 - 1 ∧ begin ≤ d0) := by
  unfold get_low_idx
  have hn : begin + ((end_ - begin).toNat : Int) = end_ - 1 + 1 := by
    rw [Int.toNat_of_nonneg (by omega)]; ring
  rcases get_low_idx_loop_range d begin d0 (end_ - begin).toNat (end_ - 1) 255 end_ hn
    with h1 | h1 | h1
  · exact Or.inr (Or.inl ⟨h1.1, by omega⟩)
  · exact Or.inl ⟨by rw [h1.1]; exact h, by rw [h1.1], h1.2⟩
  · exact Or.inr (Or.inr h1)

/-- C9, as `get_low_idx` computes it. A zero cell of `[begin, end)` with no zero
cell above it is returned. Without a zero cell: when `begin ≤ d0` the result
is `d0 - 1`, whether or not the range is empty; when `begin > d0` and some cell
is below 255 the result is the largest index holding the minimum of the range;
when `begin > d0` and no cell is below 255 (as on an empty range) the result
is `end`. -/
theorem get_low_idx_spec (d : Iterator) (begin end_ d0 : Int) :
    (∀ k, begin ≤ k → k < end_ → d.rd k = 0 → (∀ t, k < t → t < end_ → d.rd t ≠ 0) →
        get_low_idx d begin end_ d0 = k)
    ∧ ((∀ t, begin ≤ t → t < end_ → d.rd t ≠ 0) → begin ≤ d0 →
        get_low_idx d begin end_ d0 = d0 - 1)
    ∧ ((∀ t, begin ≤ t → t < end_ → d.rd t ≠ 0) → begin > d0 →
        (∃ t, begin ≤ t ∧ t < end_ ∧ d.rd t < 255) →
        begin ≤ get_low_idx d begin end_ d0 ∧ get_low_idx d begin end_ d0 < end_
          ∧ (∀ t, begin ≤ t → t < end_ → d.rd (get_low_idx d begin end_ d0) ≤ d.rd t)
          ∧ (∀ t, get_low_idx d begin end_ d0 < t → t < end_ →
              d.rd (get_low_idx d begin end_ d0) < d.rd t))
    ∧ ((∀ t, begin ≤ t → t < end_ → d.rd t ≠ 0) → begin > d0 →
        (∀ t, begin ≤ t → t < end_ → d.rd t = 255) →
        get_low_idx d begin end_ d0 = end_) := by
  have hn : begin ≤ end_ → begin + ((end_ - begin).toNat : Int) = end_ - 1 + 1 := by
    intro h; rw [Int.toNat_of_nonneg (by omega)]; ring
  have hempty : ¬ begin ≤ end_ → (end_ - begin).toNat = 0 := by
    intro h; exact Int.toNat_eq_zero.mpr (by omega)
  refine ⟨?_, ?_, ?_, ?_⟩
  · intro k hk1 hk2 hz hnz
    exact get_low_idx_loop_zero d begin d0 _ (end_ - 1) 255 end_ k (hn (by omega)) hk1
      (by omega) hz (fun t h1 h2 => hnz t h1 (by omega))
  · intro hnz hb
    by_cases hbe : begin ≤ end_
    · exact get_low_idx_loop_bound d begin d0 hb _ (end_ - 1) 255 end_ (hn hbe)
        (fun t h1 h2 => hnz t h1 (by omega))
    · unfold get_low_idx
      rw [hempty hbe]
      unfold get_low_idx_loop
      rw [if_neg (by omega)]
  · intro hnz hb ⟨t, ht1, ht2, ht3⟩
    unfold get_low_idx
    rcases get_low_idx_loop_min d begin d0 hb _ (end_ - 1) 255 end_ (hn (by omega))
      (fun t h1 h2 => hnz t h1 (by omega)) with ⟨_, hall⟩ | ⟨h1, h2, _, h4, h5⟩
    · have := hall t ht1 (by omega)
      omega
    · exact ⟨h1, by omega, fun t h6 h7 => h4 t h6 (by omega), fun t h6 h7 => h5 t h6 (by omega)⟩
  · intro hnz hb hall
    unfold get_low_idx
    by_cases hbe : begin ≤ end_
    · rcases get_low_idx_loop_min d begin d0 hb _ (end_ - 1) 255 end_ (hn hbe)
        (fun t h1 h2 => hnz t h1 (by omega)) with ⟨hr, _⟩ | ⟨h1, h2, h3, _, _⟩
      · exact hr
      · have := hall _ h1 (by omega)
        omega
    · rw [hempty hbe]
      unfold get_low_idx_loop
      rw [if_pos hb]

/-- C9 as stated fails: on the range `[0, 2)` with lower bound `d0 = 0 ≤ begin`
and every cell 5, no cell is zero and the range is not empty, yet
`get_low_idx` returns `d0 - 1 = -1`, which is not an index of the range. -/
theorem get_low_idx_returns_bound_on_nonempty_range :
    (∀ t : Int, 0 ≤ t → t < 2 → Iterator.rd (fun _ => 5) t ≠ 0) ∧ (0 : Int) < 2
      ∧ get_low_idx (fun _ => 5) 0 2 0 = -1
      ∧ ¬ (0 ≤ get_low_idx (fun _ => 5) 0 2 0 ∧ get_low_idx (fun _ => 5) 0 2 0 < 2) := by
  have h : get_low_idx (fun _ => 5) 0 2 0 = -1 := by decide
  refine ⟨fun t _ _ => ?_, by decide, h, ?_⟩
  · show (((5 : Cell).val : Nat) : Int) ≠ 0
    decide
  · rw [h]
    decide

/-! ## Multi-block reconstruction (range form of `get_diag`) -/

/-- The peak located by one pass lies in the current range. -/
theorem get_diag_p1_spec (d : Iterator) (begin block_len end_ : Int) (hbl : 1 ≤ block_len)
    (hb : 0 ≤ begin) (h : begin < end_) :
    begin ≤ get_diag_p1 d begin block_len end_ ∧ get_diag_p1 d begin block_len end_ < end_
      ∧ d.rd (end_ - 1) ≤ d.rd (get_diag_p1 d begin block_len end_) := by
  unfold get_diag_p1
  simp only []
  have hm : Int.tmod end_ block_len = end_ % block_len :=
    Int.tmod_eq_emod (by omega) (by omega)
  have h1 : 0 ≤ end_ % block_len := Int.emod_nonneg _ (by omega)
  have h2 : end_ % block_len < block_len := Int.emod_lt_of_pos _ (by omega)
  rw [hm]
  have hlo : max begin (end_ - (if end_ % block_len = 0 then block_len else end_ % block_len))
      < end_ := by
    split_ifs with h0
    · exact max_lt h (by omega)
    · exact max_lt h (by omega)
  obtain ⟨g1, g2, g3, _⟩ := get_max_idx_spec d _ end_ hlo
  exact ⟨le_trans (le_max_left _ _) g1, g2, g3 (end_ - 1) (by omega) (by omega)⟩

/-- One pass of the loop of the range form keeps the invariant and moves the
range end strictly down. -/
theorem get_diag_range_step_inv (i j : Int) (d : Iterator)
    (begin last d0 block_len cutoff best_score E : Int) (diags0 : List Diagonal_node)
    (hbl : 1 ≤ block_len) (hc : 1 ≤ cutoff) (h0 : 0 ≤ d0) (h1 : d0 ≤ last) (h2 : last ≤ begin)
    (st : RangeState) (hgt : st.end_ > begin)
    (hinv : RangeInv d i j last cutoff best_score E diags0 st) :
    RangeInv d i j last cutoff best_score E diags0
        (get_diag_range_step i j d begin last d0 block_len cutoff best_score st)
      ∧ (get_diag_range_step i j d begin last d0 block_len cutoff best_score st).end_ < st.end_ := by
  obtain ⟨acc, hd, hacc, hpw, hnil, hne, hE⟩ := hinv
  obtain ⟨p1a, p1b, _⟩ := get_diag_p1_spec d begin block_len st.end_ hbl (by omega) hgt
  have hlow := get_low_idx_range d last (get_diag_p1 d begin block_len st.end_) d0 (by omega)
  unfold get_diag_range_step
  simp only []
  generalize get_diag_p1 d begin block_len st.end_ = p1 at *
  generalize hp0 : get_low_idx d last p1 d0 = p0 at *
  have hsc0 : p0 ≥ d0 → d.rd p1 - (if p0 ≥ d0 then d.rd p0 else 0) = d.rd p1 - d.rd p0 := by
    intro h; rw [if_pos h]
  generalize d.rd p1 - (if p0 ≥ d0 then d.rd p0 else 0) = sc at *
  by_cases hcond : sc ≥ cutoff ∨ (d.rd p1 = best_score ∧ sc > 0)
  · rw [if_pos hcond]
    have hpos : sc > 0 := by
      rcases hcond with hcond | hcond
      · omega
      · exact hcond.2
    have hlt : p0 < p1 ∧ last ≤ p0 + 1 := by
      rcases hlow with h | h | h
      · rcases lt_or_le p0 p1 with h3 | h3
        · exact ⟨h3, by omega⟩
        · have : p0 = p1 := by omega
          subst this
          have := hsc0 (by omega)
          omega
      · exact ⟨h.2, by omega⟩
      · exact ⟨by omega, by omega⟩
    refine ⟨⟨acc ++ [⟨i + p0 + 1, j + p0 + 1, p1 - p0, sc⟩], ?_, ?_, ?_, ?_, ?_, ?_⟩, ?_⟩
    · show st.diags ++ _ = _
      rw [hd, List.append_assoc]
    · intro s hs
      rcases List.mem_append.mp hs with hs | hs
      · obtain ⟨a1, a2, a3⟩ := hacc s hs
        exact ⟨a1, by dsimp only; omega, by dsimp only; omega⟩
      · have hs1 := List.mem_singleton.mp hs
        subst hs1
        refine ⟨⟨?_, hpos, ?_, ?_, ?_, ?_⟩, ?_, ?_⟩
        · dsimp only; omega
        · have e : j + p0 + 1 - j + (p1 - p0) - 1 = p1 := by ring
          dsimp only
          rw [e]
          rcases hcond with hcond | hcond
          · exact Or.inl hcond
          · exact Or.inr hcond.1
        · dsimp only; omega
        · dsimp only; omega
        · dsimp only; omega
        · dsimp only; omega
        · dsimp only; omega
    · rw [List.pairwise_append]
      refine ⟨hpw, List.pairwise_singleton _ _, ?_⟩
      intro a ha b hb
      have hb1 := List.mem_singleton.mp hb
      subst hb1
      obtain ⟨_, a2, _⟩ := hacc a ha
      right
      show j + p0 + 1 + (p1 - p0) ≤ a.j
      omega
    · intro h; simp at h
    · intro _
      refine ⟨by dsimp only; omega, by dsimp only; omega, _, List.mem_append_right _
        (List.mem_singleton.mpr rfl), ?_⟩
      dsimp only; omega
    · dsimp only; omega
    · dsimp only; omega
  · rw [if_neg hcond]
    have hle : p0 ≤ p1 := by
      rcases hlow with h | h | h <;> omega
    refine ⟨⟨acc, hd, ?_, hpw, hnil, hne, ?_⟩, ?_⟩
    · intro s hs
      obtain ⟨a1, a2, a3⟩ := hacc s hs
      exact ⟨a1, by dsimp only; omega, a3⟩
    · dsimp only; omega
    · dsimp only; omega

/-- The loop of the range form exits once the fuel exceeds the length of the
range, and the invariant holds on exit. -/
theorem get_diag_range_loop_inv (i j : Int) (d : Iterator)
    (begin last d0 block_len cutoff best_score E : Int) (diags0 : List Diagonal_node)
    (hbl : 1 ≤ block_len) (hc : 1 ≤ cutoff) (h0 : 0 ≤ d0) (h1 : d0 ≤ last) (h2 : last ≤ begin)
    (fuel : Nat) : ∀ (st : RangeState), (st.end_ - begin).toNat < fuel →
    RangeInv d i j last cutoff best_score E diags0 st →
    ∃ st1, get_diag_range_loop i j d begin last d0 block_len cutoff best_score fuel st = some st1
      ∧ RangeInv d i j last cutoff best_score E diags0 st1 ∧ st1.end_ ≤ begin := by
  induction fuel with
  | zero => intro st hf; omega
  | succ fuel ih =>
    intro st hf hinv
    unfold get_diag_range_loop
    split_ifs with hgt
    · obtain ⟨hinv1, hdec⟩ := get_diag_range_step_inv i j d begin last d0 block_len cutoff
        best_score E diags0 hbl hc h0 h1 h2 st hgt hinv
      exact ih _ (by omega) hinv1
    · exact ⟨st, rfl, hinv, by omega⟩

/-- What a call of the range form of `get_diag` does, for a cutoff of at least
1 and a range with `0 ≤ d0 ≤ last ≤ begin`: it returns; the segments it appends
satisfy `RangeSegOK`, do not overlap one another and start at column `z` or
beyond; `z` is `INT_MAX` when nothing is appended, and otherwise it is the
starting column of an appended segment with `last ≤ z < end`. -/
theorem get_diag_range_spec (fuel : Nat) (i j : Int) (d : Iterator) (begin last end_ d0 : Int)
    (diags : List Diagonal_node) (block_len cutoff best_score : Int)
    (hbl : 1 ≤ block_len) (hc : 1 ≤ cutoff) (h0 : 0 ≤ d0) (h1 : d0 ≤ last) (h2 : last ≤ begin)
    (hf : (end_ - begin).toNat < fuel) :
    ∃ z acc, get_diag_range fuel i j d begin last end_ d0 diags block_len cutoff best_score
        = some (z, diags ++ acc)
      ∧ (∀ s ∈ acc, RangeSegOK d i j last cutoff best_score end_ s ∧ z ≤ s.j - j)
      ∧ acc.Pairwise SubjectDisjoint
      ∧ (acc = [] → z = INT_MAX)
      ∧ (acc ≠ [] → last ≤ z ∧ z < end_ ∧ ∃ s ∈ acc, s.j - j = z) := by
  have hinit : RangeInv d i j last cutoff best_score end_ diags ⟨end_, INT_MAX, diags⟩ :=
    ⟨[], by simp, by simp, List.Pairwise.nil, fun _ => rfl, fun h => absurd rfl h, le_refl _⟩
  obtain ⟨st1, hst, ⟨acc, hd, hacc, hpw, hnil, hne, _⟩, _⟩ :=
    get_diag_range_loop_inv i j d begin last d0 block_len cutoff best_score end_ diags hbl hc h0
      h1 h2 fuel ⟨end_, INT_MAX, diags⟩ hf hinit
  refine ⟨st1.z, acc, ?_, fun s hs => ⟨(hacc s hs).1, (hacc s hs).2.2⟩, hpw, hnil, hne⟩
  unfold get_diag_range
  rw [hst, Option.map_some', hd]

/-- C3, as the range form of `get_diag` behaves. For a cutoff `c ≥ 1`, a block
length of at least 1 and a range with `0 ≤ d0 ≤ last ≤ begin`, the call
returns (with fuel beyond the length of the range), and each segment it
appends has a positive length and a positive score; its score is at least `c`
unless the cell at its last column, the peak, equals `best_score`. -/
theorem get_diag_range_segments (fuel : Nat) (i j : Int) (d : Iterator)
    (begin last end_ d0 : Int) (diags : List Diagonal_node) (block_len cutoff best_score : Int)
    (hbl : 1 ≤ block_len) (hc : 1 ≤ cutoff) (h0 : 0 ≤ d0) (h1 : d0 ≤ last) (h2 : last ≤ begin)
    (hf : (end_ - begin).toNat < fuel) :
    ∃ z acc, get_diag_range fuel i j d begin last end_ d0 diags block_len cutoff best_score
        = some (z, diags ++ acc)
      ∧ ∀ s ∈ acc, s.len > 0 ∧ s.score > 0
          ∧ (s.score ≥ cutoff ∨ d.rd (s.j - j + s.len - 1) = best_score) := by
  obtain ⟨z, acc, hr, hacc, _⟩ := get_diag_range_spec fuel i j d begin last end_ d0 diags
    block_len cutoff best_score hbl hc h0 h1 h2 hf
  exact ⟨z, acc, hr, fun s hs => ⟨(hacc s hs).1.1, (hacc s hs).1.2.1, (hacc s hs).1.2.2.1⟩⟩

/-- C3, at a concrete grid: one block whose peak 20 follows a low point 10, with
cutoff 19 and `best_score` 20. -/
theorem get_diag_range_segments_witness :
    ∃ z acc, get_diag_range 4 7 3 (fun k => if k = 1 then 10 else if k = 2 then 20 else 0)
        1 1 3 0 [] 16 19 20 = some (z, [] ++ acc)
      ∧ ∀ s ∈ acc, s.len > 0 ∧ s.score > 0
          ∧ (s.score ≥ 19
            ∨ Iterator.rd (fun k => if k = 1 then 10 else if k = 2 then 20 else 0)
                (s.j - 3 + s.len - 1) = 20) :=
  get_diag_range_segments 4 7 3 _ 1 1 3 0 [] 16 19 20 (by decide) (by decide) (by decide)
    (by decide) (by decide) (by decide)

/-- C3 as stated fails: with cutoff 19 and `best_score` 5 on the one-cell range
`[0, 1)` holding 5, the range form appends a segment of score 5, below the
cutoff. -/
theorem get_diag_range_appends_below_cutoff :
    get_diag_range 2 0 0 (fun k => if k = 0 then 5 else 0) 0 0 1 0 [] 16 19 5
        = some (0, [⟨0, 0, 1, 5⟩])
      ∧ ¬ ((⟨0, 0, 1, 5⟩ : Diagonal_segment).score ≥ 19) := by
  constructor
  · decide
  · decide

/-- C8. A pass of the loop of the range form of `get_diag`, with `p1` the
located peak, `p0` the located low point and `score = d[p1] - d[p0]` (or
`d[p1]` when `p0 < d0`): the segment `(i + p0 + 1, j + p0 + 1, p1 - p0, score)`
is appended (and `z` set to `p0 + 1`) exactly when `score ≥ cutoff` or
(`d[p1] = best_score` and `score > 0`); otherwise the list is unchanged; the
loop goes on with the range end `p0`. -/
theorem get_diag_range_pass (fuel : Nat) (i j : Int) (d : Iterator)
    (begin last d0 block_len cutoff best_score : Int) (st : RangeState)
    (hgt : st.end_ > begin) :
    let p1 := get_diag_p1 d begin block_len st.end_
    let p0 := get_low_idx d last p1 d0
    let score := d.rd p1 - (if p0 ≥ d0 then d.rd p0 else 0)
    get_diag_range_loop i j d begin last d0 block_len cutoff best_score (fuel + 1) st
      = get_diag_range_loop i j d begin last d0 block_len cutoff best_score fuel
          (if score ≥ cutoff ∨ (d.rd p1 = best_score ∧ score > 0) then
            ⟨p0, p0 + 1, st.diags ++ [⟨i + p0 + 1, j + p0 + 1, p1 - p0, score⟩]⟩
          else ⟨p0, st.z, st.diags⟩) := by
  intro p1 p0 score
  conv_lhs => unfold get_diag_range_loop
  rw [if_pos hgt]
  rfl

/-- C8, at a concrete pass: the peak 20 at column 2 over the low point 10 at
column 1, below the cutoff 19 but equal to `best_score`. -/
theorem get_diag_range_pass_witness :
    get_diag_range_loop 7 3 (fun k => if k = 1 then 10 else if k = 2 then 20 else 0)
        1 1 0 16 19 20 (3 + 1) ⟨3, INT_MAX, []⟩
      = get_diag_range_loop 7 3 (fun k => if k = 1 then 10 else if k = 2 then 20 else 0)
          1 1 0 16 19 20 3 ⟨1, 2, [⟨9, 5, 1, 10⟩]⟩ :=
  get_diag_range_pass 3 7 3 (fun k => if k = 1 then 10 else if k = 2 then 20 else 0)
    1 1 0 16 19 20 ⟨3, INT_MAX, []⟩ (by decide)

/-! ## Active-range tracking -/

theorem set_active_loop_apply (n : Nat) : ∀ (k : Int) (active : Int → Bool) (x : Int),
    set_active_loop n k active x = (active x || decide (k ≤ x ∧ x < k + n)) := by
  induction n with
  | zero =>
    intro k active x
    have : ¬ (k ≤ x ∧ x < k + ((0 : Nat) : Int)) := by push_cast; omega
    simp [set_active_loop, this]
  | succ n ih =>
    intro k active x
    unfold set_active_loop
    rw [ih]
    by_cases hx : x = k
    · subst hx
      have : x ≤ x ∧ x < x + ((n + 1 : Nat) : Int) := ⟨le_refl _, by push_cast; omega⟩
      simp [this]
    · rw [Function.update_noteq hx]
      have e : (k + 1 ≤ x ∧ x < k + 1 + (n : Int)) ↔ (k ≤ x ∧ x < k + ((n + 1 : Nat) : Int)) := by
        push_cast; omega
      simp only [e]

/-- The mask after `set_active(o, begin, end)` in non-fast mode, by flat index. -/
theorem set_active_active (ds : Diag_scores) (hf : ds.fast = false) (o begin end_ x : Int) :
    (ds.set_active o begin end_).active x
      = (ds.active x
          || decide (o * ds.local_max.cols + begin ≤ x ∧ x < o * ds.local_max.cols + end_)) := by
  unfold Diag_scores.set_active
  simp only [hf, Bool.not_false, if_true]
  rw [set_active_loop_apply]
  congr 1
  by_cases h : begin ≤ end_
  · have e : ((end_ - begin).toNat : Int) = end_ - begin := Int.toNat_of_nonneg (by omega)
    rw [e]
    congr 1
    apply propext
    constructor <;> intro h1 <;> constructor <;> omega
  · have e : (end_ - begin).toNat = 0 := Int.toNat_eq_zero.mpr (by omega)
    rw [e]
    congr 1
    apply propext
    constructor <;> intro h1 <;> push_cast at * <;> omega

theorem set_active_same_session (ds : Diag_scores) (o begin end_ : Int) :
    SameSession ds (ds.set_active o begin end_) := by
  unfold SameSession Diag_scores.set_active
  split_ifs <;> rfl

/-- The effect of `set_active(o, begin, end)` in non-fast mode on the blocks of
the same diagonal. -/
theorem is_active_set_active (ds : Diag_scores) (hf : ds.fast = false) (o begin end_ p : Int) :
    (ds.set_active o begin end_).is_active o p
      = (ds.is_active o p || decide (begin ≤ p ∧ p < end_)) := by
  have hs := set_active_same_session ds o begin end_
  have hfast : (ds.set_active o begin end_).fast = false := by rw [hs]; exact hf
  have hcols : (ds.set_active o begin end_).local_max = ds.local_max := by rw [hs]
  unfold Diag_scores.is_active
  rw [hfast, hf, hcols]
  simp only [Bool.false_eq_true, if_false]
  rw [set_active_active ds hf]
  congr 1
  congr 1
  apply propext
  constructor <;> intro h1 <;> constructor <;> omega

theorem SameSession.refl (ds : Diag_scores) : SameSession ds ds := by
  unfold SameSession; rfl

theorem SameSession.fields {ds ds1 : Diag_scores} (h : SameSession ds ds1) :
    ds1.fast = ds.fast ∧ ds1.local_max = ds.local_max ∧ ds1.score_buf = ds.score_buf
      ∧ ds1.dj0 = ds.dj0 ∧ ds1.dj1 = ds.dj1 ∧ ds1.block_len = ds.block_len := by
  unfold SameSession at h
  refine ⟨?_, ?_, ?_, ?_, ?_, ?_⟩ <;> rw [h]

theorem SameSession.trans {a b c : Diag_scores} (h1 : SameSession a b) (h2 : SameSession b c) :
    SameSession a c := by
  unfold SameSession at *
  rw [h2, h1]

/-- A segment in active blocks and a segment in blocks that are not active do
not overlap. -/
theorem covered_disjoint_free (ds : Diag_scores) (o j : Int) (hbl : 1 ≤ ds.block_len)
    (s t : Diagonal_node) (hs : SegCovered ds o j s) (htl : 0 < t.len)
    (hfree : ∀ p, (t.j - j) / ds.block_len ≤ p → p ≤ (t.j - j + t.len - 1) / ds.block_len →
      ds.is_active o p = false) :
    SubjectDisjoint s t := by
  obtain ⟨hsl, _, hcov⟩ := hs
  unfold SubjectDisjoint Diagonal_segment.subject_end
  by_contra hcon
  have h1 : t.j < s.j + s.len := by omega
  have h2 : s.j < t.j + t.len := by omega
  have hpos : (0 : Int) < ds.block_len := by omega
  have key : ∀ c, s.j - j ≤ c → c ≤ s.j - j + s.len - 1 → t.j - j ≤ c →
      c ≤ t.j - j + t.len - 1 → False := by
    intro c c1 c2 c3 c4
    have a1 := hcov (c / ds.block_len) (Int.ediv_le_ediv hpos c1) (Int.ediv_le_ediv hpos c2)
    have a2 := hfree (c / ds.block_len) (Int.ediv_le_ediv hpos c3) (Int.ediv_le_ediv hpos c4)
    rw [a1] at a2
    exact Bool.noConfusion a2
  rcases le_total (s.j - j) (t.j - j) with h | h
  · exact key (t.j - j) h (by omega) (le_refl _) (by omega)
  · exact key (s.j - j) (le_refl _) (by omega) h (by omega)

/-- Exploiting a run whose blocks `[last, best]` are not active keeps the
session invariant: the segments it appends lie in these blocks, which are then
marked from the block of the leftmost segment on. -/
theorem exploit_run_inv (ds0 : Diag_scores) (o i j : Int) (base : List Diagonal_node)
    (fuel : Nat) (cutoff : Int) (st : RowState) (acc : List Diagonal_node)
    (hfast : ds0.fast = false) (hbl : 1 ≤ ds0.block_len) (hd0 : j ≤ ds0.dj0 o)
    (hJ : ds0.dj1 o - j ≤ INT_MAX) (hc : 1 ≤ cutoff) (hfuel : (ds0.dj1 o - j).toNat < fuel)
    (hs : SameSession ds0 st.ds) (hlb : st.last ≤ st.begin)
    (hfree : ∀ q, st.last ≤ q → q ≤ st.best → st.ds.is_active o q = false)
    (hdiags : st.diags = base ++ acc) (hinv : SessionInv st.ds o j acc) :
    ∃ flag ds1 acc1, exploit_run fuel i j o cutoff st = some (flag, ds1, base ++ acc1)
      ∧ SameSession ds0 ds1 ∧ SessionInv ds1 o j acc1 ∧ (flag = false → ds1 = st.ds) := by
  obtain ⟨f1, f2, f3, f4, f5, f6⟩ := hs.fields
  have hbl1 : 1 ≤ st.ds.block_len := by rw [f6]; exact hbl
  have hpos : (0 : Int) < st.ds.block_len := by omega
  have hd01 : 0 ≤ st.ds.dj0 o - j := by rw [f4]; omega
  have hJ1 : st.ds.dj1 o - j ≤ INT_MAX := by rw [f5]; exact hJ
  have hfast1 : st.ds.fast = false := by rw [f1]; exact hfast
  have hmul : st.last * st.ds.block_len ≤ st.begin * st.ds.block_len :=
    Int.mul_le_mul_of_nonneg_right hlb (by omega)
  have hfuel1 : ((min ((st.best + 1) * st.ds.block_len) (st.ds.dj1 o - j)
      - max (st.begin * st.ds.block_len) (st.ds.dj0 o - j)).toNat) < fuel := by
    have h1 : min ((st.best + 1) * st.ds.block_len) (st.ds.dj1 o - j) ≤ st.ds.dj1 o - j :=
      min_le_right _ _
    have h2 : st.ds.dj0 o - j ≤ max (st.begin * st.ds.block_len) (st.ds.dj0 o - j) :=
      le_max_right _ _
    rw [f5] at h1
    have : (min ((st.best + 1) * st.ds.block_len) (st.ds.dj1 o - j)
      - max (st.begin * st.ds.block_len) (st.ds.dj0 o - j)).toNat ≤ (ds0.dj1 o - j).toNat :=
      Int.toNat_le_toNat (by rw [f5]; omega)
    omega
  obtain ⟨z, fresh, hr, hfr, hpw, hnil, hne⟩ := get_diag_range_spec fuel i j
    (st.ds.score_buf.diag o) (max (st.begin * st.ds.block_len) (st.ds.dj0 o - j))
    (max (st.last * st.ds.block_len) (st.ds.dj0 o - j))
    (min ((st.best + 1) * st.ds.block_len) (st.ds.dj1 o - j)) (st.ds.dj0 o - j) st.diags
    st.ds.block_len cutoff st.best_score hbl1 hc hd01 (le_max_right _ _)
    (max_le_max hmul (le_refl _)) hfuel1
  unfold exploit_run
  simp only []
  rw [hr]
  simp only []
  have hblocks : ∀ b ∈ fresh, 0 < b.len ∧ 0 ≤ b.j - j ∧ z ≤ b.j - j
      ∧ ∀ p, (b.j - j) / st.ds.block_len ≤ p → p ≤ (b.j - j + b.len - 1) / st.ds.block_len →
          st.last ≤ p ∧ p ≤ st.best := by
    intro b hb
    obtain ⟨⟨b1, _, _, _, b5, b6⟩, b7⟩ := hfr b hb
    have b5a : st.last * st.ds.block_len ≤ b.j - j := le_trans (le_max_left _ _) b5
    have b5b : st.ds.dj0 o - j ≤ b.j - j := le_trans (le_max_right _ _) b5
    have b6a : b.j - j + b.len ≤ (st.best + 1) * st.ds.block_len :=
      le_trans b6 (min_le_left _ _)
    refine ⟨b1, by omega, b7, fun p p1 p2 => ⟨?_, ?_⟩⟩
    · exact le_trans (Int.le_ediv_of_mul_le hpos b5a) p1
    · have : (b.j - j + b.len - 1) / st.ds.block_len < st.best + 1 :=
        Int.ediv_lt_of_lt_mul hpos (by omega)
      omega
  by_cases hf0 : fresh = []
  · rw [hnil hf0, if_neg (lt_irrefl _)]
    refine ⟨false, st.ds, acc, ?_, hs, hinv, fun _ => rfl⟩
    rw [hf0, List.append_nil, hdiags]
  · obtain ⟨z1, z2, _⟩ := hne hf0
    have hzmax : z < INT_MAX := lt_of_lt_of_le z2 (le_trans (min_le_right _ _) hJ1)
    have hz0 : 0 ≤ z := le_trans hd01 (le_trans (le_max_right _ _) z1)
    rw [if_pos hzmax]
    have hss := set_active_same_session st.ds o (Int.tdiv z st.ds.block_len) (st.best + 1)
    refine ⟨true, _, acc ++ fresh, ?_, hs.trans hss, ⟨?_, ?_⟩, fun h => Bool.noConfusion h⟩
    · rw [hdiags, List.append_assoc]
    · rw [List.pairwise_append]
      refine ⟨hinv.1, hpw, fun a ha b hb => ?_⟩
      obtain ⟨b1, _, _, b4⟩ := hblocks b hb
      exact covered_disjoint_free st.ds o j hbl1 a b (hinv.2 a ha) b1
        (fun p p1 p2 => hfree p (b4 p p1 p2).1 (b4 p p1 p2).2)
    · intro s hsm
      have hbl2 : (st.ds.set_active o (Int.tdiv z st.ds.block_len) (st.best + 1)).block_len
          = st.ds.block_len := hss.fields.2.2.2.2.2
      unfold SegCovered
      rw [hbl2]
      rcases List.mem_append.mp hsm with hsm | hsm
      · obtain ⟨c1, c2, c3⟩ := hinv.2 s hsm
        refine ⟨c1, c2, fun p p1 p2 => ?_⟩
        rw [is_active_set_active st.ds hfast1, c3 p p1 p2, Bool.true_or]
      · obtain ⟨b1, b2, b3, b4⟩ := hblocks s hsm
        refine ⟨b1, b2, fun p p1 p2 => ?_⟩
        rw [is_active_set_active st.ds hfast1]
        have hz : Int.tdiv z st.ds.block_len ≤ p := by
          rw [Int.tdiv_eq_ediv hz0 (by omega)]
          exact le_trans (Int.ediv_le_ediv hpos b3) p1
        have : Int.tdiv z st.ds.block_len ≤ p ∧ p < st.best + 1 :=
          ⟨hz, by have := (b4 p p1 p2).2; omega⟩
        simp [this]

/-! ## Per-diagonal orchestration: no overlap -/

/-- One pass of the `for` loop of `Diag_scores::get_diag` returns and keeps the
loop invariant. -/
theorem get_diag_step_inv (ds0 : Diag_scores) (o i j : Int) (base : List Diagonal_node)
    (fuel : Nat) (cutoff : Int)
    (hfast : ds0.fast = false) (hbl : 1 ≤ ds0.block_len) (hd0 : j ≤ ds0.dj0 o)
    (hJ : ds0.dj1 o - j ≤ INT_MAX) (hc : 1 ≤ cutoff) (hfuel : (ds0.dj1 o - j).toNat < fuel)
    (p : Int) (st : RowState) (hinv : RowInv ds0 o j base p st) :
    ∃ st1, get_diag_step fuel i j o cutoff p st = some st1 ∧ RowInv ds0 o j base (p + 1) st1 := by
  obtain ⟨hs, hlp, hfree, hrun, acc, hdiags, hsess⟩ := hinv
  unfold get_diag_step
  simp only []
  by_cases hq : st.ds.is_active o p = false ∧ (st.ds.local_max.diag o).rd p ≥ cutoff
      ∧ (p = 0 ∨ (st.ds.local_max.diag o).rd p > (st.ds.local_max.diag o).rd (p - 1))
  · rw [if_pos hq, Option.map_some']
    simp only []
    rw [if_neg (by rw [hq.1]; exact Bool.false_ne_true)]
    refine ⟨_, rfl, hs, by dsimp only; omega, ?_, ?_, acc, hdiags, hsess⟩
    · intro q q1 q2
      rcases lt_or_le q p with h | h
      · exact hfree q q1 h
      · have : q = p := by omega
        subst this; exact hq.1
    · intro _
      dsimp only
      by_cases hb : st.begin = -1
      · rw [if_pos hb]; omega
      · rw [if_neg hb]
        have := hrun hb
        omega
  · rw [if_neg hq]
    by_cases hb : st.begin ≠ -1
    · rw [if_pos hb]
      obtain ⟨r1, r2, r3⟩ := hrun hb
      obtain ⟨flag, ds1, acc1, hex, hs1, hsess1, hflag⟩ := exploit_run_inv ds0 o i j base fuel
        cutoff st acc hfast hbl hd0 hJ hc hfuel hs r1
        (fun q q1 q2 => hfree q q1 (by omega)) hdiags hsess
      rw [hex]
      cases flag with
      | true =>
        simp only [Option.map_some']
        by_cases ha : ds1.is_active o p = true
        · rw [if_pos ha]
          refine ⟨_, rfl, hs1, by dsimp only; omega, ?_, ?_, acc1, rfl, hsess1⟩
          · intro q q1 q2; dsimp only at q1; omega
          · intro h; exact absurd rfl h
        · rw [if_neg ha]
          refine ⟨_, rfl, hs1, by dsimp only; omega, ?_, ?_, acc1, rfl, hsess1⟩
          · intro q q1 q2
            dsimp only at q1 ⊢
            have : q = p := by omega
            subst this
            simpa using ha
          · intro h; exact absurd rfl h
      | false =>
        have hds := hflag rfl
        subst hds
        simp only [Option.map_some']
        by_cases ha : st.ds.is_active o p = true
        · rw [if_pos ha]
          refine ⟨_, rfl, hs1, by dsimp only; omega, ?_, ?_, acc1, rfl, hsess1⟩
          · intro q q1 q2; dsimp only at q1; omega
          · intro h; exact absurd rfl h
        · rw [if_neg ha]
          refine ⟨_, rfl, hs1, by dsimp only; omega, ?_, ?_, acc1, rfl, hsess1⟩
          · intro q q1 q2
            dsimp only at q1 ⊢
            rcases lt_or_le q p with h | h
            · exact hfree q q1 h
            · have : q = p := by omega
              subst this
              simpa using ha
          · intro h; exact absurd rfl h
    · rw [if_neg hb, Option.map_some']
      have hb1 : st.begin = -1 := by
        by_contra h; exact hb h
      by_cases ha : st.ds.is_active o p = true
      · rw [if_pos ha]
        refine ⟨_, rfl, hs, by dsimp only; omega, ?_, ?_, acc, hdiags, hsess⟩
        · intro q q1 q2; dsimp only at q1; omega
        · intro h; exact absurd hb1 h
      · rw [if_neg ha]
        refine ⟨_, rfl, hs, by omega, ?_, ?_, acc, hdiags, hsess⟩
        · intro q q1 q2
          rcases lt_or_le q p with h | h
          · exact hfree q q1 h
          · have : q = p := by omega
            subst this
            simpa using ha
        · intro h; exact absurd hb1 h

/-- The `for` loop of `Diag_scores::get_diag` returns and keeps the loop
invariant. -/
theorem get_diag_blocks_inv (ds0 : Diag_scores) (o i j : Int) (base : List Diagonal_node)
    (fuel : Nat) (cutoff : Int)
    (hfast : ds0.fast = false) (hbl : 1 ≤ ds0.block_len) (hd0 : j ≤ ds0.dj0 o)
    (hJ : ds0.dj1 o - j ≤ INT_MAX) (hc : 1 ≤ cutoff) (hfuel : (ds0.dj1 o - j).toNat < fuel)
    (n : Nat) : ∀ (p : Int) (st : RowState), RowInv ds0 o j base p st →
    ∃ st1, get_diag_blocks fuel i j o cutoff n p st = some st1
      ∧ RowInv ds0 o j base (p + n) st1 := by
  induction n with
  | zero =>
    intro p st h
    exact ⟨st, rfl, by simpa using h⟩
  | succ n ih =>
    intro p st h
    obtain ⟨st1, h1, h2⟩ := get_diag_step_inv ds0 o i j base fuel cutoff hfast hbl hd0 hJ hc
      hfuel p st h
    obtain ⟨st2, h3, h4⟩ := ih (p + 1) st1 h2
    refine ⟨st2, ?_, ?_⟩
    · unfold get_diag_blocks
      rw [h1]
      exact h3
    · have e : p + ((n + 1 : Nat) : Int) = p + 1 + n := by push_cast; ring
      rw [e]; exact h4

/-- The loop that walks `last` back stops at `b0` or below an active block. -/
theorem walk_back_spec (ds : Diag_scores) (o b0 : Int) (n : Nat) : ∀ (last : Int),
    walk_back ds o b0 n last ≤ last
      ∧ ∀ q, walk_back ds o b0 n last ≤ q → q < last → ds.is_active o q = false := by
  induction n with
  | zero => intro last; exact ⟨le_refl _, fun q q1 q2 => by unfold walk_back at q1; omega⟩
  | succ n ih =>
    intro last
    unfold walk_back
    split_ifs with h
    · obtain ⟨h1, h2⟩ := ih (last - 1)
      refine ⟨by omega, fun q q1 q2 => ?_⟩
      rcases lt_or_le q (last - 1) with h3 | h3
      · exact h2 q q1 h3
      · have : q = last - 1 := by omega
        subst this; exact h.2
    · exact ⟨le_refl _, fun q q1 q2 => by omega⟩

/-- The loop that extends `best` passes over blocks that are not active only. -/
theorem extend_best_spec (ds : Diag_scores) (o cutoff b1 : Int) (n : Nat) : ∀ (best : Int),
    best ≤ extend_best ds o cutoff b1 n best
      ∧ ∀ q, best ≤ q → q < extend_best ds o cutoff b1 n best → ds.is_active o q = false := by
  induction n with
  | zero => intro best; exact ⟨le_refl _, fun q q1 q2 => by unfold extend_best at q2; omega⟩
  | succ n ih =>
    intro best
    unfold extend_best
    simp only []
    split_ifs with h
    · obtain ⟨h1, h2⟩ := ih (best + 1)
      refine ⟨by omega, fun q q1 q2 => ?_⟩
      rcases lt_or_le best q with h3 | h3
      · exact h2 q (by omega) q2
      · have : q = best := by omega
        subst this; exact h.2.1
    · exact ⟨le_refl _, fun q q1 q2 => by omega⟩

/-- A call of `Diag_scores::get_diag` in non-fast mode returns and keeps the
session invariant of its diagonal. -/
theorem get_diag_inv (ds : Diag_scores) (o i j : Int) (base acc : List Diagonal_node)
    (fuel : Nat) (j_begin j_end cutoff : Int)
    (hfast : ds.fast = false) (hbl : 1 ≤ ds.block_len) (hd0 : j ≤ ds.dj0 o)
    (hJ : ds.dj1 o - j ≤ INT_MAX) (hc : 1 ≤ cutoff) (hfuel : (ds.dj1 o - j).toNat < fuel)
    (hsess : SessionInv ds o j acc) :
    ∃ ds1 acc1, ds.get_diag fuel i j o j_begin j_end (base ++ acc) cutoff
        = some (ds1, base ++ acc1)
      ∧ SameSession ds ds1 ∧ SessionInv ds1 o j acc1 := by
  unfold Diag_scores.get_diag
  simp only []
  generalize Int.tdiv (ds.dj0 o - j) ds.block_len = b0
  generalize Int.tdiv (ds.dj1 o - j + ds.block_len - 1) ds.block_len = b1
  generalize max (Int.tdiv (j_begin - j) ds.block_len) b0 = p
  generalize min (Int.tdiv (j_end - j + ds.block_len - 1) ds.block_len) b1 = p_end
  obtain ⟨w1, w2⟩ := walk_back_spec ds o b0 (p - b0).toNat p
  have hrow0 : RowInv ds o j base p
      ⟨-1, -1, -1, walk_back ds o b0 (p - b0).toNat p, ds, base ++ acc⟩ :=
    ⟨SameSession.refl ds, w1, w2, fun h => absurd rfl h, acc, rfl, hsess⟩
  obtain ⟨st, hst, hs, hlp, hfree, hrun, acc1, hdiags, hsess1⟩ :=
    get_diag_blocks_inv ds o i j base fuel cutoff hfast hbl hd0 hJ hc hfuel (p_end - p).toNat p
      _ hrow0
  rw [hst]
  simp only []
  by_cases hb : st.begin ≠ -1
  · rw [if_pos hb]
    obtain ⟨r1, r2, r3⟩ := hrun hb
    by_cases hbest : st.best = p_end - 1
    · rw [if_pos hbest]
      obtain ⟨e1, e2⟩ := extend_best_spec st.ds o cutoff b1 (b1 - st.best).toNat st.best
      obtain ⟨flag, ds1, acc2, hex, hs1, hsess2, _⟩ := exploit_run_inv ds o i j base fuel cutoff
        { st with
          best := extend_best st.ds o cutoff b1 (b1 - st.best).toNat st.best - 1
          best_score := (ds.local_max.diag o).rd
            (extend_best st.ds o cutoff b1 (b1 - st.best).toNat st.best - 1) }
        acc1 hfast hbl hd0 hJ hc hfuel hs r1
        (fun q q1 q2 => by
          dsimp only at q1 q2 ⊢
          rcases lt_or_le q st.best with h | h
          · exact hfree q q1 (by omega)
          · exact e2 q h (by omega)) hdiags hsess1
      rw [hex]
      exact ⟨ds1, acc2, rfl, hs1, hsess2⟩
    · rw [if_neg hbest]
      obtain ⟨flag, ds1, acc2, hex, hs1, hsess2, _⟩ := exploit_run_inv ds o i j base fuel cutoff
        st acc1 hfast hbl hd0 hJ hc hfuel hs r1 (fun q q1 q2 => hfree q q1 (by omega)) hdiags
        hsess1
      rw [hex]
      exact ⟨ds1, acc2, rfl, hs1, hsess2⟩
  · rw [if_neg hb]
    exact ⟨st.ds, acc1, by rw [hdiags], hs, hsess1⟩

/-- A sequence of calls of `Diag_scores::get_diag` on one diagonal in non-fast
mode returns and keeps the session invariant. -/
theorem get_diag_calls_inv (o i j : Int) (base : List Diagonal_node) (fuel : Nat)
    (calls : List (Int × Int × Int)) : ∀ (ds : Diag_scores) (acc : List Diagonal_node),
    ds.fast = false → 1 ≤ ds.block_len → j ≤ ds.dj0 o → ds.dj1 o - j ≤ INT_MAX →
    (ds.dj1 o - j).toNat < fuel → (∀ c ∈ calls, 1 ≤ c.2.2) → SessionInv ds o j acc →
    ∃ ds1 acc1, get_diag_calls fuel i j o ds (base ++ acc) calls = some (ds1, base ++ acc1)
      ∧ SameSession ds ds1 ∧ SessionInv ds1 o j acc1 := by
  induction calls with
  | nil =>
    intro ds acc _ _ _ _ _ _ hsess
    exact ⟨ds, acc, rfl, SameSession.refl ds, hsess⟩
  | cons c rest ih =>
    intro ds acc hfast hbl hd0 hJ hfuel hc hsess
    obtain ⟨ds1, acc1, h1, hs1, hsess1⟩ := get_diag_inv ds o i j base acc fuel c.1 c.2.1 c.2.2
      hfast hbl hd0 hJ (hc c (List.mem_cons_self _ _)) hfuel hsess
    obtain ⟨f1, _, _, f4, f5, f6⟩ := hs1.fields
    obtain ⟨ds2, acc2, h2, hs2, hsess2⟩ := ih ds1 acc1 (by rw [f1]; exact hfast)
      (by rw [f6]; exact hbl) (by rw [f4]; exact hd0) (by rw [f5]; exact hJ)
      (by rw [f5]; exact hfuel) (fun c1 hc1 => hc c1 (List.mem_cons_of_mem _ hc1)) hsess1
    refine ⟨ds2, acc2, ?_, hs1.trans hs2, hsess2⟩
    unfold get_diag_calls
    rw [h1]
    exact h2

/-- C4. In non-fast mode, for every sequence of calls of
`Diag_scores::get_diag` on one diagonal offset `o`, with any column ranges and
any cutoffs of at least 1, every call returns and no two of the segments
appended, by the same call or by different calls, overlap in
subject-coordinate range. This holds from any initial mask and for any block
grid. The geometry is that of the source: a block length of at least 1, a
diagonal that starts at column 0 or later, and columns within `int`. -/
theorem get_diag_calls_no_overlap (ds : Diag_scores) (o i j : Int) (diags : List Diagonal_node)
    (fuel : Nat) (calls : List (Int × Int × Int))
    (hfast : ds.fast = false) (hbl : 1 ≤ ds.block_len) (hd0 : j ≤ ds.dj0 o)
    (hJ : ds.dj1 o - j ≤ INT_MAX) (hfuel : (ds.dj1 o - j).toNat < fuel)
    (hc : ∀ c ∈ calls, 1 ≤ c.2.2) :
    ∃ ds1 appended, get_diag_calls fuel i j o ds diags calls = some (ds1, diags ++ appended)
      ∧ appended.Pairwise SubjectDisjoint := by
  obtain ⟨ds1, acc1, h1, _, h2⟩ := get_diag_calls_inv o i j diags fuel calls ds [] hfast hbl hd0
    hJ hfuel hc ⟨List.Pairwise.nil, fun s hs => absurd hs (List.not_mem_nil s)⟩
  rw [List.append_nil] at h1
  exact ⟨ds1, acc1, h1, h2.1⟩

/-- C4, at a concrete session: three calls with different ranges and cutoffs on
a diagonal of 40 columns. -/
theorem get_diag_calls_no_overlap_witness :
    ∃ ds1 appended,
      get_diag_calls 41 0 0 0
          (scanned_session 11 (fun k => if k % 7 < 4 then 16 else 3) 40 false) []
          [(0, 40, 19), (10, 30, 13), (0, 40, 1)]
        = some (ds1, [] ++ appended)
      ∧ appended.Pairwise SubjectDisjoint :=
  get_diag_calls_no_overlap (scanned_session 11 (fun k => if k % 7 < 4 then 16 else 3) 40 false)
    0 0 0 [] 41 [(0, 40, 19), (10, 30, 13), (0, 40, 1)] rfl (by decide) (by decide) (by decide)
    (by decide) (by decide)

/-! ## Diagonals already marked active -/

/-- Over blocks that are all active and with no open run, the `for` loop of
`Diag_scores::get_diag` changes `last` only. -/
theorem get_diag_blocks_active (fuel : Nat) (i j o cutoff : Int) (n : Nat) :
    ∀ (p : Int) (st : RowState), st.begin = -1 →
    (∀ q, p ≤ q → q < p + n → st.ds.is_active o q = true) →
    ∃ st1, get_diag_blocks fuel i j o cutoff n p st = some st1
      ∧ st1.begin = -1 ∧ st1.ds = st.ds ∧ st1.diags = st.diags := by
  induction n with
  | zero => intro p st hb _; exact ⟨st, rfl, hb, rfl, rfl⟩
  | succ n ih =>
    intro p st hb hact
    have hp : st.ds.is_active o p = true := hact p (le_refl _) (by push_cast; omega)
    have hstep : get_diag_step fuel i j o cutoff p st = some { st with last := p + 1 } := by
      unfold get_diag_step
      simp only []
      rw [if_neg (by rw [hp]; simp), if_neg (by simp [hb]), Option.map_some', if_pos hp]
    obtain ⟨st1, h1, h2, h3, h4⟩ := ih (p + 1) { st with last := p + 1 } hb
      (fun q q1 q2 => hact q (by omega) (by push_cast; omega))
    refine ⟨st1, ?_, h2, h3, h4⟩
    unfold get_diag_blocks
    rw [hstep]
    exact h1

/-- A call of `Diag_scores::get_diag` on a diagonal whose blocks are all active
appends nothing and leaves the session state as it is. -/
theorem get_diag_all_active (ds : Diag_scores) (fuel : Nat) (i j o j_begin j_end : Int)
    (diags : List Diagonal_node) (cutoff : Int)
    (hact : ∀ q, Int.tdiv (ds.dj0 o - j) ds.block_len ≤ q →
      q < Int.tdiv (ds.dj1 o - j + ds.block_len - 1) ds.block_len → ds.is_active o q = true) :
    ds.get_diag fuel i j o j_begin j_end diags cutoff = some (ds, diags) := by
  unfold Diag_scores.get_diag
  simp only []
  generalize Int.tdiv (ds.dj0 o - j) ds.block_len = b0 at *
  generalize Int.tdiv (ds.dj1 o - j + ds.block_len - 1) ds.block_len = b1 at *
  generalize hp : max (Int.tdiv (j_begin - j) ds.block_len) b0 = p
  generalize hpe : min (Int.tdiv (j_end - j + ds.block_len - 1) ds.block_len) b1 = p_end
  have hp0 : b0 ≤ p := by rw [← hp]; exact le_max_right _ _
  have hp1 : p_end ≤ b1 := by rw [← hpe]; exact min_le_right _ _
  obtain ⟨st1, h1, h2, h3, h4⟩ := get_diag_blocks_active fuel i j o cutoff (p_end - p).toNat p
    ⟨-1, -1, -1, walk_back ds o b0 (p - b0).toNat p, ds, diags⟩ rfl
    (fun q q1 q2 => hact q (by omega) (by
      have : ((p_end - p).toNat : Int) ≤ max (p_end - p) 0 := by
        rw [Int.toNat_eq_max]
      rcases le_total (p_end - p) 0 with h | h
      · rw [max_eq_right h] at this; omega
      · rw [max_eq_left h] at this; omega))
  rw [h1]
  simp only []
  rw [if_neg (by simp [h2]), h3, h4]

/-- C6. In non-fast mode, when `scan_diags` routes diagonal `o` through the
scalar fallback (its overall maximum is at least the primary threshold and at
least `255 - bias`), `set_active(o, 0, cols)` marks its blocks, and every later
sequence of calls of `Diag_scores::get_diag` on that diagonal, for any column
ranges and any cutoffs, appends no segment and leaves the session state, the
active mask included, unchanged. The blocks of the diagonal lie within the
grid: `0 ≤ b0` and `b1 ≤ cols`. -/
theorem get_diag_after_fallback (ds : Diag_scores) (fuel : Nat)
    (score_matrix : Letter → Letter → Int) (bias : Int) (query subject : Int → Letter)
    (j1 o : Int) (diags : List Diagonal_node)
    (hfast : ds.fast = false) (hmin : ((ds.sv_max o).val : Int) ≥ ds.min_diag_score)
    (hsat : ((ds.sv_max o).val : Int) ≥ 255 - bias) (hbl : 1 ≤ ds.block_len)
    (hd0 : ds.j_begin ≤ ds.dj0 o)
    (hb1 : Int.tdiv (ds.dj1 o - ds.j_begin + ds.block_len - 1) ds.block_len ≤ ds.local_max.cols) :
    ∃ ds1 diags1,
      scan_diags_step ds fuel score_matrix bias query subject j1 o diags = some (ds1, diags1)
      ∧ ∀ (fuel2 : Nat) (i : Int) (calls : List (Int × Int × Int)) (diags2 : List Diagonal_node),
          get_diag_calls fuel2 i ds.j_begin o ds1 diags2 calls = some (ds1, diags2) := by
  refine ⟨ds.set_active o 0 ds.local_max.cols,
    score_diagonal2 score_matrix
      (fun k => query (ds.i_begin + o - min (ds.i_begin + o) 0 + k))
      (fun k => subject (ds.j_begin - min (ds.i_begin + o) 0 + k))
      (min (ds.qlen - (ds.i_begin + o - min (ds.i_begin + o) 0))
        (ds.slen - (ds.j_begin - min (ds.i_begin + o) 0)))
      (ds.i_begin + o - min (ds.i_begin + o) 0) (ds.j_begin - min (ds.i_begin + o) 0) diags
      (if ds.fast then ds.min_diag_score else ds.min_low_score), ?_, ?_⟩
  · unfold scan_diags_step
    rw [if_pos hmin, if_pos hsat]
  · intro fuel2 i calls
    have hs := set_active_same_session ds o 0 ds.local_max.cols
    obtain ⟨_, f2, _, f4, f5, f6⟩ := hs.fields
    have hact : ∀ q, Int.tdiv ((ds.set_active o 0 ds.local_max.cols).dj0 o - ds.j_begin)
          (ds.set_active o 0 ds.local_max.cols).block_len ≤ q →
        q < Int.tdiv ((ds.set_active o 0 ds.local_max.cols).dj1 o - ds.j_begin
          + (ds.set_active o 0 ds.local_max.cols).block_len - 1)
          (ds.set_active o 0 ds.local_max.cols).block_len →
        (ds.set_active o 0 ds.local_max.cols).is_active o q = true := by
      intro q q1 q2
      rw [f4, f6] at q1
      rw [f5, f6] at q2
      have hb0 : 0 ≤ Int.tdiv (ds.dj0 o - ds.j_begin) ds.block_len := by
        rw [Int.tdiv_eq_ediv (by omega) (by omega)]
        exact Int.ediv_nonneg (by omega) (by omega)
      rw [is_active_set_active ds hfast]
      have : 0 ≤ q ∧ q < ds.local_max.cols := ⟨by omega, by omega⟩
      simp [this]
    induction calls with
    | nil => intro diags2; rfl
    | cons c rest ih =>
      intro diags2
      unfold get_diag_calls
      rw [get_diag_all_active _ fuel2 i ds.j_begin o c.1 c.2.1 diags2 c.2.2 hact]
      exact ih diags2

/-- C6, at a concrete session whose diagonal saturates: bias 11 and twenty
scores of +14. -/
theorem get_diag_after_fallback_witness :
    ∃ ds1 diags1,
      scan_diags_step (scanned_session 11 (fun _ => 25) 20 false) 21 (fun _ _ => 14) 11
          (fun _ => 0) (fun _ => 0) 20 0 [] = some (ds1, diags1)
      ∧ ∀ (fuel2 : Nat) (i : Int) (calls : List (Int × Int × Int)) (diags2 : List Diagonal_node),
          get_diag_calls fuel2 i (scanned_session 11 (fun _ => 25) 20 false).j_begin 0 ds1 diags2
            calls = some (ds1, diags2) :=
  get_diag_after_fallback (scanned_session 11 (fun _ => 25) 20 false) 21 (fun _ _ => 14) 11
    (fun _ => 0) (fun _ => 0) 20 0 [] rfl (by decide) (by decide) (by decide) (by decide)
    (by decide)

/-! ## The column scanner on a lane that does not saturate -/

theorem sat_sub_add_val (a b c : Cell) :
    ((sat_sub (sat_add a b) c).val : Int)
      = max (min ((a.val : Int) + b.val) 255 - c.val) 0 := by
  unfold sat_sub sat_add
  simp only []
  omega

theorem Iterator.rd_update (d : Iterator) (k : Int) (v : Cell) (x : Int) :
    Iterator.rd (Function.update d k v) x = if x = k then (v.val : Int) else d.rd x := by
  unfold Iterator.rd
  by_cases h : x = k
  · subst h; simp
  · rw [Function.update_noteq h, if_neg h]

/-- A running score that rises at every column is monotone. -/
theorem rising_mono (P : Nat → Int) (n : Nat) (hinc : ∀ t, t < n → P t < P (t + 1)) :
    ∀ b, b ≤ n → ∀ a, a < b → P a < P b := by
  intro b
  induction b with
  | zero => intro _ a ha; omega
  | succ b ih =>
    intro hb a ha
    rcases Nat.lt_or_ge a b with h | h
    · exact lt_trans (ih (by omega) a h) (hinc b (by omega))
    · have : a = b := by omega
      subst this
      exact hinc a (by omega)

theorem rising_mono_le (P : Nat → Int) (n : Nat) (hinc : ∀ t, t < n → P t < P (t + 1))
    (a b : Nat) (hab : a ≤ b) (hb : b ≤ n) : P a ≤ P b := by
  rcases Nat.eq_or_lt_of_le hab with h | h
  · rw [h]
  · exact le_of_lt (rising_mono P n hinc b hb a h)

/-- One pass of the inner loop of `scan_cols` keeps the lane invariant while
the running score rises and stays below saturation. -/
theorem scan_cols_step_inv (bias : Cell) (q : Int → Cell) (j d0 : Int) (P : Nat → Int) (n : Nat)
    (hinc : ∀ t, t < n → P t < P (t + 1))
    (hq : ∀ t : Nat, t < n → ((q (j + d0 + t)).val : Int) = P (t + 1) - P t + bias.val)
    (hsat : P n + bias.val ≤ 255) (k : Nat) (hk : k < n) (st : LaneState)
    (h : LaneInv P d0 k st) :
    LaneInv P d0 (k + 1) (scan_cols_step bias q j (j + d0 + k) st) := by
  obtain ⟨hv, hbp, hlp, hmx, hg, hbuf, hlm⟩ := h
  have hPk : 0 ≤ P k := by
    have := rising_mono_le P n hinc 0 k (Nat.zero_le _) (by omega)
    omega
  have hPn : P (k + 1) ≤ P n := rising_mono_le P n hinc (k + 1) n (by omega) (le_refl _)
  have hinck := hinc k hk
  have hv1 : ((sat_sub (sat_add st.v (q (j + d0 + k))) bias).val : Int) = P (k + 1) := by
    rw [sat_sub_add_val, hv, hq k hk]
    have := bias.isLt
    omega
  have hmxle : (st.max.val : Int) ≤ P k := by
    rw [hmx]; split_ifs <;> omega
  have hlt : st.max < sat_sub (sat_add st.v (q (j + d0 + k))) bias := by
    rw [Fin.lt_def]
    have : (st.max.val : Int) < ((sat_sub (sat_add st.v (q (j + d0 + k))) bias).val : Int) := by
      rw [hv1]; omega
    exact_mod_cast this
  have hgle : (st.global_max.val : Int) ≤ P k := by
    rw [hg]
    split_ifs with h1
    · exact rising_mono_le P n hinc _ k (by omega) (by omega)
    · exact hPk
  have hglt : st.global_max < sat_sub (sat_add st.v (q (j + d0 + k))) bias := by
    rw [Fin.lt_def]
    have : (st.global_max.val : Int)
        < ((sat_sub (sat_add st.v (q (j + d0 + k))) bias).val : Int) := by
      rw [hv1]; omega
    exact_mod_cast this
  have hcol : (j + d0 + (k : Int) - j) % 16 = (d0 + k) % 16 := by
    congr 1; ring
  unfold scan_cols_step
  simp only []
  rw [if_pos hlt, hcol]
  generalize sat_sub (sat_add st.v (q (j + d0 + k))) bias = v1 at *
  by_cases hsnap : (d0 + (k : Int)) % 16 = 15
  · rw [if_pos hsnap]
    refine ⟨hv1, ?_, ?_, ?_, ?_, ?_, ?_⟩
    · show st.buf_ptr + 1 = _
      push_cast; omega
    · show st.local_max_ptr + 1 = _
      push_cast; omega
    · show (((0 : Cell).val : Nat) : Int) = _
      rw [if_pos (by push_cast; omega)]
      rfl
    · show (((if st.global_max < v1 then v1 else st.global_max).val : Nat) : Int) = _
      rw [if_pos hglt, if_pos (by push_cast; omega), hv1]
      congr 1
      push_cast; omega
    · intro x
      show Iterator.rd (Function.update st.buf st.buf_ptr v1) x = _
      rw [Iterator.rd_update, hbuf x, hbp, hv1]
      by_cases hx : x = d0 + k
      · rw [if_pos hx, if_pos (by push_cast; omega)]
        congr 1
        omega
      · rw [if_neg hx]
        by_cases hx2 : d0 ≤ x ∧ x < d0 + k
        · rw [if_pos hx2, if_pos (by push_cast; omega)]
        · rw [if_neg hx2, if_neg (by push_cast; omega)]
    · intro b
      show Iterator.rd (Function.update st.local_max st.local_max_ptr v1) b = _
      rw [Iterator.rd_update, hlm b, hlp, hv1]
      by_cases hb : b = (d0 + k) / 16
      · rw [if_pos hb, if_pos (by push_cast; omega)]
        congr 1
        omega
      · rw [if_neg hb]
        by_cases hb2 : d0 / 16 ≤ b ∧ (b + 1) * 16 ≤ d0 + k
        · rw [if_pos hb2, if_pos (by push_cast; omega)]
        · rw [if_neg hb2, if_neg (by push_cast; omega)]
  · rw [if_neg hsnap]
    refine ⟨hv1, ?_, ?_, ?_, ?_, ?_, ?_⟩
    · show st.buf_ptr + 1 = _
      push_cast; omega
    · show st.local_max_ptr = _
      push_cast; omega
    · show ((v1.val : Nat) : Int) = _
      rw [if_neg (by push_cast; omega), hv1]
    · show ((st.global_max.val : Nat) : Int) = _
      rw [hg]
      by_cases hc : d0 / 16 < (d0 + k) / 16
      · rw [if_pos hc, if_pos (by push_cast; omega)]
        congr 2
        push_cast; omega
      · rw [if_neg hc, if_neg (by push_cast; omega)]
    · intro x
      show Iterator.rd (Function.update st.buf st.buf_ptr v1) x = _
      rw [Iterator.rd_update, hbuf x, hbp, hv1]
      by_cases hx : x = d0 + k
      · rw [if_pos hx, if_pos (by push_cast; omega)]
        congr 1
        omega
      · rw [if_neg hx]
        by_cases hx2 : d0 ≤ x ∧ x < d0 + k
        · rw [if_pos hx2, if_pos (by push_cast; omega)]
        · rw [if_neg hx2, if_neg (by push_cast; omega)]
    · intro b
      show st.local_max.rd b = _
      rw [hlm b]
      by_cases hb2 : d0 / 16 ≤ b ∧ (b + 1) * 16 ≤ d0 + k
      · rw [if_pos hb2, if_pos (by push_cast; omega)]
      · rw [if_neg hb2, if_neg (by push_cast; omega)]

theorem scan_cols_loop_inv (bias : Cell) (q : Int → Cell) (j d0 : Int) (P : Nat → Int) (n : Nat)
    (hinc : ∀ t, t < n → P t < P (t + 1))
    (hq : ∀ t : Nat, t < n → ((q (j + d0 + t)).val : Int) = P (t + 1) - P t + bias.val)
    (hsat : P n + bias.val ≤ 255) (m : Nat) : ∀ (k : Nat) (st : LaneState), k + m ≤ n →
    LaneInv P d0 k st →
    LaneInv P d0 (k + m) (scan_cols_loop bias q j m (j + d0 + k) st).1
      ∧ (scan_cols_loop bias q j m (j + d0 + k) st).2 = j + d0 + k + m := by
  induction m with
  | zero =>
    intro k st _ h
    exact ⟨h, by simp [scan_cols_loop]⟩
  | succ m ih =>
    intro k st hkm h
    have h1 := scan_cols_step_inv bias q j d0 P n hinc hq hsat k (by omega) st h
    have h2 := ih (k + 1) _ (by omega) h1
    unfold scan_cols_loop
    have e : j + d0 + ((k + 1 : Nat) : Int) = j + d0 + k + 1 := by push_cast; ring
    rw [e] at h2
    have e2 : k + 1 + m = k + (m + 1) := by ring
    rw [e2] at h2
    refine ⟨h2.1, ?_⟩
    rw [h2.2]
    push_cast; ring

/-- What the band form of `scan_cols` leaves in zeroed grids for a lane that
starts in column `d0 ≥ 0`, scans `n ≥ 1` columns, and whose running score `P`
rises at every column without saturating: the raw cells hold the running
score; every block that holds a scanned column holds the running score at
its last scanned column; the overall maximum is the final running score. -/
theorem scan_cols_rising (bias : Cell) (q : Int → Cell) (j d0 : Int) (P : Nat → Int) (n : Nat)
    (block_len : Int) (hd0 : 0 ≤ d0) (hn : 1 ≤ n) (hP0 : P 0 = 0)
    (hinc : ∀ t, t < n → P t < P (t + 1))
    (hq : ∀ t : Nat, t < n → ((q (j + d0 + t)).val : Int) = P (t + 1) - P t + bias.val)
    (hsat : P n + bias.val ≤ 255) :
    (∀ x, (scan_cols bias q j (j + d0) (j + d0 + n) (fun _ => 0) (fun _ => 0) block_len).buf.rd x
        = if d0 ≤ x ∧ x < d0 + n then P (x - d0 + 1).toNat else 0)
    ∧ (∀ b,
        (scan_cols bias q j (j + d0) (j + d0 + n) (fun _ => 0) (fun _ => 0) block_len).local_max.rd b
        = if d0 / 16 ≤ b ∧ b < (d0 + n + 15) / 16 then
            P (min ((b + 1) * 16) (d0 + n) - d0).toNat
          else 0)
    ∧ (((scan_cols bias q j (j + d0) (j + d0 + n) (fun _ => 0) (fun _ => 0)
          block_len).global_max.val : Nat) : Int) = P n := by
  have hinit : LaneInv P d0 0
      ⟨0, 0, 0, fun _ => 0, j + d0 - j, fun _ => 0, Int.tdiv (j + d0 - j) 16⟩ := by
    refine ⟨by rw [hP0]; rfl, by push_cast; ring, ?_, ?_, ?_, ?_, ?_⟩
    · show Int.tdiv (j + d0 - j) 16 = _
      rw [Int.tdiv_eq_ediv (by omega) (by omega)]
      congr 1
      push_cast; ring
    · show (((0 : Cell).val : Nat) : Int) = _
      rw [hP0]; simp
    · show (((0 : Cell).val : Nat) : Int) = _
      rw [if_neg (by push_cast; omega)]; rfl
    · intro x
      rw [if_neg (by push_cast; omega)]; rfl
    · intro b
      rw [if_neg (by push_cast; omega)]; rfl
  have hloop := scan_cols_loop_inv bias q j d0 P n hinc hq hsat n 0 _ (by omega) hinit
  have e1 : (j + d0 + (n : Int) - (j + d0)).toNat = n := by omega
  have e2 : j + d0 + ((0 : Nat) : Int) = j + d0 := by push_cast; ring
  rw [e2] at hloop
  unfold scan_cols
  simp only []
  rw [e1]
  obtain ⟨⟨hv, hbp, hlp, hmx, hg, hbuf, hlm⟩, hj2⟩ := hloop
  rw [hj2]
  generalize (scan_cols_loop bias q j n (j + d0)
    ⟨0, 0, 0, fun _ => 0, j + d0 - j, fun _ => 0, Int.tdiv (j + d0 - j) 16⟩).1 = st at *
  have hcol : (j + d0 + (n : Int) - j) % 16 = (d0 + n) % 16 := by
    congr 1; ring
  rw [hcol]
  simp only [Nat.zero_add] at hv hbp hlp hmx hg hbuf hlm
  by_cases hpart : (d0 + (n : Int)) % 16 ≠ 0
  · rw [if_pos hpart]
    have hgle : (st.global_max.val : Int) ≤ P n := by
      rw [hg]
      split_ifs with h1
      · exact rising_mono_le P n hinc _ n (by omega) (le_refl _)
      · rw [← hv]; omega
    have hmxv : (st.max.val : Int) = P n := by
      rw [hmx, if_neg hpart]
    refine ⟨hbuf, ?_, ?_⟩
    · intro b
      show Iterator.rd (Function.update st.local_max st.local_max_ptr st.max) b = _
      rw [Iterator.rd_update, hlm b, hlp, hmxv]
      by_cases hb : b = (d0 + n) / 16
      · rw [if_pos hb, if_pos (by omega)]
        congr 1
        omega
      · rw [if_neg hb]
        by_cases hb2 : d0 / 16 ≤ b ∧ (b + 1) * 16 ≤ d0 + n
        · rw [if_pos hb2, if_pos (by omega)]
          congr 2
          omega
        · rw [if_neg hb2, if_neg (by omega)]
    · show (((if st.global_max < st.max then st.max else st.global_max).val : Nat) : Int) = _
      split_ifs with h1
      · exact hmxv
      · rw [Fin.lt_def] at h1
        have : (st.max.val : Int) ≤ st.global_max.val := by exact_mod_cast not_lt.mp h1
        omega
  · rw [if_neg hpart]
    have hz : (d0 + (n : Int)) % 16 = 0 := by
      by_contra h; exact hpart h
    refine ⟨hbuf, ?_, ?_⟩
    · intro b
      rw [hlm b]
      by_cases hb2 : d0 / 16 ≤ b ∧ (b + 1) * 16 ≤ d0 + n
      · rw [if_pos hb2, if_pos (by omega)]
        congr 2
        omega
      · rw [if_neg hb2, if_neg (by omega)]
    · rw [hg, if_pos (by omega)]
      congr 1
      omega

/-! ## Reconstruction of a run of positive scores -/

/-- On raw cells that rise over `[d0, end)` and reach the cutoff at the last
column, the range form of `get_diag` with lower bound and search bound `d0`
appends the one segment that spans `[d0, end)` and returns `z = d0`. -/
theorem get_diag_range_rising (fuel : Nat) (i j : Int) (d : Iterator) (begin end_ d0 : Int)
    (diags : List Diagonal_node) (cutoff best_score : Int) (hfuel : 2 ≤ fuel)
    (hb0 : 0 ≤ d0) (hb1 : d0 ≤ begin) (hb2 : begin < end_)
    (hpos : ∀ x, d0 ≤ x → x < end_ → 0 < d.rd x)
    (hrise : ∀ x, d0 ≤ x → x < end_ - 1 → d.rd x < d.rd (end_ - 1))
    (hcut : cutoff ≤ d.rd (end_ - 1)) :
    get_diag_range fuel i j d begin d0 end_ d0 diags 16 cutoff best_score
      = some (d0, diags ++ [⟨i + d0, j + d0, end_ - d0, d.rd (end_ - 1)⟩]) := by
  obtain ⟨f, rfl⟩ : ∃ f, fuel = f + 2 := ⟨fuel - 2, by omega⟩
  obtain ⟨p1a, p1b, p1c⟩ := get_diag_p1_spec d begin 16 end_ (by decide) (by omega) hb2
  have hp1 : get_diag_p1 d begin 16 end_ = end_ - 1 := by
    by_contra hne
    have := hrise (get_diag_p1 d begin 16 end_) (by omega) (by omega)
    omega
  have hp0 : get_low_idx d d0 (end_ - 1) d0 = d0 - 1 := by
    unfold get_low_idx
    refine get_low_idx_loop_bound d d0 d0 (le_refl _) _ (end_ - 1 - 1) 255 (end_ - 1) ?_
      (fun t t1 t2 => by have := hpos t t1 (by omega); omega)
    rw [Int.toNat_of_nonneg (by omega)]
    ring
  unfold get_diag_range get_diag_range_loop
  rw [if_pos hb2]
  unfold get_diag_range_step
  simp only []
  rw [hp1, hp0, if_neg (by omega : ¬ d0 - 1 ≥ d0), sub_zero, if_pos (Or.inl hcut)]
  unfold get_diag_range_loop
  rw [if_neg (by dsimp only; omega), Option.map_some']
  have e1 : i + (d0 - 1) + 1 = i + d0 := by ring
  have e2 : j + (d0 - 1) + 1 = j + d0 := by ring
  have e3 : end_ - 1 - (d0 - 1) = end_ - d0 := by ring
  have e4 : d0 - 1 + 1 = d0 := by ring
  rw [e1, e2, e3, e4]

/-- Block maxima written by `scan_cols` for a rising lane rise from the first
block of the lane on, and the last one is the total. -/
theorem rising_blocks (d : Iterator) (d0 : Int) (P : Nat → Int) (n : Nat)
    (hn : 1 ≤ n) (hP0 : P 0 = 0) (hinc : ∀ t, t < n → P t < P (t + 1))
    (hblk : ∀ b, d.rd b = if d0 / 16 ≤ b ∧ b < (d0 + n + 15) / 16 then
        P (min ((b + 1) * 16) (d0 + n) - d0).toNat else 0) :
    (∀ b, d0 / 16 ≤ b → b < (d0 + n + 15) / 16 → d.rd (b - 1) < d.rd b)
    ∧ d.rd ((d0 + n + 15) / 16 - 1) = P n := by
  constructor
  · intro b b1 b2
    rw [hblk b, if_pos ⟨b1, b2⟩, hblk (b - 1)]
    by_cases h : d0 / 16 ≤ b - 1
    · rw [if_pos ⟨h, by omega⟩]
      exact rising_mono P n hinc _ (by omega) _ (by omega)
    · rw [if_neg (fun hc => h hc.1)]
      have := rising_mono P n hinc (min ((b + 1) * 16) (d0 + n) - d0).toNat (by omega) 0
        (by omega)
      omega
  · rw [hblk, if_pos ⟨by omega, by omega⟩]
    congr 1
    omega

/-- The `for` loop of `Diag_scores::get_diag` over rising blocks opens a run at
the first block that reaches the cutoff and keeps it open. -/
theorem get_diag_blocks_rising (ds : Diag_scores) (fuel : Nat) (i j o cutoff b0 b1 : Int)
    (diags : List Diagonal_node) (hb0 : 0 ≤ b0)
    (hact : ∀ p, ds.is_active o p = false)
    (hrise : ∀ b, b0 ≤ b → b < b1 →
      (ds.local_max.diag o).rd (b - 1) < (ds.local_max.diag o).rd b)
    (m : Nat) : ∀ (p : Int) (st : RowState), b0 ≤ p → p + m ≤ b1 →
    RisingInv ds o cutoff b0 diags p st →
    ∃ st1, get_diag_blocks fuel i j o cutoff m p st = some st1
      ∧ RisingInv ds o cutoff b0 diags (p + m) st1 := by
  induction m with
  | zero => intro p st _ _ h; exact ⟨st, rfl, by simpa using h⟩
  | succ m ih =>
    intro p st hp hpm hinv
    have hpb : p < b1 := by push_cast at hpm; omega
    have hr := hrise p hp hpb
    have hstep : ∃ st1, get_diag_step fuel i j o cutoff p st = some st1
        ∧ RisingInv ds o cutoff b0 diags (p + 1) st1 := by
      obtain ⟨best, bs, begin, last, sds, sdiags⟩ := st
      obtain ⟨hds, hdg, hlast, hrun⟩ := hinv
      dsimp only at hds hdg hlast hrun
      rw [hds, hdg, hlast]
      unfold get_diag_step
      simp only []
      have hna : ¬ (ds.is_active o p = true) := by rw [hact p]; exact Bool.false_ne_true
      by_cases hge : (ds.local_max.diag o).rd p ≥ cutoff
      · rw [if_pos ⟨hact p, hge, Or.inr hr⟩, Option.map_some']
        simp only []
        rw [if_neg hna]
        refine ⟨_, rfl, rfl, rfl, rfl, Or.inr ⟨?_, ?_, ?_, ?_, ?_⟩⟩
        · dsimp only
          split_ifs with h
          · omega
          · exact h
        · dsimp only
          split_ifs with h
          · exact hp
          · rcases hrun with h1 | h1
            · exact absurd h1.1 h
            · exact h1.2.1
        · dsimp only
          split_ifs with h
          · exact le_refl _
          · rcases hrun with h1 | h1
            · exact absurd h1.1 h
            · omega
        · dsimp only; omega
        · have e : p + 1 - 1 = p := by ring
          rw [e]; exact hge
      · rw [if_neg (fun hc => hge hc.2.1)]
        rcases hrun with h1 | h1
        · rw [if_neg (by rw [h1.1]; simp), Option.map_some']
          simp only []
          rw [if_neg hna]
          refine ⟨_, rfl, rfl, rfl, rfl, Or.inl ⟨h1.1, fun b b1 b2 => ?_⟩⟩
          rcases lt_or_le b p with h | h
          · exact h1.2 b b1 h
          · have : b = p := by omega
            subst this; omega
        · omega
    obtain ⟨st1, h1, h2⟩ := hstep
    obtain ⟨st2, h3, h4⟩ := ih (p + 1) st1 (by omega) (by push_cast at hpm; omega) h2
    refine ⟨st2, ?_, ?_⟩
    · unfold get_diag_blocks
      rw [h1]
      exact h3
    · have e : p + ((m + 1 : Nat) : Int) = p + 1 + m := by push_cast; ring
      rw [e]; exact h4

theorem tdiv16_nonpos (a : Int) (h : a ≤ 0) : Int.tdiv a 16 ≤ 0 := by
  have h1 : a = -(-a) := by ring
  rw [h1, Int.neg_tdiv, Int.tdiv_eq_ediv (by omega) (by omega)]
  omega

theorem tdiv16_of_nonneg (a : Int) (h : 0 ≤ a) : Int.tdiv a 16 = a / 16 :=
  Int.tdiv_eq_ediv h (by omega)

/-- `Diag_scores::get_diag` over a whole diagonal whose grids hold a rising
running score `P`, with nothing active: when the total reaches the cutoff
exactly one segment is appended, the whole diagonal with the total as its
score; otherwise nothing is appended. -/
theorem get_diag_rising (ds : Diag_scores) (fuel : Nat) (i j o d0 : Int) (P : Nat → Int)
    (n : Nat) (j_begin j_end : Int) (diags : List Diagonal_node) (cutoff : Int)
    (hfuel : 2 ≤ fuel) (hd0 : 0 ≤ d0) (hn : 1 ≤ n) (hP0 : P 0 = 0)
    (hinc : ∀ t, t < n → P t < P (t + 1))
    (hbl : ds.block_len = 16) (hj0 : ds.dj0 o = j + d0) (hj1 : ds.dj1 o = j + d0 + n)
    (hmax : d0 + n ≤ INT_MAX) (hact : ∀ p, ds.is_active o p = false)
    (hraw : ∀ x, (ds.score_buf.diag o).rd x
      = if d0 ≤ x ∧ x < d0 + n then P (x - d0 + 1).toNat else 0)
    (hblk : ∀ b, (ds.local_max.diag o).rd b
      = if d0 / 16 ≤ b ∧ b < (d0 + n + 15) / 16 then
          P (min ((b + 1) * 16) (d0 + n) - d0).toNat else 0)
    (hjb : j_begin ≤ j + d0) (hje : j + d0 + n ≤ j_end) :
    (cutoff ≤ P n → ∃ ds1, ds.get_diag fuel i j o j_begin j_end diags cutoff
        = some (ds1, diags ++ [⟨i + d0, j + d0, n, P n⟩]))
    ∧ (P n < cutoff → ds.get_diag fuel i j o j_begin j_end diags cutoff = some (ds, diags)) := by
  obtain ⟨hr1, hr2⟩ := rising_blocks (ds.local_max.diag o) d0 P n hn hP0 hinc hblk
  have eb0 : Int.tdiv (j + d0 - j) 16 = d0 / 16 := by
    rw [tdiv16_of_nonneg _ (by omega)]; congr 1; ring
  have eb1 : Int.tdiv (j + d0 + n - j + 16 - 1) 16 = (d0 + n + 15) / 16 := by
    rw [tdiv16_of_nonneg _ (by omega)]; congr 1; ring
  have ep : max (Int.tdiv (j_begin - j) 16) (d0 / 16) = d0 / 16 := by
    apply max_eq_right
    rcases le_total (j_begin - j) 0 with h | h
    · exact le_trans (tdiv16_nonpos _ h) (by omega)
    · rw [tdiv16_of_nonneg _ h]; omega
  have epe : min (Int.tdiv (j_end - j + 16 - 1) 16) ((d0 + n + 15) / 16) = (d0 + n + 15) / 16 := by
    apply min_eq_right
    rw [tdiv16_of_nonneg _ (by omega)]; omega
  have ew : walk_back ds o (d0 / 16) (d0 / 16 - d0 / 16).toNat (d0 / 16) = d0 / 16 := by
    rw [sub_self]; rfl
  have hm : d0 / 16 + (((d0 + n + 15) / 16 - d0 / 16).toNat : Int) = (d0 + n + 15) / 16 := by
    omega
  obtain ⟨st, hst, hds, hdg, hlast, hrun⟩ := get_diag_blocks_rising ds fuel i j o cutoff (d0 / 16)
    ((d0 + n + 15) / 16) diags (by omega) hact hr1 ((d0 + n + 15) / 16 - d0 / 16).toNat (d0 / 16)
    ⟨-1, -1, -1, d0 / 16, ds, diags⟩ (le_refl _) (by omega)
    ⟨rfl, rfl, rfl, Or.inl ⟨rfl, fun b b1 b2 => by omega⟩⟩
  rw [hm] at hrun
  have hraw1 : ∀ x, d0 ≤ x → x < d0 + n → 0 < (ds.score_buf.diag o).rd x := by
    intro x x1 x2
    rw [hraw x, if_pos ⟨x1, x2⟩]
    have := rising_mono P n hinc (x - d0 + 1).toNat (by omega) 0 (by omega)
    omega
  have hrawT : (ds.score_buf.diag o).rd (d0 + n - 1) = P n := by
    rw [hraw, if_pos ⟨by omega, by omega⟩]
    congr 1; omega
  have hraw2 : ∀ x, d0 ≤ x → x < d0 + n - 1 →
      (ds.score_buf.diag o).rd x < (ds.score_buf.diag o).rd (d0 + n - 1) := by
    intro x x1 x2
    rw [hrawT, hraw x, if_pos ⟨x1, by omega⟩]
    exact rising_mono P n hinc n (le_refl _) _ (by omega)
  have hunf : ds.get_diag fuel i j o j_begin j_end diags cutoff
      = (if st.begin ≠ -1 then
          (exploit_run fuel i j o cutoff
            (if st.best = (d0 + n + 15) / 16 - 1 then
              { st with
                best := extend_best st.ds o cutoff ((d0 + n + 15) / 16)
                  ((d0 + n + 15) / 16 - st.best).toNat st.best - 1
                best_score := (ds.local_max.diag o).rd
                  (extend_best st.ds o cutoff ((d0 + n + 15) / 16)
                    ((d0 + n + 15) / 16 - st.best).toNat st.best - 1) }
            else st)).map (fun r => (r.2.1, r.2.2))
        else some (st.ds, st.diags)) := by
    unfold Diag_scores.get_diag
    simp only []
    rw [hbl, hj0, hj1, eb0, eb1, ep, epe, ew, hst]
  rw [hunf]
  constructor
  · intro hcut
    rcases hrun with h1 | ⟨h1, h2, h3, h4, h5⟩
    · have := h1.2 ((d0 + n + 15) / 16 - 1) (by omega) (by omega)
      omega
    · rw [if_pos h1, if_pos h4, h4, hds]
      have hext : extend_best ds o cutoff ((d0 + n + 15) / 16)
          ((d0 + n + 15) / 16 - ((d0 + n + 15) / 16 - 1)).toNat ((d0 + n + 15) / 16 - 1)
          = (d0 + n + 15) / 16 := by
        have e : ((d0 + n + 15) / 16 - ((d0 + (n : Int) + 15) / 16 - 1)).toNat = 1 := by omega
        rw [e]
        unfold extend_best
        simp only []
        rw [if_pos ⟨by omega, hact _, h5, Or.inr (hr1 _ (by omega) (by omega))⟩]
        unfold extend_best
        ring
      rw [hext]
      unfold exploit_run
      simp only []
      rw [hbl, hj0, hj1, hdg]
      have e1 : j + d0 - j = d0 := by ring
      have e2 : j + d0 + (n : Int) - j = d0 + n := by ring
      have e3 : max (st.last * 16) d0 = d0 := by rw [hlast]; apply max_eq_right; omega
      have e4 : min (((d0 + n + 15) / 16 - 1 + 1) * 16) (d0 + n) = d0 + n := by
        apply min_eq_right; omega
      rw [e1, e2, e3, e4]
      rw [get_diag_range_rising fuel i j (ds.score_buf.diag o) (max (st.begin * 16) d0) (d0 + n)
        d0 diags cutoff _ hfuel hd0 (le_max_right _ _) (max_lt (by omega) (by omega)) hraw1 hraw2
        (by rw [hrawT]; exact hcut)]
      simp only []
      rw [if_pos (by omega), Option.map_some', hrawT]
      have e5 : d0 + (n : Int) - d0 = n := by ring
      rw [e5]
      exact ⟨_, rfl⟩
  · intro hcut
    rcases hrun with h1 | ⟨h1, h2, h3, h4, h5⟩
    · rw [if_neg (by rw [h1.1]; simp), hds, hdg]
    · rw [hr2] at h5
      omega

/-- On a window of positive scores the loop of `score_diagonal2` never resets:
after `k` passes the score and the best score are the sum of the first `k`
scores, and the best run is `[0, k)`. -/
theorem score_diagonal2_loop_rising (score_matrix : Letter → Letter → Int)
    (query subject : Int → Letter) (qbegin jbegin cutoff : Int) (diags : List Diagonal_node)
    (n : Nat) (hpos : ∀ t : Nat, t < n → 0 < score_matrix (query t) (subject t)) (m : Nat) :
    ∀ k : Nat, k + m ≤ n →
    score_diagonal2_loop score_matrix query subject qbegin jbegin cutoff m k
        ⟨0, prefix_score score_matrix query subject k, prefix_score score_matrix query subject k,
          0, k, diags⟩
      = ⟨0, prefix_score score_matrix query subject (k + m),
          prefix_score score_matrix query subject (k + m), 0, ((k + m : Nat) : Int), diags⟩ := by
  induction m with
  | zero => intro k _; rfl
  | succ m ih =>
    intro k hk
    have hp := hpos k (by omega)
    unfold score_diagonal2_loop score_diagonal2_step
    simp only []
    have h1 : ¬ (prefix_score score_matrix query subject k + score_matrix (query k) (subject k) ≤ 0
        ∨ prefix_score score_matrix query subject k
          - (prefix_score score_matrix query subject k + score_matrix (query k) (subject k))
          > xdrop) := by
      have h0 : 0 ≤ prefix_score score_matrix query subject k :=
        rising_mono_le (prefix_score score_matrix query subject) n
          (fun t ht => by
            have := hpos t ht
            show _ < _ + _
            omega) 0 k (Nat.zero_le _) (by omega)
      unfold xdrop
      omega
    rw [if_neg h1, if_pos (by omega)]
    have e := ih (k + 1) (by omega)
    have e1 : prefix_score score_matrix query subject (k + 1)
        = prefix_score score_matrix query subject k + score_matrix (query k) (subject k) := rfl
    have e2 : k + 1 + m = k + (m + 1) := by ring
    rw [e1, e2] at e
    have e3 : ((k + 1 : Nat) : Int) = (k : Int) + 1 := by push_cast; ring
    rw [e3] at e
    exact e

/-- On a window of `n` positive scores `score_diagonal2` appends the whole
window with the total as its score when the total reaches the cutoff, and
nothing otherwise. -/
theorem score_diagonal2_rising (score_matrix : Letter → Letter → Int)
    (query subject : Int → Letter) (n : Nat) (qbegin jbegin : Int) (diags : List Diagonal_node)
    (cutoff : Int) (hpos : ∀ t : Nat, t < n → 0 < score_matrix (query t) (subject t)) :
    score_diagonal2 score_matrix query subject n qbegin jbegin diags cutoff
      = if prefix_score score_matrix query subject n ≥ cutoff then
          diags ++ [⟨qbegin, jbegin, n, prefix_score score_matrix query subject n⟩]
        else diags := by
  have h := score_diagonal2_loop_rising score_matrix query subject qbegin jbegin cutoff diags n
    hpos n 0 (by omega)
  simp only [Nat.zero_add, Nat.cast_zero] at h
  unfold score_diagonal2
  simp only [Int.toNat_ofNat]
  have e : prefix_score score_matrix query subject 0 = 0 := rfl
  rw [e] at h
  rw [h]
  simp only [add_zero, sub_zero]

/-- C5. A diagonal of `n ≥ 1` positions whose substitution scores are all
positive, with total `T` below the saturation margin `255 - bias` and at least
the primary threshold: on the grids `scan_cols` wrote for it, with nothing
active, the pass of `scan_diags` over this diagonal (which calls
`Diag_scores::get_diag` over the whole diagonal) appends exactly one segment;
it starts at the diagonal start, has length `n` and score `T`. -/
theorem scan_diags_positive_run (ds : Diag_scores) (fuel : Nat)
    (score_matrix : Letter → Letter → Int) (bias : Cell) (query subject : Int → Letter)
    (q : Int → Cell) (o d0 : Int) (n : Nat) (j1 : Int) (diags : List Diagonal_node)
    (hfuel : 2 ≤ fuel) (hd0 : 0 ≤ d0) (hn : 1 ≤ n)
    (hpos : ∀ t : Nat, t < n →
      0 < score_matrix (query (ds.i_begin + o + d0 + t)) (subject (ds.j_begin + d0 + t)))
    (hq : ∀ t : Nat, t < n → ((q (ds.j_begin + d0 + t)).val : Int)
      = score_matrix (query (ds.i_begin + o + d0 + t)) (subject (ds.j_begin + d0 + t)) + bias.val)
    (hT : prefix_score score_matrix (fun k => query (ds.i_begin + o + d0 + k))
      (fun k => subject (ds.j_begin + d0 + k)) n < 255 - bias.val)
    (hthr : ds.min_diag_score ≤ prefix_score score_matrix
      (fun k => query (ds.i_begin + o + d0 + k)) (fun k => subject (ds.j_begin + d0 + k)) n)
    (hbl : ds.block_len = 16) (hj0 : ds.dj0 o = ds.j_begin + d0)
    (hj1 : ds.dj1 o = ds.j_begin + d0 + n) (hje : ds.j_begin + d0 + n ≤ j1)
    (hmax : d0 + n ≤ INT_MAX) (hact : ∀ p, ds.is_active o p = false)
    (hbuf : ds.score_buf.diag o = (scan_cols bias q ds.j_begin (ds.j_begin + d0)
      (ds.j_begin + d0 + n) (fun _ => 0) (fun _ => 0) ds.block_len).buf)
    (hlm : ds.local_max.diag o = (scan_cols bias q ds.j_begin (ds.j_begin + d0)
      (ds.j_begin + d0 + n) (fun _ => 0) (fun _ => 0) ds.block_len).local_max)
    (hsv : ds.sv_max o = (scan_cols bias q ds.j_begin (ds.j_begin + d0)
      (ds.j_begin + d0 + n) (fun _ => 0) (fun _ => 0) ds.block_len).global_max) :
    ∃ ds1, scan_diags_step ds fuel score_matrix bias.val query subject j1 o diags
      = some (ds1, diags ++ [⟨ds.i_begin + o + d0, ds.j_begin + d0, n,
          prefix_score score_matrix (fun k => query (ds.i_begin + o + d0 + k))
            (fun k => subject (ds.j_begin + d0 + k)) n⟩]) := by
  obtain ⟨s1, s2, s3⟩ := scan_cols_rising bias q ds.j_begin d0
    (prefix_score score_matrix (fun k => query (ds.i_begin + o + d0 + k))
      (fun k => subject (ds.j_begin + d0 + k))) n ds.block_len hd0 hn rfl
    (fun t ht => by
      have := hpos t ht
      show _ < _ + _
      beta_reduce
      omega)
    (fun t ht => by
      rw [hq t ht]
      show _ = _ + _ - _ + _
      beta_reduce
      ring)
    (by omega)
  rw [← hbuf] at s1
  rw [← hlm] at s2
  rw [← hsv] at s3
  obtain ⟨g1, _⟩ := get_diag_rising ds fuel (ds.i_begin + o) ds.j_begin o d0
    (prefix_score score_matrix (fun k => query (ds.i_begin + o + d0 + k))
      (fun k => subject (ds.j_begin + d0 + k))) n ds.j_begin j1 diags ds.min_diag_score hfuel hd0
    hn rfl
    (fun t ht => by
      have := hpos t ht
      show _ < _ + _
      beta_reduce
      omega)
    hbl hj0 hj1 hmax hact s1 s2 (by omega) hje
  unfold scan_diags_step
  rw [s3, if_pos hthr, if_neg (by omega)]
  exact g1 hthr

/-- C5, at the example of the specification: ten positions that score +5 each,
threshold 19, one segment on diagonal 0 with length 10 and score 50. -/
theorem scan_diags_positive_run_witness :
    ∃ ds1, scan_diags_step (scanned_session 4 (fun _ => 9) 10 false) 2 (fun _ _ => 5) 4
        (fun _ => 0) (fun _ => 0) 10 0 [] = some (ds1, [] ++ [⟨0, 0, 10, 50⟩]) :=
  scan_diags_positive_run (scanned_session 4 (fun _ => 9) 10 false) 2 (fun _ _ => 5) 4
    (fun _ => 0) (fun _ => 0) (fun _ => 9) 0 0 10 10 [] (by decide) (by decide) (by decide)
    (fun _ _ => by show (0 : Int) < 5; decide) (fun _ _ => by show ((9 : Nat) : Int) = 5 + 4; decide)
    (by decide) (by decide) rfl rfl rfl (by decide) (by decide) (fun _ => rfl) rfl rfl rfl

/-- The block width of `scan_cols` is 16 whatever `block_len` is. A lane whose
running score is `1, 2, 3, ...` (profile byte 12, bias 11), scanned with
`block_len = 8`, a value that no call in the sources passes: the band form over
16 columns writes the single entry 16, the maximum of columns `[0, 16)`; the
pointer form over 24 columns does not snapshot the columns `[16, 24)`, so that
the overall maximum is 16 although the raw cells reach 24. -/
theorem scan_cols_ignores_block_len :
    ((scan_cols 11 (fun _ => 12) 0 0 16 (fun _ => 0) (fun _ => 0) 8).buf 7 = 8
      ∧ (scan_cols 11 (fun _ => 12) 0 0 16 (fun _ => 0) (fun _ => 0) 8).buf 15 = 16
      ∧ (scan_cols 11 (fun _ => 12) 0 0 16 (fun _ => 0) (fun _ => 0) 8).local_max 0 = 16
      ∧ (scan_cols 11 (fun _ => 12) 0 0 16 (fun _ => 0) (fun _ => 0) 8).local_max 1 = 0)
    ∧ ((scan_cols_ptr 11 (fun _ => 12) 0 24 (fun _ => 0) (fun _ => 0) 8).buf 23 = 24
      ∧ (scan_cols_ptr 11 (fun _ => 12) 0 24 (fun _ => 0) (fun _ => 0) 8).local_max 0 = 16
      ∧ (scan_cols_ptr 11 (fun _ => 12) 0 24 (fun _ => 0) (fun _ => 0) 8).local_max 1 = 0
      ∧ (scan_cols_ptr 11 (fun _ => 12) 0 24 (fun _ => 0) (fun _ => 0) 8).global_max = 16) := by
  refine ⟨⟨?_, ?_, ?_, ?_⟩, ?_, ?_, ?_, ?_⟩ <;> decide

/-! ## End scan -/

/-- The recorded pass of the end scan for one shift. -/
theorem scan_ends_step_recorder (dd dj dj1 subject_len shift min_score : Int) (st : Trace) :
    scan_ends_step recorder dd dj dj1 subject_len shift min_score st
      = some { st with
          probes := st.probes ++ shift_probes st.ds dd dj dj1 subject_len shift min_score } := by
  unfold scan_ends_step shift_probes scan_ends_pair scan_ends_len recorder
  simp only []
  by_cases h1 : dd + shift < st.ds.d_end
  · by_cases h2 : ((st.ds.sv_max (dd + shift - st.ds.d_begin)).val : Int) ≥ min_score
    · by_cases h3 : dd - shift ≥ st.ds.d_begin
      · by_cases h4 : ((st.ds.sv_max (dd - shift - st.ds.d_begin)).val : Int) ≥ min_score
        · simp [h1, h2, h3, h4]
        · simp [h1, h2, h3, h4]
      · simp [h1, h2, h3]
    · by_cases h3 : dd - shift ≥ st.ds.d_begin
      · by_cases h4 : ((st.ds.sv_max (dd - shift - st.ds.d_begin)).val : Int) ≥ min_score
        · simp [h1, h2, h3, h4]
        · simp [h1, h2, h3, h4]
      · simp [h1, h2, h3]
  · by_cases h3 : dd - shift ≥ st.ds.d_begin
    · by_cases h4 : ((st.ds.sv_max (dd - shift - st.ds.d_begin)).val : Int) ≥ min_score
      · simp [h1, h3, h4]
      · simp [h1, h3, h4]
    · simp [h1, h3]

/-- The recorded loop of the end scan: when the shifts `s, ..., s + n - 1` pass
the test of the loop header and `s + n` does not, the loop exits with more than
`n` units of fuel, having made the calls of these shifts in order. -/
theorem scan_ends_loop_recorder (gap_open gap_extend dd dj dj1 subject_len : Int) (n : Nat) :
    ∀ (fuel : Nat) (s : Int) (st : Trace), n < fuel →
    (∀ t : Int, s ≤ t → t < s + n → gap_open + t * gap_extend + 1 < st.ds.min_diag_score) →
    ¬ (gap_open + (s + n) * gap_extend + 1 < st.ds.min_diag_score) →
    scan_ends_loop recorder gap_open gap_extend dd dj dj1 subject_len fuel s st
      = some { st with
          probes := st.probes
            ++ shifts_probes st.ds gap_open gap_extend dd dj dj1 subject_len n s } := by
  induction n with
  | zero =>
    intro fuel s st hf _ hstop
    obtain ⟨f, rfl⟩ : ∃ f, fuel = f + 1 := ⟨fuel - 1, by omega⟩
    unfold scan_ends_loop
    simp only [Nat.cast_zero, add_zero] at hstop
    have hr : recorder.ds st = st.ds := rfl
    simp only [hr]
    rw [if_neg hstop]
    simp [shifts_probes]
  | succ n ih =>
    intro fuel s st hf hok hstop
    obtain ⟨f, rfl⟩ : ∃ f, fuel = f + 1 := ⟨fuel - 1, by omega⟩
    unfold scan_ends_loop
    have hr : recorder.ds st = st.ds := rfl
    simp only [hr]
    rw [if_pos (hok s (le_refl _) (by push_cast; omega)), scan_ends_step_recorder]
    simp only []
    have e : s + 1 + (n : Int) = s + ((n + 1 : Nat) : Int) := by push_cast; ring
    have h := ih f (s + 1)
      { st with
        probes := st.probes
          ++ shift_probes st.ds dd dj dj1 subject_len s (gap_open + s * gap_extend + 1) }
      (by omega) (fun t t1 t2 => hok t (by omega) (by push_cast; omega))
      (by rw [e]; exact hstop)
    rw [h]
    simp [shifts_probes, List.append_assoc]

/-- The shifts that pass the test of the loop header of the end scan are those
up to `(min_diag_score - gap_open - 2) / gap_extend`. -/
theorem admissible_shift_iff (gap_open gap_extend mds : Int) (hge : 1 ≤ gap_extend) (s : Int)
    (hs : 1 ≤ s) :
    gap_open + s * gap_extend + 1 < mds
      ↔ s ≤ (((mds - gap_open - 2) / gap_extend).toNat : Int) := by
  have hpos : (0 : Int) < gap_extend := by omega
  constructor
  · intro h
    have h1 : s * gap_extend ≤ mds - gap_open - 2 := by omega
    have h2 := Int.le_ediv_of_mul_le hpos h1
    exact le_trans h2 (Int.self_le_toNat _)
  · intro h
    have hq : 1 ≤ (mds - gap_open - 2) / gap_extend := by
      by_contra hc
      have : ((mds - gap_open - 2) / gap_extend).toNat = 0 ∨
          (((mds - gap_open - 2) / gap_extend).toNat : Int) = (mds - gap_open - 2) / gap_extend := by
        omega
      omega
    have h1 : s ≤ (mds - gap_open - 2) / gap_extend := by omega
    have h2 : s * gap_extend ≤ (mds - gap_open - 2) / gap_extend * gap_extend :=
      Int.mul_le_mul_of_nonneg_right h1 (by omega)
    have h3 := Int.ediv_mul_le (mds - gap_open - 2) (by omega : gap_extend ≠ 0)
    omega

/-- The recorded end scan, for `gap_extend ≥ 1` and fuel beyond
`min_diag_score - gap_open`: the calls of the shifts `1, ..., S` in order, with
`S = (min_diag_score - gap_open - 2) / gap_extend`. -/
theorem scan_ends_recorder (fuel : Nat) (gap_open gap_extend : Int) (d_idx : Nat)
    (subject_len : Int) (st : Trace) (hge : 1 ≤ gap_extend)
    (hfuel : (st.ds.min_diag_score - gap_open).toNat < fuel) :
    scan_ends recorder fuel gap_open gap_extend d_idx subject_len st
      = some { st with
          probes := st.probes
            ++ shifts_probes st.ds gap_open gap_extend (node_at st.diags d_idx).diag
              (node_at st.diags d_idx).j (node_at st.diags d_idx).subject_end subject_len
              ((st.ds.min_diag_score - gap_open - 2) / gap_extend).toNat 1 } := by
  have hiff := admissible_shift_iff gap_open gap_extend st.ds.min_diag_score hge
  have hS : ((st.ds.min_diag_score - gap_open - 2) / gap_extend).toNat < fuel := by
    rcases le_total 0 (st.ds.min_diag_score - gap_open - 2) with h | h
    · have h1 := Int.ediv_le_self gap_extend h
      have h2 : ((st.ds.min_diag_score - gap_open - 2) / gap_extend).toNat
          ≤ (st.ds.min_diag_score - gap_open - 2).toNat := Int.toNat_le_toNat h1
      omega
    · have h1 : (st.ds.min_diag_score - gap_open - 2) / gap_extend ≤ 0 := by
        have := Int.ediv_le_ediv (by omega : (0 : Int) < gap_extend) h
        simpa using this
      have h2 : ((st.ds.min_diag_score - gap_open - 2) / gap_extend).toNat = 0 :=
        Int.toNat_eq_zero.mpr h1
      omega
  unfold scan_ends
  simp only []
  exact scan_ends_loop_recorder gap_open gap_extend (node_at st.diags d_idx).diag
    (node_at st.diags d_idx).j (node_at st.diags d_idx).subject_end subject_len
    ((st.ds.min_diag_score - gap_open - 2) / gap_extend).toNat fuel 1 st hS
    (fun t t1 t2 => (hiff t t1).mpr (by omega))
    (fun hc => by
      have := (hiff _ (by omega)).mp hc
      omega)

/-- C20. For every `gap_open`, every `gap_extend ≥ 1` and every threshold
`min_diag_score`, the shift loop of `scan_ends` exits (with fuel beyond
`min_diag_score - gap_open`), and it visits exactly the shifts `s ≥ 1` with
`gap_open + s * gap_extend + 1 < min_diag_score`, in increasing order: these
are the shifts `1, ..., S` with `S = (min_diag_score - gap_open - 2) /
gap_extend`. The calls made for a visited shift are over the windows
`[max(dj - 20, 0), dj)` and `[dj1, min(dj1 + 20, subject_len))`. -/
theorem scan_ends_visits_shifts (ds : Diag_scores) (diags : List Diagonal_node) (d_idx : Nat)
    (subject_len gap_open gap_extend : Int) (fuel : Nat) (hge : 1 ≤ gap_extend)
    (hfuel : (ds.min_diag_score - gap_open).toNat < fuel) :
    (∀ s : Int, 1 ≤ s →
      (gap_open + s * gap_extend + 1 < ds.min_diag_score
        ↔ s ≤ (((ds.min_diag_score - gap_open - 2) / gap_extend).toNat : Int)))
    ∧ scan_ends recorder fuel gap_open gap_extend d_idx subject_len ⟨ds, diags, []⟩
      = some ⟨ds, diags,
          shifts_probes ds gap_open gap_extend (node_at diags d_idx).diag (node_at diags d_idx).j
            (node_at diags d_idx).subject_end subject_len
            ((ds.min_diag_score - gap_open - 2) / gap_extend).toNat 1⟩ := by
  refine ⟨admissible_shift_iff gap_open gap_extend ds.min_diag_score hge, ?_⟩
  have h := scan_ends_recorder fuel gap_open gap_extend d_idx subject_len ⟨ds, diags, []⟩ hge
    hfuel
  rw [h]
  simp

/-- C20, at `gap_open = 11`, `gap_extend = 1` and threshold 19: the shifts
visited are `1, ..., 6`. -/
theorem scan_ends_visits_shifts_witness :
    (∀ s : Int, 1 ≤ s → (11 + s * 1 + 1 < 19 ↔ s ≤ ((6 : Nat) : Int)))
    ∧ scan_ends recorder 9 11 1 0 40
        ⟨scanned_session 4 (fun _ => 9) 40 false, [⟨25, 20, 10, 50⟩], []⟩
      = some ⟨scanned_session 4 (fun _ => 9) 40 false, [⟨25, 20, 10, 50⟩],
          shifts_probes (scanned_session 4 (fun _ => 9) 40 false) 11 1 5 20 30 40 6 1⟩ :=
  scan_ends_visits_shifts (scanned_session 4 (fun _ => 9) 40 false) [⟨25, 20, 10, 50⟩] 0 40 11 1
    9 (by decide) (by decide)

theorem mem_shift_probes (ds : Diag_scores) (dd dj dj1 subject_len shift min_score : Int)
    (p : Probe) (h : p ∈ shift_probes ds dd dj dj1 subject_len shift min_score) :
    p.cutoff = min_score ∧ ((ds.sv_max p.o).val : Int) ≥ min_score
      ∧ p.i = ds.i_begin + p.o ∧ p.j = ds.j_begin
      ∧ ((p.o = dd + shift - ds.d_begin ∧ dd + shift < ds.d_end)
        ∨ (p.o = dd - shift - ds.d_begin ∧ dd - shift ≥ ds.d_begin))
      ∧ ((p.j_begin = max (dj - 20) 0 ∧ p.j_end = dj)
        ∨ (p.j_begin = dj1 ∧ p.j_end = min (dj1 + 20) subject_len)) := by
  unfold shift_probes at h
  rcases List.mem_append.mp h with h | h
  · split_ifs at h with hc
    · simp only [List.mem_cons, List.mem_singleton, List.not_mem_nil, or_false] at h
      rcases h with h | h <;> subst h
      · exact ⟨rfl, hc.2, rfl, rfl, Or.inl ⟨rfl, hc.1⟩, Or.inl ⟨rfl, rfl⟩⟩
      · exact ⟨rfl, hc.2, rfl, rfl, Or.inl ⟨rfl, hc.1⟩, Or.inr ⟨rfl, rfl⟩⟩
    · exact absurd h (List.not_mem_nil _)
  · split_ifs at h with hc
    · simp only [List.mem_cons, List.mem_singleton, List.not_mem_nil, or_false] at h
      rcases h with h | h <;> subst h
      · exact ⟨rfl, hc.2, rfl, rfl, Or.inr ⟨rfl, hc.1⟩, Or.inl ⟨rfl, rfl⟩⟩
      · exact ⟨rfl, hc.2, rfl, rfl, Or.inr ⟨rfl, hc.1⟩, Or.inr ⟨rfl, rfl⟩⟩
    · exact absurd h (List.not_mem_nil _)

theorem mem_shifts_probes (ds : Diag_scores) (gap_open gap_extend dd dj dj1 subject_len : Int)
    (p : Probe) (n : Nat) : ∀ s : Int,
    p ∈ shifts_probes ds gap_open gap_extend dd dj dj1 subject_len n s →
    ∃ t : Int, s ≤ t ∧ t < s + n
      ∧ p ∈ shift_probes ds dd dj dj1 subject_len t (gap_open + t * gap_extend + 1) := by
  induction n with
  | zero => intro s h; exact absurd h (List.not_mem_nil _)
  | succ n ih =>
    intro s h
    unfold shifts_probes at h
    rcases List.mem_append.mp h with h | h
    · exact ⟨s, le_refl _, by push_cast; omega, h⟩
    · obtain ⟨t, t1, t2, t3⟩ := ih (s + 1) h
      exact ⟨t, by omega, by push_cast; omega, t3⟩

/-- C12, as `scan_ends` makes its calls. For every segment, every call of the end
scan, on the diagonal at `+shift` or at `-shift` and over the window before
the start of the segment or after its end, is made with the cutoff
`min_score = gap_open + shift * gap_extend + 1` of its shift, which is below
`min_diag_score`, and only when the overall maximum of the probed diagonal
reaches that cutoff. -/
theorem scan_ends_cutoffs (ds : Diag_scores) (diags : List Diagonal_node) (d_idx : Nat)
    (subject_len gap_open gap_extend : Int) (fuel : Nat) (hge : 1 ≤ gap_extend)
    (hfuel : (ds.min_diag_score - gap_open).toNat < fuel) :
    ∃ probes, scan_ends recorder fuel gap_open gap_extend d_idx subject_len ⟨ds, diags, []⟩
        = some ⟨ds, diags, probes⟩
      ∧ ∀ p ∈ probes, ∃ shift : Int, 1 ≤ shift
          ∧ p.cutoff = gap_open + shift * gap_extend + 1 ∧ p.cutoff < ds.min_diag_score
          ∧ ((ds.sv_max p.o).val : Int) ≥ p.cutoff
          ∧ (p.o = (node_at diags d_idx).diag + shift - ds.d_begin
            ∨ p.o = (node_at diags d_idx).diag - shift - ds.d_begin)
          ∧ ((p.j_begin = max ((node_at diags d_idx).j - 20) 0
              ∧ p.j_end = (node_at diags d_idx).j)
            ∨ (p.j_begin = (node_at diags d_idx).subject_end
              ∧ p.j_end = min ((node_at diags d_idx).subject_end + 20) subject_len)) := by
  have h := scan_ends_recorder fuel gap_open gap_extend d_idx subject_len ⟨ds, diags, []⟩ hge
    hfuel
  dsimp only at h
  rw [List.nil_append] at h
  refine ⟨_, h, ?_⟩
  intro p hp
  obtain ⟨t, t1, t2, t3⟩ := mem_shifts_probes ds gap_open gap_extend _ _ _ subject_len p _ 1 hp
  obtain ⟨m1, m2, _, _, m5, m6⟩ := mem_shift_probes ds _ _ _ subject_len t _ p t3
  have hadm := (admissible_shift_iff gap_open gap_extend ds.min_diag_score hge t t1).mpr
    (by omega)
  refine ⟨t, t1, m1, by rw [m1]; exact hadm, by rw [m1]; exact m2, ?_, m6⟩
  rcases m5 with m5 | m5
  · exact Or.inl m5.1
  · exact Or.inr m5.1

/-- C12 as amended, at `gap_open = 11`, `gap_extend = 1` and threshold 19. -/
theorem scan_ends_cutoffs_witness :
    ∃ probes, scan_ends recorder 9 11 1 0 40
        ⟨scanned_session 4 (fun _ => 9) 40 false, [⟨25, 20, 10, 50⟩], []⟩
        = some ⟨scanned_session 4 (fun _ => 9) 40 false, [⟨25, 20, 10, 50⟩], probes⟩
      ∧ ∀ p ∈ probes, ∃ shift : Int, 1 ≤ shift
          ∧ p.cutoff = 11 + shift * 1 + 1
          ∧ p.cutoff < (scanned_session 4 (fun _ => 9) 40 false).min_diag_score
          ∧ (((scanned_session 4 (fun _ => 9) 40 false).sv_max p.o).val : Int) ≥ p.cutoff
          ∧ (p.o = (node_at [⟨25, 20, 10, 50⟩] 0).diag + shift
                - (scanned_session 4 (fun _ => 9) 40 false).d_begin
            ∨ p.o = (node_at [⟨25, 20, 10, 50⟩] 0).diag - shift
                - (scanned_session 4 (fun _ => 9) 40 false).d_begin)
          ∧ ((p.j_begin = max ((node_at [⟨25, 20, 10, 50⟩] 0).j - 20) 0
              ∧ p.j_end = (node_at [⟨25, 20, 10, 50⟩] 0).j)
            ∨ (p.j_begin = (node_at [⟨25, 20, 10, 50⟩] 0).subject_end
              ∧ p.j_end = min ((node_at [⟨25, 20, 10, 50⟩] 0).subject_end + 20) 40)) :=
  scan_ends_cutoffs (scanned_session 4 (fun _ => 9) 40 false) [⟨25, 20, 10, 50⟩] 0 40 11 1 9
    (by decide) (by decide)

/-- C12 as stated fails: with `gap_open = 11`, `gap_extend = 1`, the thresholds
19 and 13, and a segment on diagonal 5, the end scan makes its calls for the
shifts 2 to 6 with the cutoffs 14 to 18, not with `min_low_score = 13`. -/
theorem scan_ends_cutoff_not_low_score :
    (scan_ends recorder 9 11 1 0 40
        ⟨scanned_session 4 (fun _ => 9) 40 false, [⟨25, 20, 10, 50⟩], []⟩).map
        (fun t => t.probes.map (fun p => (p.o, p.cutoff)))
      = some [(6, 13), (6, 13), (4, 13), (4, 13), (7, 14), (7, 14), (3, 14), (3, 14), (8, 15),
          (8, 15), (2, 15), (2, 15), (9, 16), (9, 16), (1, 16), (1, 16), (10, 17), (10, 17),
          (0, 17), (0, 17), (11, 18), (11, 18)]
    ∧ (scanned_session 4 (fun _ => 9) 40 false).min_low_score = 13 := by
  constructor <;> decide

/-! ## Vicinity scan -/

theorem vicinity_probe_recorder (diag j0 j1 : Int) (st : Trace) :
    ∃ fresh, vicinity_probe recorder diag j0 j1 st = some { st with probes := st.probes ++ fresh }
      ∧ ∀ p ∈ fresh, p = ⟨st.ds.i_begin + (diag - st.ds.d_begin), st.ds.j_begin,
            diag - st.ds.d_begin, j0, j1, st.ds.min_low_score⟩
          ∧ ((st.ds.sv_max (diag - st.ds.d_begin)).val : Int) ≥ st.ds.min_low_score := by
  unfold vicinity_probe recorder
  simp only []
  split_ifs with h
  · exact ⟨[_], rfl, fun p hp => ⟨List.mem_singleton.mp hp, h⟩⟩
  · exact ⟨[], by simp, fun p hp => absurd hp (List.not_mem_nil _)⟩

/-- The recorded calls of a loop of the vicinity scan that goes up: each is on
a diagonal of `[diag, diag + n)`, over `[j0, j1)`, with cutoff
`min_low_score`. -/
theorem vicinity_up_recorder (j0 j1 : Int) (n : Nat) : ∀ (diag : Int) (st : Trace),
    ∃ fresh, vicinity_up recorder j0 j1 n diag st = some { st with probes := st.probes ++ fresh }
      ∧ ∀ p ∈ fresh, ∃ g, diag ≤ g ∧ g < diag + n
          ∧ p = ⟨st.ds.i_begin + (g - st.ds.d_begin), st.ds.j_begin, g - st.ds.d_begin, j0, j1,
              st.ds.min_low_score⟩
          ∧ ((st.ds.sv_max (g - st.ds.d_begin)).val : Int) ≥ st.ds.min_low_score := by
  induction n with
  | zero =>
    intro diag st
    exact ⟨[], by simp [vicinity_up], fun p hp => absurd hp (List.not_mem_nil _)⟩
  | succ n ih =>
    intro diag st
    obtain ⟨f1, h1, h2⟩ := vicinity_probe_recorder diag j0 j1 st
    obtain ⟨f2, h3, h4⟩ := ih (diag + 1) { st with probes := st.probes ++ f1 }
    refine ⟨f1 ++ f2, ?_, ?_⟩
    · unfold vicinity_up
      rw [h1]
      simp only []
      rw [h3, List.append_assoc]
    · intro p hp
      rcases List.mem_append.mp hp with hp | hp
      · obtain ⟨e1, e2⟩ := h2 p hp
        exact ⟨diag, le_refl _, by push_cast; omega, e1, e2⟩
      · obtain ⟨g, g1, g2, g3, g4⟩ := h4 p hp
        exact ⟨g, by omega, by push_cast; omega, g3, g4⟩

/-- The recorded calls of the loop of the vicinity scan that goes down: each is
on a diagonal of `(diag - n, diag]`, with cutoff `min_low_score`. -/
theorem vicinity_down_recorder (l : Int) (n : Nat) : ∀ (diag j : Int) (st : Trace),
    ∃ fresh, vicinity_down recorder l n diag j st = some { st with probes := st.probes ++ fresh }
      ∧ ∀ p ∈ fresh, ∃ g, diag - n < g ∧ g ≤ diag
          ∧ p = ⟨st.ds.i_begin + (g - st.ds.d_begin), st.ds.j_begin, g - st.ds.d_begin,
              j + (diag - g), j + (diag - g) + l, st.ds.min_low_score⟩
          ∧ ((st.ds.sv_max (g - st.ds.d_begin)).val : Int) ≥ st.ds.min_low_score := by
  induction n with
  | zero =>
    intro diag j st
    exact ⟨[], by simp [vicinity_down], fun p hp => absurd hp (List.not_mem_nil _)⟩
  | succ n ih =>
    intro diag j st
    obtain ⟨f1, h1, h2⟩ := vicinity_probe_recorder diag j (j + l) st
    obtain ⟨f2, h3, h4⟩ := ih (diag - 1) (j + 1) { st with probes := st.probes ++ f1 }
    refine ⟨f1 ++ f2, ?_, ?_⟩
    · unfold vicinity_down
      rw [h1]
      simp only []
      rw [h3, List.append_assoc]
    · intro p hp
      rcases List.mem_append.mp hp with hp | hp
      · obtain ⟨e1, e2⟩ := h2 p hp
        refine ⟨diag, by push_cast; omega, le_refl _, ?_, e2⟩
        rw [e1, sub_self, add_zero]
      · obtain ⟨g, g1, g2, g3, g4⟩ := h4 p hp
        refine ⟨g, by push_cast at g1 ⊢; omega, by omega, ?_, g4⟩
        rw [g3]
        have e : j + 1 + (diag - 1 - g) = j + (diag - g) := by ring
        rw [e]

/-- The recorded vicinity scan: the session and the segment list are left as
they are, nothing is recorded when the two diagonals are equal, and every call
recorded satisfies `VicinityProbe`. -/
theorem scan_vicinity_recorder (d_idx e_idx : Nat) (st : Trace) :
    ∃ fresh, scan_vicinity recorder d_idx e_idx st = some { st with probes := st.probes ++ fresh }
      ∧ ((node_at st.diags d_idx).diag = (node_at st.diags e_idx).diag → fresh = [])
      ∧ ∀ p ∈ fresh, VicinityProbe st.ds (node_at st.diags d_idx).diag
          (node_at st.diags e_idx).diag p := by
  unfold scan_vicinity
  simp only []
  have hrd : recorder.diags st = st.diags := rfl
  rw [hrd]
  generalize (node_at st.diags d_idx).diag = dd
  generalize (node_at st.diags e_idx).diag = de
  by_cases hpos : dd - de > 0
  · rw [if_pos hpos]
    obtain ⟨f1, h1, h2⟩ := vicinity_up_recorder
      (min (node_at st.diags e_idx).subject_end (node_at st.diags d_idx).j)
      (min (max (node_at st.diags d_idx).j (node_at st.diags e_idx).subject_end)
        (node_at st.diags d_idx).subject_end) (dd - (de + 1)).toNat (de + 1) st
    rw [h1]
    simp only []
    have hrs : recorder.ds { st with probes := st.probes ++ f1 } = st.ds := rfl
    rw [hrs]
    obtain ⟨f2, h3, h4⟩ := vicinity_up_recorder
      (min (node_at st.diags e_idx).subject_end (node_at st.diags d_idx).j)
      (min (max (node_at st.diags d_idx).j (node_at st.diags e_idx).subject_end)
        (node_at st.diags d_idx).subject_end)
      (de - max (de - reverse_diags) st.ds.d_begin).toNat (max (de - reverse_diags) st.ds.d_begin)
      { st with probes := st.probes ++ f1 }
    rw [h3]
    refine ⟨f1 ++ f2, by rw [List.append_assoc], fun h => by omega, ?_⟩
    intro p hp
    rcases List.mem_append.mp hp with hp | hp
    · obtain ⟨g, g1, g2, g3, g4⟩ := h2 p hp
      subst g3
      exact ⟨rfl, g4, rfl, rfl, g, rfl, Or.inl ⟨by omega, by omega⟩⟩
    · obtain ⟨g, g1, g2, g3, g4⟩ := h4 p hp
      subst g3
      unfold reverse_diags at g1 g2
      exact ⟨rfl, g4, rfl, rfl, g, rfl, Or.inr (Or.inl ⟨by omega, by omega, by omega, by omega⟩)⟩
  · rw [if_neg hpos]
    by_cases hneg : dd - de < 0
    · rw [if_pos hneg]
      have hgen : ∀ (j0 l : Int), ∃ fresh,
          vicinity_sweep recorder dd de j0 l st = some { st with probes := st.probes ++ fresh }
          ∧ ∀ p ∈ fresh, VicinityProbe st.ds dd de p := by
        intro j0 l
        obtain ⟨f1, h1, h2⟩ := vicinity_down_recorder l (de - 1 - dd).toNat (de - 1) j0 st
        unfold vicinity_sweep
        rw [h1]
        simp only []
        have hrs : recorder.ds { st with probes := st.probes ++ f1 } = st.ds := rfl
        rw [hrs]
        obtain ⟨f2, h3, h4⟩ := vicinity_up_recorder j0 (j0 + l)
          (min (de + reverse_diags + 1) st.ds.d_end - (de + 1)).toNat (de + 1)
          { st with probes := st.probes ++ f1 }
        rw [h3]
        refine ⟨f1 ++ f2, by rw [List.append_assoc], ?_⟩
        intro p hp
        rcases List.mem_append.mp hp with hp | hp
        · obtain ⟨g, g1, g2, g3, g4⟩ := h2 p hp
          subst g3
          exact ⟨rfl, g4, rfl, rfl, g, rfl, Or.inl ⟨by omega, by omega⟩⟩
        · obtain ⟨g, g1, g2, g3, g4⟩ := h4 p hp
          subst g3
          unfold reverse_diags at g2
          exact ⟨rfl, g4, rfl, rfl, g, rfl,
            Or.inr (Or.inr ⟨by omega, by omega, by omega, by omega⟩)⟩
      split_ifs with c1 c2 c3
      · obtain ⟨fresh, e1, e2⟩ := hgen (node_at st.diags e_idx).subject_end
          ((node_at st.diags d_idx).j + (dd - de) - (node_at st.diags e_idx).subject_end)
        refine ⟨fresh, ?_, fun h => by omega, e2⟩
        dsimp only
        exact e1
      · obtain ⟨fresh, e1, e2⟩ := hgen ((node_at st.diags d_idx).j + (dd - de))
          (min ((node_at st.diags e_idx).subject_end - ((node_at st.diags d_idx).j + (dd - de)))
            (node_at st.diags d_idx).len)
        refine ⟨fresh, ?_, fun h => by omega, e2⟩
        dsimp only
        exact e1
      · exact ⟨[], by simp, fun _ => rfl, fun p hp => absurd hp (List.not_mem_nil _)⟩
      · obtain ⟨fresh, e1, e2⟩ := hgen (node_at st.diags e_idx).j
          (min ((node_at st.diags d_idx).subject_end + (dd - de) - (node_at st.diags e_idx).j)
            (node_at st.diags e_idx).len)
        refine ⟨fresh, ?_, fun h => by omega, e2⟩
        dsimp only
        exact e1
    · rw [if_neg hneg]
      exact ⟨[], by simp, fun _ => rfl, fun p hp => absurd hp (List.not_mem_nil _)⟩

/-- C19. For every pair of segments, on the diagonals `dd` (current) and `de`
(window entry), every call that `scan_vicinity` makes is gated by
`sv_max[o] >= min_low_score`, uses the cutoff `min_low_score`, and probes a
diagonal that lies strictly between `dd` and `de` or is one of the two
diagonals beyond `de` on the side away from `dd`, clipped to
`[d_begin, d_end)`; when `dd = de` no call is made. -/
theorem scan_vicinity_probes (ds : Diag_scores) (diags : List Diagonal_node)
    (d_idx e_idx : Nat) :
    ∃ probes, scan_vicinity recorder d_idx e_idx ⟨ds, diags, []⟩ = some ⟨ds, diags, probes⟩
      ∧ ((node_at diags d_idx).diag = (node_at diags e_idx).diag → probes = [])
      ∧ ∀ p ∈ probes, VicinityProbe ds (node_at diags d_idx).diag (node_at diags e_idx).diag p := by
  obtain ⟨fresh, h1, h2, h3⟩ := scan_vicinity_recorder d_idx e_idx ⟨ds, diags, []⟩
  dsimp only at h1 h2 h3
  rw [List.nil_append] at h1
  exact ⟨fresh, h1, h2, h3⟩

/-! ## Linking pass -/

theorem window_evict_eq_filter (d : Diagonal_node) (w : Window)
    (hs : w.Pairwise (fun a b => a.1 ≤ b.1)) :
    window_evict d w = w.filter (fun e => decide (d.j - e.1 ≤ max_dist)) := by
  induction w with
  | nil => rfl
  | cons e w ih =>
    rw [List.pairwise_cons] at hs
    unfold window_evict
    by_cases h : d.j - e.1 > max_dist
    · rw [if_pos h, ih hs.2, List.filter_cons_of_neg]
      simp only [decide_eq_true_eq]
      omega
    · rw [if_neg h]
      symm
      rw [List.filter_eq_self]
      intro x hx
      simp only [decide_eq_true_eq]
      rcases List.mem_cons.mp hx with hx | hx
      · subst hx
        omega
      · have := hs.1 x hx
        omega

theorem mem_window_insert (key : Int) (node : Nat) (w : Window) (x : Int × Nat) :
    x ∈ window_insert key node w ↔ x = (key, node) ∨ x ∈ w := by
  induction w with
  | nil => simp [window_insert]
  | cons e w ih =>
    unfold window_insert
    split_ifs with h
    · rw [List.mem_cons, ih, List.mem_cons]
      tauto
    · rw [List.mem_cons]

theorem window_insert_sorted (key : Int) (node : Nat) (w : Window)
    (hs : w.Pairwise (fun a b => a.1 ≤ b.1)) :
    (window_insert key node w).Pairwise (fun a b => a.1 ≤ b.1) := by
  induction w with
  | nil => simp [window_insert]
  | cons e w ih =>
    rw [List.pairwise_cons] at hs
    unfold window_insert
    split_ifs with h
    · rw [List.pairwise_cons]
      refine ⟨?_, ih hs.2⟩
      intro x hx
      rcases (mem_window_insert key node w x).mp hx with hx | hx
      · rw [hx]
        exact h
      · exact hs.1 x hx
    · rw [List.pairwise_cons]
      refine ⟨?_, List.pairwise_cons.mpr hs⟩
      intro x hx
      rcases List.mem_cons.mp hx with hx | hx
      · rw [hx]
        dsimp only
        omega
      · have := hs.1 x hx
        dsimp only
        omega

theorem link_window_recorder (node : Nat) (w : Window) : ∀ (st : Trace),
    ∃ fresh, link_window recorder node w st = some { st with probes := st.probes ++ fresh } := by
  induction w with
  | nil =>
    intro st
    exact ⟨[], by simp [link_window]⟩
  | cons e w ih =>
    intro st
    unfold link_window
    split_ifs with h
    · exact ih st
    · obtain ⟨f1, h1, _⟩ := scan_vicinity_recorder node e.2 st
      rw [h1]
      obtain ⟨f2, h2⟩ := ih { st with probes := st.probes ++ f1 }
      exact ⟨f1 ++ f2, by simp only []; rw [h2, List.append_assoc]⟩

/-- One pass through the loop body of the linking pass, recorded: a segment
below `min_diag_score` is skipped; for another the window loses the entries
whose key lies more than `max_dist` before the subject start of the segment,
the vicinity scan runs over the entries that are left, and the segment is
inserted under its subject end. -/
theorem link_node_recorder (fuel : Nat) (gap_open gap_extend : Int) (node : Nat) (st : Trace)
    (w : Window) (hs : w.Pairwise (fun a b => a.1 ≤ b.1)) (hge : 1 ≤ gap_extend)
    (hfuel : (st.ds.min_diag_score - gap_open).toNat < fuel) :
    ∃ fresh, link_node recorder fuel gap_open gap_extend node st w
      = some ({ st with probes := st.probes ++ fresh },
          if (node_at st.diags node).score < st.ds.min_diag_score then w
          else window_insert (node_at st.diags node).subject_end node
            (w.filter (fun e => decide ((node_at st.diags node).j - e.1 ≤ max_dist)))) := by
  unfold link_node
  have hrd : recorder.diags st = st.diags := rfl
  have hrs : recorder.ds st = st.ds := rfl
  rw [hrd, hrs]
  by_cases h : (node_at st.diags node).score < st.ds.min_diag_score
  · rw [if_pos h, if_pos h]
    exact ⟨[], by simp⟩
  · rw [if_neg h, if_neg h, scan_ends_recorder fuel gap_open gap_extend node st.ds.slen st hge hfuel]
    simp only []
    generalize shifts_probes st.ds gap_open gap_extend (node_at st.diags node).diag
      (node_at st.diags node).j (node_at st.diags node).subject_end st.ds.slen
      ((st.ds.min_diag_score - gap_open - 2) / gap_extend).toNat 1 = f1
    have hrd1 : recorder.diags { st with probes := st.probes ++ f1 } = st.diags := rfl
    rw [hrd1, window_evict_eq_filter _ w hs]
    obtain ⟨f2, h2⟩ := link_window_recorder node
      (w.filter (fun e => decide ((node_at st.diags node).j - e.1 ≤ max_dist)))
      { st with probes := st.probes ++ f1 }
    rw [h2]
    exact ⟨f1 ++ f2, by simp only []; rw [List.append_assoc]; rfl⟩

/-- The window of the linking pass after the nodes `[node, node + n)`: it is in
the order of its keys, and every entry is an earlier node under its subject
end. -/
theorem link_nodes_recorder (fuel : Nat) (gap_open gap_extend : Int) (hge : 1 ≤ gap_extend)
    (n : Nat) : ∀ (node : Nat) (st : Trace) (w : Window),
    (st.ds.min_diag_score - gap_open).toNat < fuel →
    w.Pairwise (fun a b => a.1 ≤ b.1) →
    (∀ e ∈ w, e.2 < node ∧ e.1 = (node_at st.diags e.2).subject_end) →
    ∃ fresh w1, link_nodes recorder fuel gap_open gap_extend n node st w
        = some ({ st with probes := st.probes ++ fresh }, w1)
      ∧ w1.Pairwise (fun a b => a.1 ≤ b.1)
      ∧ ∀ e ∈ w1, e.2 < node + n ∧ e.1 = (node_at st.diags e.2).subject_end := by
  induction n with
  | zero =>
    intro node st w _ hs hw
    exact ⟨[], w, by simp [link_nodes], hs, hw⟩
  | succ n ih =>
    intro node st w hfuel hs hw
    obtain ⟨f1, h1⟩ := link_node_recorder fuel gap_open gap_extend node st w hs hge hfuel
    unfold link_nodes
    rw [h1]
    simp only []
    have hs1 : (if (node_at st.diags node).score < st.ds.min_diag_score then w
          else window_insert (node_at st.diags node).subject_end node
            (w.filter (fun e => decide ((node_at st.diags node).j - e.1 ≤ max_dist)))).Pairwise
        (fun a b => a.1 ≤ b.1) := by
      split_ifs
      · exact hs
      · exact window_insert_sorted _ _ _ (List.Pairwise.filter _ hs)
    have hw1 : ∀ e ∈ (if (node_at st.diags node).score < st.ds.min_diag_score then w
          else window_insert (node_at st.diags node).subject_end node
            (w.filter (fun e => decide ((node_at st.diags node).j - e.1 ≤ max_dist)))),
        e.2 < node + 1 ∧ e.1 = (node_at st.diags e.2).subject_end := by
      intro e he
      split_ifs at he
      · have := hw e he
        exact ⟨by omega, this.2⟩
      · rcases (mem_window_insert _ _ _ e).mp he with he | he
        · rw [he]
          exact ⟨Nat.lt_succ_self _, rfl⟩
        · have := hw e (List.mem_of_mem_filter he)
          exact ⟨by omega, this.2⟩
    obtain ⟨f2, w2, h2, h3, h4⟩ := ih (node + 1) { st with probes := st.probes ++ f1 } _ hfuel
      hs1 hw1
    refine ⟨f1 ++ f2, w2, by rw [h2, List.append_assoc], h3, ?_⟩
    intro e he
    have := h4 e he
    exact ⟨by omega, this.2⟩

/-- C11, amended. In the linking pass, started with an empty window, the window
`w` that the pass holds when it comes to the segment `n` is in the order of its
keys and every entry is an earlier segment under its subject end; for a segment
`n` that reaches `min_diag_score`, the eviction step removes exactly the entries
whose key `e` satisfies `j_cur - e > 60`, with `j_cur` the subject START of the
segment `n`, the entries left are the ones offered to the vicinity scan, each
with its subject end at most 60 before `j_cur`, and the segment is inserted
under its subject end afterwards. -/
theorem link_pass_eviction (ds : Diag_scores) (diags : List Diagonal_node) (fuel : Nat)
    (gap_open gap_extend : Int) (n : Nat) (hge : 1 ≤ gap_extend)
    (hfuel : (ds.min_diag_score - gap_open).toNat < fuel)
    (hscore : ds.min_diag_score ≤ (node_at diags n).score) :
    ∃ probes w,
      link_nodes recorder fuel gap_open gap_extend n 0 ⟨ds, diags, []⟩ [] = some (⟨ds, diags, probes⟩, w)
      ∧ w.Pairwise (fun a b => a.1 ≤ b.1)
      ∧ (∀ e ∈ w, e.2 < n ∧ e.1 = (node_at diags e.2).subject_end)
      ∧ window_evict (node_at diags n) w
          = w.filter (fun e => decide (¬ (node_at diags n).j - e.1 > 60))
      ∧ (∀ e ∈ window_evict (node_at diags n) w, (node_at diags n).j - e.1 ≤ 60)
      ∧ ∃ probes1 probes2,
          link_window recorder n (window_evict (node_at diags n) w) ⟨ds, diags, probes1⟩
            = some ⟨ds, diags, probes2⟩
          ∧ link_node recorder fuel gap_open gap_extend n ⟨ds, diags, probes⟩ w
            = some (⟨ds, diags, probes2⟩,
                window_insert (node_at diags n).subject_end n
                  (window_evict (node_at diags n) w)) := by
  obtain ⟨fresh, w, h1, h2, h3⟩ := link_nodes_recorder fuel gap_open gap_extend hge n 0
    ⟨ds, diags, []⟩ [] hfuel List.Pairwise.nil (fun e he => absurd he (List.not_mem_nil _))
  dsimp only at h1 h3
  rw [List.nil_append] at h1
  have hev := window_evict_eq_filter (node_at diags n) w h2
  have hfil : (fun e : Int × Nat => decide ((node_at diags n).j - e.1 ≤ max_dist))
      = (fun e : Int × Nat => decide (¬ (node_at diags n).j - e.1 > 60)) := by
    funext e
    unfold max_dist
    simp only [not_lt, gt_iff_lt]
  refine ⟨fresh, w, h1, h2, ?_, ?_, ?_, ?_⟩
  · intro e he
    have := h3 e he
    exact ⟨by omega, this.2⟩
  · rw [hev, hfil]
  · intro e he
    rw [hev] at he
    have := (List.mem_filter.mp he).2
    simp only [decide_eq_true_eq] at this
    unfold max_dist at this
    exact this
  · have hse := scan_ends_recorder fuel gap_open gap_extend n ds.slen ⟨ds, diags, fresh⟩ hge hfuel
    dsimp only at hse
    obtain ⟨f2, hf2⟩ := link_window_recorder n (window_evict (node_at diags n) w)
      ⟨ds, diags, fresh ++ shifts_probes ds gap_open gap_extend (node_at diags n).diag
        (node_at diags n).j (node_at diags n).subject_end ds.slen
        ((ds.min_diag_score - gap_open - 2) / gap_extend).toNat 1⟩
    dsimp only at hf2
    refine ⟨_, _, hf2, ?_⟩
    unfold link_node
    have hrd : recorder.diags ⟨ds, diags, fresh⟩ = diags := rfl
    have hrs : recorder.ds ⟨ds, diags, fresh⟩ = ds := rfl
    rw [hrd, hrs, if_neg (by omega), hse]
    simp only []
    have hrd1 : ∀ pr, recorder.diags ⟨ds, diags, pr⟩ = diags := fun _ => rfl
    rw [hrd1, hf2]
    simp only []
    rw [hrd1]

theorem link_pass_eviction_witness :
    ∃ probes w,
      link_nodes recorder 9 11 1 1 0 ⟨(scanned_session 4 (fun _ => 9) 80 false), [⟨2, 0, 10, 50⟩, ⟨65, 60, 20, 50⟩], []⟩ [] = some (⟨(scanned_session 4 (fun _ => 9) 80 false), [⟨2, 0, 10, 50⟩, ⟨65, 60, 20, 50⟩], probes⟩, w)
      ∧ w.Pairwise (fun a b => a.1 ≤ b.1)
      ∧ (∀ e ∈ w, e.2 < 1 ∧ e.1 = (node_at [⟨2, 0, 10, 50⟩, ⟨65, 60, 20, 50⟩] e.2).subject_end)
      ∧ window_evict (node_at [⟨2, 0, 10, 50⟩, ⟨65, 60, 20, 50⟩] 1) w
          = w.filter (fun e => decide (¬ (node_at [⟨2, 0, 10, 50⟩, ⟨65, 60, 20, 50⟩] 1).j - e.1 > 60))
      ∧ (∀ e ∈ window_evict (node_at [⟨2, 0, 10, 50⟩, ⟨65, 60, 20, 50⟩] 1) w, (node_at [⟨2, 0, 10, 50⟩, ⟨65, 60, 20, 50⟩] 1).j - e.1 ≤ 60)
      ∧ ∃ probes1 probes2,
          link_window recorder 1 (window_evict (node_at [⟨2, 0, 10, 50⟩, ⟨65, 60, 20, 50⟩] 1) w) ⟨(scanned_session 4 (fun _ => 9) 80 false), [⟨2, 0, 10, 50⟩, ⟨65, 60, 20, 50⟩], probes1⟩
            = some ⟨(scanned_session 4 (fun _ => 9) 80 false), [⟨2, 0, 10, 50⟩, ⟨65, 60, 20, 50⟩], probes2⟩
          ∧ link_node recorder 9 11 1 1 ⟨(scanned_session 4 (fun _ => 9) 80 false), [⟨2, 0, 10, 50⟩, ⟨65, 60, 20, 50⟩], probes⟩ w
            = some (⟨(scanned_session 4 (fun _ => 9) 80 false), [⟨2, 0, 10, 50⟩, ⟨65, 60, 20, 50⟩], probes2⟩,
                window_insert (node_at [⟨2, 0, 10, 50⟩, ⟨65, 60, 20, 50⟩] 1).subject_end 1 (window_evict (node_at [⟨2, 0, 10, 50⟩, ⟨65, 60, 20, 50⟩] 1) w)) :=
  link_pass_eviction (scanned_session 4 (fun _ => 9) 80 false) [⟨2, 0, 10, 50⟩, ⟨65, 60, 20, 50⟩] 9 11 1 1 (by decide) (by decide) (by decide)

/-- C11 as stated fails: with the segments 0 (subject range `[0, 10)`) and 1
(subject range `[60, 80)`), both above `min_diag_score`, the window holds the
entry `(10, 0)` when segment 1 is processed; the subject end of segment 1 is
`e_cur = 80` and `e_cur - 10 = 70 > 60`, yet the eviction step keeps the entry
(the subject start is 60 and `60 - 10 <= 60`), the vicinity scan is run for it
(calls on the diagonals 3, 4, 0, 1), and it is still in the window after the
segment is inserted. -/
theorem link_pass_keeps_distant_entry :
    (link_nodes recorder 9 11 1 1 0 ⟨(scanned_session 4 (fun _ => 9) 80 false), [⟨2, 0, 10, 50⟩, ⟨65, 60, 20, 50⟩], []⟩ []).map (fun r => r.2) = some [(10, 0)]
    ∧ (node_at [⟨2, 0, 10, 50⟩, ⟨65, 60, 20, 50⟩] 1).subject_end - 10 > 60
    ∧ window_evict (node_at [⟨2, 0, 10, 50⟩, ⟨65, 60, 20, 50⟩] 1) [(10, 0)] = [(10, 0)]
    ∧ (link_window recorder 1 (window_evict (node_at [⟨2, 0, 10, 50⟩, ⟨65, 60, 20, 50⟩] 1) [(10, 0)]) ⟨(scanned_session 4 (fun _ => 9) 80 false), [⟨2, 0, 10, 50⟩, ⟨65, 60, 20, 50⟩], []⟩).map
        (fun r => r.probes.map (fun p => p.o)) = some [3, 4, 0, 1]
    ∧ (link_nodes recorder 9 11 1 2 0 ⟨(scanned_session 4 (fun _ => 9) 80 false), [⟨2, 0, 10, 50⟩, ⟨65, 60, 20, 50⟩], []⟩ []).map (fun r => r.2)
        = some [(10, 0), (80, 1)] := by
  refine ⟨?_, ?_, ?_, ?_, ?_⟩ <;> decide

/-! ## Range form: peak selection and termination -/

/-- C16, amended. In a pass of the loop of the range form of `get_diag` over
the range `[begin, end)`, the peak `p1` is the first position of the maximum
raw value over the part of the range that lies in the LAST block of the range,
`[max begin lo, end)` with `lo` the multiple of `block_len` with
`lo < end <= lo + block_len`; the blocks of the range before it are not
looked at. -/
theorem get_diag_p1_last_block (d : Iterator) (begin block_len end_ : Int) (hbl : 1 ≤ block_len)
    (hb : 0 ≤ begin) (h : begin < end_) :
    ∃ lo, lo % block_len = 0 ∧ lo < end_ ∧ end_ ≤ lo + block_len
      ∧ max begin lo ≤ get_diag_p1 d begin block_len end_
      ∧ get_diag_p1 d begin block_len end_ < end_
      ∧ (∀ k, max begin lo ≤ k → k < end_ → d.rd k ≤ d.rd (get_diag_p1 d begin block_len end_))
      ∧ (∀ k, max begin lo ≤ k → k < get_diag_p1 d begin block_len end_ →
          d.rd k < d.rd (get_diag_p1 d begin block_len end_)) := by
  unfold get_diag_p1
  simp only []
  have hm : Int.tmod end_ block_len = end_ % block_len :=
    Int.tmod_eq_emod (by omega) (by omega)
  have h1 : 0 ≤ end_ % block_len := Int.emod_nonneg _ (by omega)
  have h2 : end_ % block_len < block_len := Int.emod_lt_of_pos _ (by omega)
  have h3 : end_ % block_len + block_len * (end_ / block_len) = end_ := Int.emod_add_ediv _ _
  rw [hm]
  refine ⟨end_ - (if end_ % block_len = 0 then block_len else end_ % block_len), ?_, ?_, ?_, ?_⟩
  · split_ifs with h0
    · have e : end_ - block_len = block_len * (end_ / block_len - 1) := by
        rw [mul_sub, mul_one]; omega
      rw [e]
      exact Int.mul_emod_right _ _
    · have e : end_ - end_ % block_len = block_len * (end_ / block_len) := by omega
      rw [e]
      exact Int.mul_emod_right _ _
  · split_ifs with h0 <;> omega
  · split_ifs with h0 <;> omega
  · have hlo : max begin (end_ - (if end_ % block_len = 0 then block_len else end_ % block_len))
        < end_ := by
      split_ifs with h0
      · exact max_lt h (by omega)
      · exact max_lt h (by omega)
    exact get_max_idx_spec d _ end_ hlo

theorem get_diag_p1_last_block_witness :
    ∃ lo, lo % 16 = 0 ∧ lo < 29 ∧ 29 ≤ lo + 16
      ∧ max 0 lo ≤ get_diag_p1 two_block_row 0 16 29
      ∧ get_diag_p1 two_block_row 0 16 29 < 29
      ∧ (∀ k, max 0 lo ≤ k → k < 29 →
          two_block_row.rd k ≤ two_block_row.rd (get_diag_p1 two_block_row 0 16 29))
      ∧ (∀ k, max 0 lo ≤ k → k < get_diag_p1 two_block_row 0 16 29 →
          two_block_row.rd k < two_block_row.rd (get_diag_p1 two_block_row 0 16 29)) :=
  get_diag_p1_last_block two_block_row 0 16 29 (by decide) (by decide) (by decide)

/-- C16 as stated fails: on the row `two_block_row` (20 at column 5, 1 at column
16, 30 at column 30, 0 elsewhere; block maxima 20 and 30, a run), with
`block_len = 16`, cutoff 19 and the range `[0, 32)`, the first pass takes the
peak 30 and shrinks the range to `[0, 29)`; the second pass selects `p1 = 16`,
where the raw value is 1, although the maximum over the current range
`[0, 29)` is 20, at column 5 in block 0. -/
theorem get_diag_p1_not_range_maximum :
    get_diag_p1 two_block_row 0 16 32 = 30
    ∧ (get_diag_range_step 0 0 two_block_row 0 0 0 16 19 30 ⟨32, INT_MAX, []⟩).end_ = 29
    ∧ get_diag_p1 two_block_row 0 16 29 = 16
    ∧ two_block_row.rd 16 = 1
    ∧ two_block_row.rd 5 = 20
    ∧ (0 : Int) ≤ 5 ∧ (5 : Int) < 29 := by
  refine ⟨?_, ?_, ?_, ?_, ?_, ?_, ?_⟩ <;> decide

/-- One pass of the loop of the range form, whatever the cutoff: the peak lies
in the range, the low point is not above the peak, the range end becomes the low
point, and `RangeRunInv` is kept. -/
theorem get_diag_range_step_run (i j : Int) (d : Iterator)
    (begin last d0 block_len cutoff best_score : Int) (diags0 : List Diagonal_node)
    (hbl : 1 ≤ block_len) (h0 : 0 ≤ d0) (h1 : d0 ≤ last) (h2 : last ≤ begin)
    (st : RangeState) (hgt : st.end_ > begin) (hinv : RangeRunInv j last diags0 st) :
    begin ≤ get_diag_p1 d begin block_len st.end_
      ∧ get_diag_p1 d begin block_len st.end_ < st.end_
      ∧ last - 1 ≤ get_low_idx d last (get_diag_p1 d begin block_len st.end_) d0
      ∧ get_low_idx d last (get_diag_p1 d begin block_len st.end_) d0
          ≤ get_diag_p1 d begin block_len st.end_
      ∧ (get_diag_range_step i j d begin last d0 block_len cutoff best_score st).end_
          = get_low_idx d last (get_diag_p1 d begin block_len st.end_) d0
      ∧ RangeRunInv j last diags0
          (get_diag_range_step i j d begin last d0 block_len cutoff best_score st) := by
  obtain ⟨acc, hd, hnil, hne⟩ := hinv
  obtain ⟨p1a, p1b, _⟩ := get_diag_p1_spec d begin block_len st.end_ hbl (by omega) hgt
  have hlow := get_low_idx_range d last (get_diag_p1 d begin block_len st.end_) d0 (by omega)
  unfold get_diag_range_step
  simp only []
  generalize get_diag_p1 d begin block_len st.end_ = p1 at *
  generalize get_low_idx d last p1 d0 = p0 at *
  have hp0a : last - 1 ≤ p0 := by omega
  have hp0b : p0 ≤ p1 := by omega
  generalize d.rd p1 - (if p0 ≥ d0 then d.rd p0 else 0) = score
  refine ⟨p1a, p1b, hp0a, hp0b, ?_, ?_⟩
  · split_ifs <;> rfl
  · split_ifs with hc
    · refine ⟨acc ++ [⟨i + p0 + 1, j + p0 + 1, p1 - p0, score⟩], ?_, ?_, ?_⟩
      · dsimp only
        rw [hd, List.append_assoc]
      · intro h
        exact absurd h (by simp)
      · intro _
        dsimp only
        refine ⟨by omega, by omega, ⟨_, List.mem_append_right _ (List.mem_singleton_self _), ?_⟩, ?_⟩
        · dsimp only
          omega
        · intro s hs
          rcases List.mem_append.mp hs with hs | hs
          · have hacc : acc ≠ [] := List.ne_nil_of_mem hs
            obtain ⟨_, e2, _, e4⟩ := hne hacc
            have := e4 s hs
            omega
          · rw [List.mem_singleton.mp hs]
            dsimp only
            omega
    · refine ⟨acc, hd, hnil, ?_⟩
      intro hacc
      obtain ⟨e1, e2, e3, e4⟩ := hne hacc
      dsimp only
      exact ⟨e1, by omega, e3, e4⟩

theorem get_diag_range_loop_run (i j : Int) (d : Iterator)
    (begin last d0 block_len cutoff best_score : Int) (diags0 : List Diagonal_node)
    (hbl : 1 ≤ block_len) (h0 : 0 ≤ d0) (h1 : d0 ≤ last) (h2 : last ≤ begin)
    (fuel : Nat) : ∀ (st : RangeState), (st.end_ - begin).toNat < fuel →
    RangeRunInv j last diags0 st →
    ∃ st1, get_diag_range_loop i j d begin last d0 block_len cutoff best_score fuel st = some st1
      ∧ RangeRunInv j last diags0 st1 ∧ st1.end_ ≤ begin := by
  induction fuel with
  | zero => intro st hf; omega
  | succ fuel ih =>
    intro st hf hinv
    unfold get_diag_range_loop
    split_ifs with hgt
    · obtain ⟨_, g2, _, g4, g5, g6⟩ := get_diag_range_step_run i j d begin last d0 block_len cutoff
        best_score diags0 hbl h0 h1 h2 st hgt hinv
      exact ih _ (by omega) g6
    · exact ⟨st, rfl, hinv, by omega⟩

/-- C15. For every grid, every `block_len >= 1`, every cutoff and every range
with `0 <= d0 <= last <= begin <= end`, the loop of the range form of
`get_diag` terminates (with fuel above `end - begin` the call returns): in a
pass over a range that ends at `e > begin` the peak satisfies
`begin <= p1 < e`, the low point satisfies `p0 <= p1`, and the range end
becomes `p0 < e`; the value `z` returned is `INT_MAX` when nothing was
appended, and otherwise it is the start (as a column of the grid) of the
leftmost appended segment and `z >= last`. -/
theorem get_diag_range_terminates (fuel : Nat) (i j : Int) (d : Iterator)
    (begin last end_ d0 : Int) (diags : List Diagonal_node) (block_len cutoff best_score : Int)
    (hbl : 1 ≤ block_len) (h0 : 0 ≤ d0) (h1 : d0 ≤ last) (h2 : last ≤ begin)
    (hf : (end_ - begin).toNat < fuel) :
    (∀ st : RangeState, begin < st.end_ →
        begin ≤ get_diag_p1 d begin block_len st.end_
        ∧ get_diag_p1 d begin block_len st.end_ < st.end_
        ∧ get_low_idx d last (get_diag_p1 d begin block_len st.end_) d0
            ≤ get_diag_p1 d begin block_len st.end_
        ∧ (get_diag_range_step i j d begin last d0 block_len cutoff best_score st).end_
            = get_low_idx d last (get_diag_p1 d begin block_len st.end_) d0
        ∧ (get_diag_range_step i j d begin last d0 block_len cutoff best_score st).end_
            < st.end_)
    ∧ ∃ z acc, get_diag_range fuel i j d begin last end_ d0 diags block_len cutoff best_score
          = some (z, diags ++ acc)
        ∧ (acc = [] → z = INT_MAX)
        ∧ (acc ≠ [] → last ≤ z ∧ (∃ s ∈ acc, s.j - j = z) ∧ ∀ s ∈ acc, z ≤ s.j - j) := by
  constructor
  · intro st hgt
    obtain ⟨p1a, p1b, _⟩ := get_diag_p1_spec d begin block_len st.end_ hbl (by omega) hgt
    have hlow := get_low_idx_range d last (get_diag_p1 d begin block_len st.end_) d0 (by omega)
    have hend : (get_diag_range_step i j d begin last d0 block_len cutoff best_score st).end_
        = get_low_idx d last (get_diag_p1 d begin block_len st.end_) d0 := by
      unfold get_diag_range_step
      simp only []
      generalize d.rd (get_diag_p1 d begin block_len st.end_)
        - (if get_low_idx d last (get_diag_p1 d begin block_len st.end_) d0 ≥ d0 then
            d.rd (get_low_idx d last (get_diag_p1 d begin block_len st.end_) d0) else 0) = score
      split_ifs <;> rfl
    refine ⟨p1a, p1b, by omega, hend, ?_⟩
    rw [hend]
    omega
  · have hinit : RangeRunInv j last diags ⟨end_, INT_MAX, diags⟩ :=
      ⟨[], by simp, fun _ => rfl, fun h => absurd rfl h⟩
    obtain ⟨st1, hst, ⟨acc, hd, hnil, hne⟩, _⟩ :=
      get_diag_range_loop_run i j d begin last d0 block_len cutoff best_score diags hbl h0
        h1 h2 fuel ⟨end_, INT_MAX, diags⟩ hf hinit
    refine ⟨st1.z, acc, ?_, hnil, fun h => ?_⟩
    · unfold get_diag_range
      rw [hst, ← hd]
      rfl
    · obtain ⟨e1, _, e3, e4⟩ := hne h
      exact ⟨e1, e3, e4⟩

theorem get_diag_range_terminates_witness :
    (∀ st : RangeState, 0 < st.end_ →
        0 ≤ get_diag_p1 two_block_row 0 16 st.end_
        ∧ get_diag_p1 two_block_row 0 16 st.end_ < st.end_
        ∧ get_low_idx two_block_row 0 (get_diag_p1 two_block_row 0 16 st.end_) 0
            ≤ get_diag_p1 two_block_row 0 16 st.end_
        ∧ (get_diag_range_step 0 0 two_block_row 0 0 0 16 19 30 st).end_
            = get_low_idx two_block_row 0 (get_diag_p1 two_block_row 0 16 st.end_) 0
        ∧ (get_diag_range_step 0 0 two_block_row 0 0 0 16 19 30 st).end_ < st.end_)
    ∧ ∃ z acc, get_diag_range 33 0 0 two_block_row 0 0 32 0 [] 16 19 30 = some (z, [] ++ acc)
        ∧ (acc = [] → z = INT_MAX)
        ∧ (acc ≠ [] → 0 ≤ z ∧ (∃ s ∈ acc, s.j - 0 = z) ∧ ∀ s ∈ acc, z ≤ s.j - 0) :=
  get_diag_range_terminates 33 0 0 two_block_row 0 0 32 0 [] 16 19 30 (by decide) (by decide)
    (by decide) (by decide) (by decide)

/-! ## Single-block reconstruction -/

/-- C18 as stated fails: the two halves of single-block reconstruction resolve
ties in opposite directions. On the window `[0, 16)` of the row `split_peak_row`
(5 at the columns 0 and 2, 0 elsewhere, block maximum 5), `get_zero_index` stops
at the rightmost column holding the maximum, column 2, and returns the zero
before it, `z0 = 1`; the single-block form of `get_diag`, called with
`zero = 1` and `extend = false`, stops at the leftmost column holding the
maximum, column 0, and reports the segment that starts at column 2 with length
`0 - 1 = -1`. -/
theorem get_diag_block_negative_length :
    get_zero_index split_peak_row 0 16 5 = (1, 15)
    ∧ get_diag_block 0 0 split_peak_row 0 5 (get_zero_index split_peak_row 0 16 5).1 [] 16 16
        false 19 = (1, [⟨2, 2, -1, 5⟩])
    ∧ split_peak_row.rd 2 = 5
    ∧ (∀ k ∈ List.range 16, split_peak_row.rd (k : Nat) ≤ 5) := by
  refine ⟨?_, ?_, ?_, ?_⟩ <;> decide

/-! ## Ordered output sink -/

theorem flush_drain_spec (K : Nat) (hK : K < SIZE_MOD) :
    ∀ (w : List (Nat × Option TextBuffer)) (n : Nat) (out : List (Option TextBuffer)),
    (∀ e ∈ w, e.1 < K) →
    ∃ dr, w = dr ++ (flush_drain w n out).1
      ∧ (flush_drain w n out).2.2 = out ++ dr.map Prod.snd
      ∧ dr.map Prod.fst = List.range' n dr.length
      ∧ (flush_drain w n out).2.1 = n + dr.length
      ∧ ∀ e rest, (flush_drain w n out).1 = e :: rest → e.1 ≠ n + dr.length := by
  intro w
  induction w with
  | nil =>
    intro n out _
    exact ⟨[], by simp [flush_drain]⟩
  | cons e w ih =>
    intro n out hw
    unfold flush_drain
    by_cases h : e.1 = n
    · rw [if_pos h]
      have hn : (n + 1) % SIZE_MOD = n + 1 := by
        have := hw e (List.mem_cons_self _ _)
        exact Nat.mod_eq_of_lt (by omega)
      rw [hn]
      obtain ⟨dr, h1, h2, h3, h4, h5⟩ := ih (n + 1) (out ++ [e.2])
        (fun x hx => hw x (List.mem_cons_of_mem _ hx))
      refine ⟨e :: dr, ?_, ?_, ?_, ?_, ?_⟩
      · rw [List.cons_append, ← h1]
      · rw [h2, List.map_cons, List.append_assoc, List.singleton_append]
      · rw [List.map_cons, List.length_cons, List.range'_succ, h3, h]
      · rw [h4, List.length_cons]; omega
      · intro x rest hx
        have := h5 x rest hx
        rw [List.length_cons]
        omega
    · rw [if_neg h]
      exact ⟨[], by simp, by simp, by simp, by simp, fun x rest hx => by
        simp only [List.cons.injEq] at hx
        rw [← hx.1]
        simpa using h⟩

theorem flush_consume_fst (buf : Option TextBuffer) :
    ∀ (out : List (Option TextBuffer)) (f : List TextBuffer) (size : Nat),
    (flush_consume buf out f size).1 = f ++ out.filterMap id := by
  intro out
  induction out with
  | nil => intro f size; simp [flush_consume]
  | cons b out ih =>
    intro f size
    cases b with
    | none =>
      unfold flush_consume
      rw [ih]
      simp
    | some b =>
      unfold flush_consume
      rw [ih]
      simp

theorem flush_consume_snd (buf : Option TextBuffer) :
    ∀ (out : List (Option TextBuffer)) (f : List TextBuffer) (size : Nat),
    (∀ b, some b ∈ out → some b.addr ≠ buf.map TextBuffer.addr) →
    size + (out.map alloc_of).sum < SIZE_MOD →
    (flush_consume buf out f size).2 = size + (out.map alloc_of).sum := by
  intro out
  induction out with
  | nil => intro f size _ _; simp [flush_consume]
  | cons b out ih =>
    intro f size hd hs
    rw [List.map_cons, List.sum_cons] at hs ⊢
    cases b with
    | none =>
      unfold flush_consume
      rw [ih f size (fun b hb => hd b (List.mem_cons_of_mem _ hb))]
      · simp [alloc_of]
      · simp only [alloc_of] at hs; omega
    | some b =>
      unfold flush_consume
      rw [if_pos (hd b (List.mem_cons_self _ _))]
      have e : alloc_of (some b) = b.alloc_size := rfl
      rw [e] at hs ⊢
      have hm : (size + b.alloc_size) % SIZE_MOD = size + b.alloc_size :=
        Nat.mod_eq_of_lt (by omega)
      rw [hm, ih _ _ (fun b hb => hd b (List.mem_cons_of_mem _ hb)) (by omega)]
      omega

/-- A call of `flush`, as one step: the loop makes one pass and exits; the
entries with the keys `next_ + 1`, `next_ + 2`, ... leave the backlog as long
as they follow one another, the buffers go to the consumer behind `buf`, and
`next_` becomes the first key that is missing. -/
theorem flush_spec (K : Nat) (hK : K < SIZE_MOD) (fuel : Nat) (hfuel : 1 ≤ fuel)
    (buf : Option TextBuffer) (s : OutputSink) (hkeys : ∀ e ∈ s.backlog_, e.1 < K)
    (hnext : s.next_ < K) :
    ∃ dr rest, s.backlog_ = dr ++ rest
      ∧ dr.map Prod.fst = List.range' (s.next_ + 1) dr.length
      ∧ (∀ e r, rest = e :: r → e.1 ≠ s.next_ + 1 + dr.length)
      ∧ s.flush fuel buf = some
          { next_ := s.next_ + 1 + dr.length
            backlog_ := rest
            f_ := s.f_ ++ (buf :: dr.map Prod.snd).filterMap id
            size_ := (s.size_ + SIZE_MOD
              - (flush_consume buf (buf :: dr.map Prod.snd) s.f_ 0).2) % SIZE_MOD
            max_size_ := s.max_size_ } := by
  obtain ⟨fuel, rfl⟩ : ∃ f, fuel = f + 1 := ⟨fuel - 1, by omega⟩
  obtain ⟨dr, h1, h2, h3, h4, h5⟩ := flush_drain_spec K hK s.backlog_ (s.next_ + 1) [buf] hkeys
  refine ⟨dr, (flush_drain s.backlog_ (s.next_ + 1) [buf]).1, h1, h3, h5, ?_⟩
  unfold OutputSink.flush
  have hn : (s.next_ + 1) % SIZE_MOD = s.next_ + 1 := Nat.mod_eq_of_lt (by omega)
  rw [hn]
  unfold flush_loop flush_pass
  simp only []
  rw [h2, h4, flush_consume_fst, List.singleton_append]
  cases hr : (flush_drain s.backlog_ (s.next_ + 1) [buf]).1 with
  | nil => rfl
  | cons e r =>
    simp only []
    rw [if_neg (h5 e r hr)]

theorem mem_backlog_assign (n : Nat) (buf : Option TextBuffer)
    (w : List (Nat × Option TextBuffer)) (hw : ∀ e ∈ w, e.1 ≠ n) (x : Nat × Option TextBuffer) :
    x ∈ backlog_assign n buf w ↔ x = (n, buf) ∨ x ∈ w := by
  induction w with
  | nil => simp [backlog_assign]
  | cons e w ih =>
    unfold backlog_assign
    have he : e.1 ≠ n := hw e (List.mem_cons_self _ _)
    split_ifs with h1 h2
    · rw [List.mem_cons]
    · exact absurd h2.symm he
    · rw [List.mem_cons, ih (fun y hy => hw y (List.mem_cons_of_mem _ hy)), List.mem_cons]
      tauto

theorem backlog_assign_sorted (n : Nat) (buf : Option TextBuffer)
    (w : List (Nat × Option TextBuffer)) (hw : ∀ e ∈ w, e.1 ≠ n)
    (hs : w.Pairwise (fun a b => a.1 < b.1)) :
    (backlog_assign n buf w).Pairwise (fun a b => a.1 < b.1) := by
  induction w with
  | nil => simp [backlog_assign]
  | cons e w ih =>
    have he : e.1 ≠ n := hw e (List.mem_cons_self _ _)
    have hw1 : ∀ y ∈ w, y.1 ≠ n := fun y hy => hw y (List.mem_cons_of_mem _ hy)
    have hs1 := List.pairwise_cons.mp hs
    unfold backlog_assign
    split_ifs with h1 h2
    · rw [List.pairwise_cons]
      refine ⟨?_, hs⟩
      intro x hx
      rcases List.mem_cons.mp hx with hx | hx
      · rw [hx]; exact h1
      · have := hs1.1 x hx
        dsimp only
        omega
    · exact absurd h2.symm he
    · rw [List.pairwise_cons]
      refine ⟨?_, ih hw1 hs1.2⟩
      intro x hx
      rcases (mem_backlog_assign n buf w hw1 x).mp hx with hx | hx
      · rw [hx]
        dsimp only
        omega
      · exact hs1.1 x hx

theorem backlog_assign_sum (n : Nat) (buf : Option TextBuffer)
    (w : List (Nat × Option TextBuffer)) (hw : ∀ e ∈ w, e.1 ≠ n) :
    ((backlog_assign n buf w).map (fun e => alloc_of e.2)).sum
      = (w.map (fun e => alloc_of e.2)).sum + alloc_of buf := by
  induction w with
  | nil => simp [backlog_assign]
  | cons e w ih =>
    have he : e.1 ≠ n := hw e (List.mem_cons_self _ _)
    have hw1 : ∀ y ∈ w, y.1 ≠ n := fun y hy => hw y (List.mem_cons_of_mem _ hy)
    unfold backlog_assign
    split_ifs with h1 h2
    · simp only [List.map_cons, List.sum_cons]
      omega
    · exact absurd h2.symm he
    · simp only [List.map_cons, List.sum_cons]
      rw [ih hw1]
      omega

/-- One push of an index that was not pushed before keeps `SinkInv`, and
changes the byte count and the peak as described. -/
theorem push_inv (K : Nat) (hK : K < SIZE_MOD) (fuel : Nat) (hfuel : 1 ≤ fuel)
    (bufs : Nat → Option TextBuffer) (pre : List Nat) (s : OutputSink) (n : Nat)
    (hinv : SinkInv K bufs pre s) (hn : n ∉ pre) (hnK : n < K) :
    ∃ s1, s.push fuel n (bufs n) = some s1 ∧ SinkInv K bufs (pre ++ [n]) s1
      ∧ (n ≠ s.next_ → s1.size_ = (s.size_ + alloc_of (bufs n)) % SIZE_MOD
          ∧ s1.max_size_ = max s.max_size_ s1.size_
          ∧ s1.held = s.held + alloc_of (bufs n))
      ∧ (n = s.next_ → s1.max_size_ = s.max_size_
          ∧ ∃ dr, s.backlog_ = dr ++ s1.backlog_
            ∧ s1.size_ = (s.size_ + SIZE_MOD
                - (flush_consume (bufs n) (bufs n :: dr.map Prod.snd) s.f_ 0).2) % SIZE_MOD) := by
  obtain ⟨i1, i2, i3, i4, i5, i6, i7⟩ := hinv
  have hpre : ∀ k ∈ pre ++ [n], k < K := by
    intro k hk
    rcases List.mem_append.mp hk with hk | hk
    · exact i1 k hk
    · rw [List.mem_singleton.mp hk]; exact hnK
  by_cases hne : n ≠ s.next_
  · have hgt : s.next_ < n := by
      rcases Nat.lt_or_ge n s.next_ with h | h
      · exact absurd (i2 n h) hn
      · omega
    have hkeys : ∀ e ∈ s.backlog_, e.1 ≠ n := by
      intro e he h
      exact hn (h ▸ (i5 e he).1)
    refine ⟨_, by unfold OutputSink.push; rw [if_pos hne], ⟨hpre, ?_, ?_, ?_, ?_, ?_, ?_⟩,
      fun _ => ⟨rfl, rfl, ?_⟩, fun h => absurd h hne⟩
    · intro k hk
      exact List.mem_append_left _ (i2 k hk)
    · intro h
      rcases List.mem_append.mp h with h | h
      · exact i3 h
      · have := List.mem_singleton.mp h
        dsimp only at this
        omega
    · exact backlog_assign_sorted n (bufs n) s.backlog_ hkeys i4
    · intro e he
      rcases (mem_backlog_assign n (bufs n) s.backlog_ hkeys e).mp he with he | he
      · rw [he]
        exact ⟨List.mem_append_right _ (List.mem_singleton_self _), hgt, rfl⟩
      · obtain ⟨e1, e2, e3⟩ := i5 e he
        exact ⟨List.mem_append_left _ e1, e2, e3⟩
    · intro k hk hlt
      apply (mem_backlog_assign n (bufs n) s.backlog_ hkeys _).mpr
      rcases List.mem_append.mp hk with hk | hk
      · exact Or.inr (i6 k hk hlt)
      · rw [List.mem_singleton.mp hk]
        exact Or.inl rfl
    · exact i7
    · unfold OutputSink.held
      exact backlog_assign_sum n (bufs n) s.backlog_ hkeys
  · have hnn : n = s.next_ := not_not.mp hne
    have hkeysK : ∀ e ∈ s.backlog_, e.1 < K := fun e he => i1 _ (i5 e he).1
    obtain ⟨dr, rest, h1, h2, h3, h4⟩ := flush_spec K hK fuel hfuel (bufs n) s hkeysK
      (by omega)
    have hpw := i4
    rw [h1, List.pairwise_append] at hpw
    obtain ⟨_, hpr, hcross⟩ := hpw
    have ha : ∀ e ∈ dr, s.next_ + 1 ≤ e.1 ∧ e.1 < s.next_ + 1 + dr.length := by
      intro e he
      have : e.1 ∈ dr.map Prod.fst := List.mem_map_of_mem _ he
      rw [h2, List.mem_range'_1] at this
      exact this
    have hb : ∀ k, s.next_ + 1 ≤ k → k < s.next_ + 1 + dr.length → ∃ e ∈ dr, e.1 = k := by
      intro k k1 k2
      have : k ∈ dr.map Prod.fst := by
        rw [h2, List.mem_range'_1]
        exact ⟨k1, k2⟩
      obtain ⟨e, he, hek⟩ := List.mem_map.mp this
      exact ⟨e, he, hek⟩
    have hc0 : ∀ e ∈ rest, s.next_ + 1 + dr.length ≤ e.1 := by
      intro e he
      rcases Nat.eq_zero_or_pos dr.length with hl | hl
      · have := (i5 e (by rw [h1]; exact List.mem_append_right _ he)).2.1
        omega
      · obtain ⟨x, hx, hxk⟩ := hb (s.next_ + dr.length) (by omega) (by omega)
        have := hcross x hx e he
        omega
    have hc : ∀ e ∈ rest, s.next_ + 1 + dr.length < e.1 := by
      intro e he
      cases hr : rest with
      | nil => rw [hr] at he; exact absurd he (List.not_mem_nil _)
      | cons e0 r =>
        have h0 := h3 e0 r hr
        have h00 := hc0 e0 (by rw [hr]; exact List.mem_cons_self _ _)
        rw [hr] at he hpr
        rcases List.mem_cons.mp he with he | he
        · rw [he]; omega
        · have := (List.pairwise_cons.mp hpr).1 e he
          omega
    refine ⟨{ next_ := s.next_ + 1 + dr.length
              backlog_ := rest
              f_ := s.f_ ++ (bufs n :: dr.map Prod.snd).filterMap id
              size_ := (s.size_ + SIZE_MOD
                - (flush_consume (bufs n) (bufs n :: dr.map Prod.snd) s.f_ 0).2) % SIZE_MOD
              max_size_ := s.max_size_ },
      by unfold OutputSink.push; rw [if_neg hne]; exact h4,
      ⟨hpre, ?_, ?_, ?_, ?_, ?_, ?_⟩, fun h => absurd h hne,
      fun _ => ⟨rfl, dr, h1, rfl⟩⟩
    · intro k hk
      dsimp only at hk
      rcases Nat.lt_or_ge k s.next_ with h | h
      · exact List.mem_append_left _ (i2 k h)
      · rcases Nat.eq_or_lt_of_le h with h | h
        · rw [← h, hnn]
          exact List.mem_append_right _ (List.mem_singleton_self _)
        · obtain ⟨e, he, hek⟩ := hb k (by omega) hk
          rw [← hek]
          exact List.mem_append_left _ (i5 e (by rw [h1]; exact List.mem_append_left _ he)).1
    · intro h
      dsimp only at h
      rcases List.mem_append.mp h with h | h
      · have hin := i6 _ h (by omega)
        rw [h1] at hin
        rcases List.mem_append.mp hin with hin | hin
        · have := (ha _ hin).2
          dsimp only at this
          omega
        · have := hc _ hin
          dsimp only at this
          omega
      · have := List.mem_singleton.mp h
        omega
    · exact hpr
    · intro e he
      dsimp only at he ⊢
      obtain ⟨e1, _, e3⟩ := i5 e (by rw [h1]; exact List.mem_append_right _ he)
      exact ⟨List.mem_append_left _ e1, hc e he, e3⟩
    · intro k hk hlt
      dsimp only at hlt ⊢
      rcases List.mem_append.mp hk with hk | hk
      · have hin := i6 k hk (by omega)
        rw [h1] at hin
        rcases List.mem_append.mp hin with hin | hin
        · have := (ha _ hin).2
          dsimp only at this
          omega
        · exact hin
      · have := List.mem_singleton.mp hk
        omega
    · dsimp only
      have hsnd : dr.map Prod.snd = (List.range' (s.next_ + 1) dr.length).map bufs := by
        rw [← h2, List.map_map]
        apply List.map_congr_left
        intro e he
        exact (i5 e (by rw [h1]; exact List.mem_append_left _ he)).2.2
      have hr : List.range (s.next_ + 1 + dr.length)
          = List.range s.next_ ++ s.next_ :: List.range' (s.next_ + 1) dr.length := by
        have e1 : s.next_ + 1 + dr.length = (dr.length + 1) + s.next_ := by omega
        rw [e1, List.range_eq_range', List.range_eq_range', ← List.range'_append_1 0 s.next_,
          Nat.zero_add, List.range'_succ]
      rw [hr, List.filterMap_append, i7, hsnd, ← hnn, ← List.map_cons, List.filterMap_map]
      rfl

theorem held_le_total (K : Nat) (bufs : Nat → Option TextBuffer) (pre : List Nat)
    (s : OutputSink) (hinv : SinkInv K bufs pre s) : s.held ≤ total_alloc K bufs := by
  obtain ⟨i1, _, _, i4, i5, _, _⟩ := hinv
  have hmap : s.backlog_.map (fun e => alloc_of e.2)
      = (s.backlog_.map Prod.fst).map (fun k => alloc_of (bufs k)) := by
    rw [List.map_map]
    apply List.map_congr_left
    intro e he
    dsimp only [Function.comp]
    rw [(i5 e he).2.2]
  have hsorted : (s.backlog_.map Prod.fst).Sorted (· < ·) := by
    unfold List.Sorted
    rw [List.pairwise_map]
    exact i4
  have hsub : s.backlog_.map Prod.fst ⊆ List.range K := by
    intro k hk
    obtain ⟨e, he, hek⟩ := List.mem_map.mp hk
    rw [List.mem_range, ← hek]
    exact i1 _ (i5 e he).1
  have hsl : List.Sublist (s.backlog_.map Prod.fst) (List.range K) :=
    List.sublist_of_subperm_of_sorted (List.Nodup.subperm hsorted.nodup hsub) hsorted
      (List.sorted_lt_range K)
  unfold OutputSink.held total_alloc
  rw [hmap]
  exact List.Sublist.sum_le_sum (hsl.map _) (fun a _ => Nat.zero_le a)

/-- One push of an index that was not pushed before keeps `size_` equal to the
sum over the backlog, and makes `max_size_` the larger of its old value and
that sum. -/
theorem push_size (K : Nat) (hK : K < SIZE_MOD) (fuel : Nat) (hfuel : 1 ≤ fuel)
    (bufs : Nat → Option TextBuffer)
    (haddr : ∀ a b x y, a < K → b < K → a ≠ b → bufs a = some x → bufs b = some y →
      x.addr ≠ y.addr)
    (htotal : total_alloc K bufs < SIZE_MOD)
    (pre : List Nat) (s : OutputSink) (n : Nat)
    (hinv : SinkInv K bufs pre s) (hn : n ∉ pre) (hnK : n < K) (hsize : s.size_ = s.held)
    (hmax : s.held ≤ s.max_size_) :
    ∃ s1, s.push fuel n (bufs n) = some s1 ∧ SinkInv K bufs (pre ++ [n]) s1
      ∧ s1.size_ = s1.held ∧ s1.max_size_ = max s.max_size_ s1.held := by
  obtain ⟨s1, h1, h2, h3, h4⟩ := push_inv K hK fuel hfuel bufs pre s n hinv hn hnK
  have hb1 := held_le_total K bufs _ s1 h2
  have hb0 := held_le_total K bufs _ s hinv
  refine ⟨s1, h1, h2, ?_⟩
  by_cases hne : n ≠ s.next_
  · obtain ⟨e1, e2, e3⟩ := h3 hne
    have hs1 : s1.size_ = s1.held := by
      rw [e1, hsize, ← e3]
      exact Nat.mod_eq_of_lt (by omega)
    exact ⟨hs1, by rw [e2, hs1]⟩
  · have hnn : n = s.next_ := not_not.mp hne
    obtain ⟨e1, dr, e2, e3⟩ := h4 hnn
    have hheld : s.held = (dr.map (fun e => alloc_of e.2)).sum + s1.held := by
      unfold OutputSink.held
      rw [e2, List.map_append, List.sum_append]
    have hdr : ∀ b, some b ∈ dr.map Prod.snd → some b.addr ≠ (bufs n).map TextBuffer.addr := by
      intro b hb
      obtain ⟨e, he, heb⟩ := List.mem_map.mp hb
      have hin : e ∈ s.backlog_ := by rw [e2]; exact List.mem_append_left _ he
      obtain ⟨q1, q2, q3⟩ := hinv.2.2.2.2.1 e hin
      have hek : e.1 < K := hinv.1 _ q1
      cases hbn : bufs n with
      | none => simp
      | some c =>
        have := haddr e.1 n b c hek hnK (by omega) (by rw [← q3, heb]) hbn
        simpa using this
    have hsum : (dr.map Prod.snd).map alloc_of = dr.map (fun e => alloc_of e.2) := by
      rw [List.map_map]
      rfl
    have hsz : (flush_consume (bufs n) (bufs n :: dr.map Prod.snd) s.f_ 0).2
        = (dr.map (fun e => alloc_of e.2)).sum := by
      cases hbn : bufs n with
      | none =>
        unfold flush_consume
        rw [hbn] at hdr
        rw [flush_consume_snd none _ _ _ hdr (by rw [hsum]; omega), hsum, Nat.zero_add]
      | some c =>
        unfold flush_consume
        rw [hbn] at hdr
        rw [if_neg (by simp), flush_consume_snd (some c) _ _ _ hdr (by rw [hsum]; omega), hsum,
          Nat.zero_add]
    have hs1 : s1.size_ = s1.held := by
      rw [e3, hsz, hsize, hheld]
      have e : (dr.map (fun e => alloc_of e.2)).sum + s1.held + SIZE_MOD
          - (dr.map (fun e => alloc_of e.2)).sum = s1.held + SIZE_MOD := by omega
      rw [e, Nat.add_mod_right]
      exact Nat.mod_eq_of_lt (by omega)
    refine ⟨hs1, ?_⟩
    rw [e1]
    have : s1.held ≤ s.max_size_ := by omega
    omega

theorem held_le_peak_held (fuel : Nat) (bufs : Nat → Option TextBuffer) (rest : List Nat)
    (s : OutputSink) : s.held ≤ peak_held fuel bufs rest s := by
  cases rest with
  | nil => exact le_refl _
  | cons n r =>
    unfold peak_held
    exact le_max_left _ _

/-- The pushes of indices below `K` that were not pushed before and are
pairwise different keep `SinkInv`. -/
theorem pushes_inv (K : Nat) (hK : K < SIZE_MOD) (fuel : Nat) (hfuel : 1 ≤ fuel)
    (bufs : Nat → Option TextBuffer) :
    ∀ (rest pre : List Nat) (s : OutputSink), SinkInv K bufs pre s → (pre ++ rest).Nodup →
    (∀ k ∈ rest, k < K) →
    ∃ s1, pushes fuel bufs rest s = some s1 ∧ SinkInv K bufs (pre ++ rest) s1 := by
  intro rest
  induction rest with
  | nil =>
    intro pre s hinv _ _
    exact ⟨s, rfl, by rw [List.append_nil]; exact hinv⟩
  | cons n r ih =>
    intro pre s hinv hnd hr
    have hn : n ∉ pre := by
      intro h
      have := (List.nodup_append.mp hnd).2.2
      exact this h (List.mem_cons_self _ _) 
    obtain ⟨s1, h1, h2, _⟩ := push_inv K hK fuel hfuel bufs pre s n hinv hn
      (hr n (List.mem_cons_self _ _))
    have hnd1 : (pre ++ [n] ++ r).Nodup := by
      rw [List.append_assoc, List.singleton_append]; exact hnd
    obtain ⟨s2, h3, h4⟩ := ih (pre ++ [n]) s1 h2 hnd1
      (fun k hk => hr k (List.mem_cons_of_mem _ hk))
    refine ⟨s2, ?_, ?_⟩
    · unfold pushes
      rw [h1]
      exact h3
    · rw [List.append_assoc, List.singleton_append] at h4
      exact h4

/-- The pushes of indices below `K` that were not pushed before and are
pairwise different keep `SinkInv`, keep `size_` equal to the sum over the
backlog, and make `max_size_` the larger of its old value and the peak of that
sum. -/
theorem pushes_size (K : Nat) (hK : K < SIZE_MOD) (fuel : Nat) (hfuel : 1 ≤ fuel)
    (bufs : Nat → Option TextBuffer)
    (haddr : ∀ a b x y, a < K → b < K → a ≠ b → bufs a = some x → bufs b = some y →
      x.addr ≠ y.addr)
    (htotal : total_alloc K bufs < SIZE_MOD) :
    ∀ (rest pre : List Nat) (s : OutputSink), SinkInv K bufs pre s → (pre ++ rest).Nodup →
    (∀ k ∈ rest, k < K) → s.size_ = s.held → s.held ≤ s.max_size_ →
    ∃ s1, pushes fuel bufs rest s = some s1 ∧ SinkInv K bufs (pre ++ rest) s1
      ∧ s1.size_ = s1.held ∧ s1.max_size_ = max s.max_size_ (peak_held fuel bufs rest s) := by
  intro rest
  induction rest with
  | nil =>
    intro pre s hinv _ _ hsize hmax
    refine ⟨s, rfl, by rw [List.append_nil]; exact hinv, hsize, ?_⟩
    unfold peak_held
    omega
  | cons n r ih =>
    intro pre s hinv hnd hr hsize hmax
    have hn : n ∉ pre := by
      intro h
      have := (List.nodup_append.mp hnd).2.2
      exact this h (List.mem_cons_self _ _)
    obtain ⟨s1, h1, h2, h3, h4⟩ := push_size K hK fuel hfuel bufs haddr htotal pre s n hinv hn
      (hr n (List.mem_cons_self _ _)) hsize hmax
    have hnd1 : (pre ++ [n] ++ r).Nodup := by
      rw [List.append_assoc, List.singleton_append]; exact hnd
    obtain ⟨s2, g1, g2, g3, g4⟩ := ih (pre ++ [n]) s1 h2 hnd1
      (fun k hk => hr k (List.mem_cons_of_mem _ hk)) h3 (by rw [h4]; exact le_max_right _ _)
    refine ⟨s2, ?_, ?_, g3, ?_⟩
    · unfold pushes
      rw [h1]
      exact g1
    · rw [List.append_assoc, List.singleton_append] at g2
      exact g2
    · unfold peak_held
      rw [h1]
      simp only []
      have := held_le_peak_held fuel bufs r s1
      rw [g4, h4]
      omega

theorem sink_inv_init (K : Nat) (bufs : Nat → Option TextBuffer) :
    SinkInv K bufs [] OutputSink.init := by
  unfold SinkInv OutputSink.init
  simp

/-- C13. With each push one step on the sink, from `next_ = 0`, an empty backlog
and `size_ = 0`: for every `K` (a count of `size_t` indices) and every order in
which the indices `0..K-1` are pushed once each, all pushes return, the
buffers handed to the consumer are buffer 0, buffer 1, ..., buffer `K - 1` in
this order, without the null ones, and afterwards the backlog is empty and
`next_ = K`. -/
theorem pushes_in_index_order (K : Nat) (fuel : Nat) (bufs : Nat → Option TextBuffer)
    (order : List Nat) (hK : K < SIZE_MOD) (hfuel : 1 ≤ fuel) (hnd : order.Nodup)
    (hmem : ∀ n, n ∈ order ↔ n < K) :
    ∃ s, pushes fuel bufs order OutputSink.init = some s
      ∧ s.f_ = (List.range K).filterMap bufs ∧ s.backlog_ = [] ∧ s.next_ = K := by
  obtain ⟨s, h1, i1, i2, i3, i4, i5, i6, i7⟩ := pushes_inv K hK fuel hfuel bufs order []
    OutputSink.init (sink_inv_init K bufs) (by rw [List.nil_append]; exact hnd)
    (fun k hk => (hmem k).mp hk)
  rw [List.nil_append] at i1 i2 i3 i5 i6
  have hnext : s.next_ = K := by
    have h1 : ¬ s.next_ < K := fun h => i3 ((hmem _).mpr h)
    have h2 : ¬ K < s.next_ := fun h => absurd ((hmem K).mp (i2 K h)) (lt_irrefl K)
    omega
  refine ⟨s, h1, by rw [i7, hnext], ?_, hnext⟩
  cases hb : s.backlog_ with
  | nil => rfl
  | cons e w =>
    obtain ⟨e1, e2, _⟩ := i5 e (by rw [hb]; exact List.mem_cons_self _ _)
    have := (hmem _).mp e1
    omega

theorem pushes_in_index_order_witness :
    ∃ s, pushes 1 sample_bufs [3, 1, 0, 2, 4] OutputSink.init = some s
      ∧ s.f_ = (List.range 5).filterMap sample_bufs ∧ s.backlog_ = [] ∧ s.next_ = 5 :=
  pushes_in_index_order 5 1 sample_bufs [3, 1, 0, 2, 4] (by decide) (by decide) (by decide)
    (by
      intro n
      simp only [List.mem_cons, List.mem_singleton, List.not_mem_nil, or_false]
      omega)

/-- C14. With each push one step on the sink, started as for C13, with buffers
at pairwise different addresses whose allocated sizes add up to less than
`2 ^ 64`: for every order in which the indices `0..K-1` are pushed once each,
after every push (after every prefix `pre` of the order) `size_` is the sum of
the allocated sizes of the buffers that the backlog holds, and `max_size_` is
the maximum of that sum over the prefixes of `pre`. -/
theorem pushes_size_and_peak (K : Nat) (fuel : Nat) (bufs : Nat → Option TextBuffer)
    (order : List Nat) (hK : K < SIZE_MOD) (hfuel : 1 ≤ fuel) (hnd : order.Nodup)
    (hmem : ∀ n, n ∈ order ↔ n < K)
    (haddr : ∀ a b x y, a < K → b < K → a ≠ b → bufs a = some x → bufs b = some y →
      x.addr ≠ y.addr)
    (htotal : total_alloc K bufs < SIZE_MOD) :
    ∀ pre rest, pre ++ rest = order →
      ∃ s, pushes fuel bufs pre OutputSink.init = some s
        ∧ s.size_ = s.held
        ∧ s.max_size_ = peak_held fuel bufs pre OutputSink.init := by
  intro pre rest hrest
  have hnd1 : ([] ++ pre).Nodup := by
    rw [List.nil_append]
    rw [← hrest] at hnd
    exact (List.nodup_append.mp hnd).1
  have hlt : ∀ k ∈ pre, k < K := by
    intro k hk
    exact (hmem k).mp (by rw [← hrest]; exact List.mem_append_left _ hk)
  obtain ⟨s, h1, _, h3, h4⟩ := pushes_size K hK fuel hfuel bufs haddr htotal pre []
    OutputSink.init (sink_inv_init K bufs) hnd1 hlt rfl (le_refl _)
  refine ⟨s, h1, h3, ?_⟩
  rw [h4]
  have : OutputSink.init.max_size_ = 0 := rfl
  rw [this]
  exact Nat.max_eq_right (Nat.zero_le _)

theorem pushes_size_and_peak_witness :
    ∃ s, pushes 1 sample_bufs [3, 1, 0] OutputSink.init = some s
      ∧ s.size_ = s.held
      ∧ s.max_size_ = peak_held 1 sample_bufs [3, 1, 0] OutputSink.init :=
  pushes_size_and_peak 5 1 sample_bufs [3, 1, 0, 2, 4] (by decide) (by decide) (by decide)
    (by
      intro n
      simp only [List.mem_cons, List.mem_singleton, List.not_mem_nil, or_false]
      omega)
    (by
      intro a b x y _ _ hab hx hy
      unfold sample_bufs at hx hy
      split_ifs at hx hy
      simp only [Option.some.injEq] at hx hy
      rw [← hx, ← hy]
      dsimp only
      omega)
    (by decide) [3, 1, 0] [2, 4] rfl

/-! ## Every exploited run reports a segment -/

/-- What the loop of `get_low_idx` returns: a zero cell, or `d0 - 1`, or the
index `j` it started with when no remaining cell is below `low`, or a minimum
of the remaining cells that is below `low`. -/
theorem get_low_idx_loop_val (d : Iterator) (begin d0 : Int) (n : Nat) :
    ∀ (i low j : Int), begin + n = i + 1 →
    (d.rd (get_low_idx_loop d begin d0 n i low j) = 0
        ∧ begin ≤ get_low_idx_loop d begin d0 n i low j)
    ∨ (get_low_idx_loop d begin d0 n i low j = d0 - 1 ∧ begin ≤ d0)
    ∨ (begin > d0 ∧ get_low_idx_loop d begin d0 n i low j = j
        ∧ ∀ t, begin ≤ t → t ≤ i → low ≤ d.rd t)
    ∨ (begin > d0 ∧ d.rd (get_low_idx_loop d begin d0 n i low j) < low
        ∧ ∀ t, begin ≤ t → t ≤ i → d.rd (get_low_idx_loop d begin d0 n i low j) ≤ d.rd t) := by
  induction n with
  | zero =>
    intro i low j hn
    unfold get_low_idx_loop
    simp only [Nat.cast_zero] at hn
    split_ifs with h
    · exact Or.inr (Or.inr (Or.inl ⟨h, rfl, fun t h1 h2 => by omega⟩))
    · exact Or.inr (Or.inl ⟨rfl, by omega⟩)
  | succ n ih =>
    intro i low j hn
    unfold get_low_idx_loop
    have hbi : begin ≤ i := by push_cast at hn; omega
    have hn1 : begin + (n : Int) = i - 1 + 1 := by push_cast at hn; omega
    by_cases hz : d.rd i = 0
    · rw [if_pos hz]
      exact Or.inl ⟨hz, hbi⟩
    · rw [if_neg hz]
      by_cases hlt : d.rd i < low
      · rw [if_pos hlt]
        rcases ih (i - 1) (d.rd i) i hn1 with h | h | h | h
        · exact Or.inl h
        · exact Or.inr (Or.inl h)
        · right; right; right
          rw [h.2.1]
          refine ⟨h.1, hlt, fun t h1 h2 => ?_⟩
          rcases lt_or_le t i with hti | hti
          · exact h.2.2 t h1 (by omega)
          · have : t = i := by omega
            subst this; exact le_refl _
        · right; right; right
          refine ⟨h.1, by omega, fun t h1 h2 => ?_⟩
          rcases lt_or_le t i with hti | hti
          · exact h.2.2 t h1 (by omega)
          · have : t = i := by omega
            subst this; omega
      · rw [if_neg hlt]
        rcases ih (i - 1) low j hn1 with h | h | h | h
        · exact Or.inl h
        · exact Or.inr (Or.inl h)
        · right; right; left
          refine ⟨h.1, h.2.1, fun t h1 h2 => ?_⟩
          rcases lt_or_le t i with hti | hti
          · exact h.2.2 t h1 (by omega)
          · have : t = i := by omega
            subst this; omega
        · right; right; right
          refine ⟨h.1, h.2.1, fun t h1 h2 => ?_⟩
          rcases lt_or_le t i with hti | hti
          · exact h.2.2 t h1 (by omega)
          · have : t = i := by omega
            subst this; omega

/-- The cell at the low point is below the peak value `V` when the peak value is
positive and the range searched is empty only with `last <= d0`, and holds a
cell below `V` otherwise. -/
theorem get_low_idx_below (d : Iterator) (last p1 d0 V : Int) (hV : 0 < V) (hle : last ≤ p1)
    (hc : last ≤ d0 ∨ ∃ c, last ≤ c ∧ c < p1 ∧ d.rd c < V)
    (hp0 : get_low_idx d last p1 d0 ≥ d0) :
    d.rd (get_low_idx d last p1 d0) < V := by
  have hn : last + ((p1 - last).toNat : Int) = p1 - 1 + 1 := by
    rw [Int.toNat_of_nonneg (by omega)]; ring
  unfold get_low_idx at hp0 ⊢
  rcases get_low_idx_loop_val d last d0 (p1 - last).toNat (p1 - 1) 255 p1 hn with h | h | h | h
  · omega
  · omega
  · rcases hc with hc | ⟨c, c1, c2, c3⟩
    · omega
    · have := h.2.2 c c1 (by omega)
      have := Iterator.rd_le d c
      have := Iterator.rd_le d (get_low_idx_loop d last d0 (p1 - last).toNat (p1 - 1) 255 p1)
      omega
  · rcases hc with hc | ⟨c, c1, c2, c3⟩
    · omega
    · have := h.2.2 c c1 (by omega)
      omega

theorem get_diag_range_step_appends (i j : Int) (d : Iterator)
    (begin last d0 block_len cutoff best_score : Int) (st : RangeState) :
    ∃ x, (get_diag_range_step i j d begin last d0 block_len cutoff best_score st).diags
      = st.diags ++ x := by
  unfold get_diag_range_step
  simp only []
  generalize d.rd (get_diag_p1 d begin block_len st.end_)
    - (if get_low_idx d last (get_diag_p1 d begin block_len st.end_) d0 ≥ d0 then
        d.rd (get_low_idx d last (get_diag_p1 d begin block_len st.end_) d0) else 0) = score
  split_ifs
  · exact ⟨_, rfl⟩
  · exact ⟨[], by rw [List.append_nil]⟩

theorem get_diag_range_loop_appends (i j : Int) (d : Iterator)
    (begin last d0 block_len cutoff best_score : Int) (fuel : Nat) :
    ∀ (st st1 : RangeState),
    get_diag_range_loop i j d begin last d0 block_len cutoff best_score fuel st = some st1 →
    ∃ acc, st1.diags = st.diags ++ acc := by
  induction fuel with
  | zero =>
    intro st st1 h
    unfold get_diag_range_loop at h
    exact absurd h (by simp)
  | succ fuel ih =>
    intro st st1 h
    unfold get_diag_range_loop at h
    split_ifs at h with hgt
    · obtain ⟨acc, hacc⟩ := ih _ _ h
      obtain ⟨x, hx⟩ := get_diag_range_step_appends i j d begin last d0 block_len cutoff
        best_score st
      rw [hx] at hacc
      exact ⟨_, by rw [hacc, List.append_assoc]⟩
    · simp only [Option.some.injEq] at h
      exact ⟨[], by rw [← h, List.append_nil]⟩

/-- The range form reports a segment when the peak of its first pass holds
`best_score`, `best_score` reaches the cutoff, and the range below the peak is
either cut at `d0` or holds a cell below `best_score`. -/
theorem get_diag_range_reports (fuel : Nat) (i j : Int) (d : Iterator) (begin last end_ d0 : Int)
    (diags : List Diagonal_node) (block_len cutoff best_score : Int)
    (hbl : 1 ≤ block_len) (hc : 1 ≤ cutoff) (h0 : 0 ≤ d0) (h1 : d0 ≤ last) (h2 : last ≤ begin)
    (h3 : begin < end_) (hf : (end_ - begin).toNat < fuel)
    (hpeak : d.rd (get_diag_p1 d begin block_len end_) = best_score) (hbest : cutoff ≤ best_score)
    (hlow : last ≤ d0
      ∨ ∃ c, last ≤ c ∧ c < get_diag_p1 d begin block_len end_ ∧ d.rd c < best_score) :
    ∃ z acc, get_diag_range fuel i j d begin last end_ d0 diags block_len cutoff best_score
        = some (z, diags ++ acc)
      ∧ acc ≠ [] ∧ last ≤ z ∧ z < end_ := by
  obtain ⟨z, acc, hres, _, _, _, hne⟩ := get_diag_range_spec fuel i j d begin last end_ d0 diags
    block_len cutoff best_score hbl hc h0 h1 h2 hf
  have hacc : acc ≠ [] := by
    obtain ⟨fuel, rfl⟩ : ∃ f, fuel = f + 1 := ⟨fuel - 1, by omega⟩
    unfold get_diag_range at hres
    unfold get_diag_range_loop at hres
    rw [if_pos (by exact h3)] at hres
    obtain ⟨p1a, p1b, _⟩ := get_diag_p1_spec d begin block_len end_ hbl (by omega) h3
    have hstep : (get_diag_range_step i j d begin last d0 block_len cutoff best_score
        ⟨end_, INT_MAX, diags⟩).diags
        = diags ++ [⟨i + get_low_idx d last (get_diag_p1 d begin block_len end_) d0 + 1,
            j + get_low_idx d last (get_diag_p1 d begin block_len end_) d0 + 1,
            get_diag_p1 d begin block_len end_
              - get_low_idx d last (get_diag_p1 d begin block_len end_) d0,
            d.rd (get_diag_p1 d begin block_len end_)
              - (if get_low_idx d last (get_diag_p1 d begin block_len end_) d0 ≥ d0 then
                  d.rd (get_low_idx d last (get_diag_p1 d begin block_len end_) d0) else 0)⟩] := by
      unfold get_diag_range_step
      simp only []
      have hpos : d.rd (get_diag_p1 d begin block_len end_)
          - (if get_low_idx d last (get_diag_p1 d begin block_len end_) d0 ≥ d0 then
              d.rd (get_low_idx d last (get_diag_p1 d begin block_len end_) d0) else 0) > 0 := by
        by_cases hp : get_low_idx d last (get_diag_p1 d begin block_len end_) d0 ≥ d0
        · rw [if_pos hp]
          have := get_low_idx_below d last (get_diag_p1 d begin block_len end_) d0 best_score
            (by omega) (by omega) hlow hp
          omega
        · rw [if_neg hp]
          omega
      rw [if_pos (Or.inr ⟨hpeak, hpos⟩)]
    cases hl : get_diag_range_loop i j d begin last d0 block_len cutoff best_score fuel
        (get_diag_range_step i j d begin last d0 block_len cutoff best_score
          ⟨end_, INT_MAX, diags⟩) with
    | none =>
      rw [hl] at hres
      exact absurd hres (by simp)
    | some st1 =>
      rw [hl] at hres
      simp only [Option.map_some', Option.some.injEq, Prod.mk.injEq] at hres
      obtain ⟨acc2, hacc2⟩ := get_diag_range_loop_appends i j d begin last d0 block_len cutoff
        best_score fuel _ _ hl
      rw [hstep, hres.2] at hacc2
      intro hnil
      rw [hnil, List.append_nil, List.append_assoc] at hacc2
      have := congrArg List.length hacc2
      simp at this
  obtain ⟨e1, e2, _⟩ := hne hacc
  exact ⟨z, acc, hres, hacc, e1, e2⟩
/-- The start of the block that holds the last column of a range that ends at
`e`, as the range form computes it. -/
theorem last_block_start (bl e b : Int) (hbl : 1 ≤ bl) (h1 : b * bl < e)
    (h2 : e ≤ (b + 1) * bl) (he : 0 ≤ e) :
    e - (if Int.tmod e bl = 0 then bl else Int.tmod e bl) = b * bl := by
  have hm : Int.tmod e bl = e % bl := Int.tmod_eq_emod he (by omega)
  rw [hm]
  have e1 : e = (e - b * bl) + b * bl := by ring
  have hr : e % bl = (e - b * bl) % bl := by
    conv_lhs => rw [e1]
    exact Int.add_mul_emod_self
  have e2 : (b + 1) * bl = b * bl + bl := by ring
  rw [e2] at h2
  rcases eq_or_lt_of_le (show e - b * bl ≤ bl by omega) with h | h
  · rw [hr, h, Int.emod_self, if_pos rfl]
    omega
  · have h3 : (e - b * bl) % bl = e - b * bl := Int.emod_eq_of_lt (by omega) h
    rw [hr, h3, if_neg (by omega)]
    ring

/-- The call of the range form for a run whose blocks rise strictly to the
block `best`, with `best_score` the maximum of that block, reports a segment
when `last` is cut at the start of the diagonal or lies below the run. -/
theorem exploit_run_reports (ds0 : Diag_scores) (o i j : Int) (fuel : Nat) (cutoff : Int)
    (st : RowState)
    (hbl : 1 ≤ ds0.block_len) (hd0 : j ≤ ds0.dj0 o) (hJ : ds0.dj1 o - j ≤ INT_MAX)
    (hc : 1 ≤ cutoff) (hfuel : (ds0.dj1 o - j).toNat < fuel)
    (hs : SameSession ds0 st.ds) (hgrid : GridOK ds0 o j)
    (hl0 : ds0.dj0 o - j < (st.last + 1) * ds0.block_len)
    (hlb : st.last ≤ st.begin) (hbb : st.begin ≤ st.best)
    (hb1 : st.best * ds0.block_len < ds0.dj1 o - j)
    (hrun : ∀ q, st.begin ≤ q → q ≤ st.best →
      (ds0.local_max.diag o).rd q ≥ cutoff
      ∧ (q = 0 ∨ (ds0.local_max.diag o).rd q > (ds0.local_max.diag o).rd (q - 1)))
    (hscore : st.best_score = (ds0.local_max.diag o).rd st.best)
    (hlow : st.last * ds0.block_len ≤ ds0.dj0 o - j ∨ st.last < st.begin) :
    ∃ z acc, acc ≠ []
      ∧ exploit_run fuel i j o cutoff st
        = some (true, st.ds.set_active o (Int.tdiv z ds0.block_len) (st.best + 1),
            st.diags ++ acc) := by
  obtain ⟨_, _, hsb, hdj0, hdj1, hblk⟩ := hs.fields
  obtain ⟨hG1, hG2⟩ := hgrid
  obtain ⟨hcut, hrise⟩ := hrun st.best hbb (le_refl _)
  have hLB : st.last * ds0.block_len ≤ st.begin * ds0.block_len :=
    Int.mul_le_mul_of_nonneg_right hlb (by omega)
  have hBB : st.begin * ds0.block_len ≤ st.best * ds0.block_len :=
    Int.mul_le_mul_of_nonneg_right hbb (by omega)
  have eB1 : (st.best + 1) * ds0.block_len = st.best * ds0.block_len + ds0.block_len := by ring
  have eL1 : (st.last + 1) * ds0.block_len = st.last * ds0.block_len + ds0.block_len := by ring
  have eP1 : (st.best - 1 + 1) * ds0.block_len = st.best * ds0.block_len := by ring
  have eP : (st.best - 1) * ds0.block_len = st.best * ds0.block_len - ds0.block_len := by ring
  obtain ⟨cs, c1, c2, c3, c4, c5⟩ := hG2 st.best (by rw [eB1]; omega) hb1 (by omega)
  have hG1b := fun c => hG1 st.best c
  have hG1p := fun c => hG1 (st.best - 1) c
  have hlast1 : st.last < st.begin → st.last * ds0.block_len + ds0.block_len
      ≤ st.best * ds0.block_len := by
    intro h
    have : (st.last + 1) * ds0.block_len ≤ st.best * ds0.block_len :=
      Int.mul_le_mul_of_nonneg_right (by omega) (by omega)
    omega
  have hlastpos : 0 < st.last * ds0.block_len → 1 ≤ st.last := by
    intro h
    by_contra hcon
    have : st.last * ds0.block_len ≤ 0 :=
      Int.mul_nonpos_of_nonpos_of_nonneg (by omega) (by omega)
    omega
  have hlast : get_diag_p1 (ds0.score_buf.diag o) (max (st.begin * ds0.block_len) (ds0.dj0 o - j))
      ds0.block_len (min ((st.best + 1) * ds0.block_len) (ds0.dj1 o - j))
      = get_max_idx (ds0.score_buf.diag o)
        (max (max (st.begin * ds0.block_len) (ds0.dj0 o - j)) (st.best * ds0.block_len))
        (min ((st.best + 1) * ds0.block_len) (ds0.dj1 o - j)) := by
    unfold get_diag_p1
    simp only []
    rw [last_block_start ds0.block_len _ st.best hbl (by rw [eB1]; omega)
      (min_le_left _ _) (by omega)]
  rw [eB1] at c2 hG1b hlast
  rw [eL1] at hl0
  rw [eP1, eP] at hG1p
  have k1 : (0 : Int) ≤ ds0.dj0 o - j := by omega
  have k2 : max (st.last * ds0.block_len) (ds0.dj0 o - j)
      ≤ max (st.begin * ds0.block_len) (ds0.dj0 o - j) := by omega
  have k3 : max (st.begin * ds0.block_len) (ds0.dj0 o - j)
      < min (st.best * ds0.block_len + ds0.block_len) (ds0.dj1 o - j) := by omega
  have k4 : (min (st.best * ds0.block_len + ds0.block_len) (ds0.dj1 o - j)
      - max (st.begin * ds0.block_len) (ds0.dj0 o - j)).toNat < fuel := by omega
  have k5 : cutoff ≤ st.best_score := by omega
  obtain ⟨m1, m2, m3, m4⟩ := get_max_idx_spec (ds0.score_buf.diag o)
    (max (max (st.begin * ds0.block_len) (ds0.dj0 o - j)) (st.best * ds0.block_len))
    (min (st.best * ds0.block_len + ds0.block_len) (ds0.dj1 o - j)) (by omega)
  rw [← hlast] at m1 m2 m3 m4
  obtain ⟨p1, hp1⟩ : ∃ p1, p1 = get_diag_p1 (ds0.score_buf.diag o)
      (max (st.begin * ds0.block_len) (ds0.dj0 o - j)) ds0.block_len
      (min (st.best * ds0.block_len + ds0.block_len) (ds0.dj1 o - j)) := ⟨_, rfl⟩
  rw [← hp1] at m1 m2 m3 m4
  have hpeak : (ds0.score_buf.diag o).rd p1 = st.best_score := by
    have h1 := hG1b p1 (by omega) (by omega) (by omega) (by omega)
    have h2 := m3 cs (by omega) (by omega)
    omega
  have hlow1 : max (st.last * ds0.block_len) (ds0.dj0 o - j) ≤ ds0.dj0 o - j
      ∨ ∃ c, max (st.last * ds0.block_len) (ds0.dj0 o - j) ≤ c ∧ c < p1
        ∧ (ds0.score_buf.diag o).rd c < st.best_score := by
    rcases hlow with h | h
    · left; omega
    · rcases le_or_lt (st.last * ds0.block_len) (ds0.dj0 o - j) with h0 | h0
      · left; omega
      · right
        have hl1 := hlast1 h
        have hlp := hlastpos (by omega)
        rcases eq_or_lt_of_le m1 with heq | hlt
        · refine ⟨st.best * ds0.block_len - 1, by omega, by omega, ?_⟩
          have h1 := hG1p (st.best * ds0.block_len - 1) (by omega) (by omega) (by omega)
            (by omega)
          rcases hrise with hr | hr
          · omega
          · omega
        · refine ⟨p1 - 1, by omega, by omega, ?_⟩
          have := m4 (p1 - 1) (by omega) (by omega)
          omega
  rw [hp1] at hpeak hlow1
  obtain ⟨z, acc, hres, hacc, hz1, hz2⟩ := get_diag_range_reports fuel i j (ds0.score_buf.diag o)
    (max (st.begin * ds0.block_len) (ds0.dj0 o - j))
    (max (st.last * ds0.block_len) (ds0.dj0 o - j))
    (min (st.best * ds0.block_len + ds0.block_len) (ds0.dj1 o - j)) (ds0.dj0 o - j) st.diags
    ds0.block_len cutoff st.best_score hbl hc k1 (le_max_right _ _) k2 k3 k4 hpeak k5 hlow1
  have k6 : z < INT_MAX := by omega
  refine ⟨z, acc, hacc, ?_⟩
  unfold exploit_run
  simp only []
  rw [hsb, hdj0, hdj1, hblk, eB1, hres]
  simp only []
  rw [if_pos k6]
/-- The mask of a diagonal after `set_active(o, b, e)`, in either mode: a block
is active when it was before, or when it is one of `[b, e)` in non-fast mode. -/
theorem is_active_set_active_iff (ds : Diag_scores) (o b e q : Int) :
    (ds.set_active o b e).is_active o q = true
      ↔ ds.is_active o q = true ∨ (ds.fast = false ∧ b ≤ q ∧ q < e) := by
  cases hf : ds.fast with
  | true =>
    have : ds.set_active o b e = ds := by
      unfold Diag_scores.set_active
      rw [hf]
      rfl
    rw [this]
    simp
  | false =>
    rw [is_active_set_active ds hf o b e q]
    simp

theorem set_active_local_max (ds : Diag_scores) (o b e : Int) :
    (ds.set_active o b e).local_max = ds.local_max
      ∧ (ds.set_active o b e).block_len = ds.block_len
      ∧ (ds.set_active o b e).dj1 = ds.dj1 := by
  obtain ⟨_, h2, _, _, h5, h6⟩ := (set_active_same_session ds o b e).fields
  exact ⟨h2, h6, h5⟩

/-- One pass of the `for` loop of `Diag_scores::get_diag` returns, keeps
`RunInv`, and reports the run if it exploits one. -/
theorem get_diag_step_reports (ds0 : Diag_scores) (o i j : Int) (fuel : Nat) (cutoff : Int)
    (hbl : 1 ≤ ds0.block_len) (hd0 : j ≤ ds0.dj0 o) (hJ : ds0.dj1 o - j ≤ INT_MAX)
    (hc : 1 ≤ cutoff) (hfuel : (ds0.dj1 o - j).toNat < fuel) (hgrid : GridOK ds0 o j)
    (p : Int) (hp : p * ds0.block_len < ds0.dj1 o - j) (st : RowState)
    (hinv : RunInv ds0 o j cutoff p st) :
    StepReports fuel i j o cutoff p st
      ∧ ∃ st1, get_diag_step fuel i j o cutoff p st = some st1
          ∧ RunInv ds0 o j cutoff (p + 1) st1 := by
  obtain ⟨hs, hl0, hlp, hfree, hrun, hlastok, hB⟩ := hinv
  obtain ⟨_, hlm, _, _, hdj1, hblk⟩ := hs.fields
  have hlast0 : 0 ≤ st.last := by
    by_contra hcon
    have : (st.last + 1) * ds0.block_len ≤ 0 :=
      Int.mul_nonpos_of_nonpos_of_nonneg (by omega) (by omega)
    omega
  have hl1 : ds0.dj0 o - j < (p + 1) * ds0.block_len := by
    have : (st.last + 1) * ds0.block_len ≤ (p + 1) * ds0.block_len :=
      Int.mul_le_mul_of_nonneg_right (by omega) (by omega)
    omega
  have hl2 : ds0.dj0 o - j < (p + 1 + 1) * ds0.block_len := by
    have : (st.last + 1) * ds0.block_len ≤ (p + 1 + 1) * ds0.block_len :=
      Int.mul_le_mul_of_nonneg_right (by omega) (by omega)
    omega
  unfold StepReports get_diag_step
  simp only []
  rw [hlm]
  by_cases hcand : st.ds.is_active o p = false ∧ (ds0.local_max.diag o).rd p ≥ cutoff
      ∧ (p = 0 ∨ (ds0.local_max.diag o).rd p > (ds0.local_max.diag o).rd (p - 1))
  · refine ⟨fun h => absurd hcand h, ?_⟩
    rw [if_pos hcand]
    simp only [Option.map_some']
    have hna : ¬ (st.ds.is_active o p = true) := by rw [hcand.1]; simp
    rw [if_neg hna]
    refine ⟨_, rfl, hs, hl0, by dsimp only; omega, ?_, ?_, ?_, hB⟩
    · intro q q1 q2
      dsimp only at q1 q2 ⊢
      rcases lt_or_le q p with h | h
      · exact hfree q q1 h
      · have : q = p := by omega
        subst this; exact hcand.1
    · intro _
      dsimp only
      by_cases hb : st.begin = -1
      · rw [if_pos hb]
        refine ⟨hlp, le_refl _, by omega, rfl, ?_⟩
        intro q q1 q2
        have : q = p := by omega
        subst this; exact hcand.2
      · rw [if_neg hb]
        obtain ⟨r1, r2, r3, r4, r5⟩ := hrun hb
        refine ⟨r1, by omega, by omega, rfl, ?_⟩
        intro q q1 q2
        rcases lt_or_le q p with h | h
        · exact r5 q q1 (by omega)
        · have : q = p := by omega
          subst this; exact hcand.2
    · dsimp only
      by_cases hb : st.begin = -1
      · rw [if_pos hb]
        rcases hlastok with h | h | h | h
        · exact Or.inl h
        · exact Or.inr (Or.inl h)
        · exact Or.inr (Or.inr (Or.inr ⟨by omega, h.2⟩))
        · exact absurd hb h.1
      · rw [if_neg hb]
        rcases hlastok with h | h | h | h
        · exact Or.inl h
        · exact Or.inr (Or.inl h)
        · exact absurd h.1 hb
        · exact Or.inr (Or.inr (Or.inr h))
  · rw [if_neg hcand]
    by_cases hb : st.begin ≠ -1
    · rw [if_pos hb]
      obtain ⟨r1, r2, r3, r4, r5⟩ := hrun hb
      have hbest : st.best * ds0.block_len < ds0.dj1 o - j := by
        have : st.best * ds0.block_len ≤ p * ds0.block_len :=
          Int.mul_le_mul_of_nonneg_right (by omega) (by omega)
        omega
      have hlow : st.last * ds0.block_len ≤ ds0.dj0 o - j ∨ st.last < st.begin := by
        rcases hlastok with h | h | h | h
        · exact Or.inl h
        · rcases lt_or_le st.last st.begin with h1 | h1
          · exact Or.inr h1
          · have heq : st.last = st.begin := by omega
            rcases eq_or_lt_of_le hlast0 with h0 | h0
            · left
              rw [← h0, zero_mul]
              omega
            · exfalso
              have hbg : st.begin * ds0.block_len < ds0.dj1 o - j := by
                have : st.begin * ds0.block_len ≤ st.best * ds0.block_len :=
                  Int.mul_le_mul_of_nonneg_right (by omega) (by omega)
                omega
              have hJ1 := hB (st.begin - 1) (by omega)
                (by rw [hblk, hdj1, sub_add_cancel]; exact hbg) (by rw [← heq]; exact h)
                (by rw [sub_add_cancel]; exact hfree st.begin r1 (by omega))
              rw [sub_add_cancel, hlm] at hJ1
              rcases (r5 st.begin (le_refl _) r2).2 with h2 | h2
              · omega
              · omega
        · exact absurd h.1 hb
        · exact Or.inr h.2
      obtain ⟨z, acc, hacc, hex⟩ := exploit_run_reports ds0 o i j fuel cutoff st hbl hd0 hJ hc
        hfuel hs hgrid hl0 r1 r2 hbest r5 r4 hlow
      refine ⟨fun _ _ => ⟨_, acc, hex, hacc⟩, ?_⟩
      rw [hex]
      simp only [Option.map_some']
      have hB1 : BoundaryInv (st.ds.set_active o (Int.tdiv z ds0.block_len) (st.best + 1)) o j := by
        intro a ha hguard hact hinact
        obtain ⟨e1, e2, e3⟩ := set_active_local_max st.ds o (Int.tdiv z ds0.block_len)
          (st.best + 1)
        rw [e1]
        rw [e2, e3] at hguard
        have hin1 : st.ds.is_active o (a + 1) = false := by
          by_contra hcon
          have : (st.ds.set_active o (Int.tdiv z ds0.block_len) (st.best + 1)).is_active o
              (a + 1) = true :=
            (is_active_set_active_iff st.ds o _ _ (a + 1)).mpr
              (Or.inl (by simpa using hcon))
          rw [this] at hinact
          exact absurd hinact (by simp)
        rcases (is_active_set_active_iff st.ds o _ _ a).mp hact with h | ⟨hf, h1, h2⟩
        · exact hB a ha hguard h hin1
        · have hnot : ¬ (Int.tdiv z ds0.block_len ≤ a + 1 ∧ a + 1 < st.best + 1) := by
            intro hcon
            have : (st.ds.set_active o (Int.tdiv z ds0.block_len) (st.best + 1)).is_active o
                (a + 1) = true :=
              (is_active_set_active_iff st.ds o _ _ (a + 1)).mpr (Or.inr ⟨hf, hcon.1, hcon.2⟩)
            rw [this] at hinact
            exact absurd hinact (by simp)
          have hab : a = st.best := by omega
          have hap : a + 1 = p := by omega
          rw [hap] at hin1 ⊢
          rw [hab, hlm]
          have hcb := (r5 st.best r2 (le_refl _)).1
          by_contra hcon
          apply hcand
          refine ⟨hin1, by omega, Or.inr ?_⟩
          have : p - 1 = st.best := by omega
          rw [this]
          omega
      have hs1 : SameSession ds0 (st.ds.set_active o (Int.tdiv z ds0.block_len) (st.best + 1)) :=
        hs.trans (set_active_same_session _ _ _ _)
      by_cases hact : (st.ds.set_active o (Int.tdiv z ds0.block_len) (st.best + 1)).is_active o p
          = true
      · rw [if_pos hact]
        refine ⟨_, rfl, hs1, by dsimp only; exact hl2, by dsimp only; omega, ?_, ?_, ?_, hB1⟩
        · intro q q1 q2
          dsimp only at q1 q2
          omega
        · intro h
          dsimp only at h
          exact absurd rfl h
        · dsimp only
          right; left
          rw [add_sub_cancel_right]
          exact hact
      · rw [if_neg hact]
        refine ⟨_, rfl, hs1, ?_, by dsimp only; omega, ?_, ?_, ?_, hB1⟩
        · dsimp only
          have : st.best + 1 = p := by omega
          rw [this]
          exact hl1
        · intro q q1 q2
          dsimp only at q1 q2 ⊢
          have : q = p := by omega
          subst this
          simpa using hact
        · intro h
          dsimp only at h
          exact absurd rfl h
        · dsimp only
          right; right; left
          exact ⟨rfl, by omega⟩
    · rw [if_neg hb]
      have hb1 : st.begin = -1 := not_not.mp hb
      refine ⟨fun _ h => absurd h hb, ?_⟩
      simp only [Option.map_some']
      by_cases hact : st.ds.is_active o p = true
      · rw [if_pos hact]
        refine ⟨_, rfl, hs, by dsimp only; exact hl2, by dsimp only; omega, ?_, ?_, ?_, hB⟩
        · intro q q1 q2
          dsimp only at q1 q2
          omega
        · intro h
          dsimp only at h
          exact absurd hb1 h
        · dsimp only
          right; left
          rw [add_sub_cancel_right]
          exact hact
      · rw [if_neg hact]
        refine ⟨_, rfl, hs, hl0, by omega, ?_, fun h => absurd hb1 h, ?_, hB⟩
        · intro q q1 q2
          rcases lt_or_le q p with h | h
          · exact hfree q q1 h
          · have : q = p := by omega
            subst this
            simpa using hact
        · rcases hlastok with h | h | h | h
          · exact Or.inl h
          · exact Or.inr (Or.inl h)
          · exact Or.inr (Or.inr (Or.inl ⟨h.1, by omega⟩))
          · exact absurd hb1 h.1
/-- The loop that walks `last` back does not go below `b0`, and it stops at
`b0` or behind an active block. -/
theorem walk_back_stop (ds : Diag_scores) (o b0 : Int) (n : Nat) : ∀ (last : Int),
    b0 ≤ last → last - b0 ≤ n →
    b0 ≤ walk_back ds o b0 n last
      ∧ (walk_back ds o b0 n last = b0
        ∨ ds.is_active o (walk_back ds o b0 n last - 1) = true) := by
  induction n with
  | zero =>
    intro last h1 h2
    unfold walk_back
    simp only [Nat.cast_zero] at h2
    exact ⟨h1, Or.inl (by omega)⟩
  | succ n ih =>
    intro last h1 h2
    unfold walk_back
    split_ifs with h
    · exact ih (last - 1) (by omega) (by push_cast at h2; omega)
    · refine ⟨h1, ?_⟩
      by_cases hl : last > b0
      · right
        have : ¬ ds.is_active o (last - 1) = false := fun hc => h ⟨hl, hc⟩
        simpa using this
      · left; omega

/-- The loop that extends `best` passes over blocks that continue the run, and
stops at a block that does not. -/
theorem extend_best_run (ds : Diag_scores) (o cutoff b1 : Int) (n : Nat) : ∀ (best : Int),
    b1 - best ≤ n →
    best ≤ extend_best ds o cutoff b1 n best
      ∧ (∀ q, best ≤ q → q < extend_best ds o cutoff b1 n best →
          q < b1 ∧ ds.is_active o q = false ∧ (ds.local_max.diag o).rd q ≥ cutoff
            ∧ (q = 0 ∨ (ds.local_max.diag o).rd q > (ds.local_max.diag o).rd (q - 1)))
      ∧ ¬ (extend_best ds o cutoff b1 n best < b1
          ∧ ds.is_active o (extend_best ds o cutoff b1 n best) = false
          ∧ (ds.local_max.diag o).rd (extend_best ds o cutoff b1 n best) ≥ cutoff
          ∧ (extend_best ds o cutoff b1 n best = 0
            ∨ (ds.local_max.diag o).rd (extend_best ds o cutoff b1 n best)
              > (ds.local_max.diag o).rd (extend_best ds o cutoff b1 n best - 1))) := by
  induction n with
  | zero =>
    intro best h
    unfold extend_best
    simp only [Nat.cast_zero] at h
    exact ⟨le_refl _, fun q q1 q2 => by omega, fun hc => by omega⟩
  | succ n ih =>
    intro best h
    unfold extend_best
    simp only []
    split_ifs with hcond
    · obtain ⟨h1, h2, h3⟩ := ih (best + 1) (by push_cast at h; omega)
      refine ⟨by omega, fun q q1 q2 => ?_, h3⟩
      rcases lt_or_le best q with hq | hq
      · exact h2 q (by omega) q2
      · have : q = best := by omega
        subst this; exact hcond
    · exact ⟨le_refl _, fun q q1 q2 => by omega, hcond⟩

/-- The blocks below `b1` start within the columns of the diagonal. -/
theorem block_start_lt (bl e1 q : Int) (hbl : 1 ≤ bl) (hq : 0 ≤ q)
    (h : q < Int.tdiv (e1 + bl - 1) bl) : q * bl < e1 := by
  rcases lt_or_le (e1 + bl - 1) 0 with hneg | hpos
  · exfalso
    have h1 : e1 + bl - 1 = -(-(e1 + bl - 1)) := by omega
    rw [h1, Int.neg_tdiv, Int.tdiv_eq_ediv (by omega) (by omega)] at h
    have : 0 ≤ (-(e1 + bl - 1)) / bl := Int.ediv_nonneg (by omega) (by omega)
    omega
  · rw [Int.tdiv_eq_ediv hpos (by omega)] at h
    have h1 : (e1 + bl - 1) / bl * bl ≤ e1 + bl - 1 := Int.ediv_mul_le _ (by omega)
    have h2 : (q + 1) * bl ≤ (e1 + bl - 1) / bl * bl :=
      Int.mul_le_mul_of_nonneg_right (by omega) (by omega)
    have h3 : (q + 1) * bl = q * bl + bl := by ring
    omega

/-- The blocks from `b1` on start behind the columns of the diagonal. -/
theorem block_start_ge (bl e1 q : Int) (hbl : 1 ≤ bl) (hq : 0 ≤ q)
    (h : Int.tdiv (e1 + bl - 1) bl ≤ q) : e1 ≤ q * bl := by
  rcases lt_or_le (e1 + bl - 1) 0 with hneg | hpos
  · have : 0 ≤ q * bl := Int.mul_nonneg hq (by omega)
    omega
  · rw [Int.tdiv_eq_ediv hpos (by omega)] at h
    have h1 : e1 + bl - 1 < ((e1 + bl - 1) / bl + 1) * bl :=
      Int.lt_ediv_add_one_mul_self _ (by omega)
    have h2 : ((e1 + bl - 1) / bl + 1) * bl ≤ (q + 1) * bl :=
      Int.mul_le_mul_of_nonneg_right (by omega) (by omega)
    have h3 : (q + 1) * bl = q * bl + bl := by ring
    omega

/-- Marking the blocks up to the last block of a run keeps `BoundaryInv` when
the block behind the run does not continue it. -/
theorem boundary_set_active (ds : Diag_scores) (o j zb best : Int) (hB : BoundaryInv ds o j)
    (hnext : ds.is_active o (best + 1) = false →
      (best + 1) * ds.block_len < ds.dj1 o - j →
      (ds.local_max.diag o).rd (best + 1) ≤ (ds.local_max.diag o).rd best) :
    BoundaryInv (ds.set_active o zb (best + 1)) o j := by
  intro a ha hguard hact hinact
  obtain ⟨e1, e2, e3⟩ := set_active_local_max ds o zb (best + 1)
  rw [e1]
  rw [e2, e3] at hguard
  have hin1 : ds.is_active o (a + 1) = false := by
    by_contra hcon
    have : (ds.set_active o zb (best + 1)).is_active o (a + 1) = true :=
      (is_active_set_active_iff ds o _ _ (a + 1)).mpr (Or.inl (by simpa using hcon))
    rw [this] at hinact
    exact absurd hinact (by simp)
  rcases (is_active_set_active_iff ds o _ _ a).mp hact with h | ⟨hf, h1, h2⟩
  · exact hB a ha hguard h hin1
  · have hnot : ¬ (zb ≤ a + 1 ∧ a + 1 < best + 1) := by
      intro hcon
      have : (ds.set_active o zb (best + 1)).is_active o (a + 1) = true :=
        (is_active_set_active_iff ds o _ _ (a + 1)).mpr (Or.inr ⟨hf, hcon.1, hcon.2⟩)
      rw [this] at hinact
      exact absurd hinact (by simp)
    have hab : a = best := by omega
    rw [hab] at hin1 hguard ⊢
    exact hnext hin1 hguard

/-- The `for` loop of `Diag_scores::get_diag` returns, keeps `RunInv`, and
reports every run that it exploits. -/
theorem get_diag_blocks_reports (ds0 : Diag_scores) (o i j : Int) (fuel : Nat) (cutoff : Int)
    (hbl : 1 ≤ ds0.block_len) (hd0 : j ≤ ds0.dj0 o) (hJ : ds0.dj1 o - j ≤ INT_MAX)
    (hc : 1 ≤ cutoff) (hfuel : (ds0.dj1 o - j).toNat < fuel) (hgrid : GridOK ds0 o j)
    (n : Nat) : ∀ (p : Int) (st : RowState),
    (∀ q, p ≤ q → q < p + n → q * ds0.block_len < ds0.dj1 o - j) →
    RunInv ds0 o j cutoff p st →
    BlocksReport fuel i j o cutoff n p st
      ∧ ∃ st1, get_diag_blocks fuel i j o cutoff n p st = some st1
          ∧ RunInv ds0 o j cutoff (p + n) st1 := by
  induction n with
  | zero =>
    intro p st _ hinv
    refine ⟨by unfold BlocksReport; trivial, st, rfl, ?_⟩
    simp only [Nat.cast_zero, add_zero]
    exact hinv
  | succ n ih =>
    intro p st hend hinv
    obtain ⟨h1, st1, h2, h3⟩ := get_diag_step_reports ds0 o i j fuel cutoff hbl hd0 hJ hc hfuel
      hgrid p (hend p (le_refl _) (by push_cast; omega)) st hinv
    obtain ⟨h4, st2, h5, h6⟩ := ih (p + 1) st1
      (fun q q1 q2 => hend q (by omega) (by push_cast; omega)) h3
    refine ⟨?_, st2, ?_, ?_⟩
    · unfold BlocksReport
      refine ⟨h1, fun s hs => ?_⟩
      rw [h2] at hs
      simp only [Option.some.injEq] at hs
      rw [← hs]
      exact h4
    · unfold get_diag_blocks
      rw [h2]
      exact h5
    · have e : p + ((n + 1 : Nat) : Int) = p + 1 + n := by push_cast; ring
      rw [e]
      exact h6
theorem grid_ok_same {ds ds1 : Diag_scores} (h : SameSession ds ds1) (o j : Int)
    (hg : GridOK ds o j) : GridOK ds1 o j := by
  obtain ⟨_, h2, h3, h4, h5, h6⟩ := h.fields
  unfold GridOK at hg ⊢
  rw [h2, h3, h4, h5, h6]
  exact hg

/-- C17. In a session whose block grid agrees with the raw grid on diagonal `o`
(`GridOK`) and whose active mask satisfies `BoundaryInv` (it does when no block
of the diagonal is active, and every call keeps it), with a cutoff of at least
1: a call of `Diag_scores::get_diag` returns, and every run of blocks that it
exploits, in the `for` loop or behind it, by calling the range form with
`best_score` the maximum of the last block of the run, is reported: the call
of the range form appends at least one segment. The state after the call
satisfies `GridOK` and `BoundaryInv` again. -/
theorem get_diag_reports_every_run (ds : Diag_scores) (fuel : Nat)
    (i j o j_begin j_end : Int) (diags : List Diagonal_node) (cutoff : Int)
    (hbl : 1 ≤ ds.block_len) (hd0 : j ≤ ds.dj0 o) (hJ : ds.dj1 o - j ≤ INT_MAX)
    (hc : 1 ≤ cutoff) (hfuel : (ds.dj1 o - j).toNat < fuel) (hgrid : GridOK ds o j)
    (hB : BoundaryInv ds o j) :
    ds.get_diag_reports fuel i j o j_begin j_end diags cutoff
      ∧ ∃ ds1 diags1, ds.get_diag fuel i j o j_begin j_end diags cutoff = some (ds1, diags1)
          ∧ SameSession ds ds1 ∧ GridOK ds1 o j ∧ BoundaryInv ds1 o j := by
  unfold Diag_scores.get_diag_reports Diag_scores.get_diag
  simp only []
  have hb0 : Int.tdiv (ds.dj0 o - j) ds.block_len = (ds.dj0 o - j) / ds.block_len :=
    Int.tdiv_eq_ediv (by omega) (by omega)
  have hb0a : 0 ≤ (ds.dj0 o - j) / ds.block_len := Int.ediv_nonneg (by omega) (by omega)
  have hb0b : (ds.dj0 o - j) / ds.block_len * ds.block_len ≤ ds.dj0 o - j :=
    Int.ediv_mul_le _ (by omega)
  have hb0c : ds.dj0 o - j < ((ds.dj0 o - j) / ds.block_len + 1) * ds.block_len :=
    Int.lt_ediv_add_one_mul_self _ (by omega)
  rw [hb0]
  have hb1lt := fun q => block_start_lt ds.block_len (ds.dj1 o - j) q hbl
  have hb1ge := fun q => block_start_ge ds.block_len (ds.dj1 o - j) q hbl
  generalize Int.tdiv (ds.dj1 o - j + ds.block_len - 1) ds.block_len = b1 at hb1lt hb1ge ⊢
  generalize (ds.dj0 o - j) / ds.block_len = b0 at hb0a hb0b hb0c ⊢
  have hpb : b0 ≤ max (Int.tdiv (j_begin - j) ds.block_len) b0 := le_max_right _ _
  have hpe : min (Int.tdiv (j_end - j + ds.block_len - 1) ds.block_len) b1 ≤ b1 :=
    min_le_right _ _
  generalize max (Int.tdiv (j_begin - j) ds.block_len) b0 = p at hpb ⊢
  generalize min (Int.tdiv (j_end - j + ds.block_len - 1) ds.block_len) b1 = p_end at hpe ⊢
  obtain ⟨w1, w2⟩ := walk_back_spec ds o b0 (p - b0).toNat p
  obtain ⟨w3, w4⟩ := walk_back_stop ds o b0 (p - b0).toNat p hpb (by omega)
  have hrow0 : RunInv ds o j cutoff p
      ⟨-1, -1, -1, walk_back ds o b0 (p - b0).toNat p, ds, diags⟩ := by
    refine ⟨SameSession.refl ds, ?_, w1, w2, fun h => absurd rfl h, ?_, hB⟩
    · dsimp only
      have : (b0 + 1) * ds.block_len ≤ (walk_back ds o b0 (p - b0).toNat p + 1) * ds.block_len :=
        Int.mul_le_mul_of_nonneg_right (by omega) (by omega)
      omega
    · dsimp only
      rcases w4 with h | h
      · left
        rw [h]
        exact hb0b
      · exact Or.inr (Or.inl h)
  have hend : ∀ q, p ≤ q → q < p + (p_end - p).toNat →
      q * ds.block_len < ds.dj1 o - j :=
    fun q q1 q2 => hb1lt q (by omega) (by omega)
  obtain ⟨hrep, st, hst, hs, hl0, hlp, hfree, hrun, hlastok, hBst⟩ :=
    get_diag_blocks_reports ds o i j fuel cutoff hbl hd0 hJ hc hfuel hgrid (p_end - p).toNat p _
      hend hrow0
  obtain ⟨_, hlm, _, _, hdj1, hblk⟩ := hs.fields
  have hlast0 : 0 ≤ st.last := by
    by_contra hcon
    have : (st.last + 1) * ds.block_len ≤ 0 :=
      Int.mul_nonpos_of_nonpos_of_nonneg (by omega) (by omega)
    omega
  have hn0 : p_end ≤ p → st.begin = -1 := by
    intro h
    have e : (p_end - p).toNat = 0 := by omega
    rw [e] at hst
    unfold get_diag_blocks at hst
    simp only [Option.some.injEq] at hst
    rw [← hst]
  have htail : st.begin ≠ -1 →
      st.best = p_end - 1
      ∧ ∃ z acc, acc ≠ []
        ∧ exploit_run fuel i j o cutoff
            { st with
              best := extend_best st.ds o cutoff b1 (b1 - st.best).toNat st.best - 1
              best_score := (ds.local_max.diag o).rd
                (extend_best st.ds o cutoff b1 (b1 - st.best).toNat st.best - 1) }
          = some (true,
              st.ds.set_active o (Int.tdiv z ds.block_len)
                (extend_best st.ds o cutoff b1 (b1 - st.best).toNat st.best - 1 + 1),
              st.diags ++ acc)
        ∧ BoundaryInv (st.ds.set_active o (Int.tdiv z ds.block_len)
            (extend_best st.ds o cutoff b1 (b1 - st.best).toNat st.best - 1 + 1)) o j := by
    intro hb
    obtain ⟨r1, r2, r3, r4, r5⟩ := hrun hb
    have hpp : p < p_end := by
      by_contra hcon
      exact hb (hn0 (by omega))
    have hbest : st.best = p_end - 1 := by omega
    refine ⟨hbest, ?_⟩
    have hfb : st.ds.is_active o st.best = false := hfree st.best (by omega) (by omega)
    obtain ⟨x1, x2, x3⟩ := extend_best_run st.ds o cutoff b1 (b1 - st.best).toNat st.best
      (by omega)
    rw [hlm] at x2 x3
    have hext : st.best < extend_best st.ds o cutoff b1 (b1 - st.best).toNat st.best := by
      rcases eq_or_lt_of_le x1 with h | h
      · exfalso
        apply x3
        rw [← h]
        exact ⟨by omega, hfb, r5 st.best r2 (le_refl _)⟩
      · exact h
    generalize extend_best st.ds o cutoff b1 (b1 - st.best).toNat st.best = ext at x1 x2 x3 hext ⊢
    have hrun1 : ∀ q, st.begin ≤ q → q ≤ ext - 1 →
        (ds.local_max.diag o).rd q ≥ cutoff
        ∧ (q = 0 ∨ (ds.local_max.diag o).rd q > (ds.local_max.diag o).rd (q - 1)) := by
      intro q q1 q2
      rcases le_or_lt q st.best with h | h
      · exact r5 q q1 h
      · exact (x2 q (by omega) (by omega)).2.2
    have hbl1 : (ext - 1) * ds.block_len < ds.dj1 o - j :=
      hb1lt (ext - 1) (by omega) (x2 (ext - 1) (by omega) (by omega)).1
    have hlow : st.last * ds.block_len ≤ ds.dj0 o - j ∨ st.last < st.begin := by
      rcases hlastok with h | h | h | h
      · exact Or.inl h
      · rcases lt_or_le st.last st.begin with h1 | h1
        · exact Or.inr h1
        · have heq : st.last = st.begin := by omega
          rcases eq_or_lt_of_le hlast0 with h0 | h0
          · left
            rw [← h0, zero_mul]
            omega
          · exfalso
            have hbg : st.begin * ds.block_len < ds.dj1 o - j := hb1lt st.begin (by omega)
              (by omega)
            have hJ1 := hBst (st.begin - 1) (by omega)
              (by rw [hblk, hdj1, sub_add_cancel]; exact hbg) (by rw [← heq]; exact h)
              (by rw [sub_add_cancel]; exact hfree st.begin r1 (by omega))
            rw [sub_add_cancel, hlm] at hJ1
            rcases (r5 st.begin (le_refl _) r2).2 with h2 | h2
            · omega
            · omega
      · exact absurd h.1 hb
      · exact Or.inr h.2
    obtain ⟨z, acc, hacc, hex⟩ := exploit_run_reports ds o i j fuel cutoff
      { st with best := ext - 1, best_score := (ds.local_max.diag o).rd (ext - 1) }
      hbl hd0 hJ hc hfuel hs hgrid hl0 r1 (by dsimp only; omega) hbl1 hrun1 rfl hlow
    refine ⟨z, acc, hacc, hex, ?_⟩
    apply boundary_set_active st.ds o j _ (ext - 1) hBst
    rw [sub_add_cancel, hlm, hblk, hdj1]
    intro hin hguard
    have hlt : ext < b1 := by
      by_contra hcon
      have := hb1ge ext (by omega) (by omega)
      omega
    have hcb := (hrun1 (ext - 1) (by omega) (le_refl _)).1
    by_contra hcon
    exact x3 ⟨hlt, hin, by omega, Or.inr (by omega)⟩
  refine ⟨⟨hrep, ?_⟩, ?_⟩
  · intro st' hst' hb'
    rw [hst] at hst'
    simp only [Option.some.injEq] at hst'
    subst hst'
    obtain ⟨hbest, z, acc, hacc, hex, _⟩ := htail hb'
    rw [if_pos hbest]
    exact ⟨_, acc, hex, hacc⟩
  · rw [hst]
    simp only []
    by_cases hb : st.begin ≠ -1
    · obtain ⟨hbest, z, acc, hacc, hex, hB1⟩ := htail hb
      rw [if_pos hb, if_pos hbest, hex]
      simp only [Option.map_some']
      have hs1 := hs.trans (set_active_same_session st.ds o (Int.tdiv z ds.block_len)
        (extend_best st.ds o cutoff b1 (b1 - st.best).toNat st.best - 1 + 1))
      exact ⟨_, _, rfl, hs1, grid_ok_same hs1 o j hgrid, hB1⟩
    · rw [if_neg hb]
      exact ⟨_, _, rfl, hs, grid_ok_same hs o j hgrid, hBst⟩
/-- The example session over 40 columns that score +5 each satisfies `GridOK`
on every diagonal offset. -/
theorem scanned_session_grid_ok (o : Int) :
    GridOK (scanned_session 4 (fun _ => 9) 40 false) o 0 := by
  obtain ⟨h1, h2, _⟩ := scan_cols_rising 4 (fun _ => 9) 0 0 (fun t => 5 * (t : Int)) 40 16
    (le_refl _) (by decide) (by simp) (fun t _ => by push_cast; omega)
    (fun t _ => by
      show ((9 : Nat) : Int) = 5 * ((t + 1 : Nat) : Int) - 5 * (t : Int) + ((4 : Nat) : Int)
      push_cast
      omega)
    (by
      show 5 * ((40 : Nat) : Int) + ((4 : Nat) : Int) ≤ 255
      decide)
  simp only [zero_add, Nat.cast_ofNat] at h1 h2
  unfold GridOK
  show (∀ b c, b * 16 ≤ c → c < (b + 1) * 16 → (0 : Int) - 0 ≤ c → c < 40 - 0 →
      (scan_cols 4 (fun _ => 9) 0 0 40 (fun _ => 0) (fun _ => 0) 16).buf.rd c
        ≤ (scan_cols 4 (fun _ => 9) 0 0 40 (fun _ => 0) (fun _ => 0) 16).local_max.rd b)
    ∧ (∀ b, (0 : Int) - 0 < (b + 1) * 16 → b * 16 < 40 - 0 →
        1 ≤ (scan_cols 4 (fun _ => 9) 0 0 40 (fun _ => 0) (fun _ => 0) 16).local_max.rd b →
        ∃ c, b * 16 ≤ c ∧ c < (b + 1) * 16 ∧ (0 : Int) - 0 ≤ c ∧ c < 40 - 0
          ∧ (scan_cols 4 (fun _ => 9) 0 0 40 (fun _ => 0) (fun _ => 0) 16).buf.rd c
            = (scan_cols 4 (fun _ => 9) 0 0 40 (fun _ => 0) (fun _ => 0) 16).local_max.rd b)
  constructor
  · intro b c c1 c2 c3 c4
    rw [h1 c, h2 b, if_pos (by omega), if_pos (by omega)]
    omega
  · intro b b1 b2 _
    refine ⟨min ((b + 1) * 16) 40 - 1, by omega, by omega, by omega, by omega, ?_⟩
    rw [h1, h2 b, if_pos (by omega), if_pos (by omega)]
    congr 2
    omega

theorem get_diag_reports_every_run_witness :
    (scanned_session 4 (fun _ => 9) 40 false).get_diag_reports 41 0 0 0 0 40 [] 19
      ∧ ∃ ds1 diags1,
          (scanned_session 4 (fun _ => 9) 40 false).get_diag 41 0 0 0 0 40 [] 19
            = some (ds1, diags1)
          ∧ SameSession (scanned_session 4 (fun _ => 9) 40 false) ds1 ∧ GridOK ds1 0 0
          ∧ BoundaryInv ds1 0 0 :=
  get_diag_reports_every_run (scanned_session 4 (fun _ => 9) 40 false) 41 0 0 0 0 40 [] 19
    (by decide) (by decide) (by decide) (by decide) (by decide) (scanned_session_grid_ok 0)
    (fun a _ _ h => absurd h (by simp [Diag_scores.is_active, scanned_session]))

/-! ## Active-range tracking: frame -/

/-- C21. For every block range `0 <= begin`, `end <= cols` and every cell
`(o', p)` with `0 <= p < cols`: in non-fast mode, after `set_active(o, begin,
end)` the predicate `is_active(o', p)` is true exactly when it was true before
or `o' = o` and `begin <= p < end`; in fast mode `set_active` leaves the
session as it is and `is_active` is false; in both modes no other member of
the session changes. -/
theorem set_active_frame (ds : Diag_scores) (o begin end_ o' p : Int) (hb : 0 ≤ begin)
    (he : end_ ≤ ds.local_max.cols) (hp0 : 0 ≤ p) (hp1 : p < ds.local_max.cols) :
    (ds.fast = false →
      ((ds.set_active o begin end_).is_active o' p = true
        ↔ ds.is_active o' p = true ∨ (o' = o ∧ begin ≤ p ∧ p < end_)))
    ∧ (ds.fast = true → ds.set_active o begin end_ = ds ∧ ds.is_active o' p = false)
    ∧ SameSession ds (ds.set_active o begin end_) := by
  refine ⟨?_, ?_, set_active_same_session ds o begin end_⟩
  · intro hf
    have hf1 : (ds.set_active o begin end_).fast = false := by
      rw [(set_active_same_session ds o begin end_).fields.1]; exact hf
    have hc1 : (ds.set_active o begin end_).local_max = ds.local_max :=
      (set_active_same_session ds o begin end_).fields.2.1
    unfold Diag_scores.is_active
    rw [hf1, hf, hc1, set_active_active ds hf]
    simp only [Bool.false_eq_true, if_false, Bool.or_eq_true, decide_eq_true_eq]
    have hkey : (o * ds.local_max.cols + begin ≤ o' * ds.local_max.cols + p
        ∧ o' * ds.local_max.cols + p < o * ds.local_max.cols + end_)
        ↔ (o' = o ∧ begin ≤ p ∧ p < end_) := by
      constructor
      · intro ⟨h1, h2⟩
        rcases lt_trichotomy o' o with h | h | h
        · exfalso
          have h3 : (o' + 1) * ds.local_max.cols ≤ o * ds.local_max.cols :=
            Int.mul_le_mul_of_nonneg_right (by omega) (by omega)
          have h4 : (o' + 1) * ds.local_max.cols
              = o' * ds.local_max.cols + ds.local_max.cols := by ring
          omega
        · subst h
          exact ⟨rfl, by omega, by omega⟩
        · exfalso
          have h3 : (o + 1) * ds.local_max.cols ≤ o' * ds.local_max.cols :=
            Int.mul_le_mul_of_nonneg_right (by omega) (by omega)
          have h4 : (o + 1) * ds.local_max.cols
              = o * ds.local_max.cols + ds.local_max.cols := by ring
          omega
      · intro ⟨h1, h2, h3⟩
        subst h1
        exact ⟨by omega, by omega⟩
    rw [hkey]
  · intro hf
    constructor
    · unfold Diag_scores.set_active
      rw [hf]
      rfl
    · unfold Diag_scores.is_active
      rw [hf]
      rfl

theorem set_active_frame_witness :
    ((scanned_session 4 (fun _ => 9) 40 false).fast = false →
      (((scanned_session 4 (fun _ => 9) 40 false).set_active 1 0 2).is_active 1 1 = true
        ↔ (scanned_session 4 (fun _ => 9) 40 false).is_active 1 1 = true
          ∨ ((1 : Int) = 1 ∧ (0 : Int) ≤ 1 ∧ (1 : Int) < 2)))
    ∧ ((scanned_session 4 (fun _ => 9) 40 false).fast = true →
        (scanned_session 4 (fun _ => 9) 40 false).set_active 1 0 2
          = scanned_session 4 (fun _ => 9) 40 false
        ∧ (scanned_session 4 (fun _ => 9) 40 false).is_active 1 1 = false)
    ∧ SameSession (scanned_session 4 (fun _ => 9) 40 false)
        ((scanned_session 4 (fun _ => 9) 40 false).set_active 1 0 2) :=
  set_active_frame (scanned_session 4 (fun _ => 9) 40 false) 1 0 2 1 1 (by decide) (by decide)
    (by decide) (by decide)

/-! ## Scalar scanners: scores and order -/

theorem node_sum_mono {score_matrix : Letter → Letter → Int} {query subject : Int → Letter}
    {qbegin jbegin b1 b2 : Int} {s : Diagonal_node}
    (h : NodeSum score_matrix query subject qbegin jbegin b1 s) (hb : b1 ≤ b2) :
    NodeSum score_matrix query subject qbegin jbegin b2 s := by
  obtain ⟨a, b, h1, h2, h3⟩ := h
  exact ⟨a, b, h1, by omega, h3⟩

theorem score_diagonal2_step_sum (score_matrix : Letter → Letter → Int)
    (query subject : Int → Letter) (qbegin jbegin cutoff : Int) (diags : List Diagonal_node)
    (hc : 1 ≤ cutoff) (k : Nat) (st : ScanState)
    (h : Scan2SumInv score_matrix query subject qbegin jbegin diags k st) :
    Scan2SumInv score_matrix query subject qbegin jbegin diags (k + 1)
      (score_diagonal2_step score_matrix query subject qbegin jbegin cutoff k st) := by
  obtain ⟨bn, hb, hbk, hsc, hm, hpos, fresh, hd, hf, hpw⟩ := h
  have hstep := window_score_succ score_matrix query subject bn k
  unfold score_diagonal2_step
  simp only []
  rw [hsc, ← hstep]
  by_cases h1 : window_score score_matrix query subject bn (k + 1) ≤ 0
      ∨ st.max_score - window_score score_matrix query subject bn (k + 1) > xdrop
  · rw [if_pos h1]
    refine ⟨k + 1, by dsimp only; push_cast; rfl, le_refl _, ?_, le_refl _,
      fun h => absurd h (lt_irrefl _), ?_⟩
    · dsimp only
      rw [window_score_self]
    · dsimp only
      by_cases h2 : st.max_score ≥ cutoff
      · rw [if_pos h2]
        obtain ⟨en, he, hbe, hek, hmax⟩ := hpos (by omega)
        refine ⟨fresh ++ [⟨qbegin + st.begin, jbegin + st.begin, st.end_ - st.begin,
          st.max_score⟩], by rw [hd, List.append_assoc], ?_, ?_⟩
        · intro s hs
          rcases List.mem_append.mp hs with hs | hs
          · exact node_sum_mono (hf s hs) (by push_cast; omega)
          · rw [List.mem_singleton.mp hs]
            exact ⟨bn, en, hbe, by push_cast; omega, by rw [hb], by rw [hb],
              by dsimp only; rw [he, hb], hmax⟩
        · rw [List.pairwise_append]
          refine ⟨hpw, List.pairwise_singleton _ _, ?_⟩
          intro s hs t ht
          rw [List.mem_singleton.mp ht]
          obtain ⟨a, b, h3, h4, _, h6, h7, _⟩ := hf s hs
          unfold Diagonal_segment.subject_end
          dsimp only
          omega
      · rw [if_neg h2]
        exact ⟨fresh, hd, fun s hs => node_sum_mono (hf s hs) (by push_cast; omega), hpw⟩
  · rw [if_neg h1]
    by_cases h2 : window_score score_matrix query subject bn (k + 1) > st.max_score
    · rw [if_pos h2]
      refine ⟨bn, hb, by omega, rfl, by dsimp only; omega, ?_, fresh, hd, hf, hpw⟩
      intro _
      exact ⟨k + 1, by dsimp only; push_cast; rfl, by omega, le_refl _, rfl⟩
    · rw [if_neg h2]
      refine ⟨bn, hb, by omega, rfl, hm, ?_, fresh, hd, hf, hpw⟩
      intro h3
      obtain ⟨en, he, hbe, hek, hmax⟩ := hpos h3
      exact ⟨en, he, hbe, by omega, hmax⟩

theorem score_diagonal2_loop_sum (score_matrix : Letter → Letter → Int)
    (query subject : Int → Letter) (qbegin jbegin cutoff : Int) (diags : List Diagonal_node)
    (hc : 1 ≤ cutoff) (n : Nat) : ∀ (k : Nat) (st : ScanState),
    Scan2SumInv score_matrix query subject qbegin jbegin diags k st →
    Scan2SumInv score_matrix query subject qbegin jbegin diags (k + n)
      (score_diagonal2_loop score_matrix query subject qbegin jbegin cutoff n k st) := by
  induction n with
  | zero => intro k st h; exact h
  | succ n ih =>
    intro k st h
    unfold score_diagonal2_loop
    have h1 := ih (k + 1) _
      (score_diagonal2_step_sum score_matrix query subject qbegin jbegin cutoff diags hc k st h)
    have e : k + 1 + n = k + (n + 1) := by omega
    rw [e] at h1
    have e2 : ((k + 1 : Nat) : Int) = (k : Int) + 1 := by push_cast; rfl
    rw [e2] at h1
    exact h1

/-- C22. For every window and every cutoff of at least 1, each node that
`score_diagonal2` appends reports window positions `[a, b)` with
`0 <= a < b <= len` (start `(qbegin + a, jbegin + a)`, length `b - a`), its
score is the sum of the substitution scores over exactly these positions, and
the nodes are appended in strictly increasing position order with pairwise
disjoint ranges. -/
theorem score_diagonal2_scores_and_order (score_matrix : Letter → Letter → Int)
    (query subject : Int → Letter) (len qbegin jbegin : Int) (diags : List Diagonal_node)
    (cutoff : Int) (hc : 1 ≤ cutoff) :
    ∃ fresh, score_diagonal2 score_matrix query subject len qbegin jbegin diags cutoff
        = diags ++ fresh
      ∧ (∀ s ∈ fresh, ∃ a b : Nat, a < b ∧ (b : Int) ≤ len ∧ s.i = qbegin + a
          ∧ s.j = jbegin + a ∧ s.len = (b : Int) - a
          ∧ s.score = window_score score_matrix query subject a b)
      ∧ fresh.Pairwise (fun s t => s.subject_end ≤ t.j ∧ s.j < t.j) := by
  have h0 : Scan2SumInv score_matrix query subject qbegin jbegin diags 0 ⟨0, 0, 0, 0, 0, diags⟩ :=
    ⟨0, rfl, le_refl _, by rw [window_score_self], le_refl _,
      fun h => absurd h (lt_irrefl _), [], by simp, by simp, List.Pairwise.nil⟩
  have h := score_diagonal2_loop_sum score_matrix query subject qbegin jbegin cutoff diags hc
    len.toNat 0 _ h0
  rw [Nat.zero_add, Nat.cast_zero] at h
  unfold score_diagonal2
  simp only []
  generalize score_diagonal2_loop score_matrix query subject qbegin jbegin cutoff len.toNat 0
    ⟨0, 0, 0, 0, 0, diags⟩ = st at h ⊢
  obtain ⟨bn, hb, hbk, hsc, hm, hpos, fresh, hd, hf, hpw⟩ := h
  by_cases h2 : st.max_score ≥ cutoff
  · rw [if_pos h2]
    obtain ⟨en, he, hbe, hek, hmax⟩ := hpos (by omega)
    refine ⟨fresh ++ [⟨qbegin + st.begin, jbegin + st.begin, st.end_ - st.begin,
      st.max_score⟩], by rw [hd, List.append_assoc], ?_, ?_⟩
    · intro s hs
      rcases List.mem_append.mp hs with hs | hs
      · obtain ⟨a, b, h3, h4, h5⟩ := hf s hs
        exact ⟨a, b, h3, by omega, h5⟩
      · rw [List.mem_singleton.mp hs]
        exact ⟨bn, en, hbe, by omega, by rw [hb], by rw [hb], by dsimp only; rw [he, hb], hmax⟩
    · rw [List.pairwise_append]
      refine ⟨hpw, List.pairwise_singleton _ _, ?_⟩
      intro s hs t ht
      rw [List.mem_singleton.mp ht]
      obtain ⟨a, b, h3, h4, _, h6, h7, _⟩ := hf s hs
      unfold Diagonal_segment.subject_end
      dsimp only
      omega
  · rw [if_neg h2]
    refine ⟨fresh, hd, ?_, hpw⟩
    intro s hs
    obtain ⟨a, b, h3, h4, h5⟩ := hf s hs
    exact ⟨a, b, h3, by omega, h5⟩

theorem score_diagonal2_scores_and_order_witness :
    ∃ fresh, score_diagonal2 (fun a b => if a = b then 5 else -6) (fun k => k.toNat % 3)
        (fun _ => 1) 10 100 200 [] 1 = [] ++ fresh
      ∧ (∀ s ∈ fresh, ∃ a b : Nat, a < b ∧ (b : Int) ≤ 10 ∧ s.i = 100 + (a : Int)
          ∧ s.j = 200 + (a : Int) ∧ s.len = (b : Int) - a
          ∧ s.score = window_score (fun a b => if a = b then 5 else -6) (fun k => k.toNat % 3)
              (fun _ => 1) a b)
      ∧ fresh.Pairwise (fun s t => s.subject_end ≤ t.j ∧ s.j < t.j) :=
  score_diagonal2_scores_and_order _ _ _ 10 100 200 [] 1 (by decide)

/-! ## Recursive list scanner -/

/-- One pass of the loop of the list-producing `score_diagonal`, over a handler
that returns for every window shorter than `len` and appends nodes with a score
of at least `min_low_score` and a positive length only: the pass returns, keeps
`ListScanInv`, and the list grows by such nodes only. -/
theorem score_diagonal_list_step_inv (score_matrix : Letter → Letter → Int)
    (query subject : Int → Letter) (len qbegin jbegin min_low_score : Int)
    (call : Int → Int → List Diagonal_node → Option (List Diagonal_node))
    (hm : 1 ≤ min_low_score)
    (hcall : ∀ e l d, 0 ≤ l → l < len →
      ∃ fresh, call e l d = some (d ++ fresh) ∧ ∀ s ∈ fresh, s.score ≥ min_low_score ∧ s.len > 0)
    (k : Int) (hk : k < len) (st : ScanState) (hinv : ListScanInv k st) :
    ∃ st1 fresh,
      score_diagonal_list_step score_matrix query subject qbegin jbegin min_low_score call k st
        = some st1
      ∧ ListScanInv (k + 1) st1 ∧ st1.diags = st.diags ++ fresh
      ∧ ∀ s ∈ fresh, s.score ≥ min_low_score ∧ s.len > 0 := by
  obtain ⟨h1, h2, h3, h4⟩ := hinv
  unfold score_diagonal_list_step
  simp only []
  generalize st.score + score_matrix (query k) (subject k) = score
  by_cases hs : score ≤ 0
  · rw [if_pos hs]
    by_cases hmax : st.max_score ≥ min_low_score
    · rw [if_pos hmax]
      obtain ⟨b1, b2, b3⟩ := h4 (by omega)
      obtain ⟨fresh, hf1, hf2⟩ := hcall st.end_ (k - st.end_)
        (st.diags ++ [⟨qbegin + st.begin, jbegin + st.begin, st.end_ - st.begin,
          st.max_score⟩]) (by omega) (by omega)
      rw [hf1]
      refine ⟨_, [⟨qbegin + st.begin, jbegin + st.begin, st.end_ - st.begin, st.max_score⟩]
        ++ fresh, rfl, ⟨le_refl _, by dsimp only; omega, le_refl _,
          fun h => absurd h (lt_irrefl _)⟩, by dsimp only; rw [List.append_assoc], ?_⟩
      intro s hs1
      rcases List.mem_append.mp hs1 with hs1 | hs1
      · rw [List.mem_singleton.mp hs1]
        exact ⟨hmax, by dsimp only; omega⟩
      · exact hf2 s hs1
    · rw [if_neg hmax]
      refine ⟨_, [], rfl, ⟨h1, by dsimp only; omega, le_refl _, ?_⟩,
        by rw [List.append_nil], fun s hs1 => absurd hs1 (List.not_mem_nil _)⟩
      intro h
      obtain ⟨b1, b2, b3⟩ := h4 h
      exact ⟨b1, b2, by dsimp only; omega⟩
  · rw [if_neg hs]
    by_cases hgt : score > st.max_score
    · rw [if_pos hgt]
      exact ⟨_, [], rfl, ⟨by dsimp only; omega, h2, by dsimp only; omega,
        fun _ => ⟨h2, by dsimp only; omega, le_refl _⟩⟩,
        by rw [List.append_nil], fun s hs1 => absurd hs1 (List.not_mem_nil _)⟩
    · rw [if_neg hgt]
      refine ⟨_, [], rfl, ⟨h1, h2, by dsimp only; omega, ?_⟩,
        by rw [List.append_nil], fun s hs1 => absurd hs1 (List.not_mem_nil _)⟩
      intro h
      obtain ⟨b1, b2, b3⟩ := h4 h
      exact ⟨b1, b2, by dsimp only; omega⟩

theorem score_diagonal_list_loop_inv (score_matrix : Letter → Letter → Int)
    (query subject : Int → Letter) (len qbegin jbegin min_low_score : Int)
    (call : Int → Int → List Diagonal_node → Option (List Diagonal_node))
    (hm : 1 ≤ min_low_score)
    (hcall : ∀ e l d, 0 ≤ l → l < len →
      ∃ fresh, call e l d = some (d ++ fresh) ∧ ∀ s ∈ fresh, s.score ≥ min_low_score ∧ s.len > 0)
    (n : Nat) : ∀ (k : Int) (st : ScanState), k + n ≤ len → ListScanInv k st →
    ∃ st1 fresh,
      score_diagonal_list_loop score_matrix query subject qbegin jbegin min_low_score call n k
        st = some st1
      ∧ ListScanInv (k + n) st1 ∧ st1.diags = st.diags ++ fresh
      ∧ ∀ s ∈ fresh, s.score ≥ min_low_score ∧ s.len > 0 := by
  induction n with
  | zero =>
    intro k st _ hinv
    refine ⟨st, [], rfl, ?_, by rw [List.append_nil],
      fun s hs1 => absurd hs1 (List.not_mem_nil _)⟩
    simp only [Nat.cast_zero, add_zero]
    exact hinv
  | succ n ih =>
    intro k st hk hinv
    obtain ⟨st1, f1, g1, g2, g3, g4⟩ := score_diagonal_list_step_inv score_matrix query subject
      len qbegin jbegin min_low_score call hm hcall k (by push_cast at hk; omega) st hinv
    obtain ⟨st2, f2, g5, g6, g7, g8⟩ := ih (k + 1) st1 (by push_cast at hk; omega) g2
    unfold score_diagonal_list_loop
    rw [g1]
    refine ⟨st2, f1 ++ f2, g5, ?_, by rw [g7, g3, List.append_assoc], ?_⟩
    · have e : k + ((n + 1 : Nat) : Int) = k + 1 + n := by push_cast; ring
      rw [e]
      exact g6
    · intro s hs1
      rcases List.mem_append.mp hs1 with hs1 | hs1
      · exact g4 s hs1
      · exact g8 s hs1

/-- The body of the list-producing `score_diagonal` over a handler that returns
for every window shorter than `len`: it returns, and the list grows by nodes
with a score of at least `min_low_score` and a positive length only. -/
theorem score_diagonal_list_body_inv (score_matrix : Letter → Letter → Int)
    (query subject : Int → Letter) (len qbegin jbegin min_low_score : Int)
    (call : Int → Int → List Diagonal_node → Option (List Diagonal_node))
    (hm : 1 ≤ min_low_score)
    (hcall : ∀ e l d, 0 ≤ l → l < len →
      ∃ fresh, call e l d = some (d ++ fresh) ∧ ∀ s ∈ fresh, s.score ≥ min_low_score ∧ s.len > 0)
    (diags : List Diagonal_node) :
    ∃ fresh,
      score_diagonal_list_body score_matrix query subject len qbegin jbegin min_low_score call
        diags = some (diags ++ fresh)
      ∧ ∀ s ∈ fresh, s.score ≥ min_low_score ∧ s.len > 0 := by
  unfold score_diagonal_list_body
  rcases lt_or_le len 0 with hneg | hpos
  · have e : len.toNat = 0 := by omega
    rw [e]
    unfold score_diagonal_list_loop
    simp only []
    rw [if_neg (by omega)]
    exact ⟨[], by rw [List.append_nil], fun s hs1 => absurd hs1 (List.not_mem_nil _)⟩
  · obtain ⟨st, f1, g1, ⟨g2, _, _, g5⟩, g3, g4⟩ := score_diagonal_list_loop_inv score_matrix
      query subject len qbegin jbegin min_low_score call hm hcall len.toNat 0
      ⟨0, 0, 0, 0, 0, diags⟩ (by omega)
      ⟨le_refl _, le_refl _, le_refl _, fun h => absurd h (lt_irrefl _)⟩
    rw [g1]
    simp only []
    by_cases hmax : st.max_score ≥ min_low_score
    · rw [if_pos hmax]
      obtain ⟨b1, b2, b3⟩ := g5 (by omega)
      obtain ⟨f2, hf1, hf2⟩ := hcall st.end_ ((len.toNat : Int) - st.end_)
        (st.diags ++ [⟨qbegin + st.begin, jbegin + st.begin, st.end_ - st.begin,
          st.max_score⟩]) (by omega) (by omega)
      rw [hf1, g3]
      refine ⟨f1 ++ ([⟨qbegin + st.begin, jbegin + st.begin, st.end_ - st.begin,
        st.max_score⟩] ++ f2), by simp only [List.append_assoc], ?_⟩
      intro s hs1
      rcases List.mem_append.mp hs1 with hs1 | hs1
      · exact g4 s hs1
      · rcases List.mem_append.mp hs1 with hs1 | hs1
        · rw [List.mem_singleton.mp hs1]
          exact ⟨hmax, by dsimp only; omega⟩
        · exact hf2 s hs1
    · rw [if_neg hmax]
      exact ⟨f1, by rw [g3], g4⟩

/-- The list-producing `score_diagonal` returns when the fuel exceeds the length
of the window, and appends nodes with a score of at least `min_low_score` and a
positive length only. -/
theorem score_diagonal_list_total (score_matrix : Letter → Letter → Int) (min_low_score : Int)
    (hm : 1 ≤ min_low_score) (fuel : Nat) :
    ∀ (query subject : Int → Letter) (len qbegin jbegin : Int) (diags : List Diagonal_node),
    len.toNat < fuel →
    ∃ fresh,
      score_diagonal_list score_matrix min_low_score fuel query subject len qbegin jbegin diags
        = some (diags ++ fresh)
      ∧ ∀ s ∈ fresh, s.score ≥ min_low_score ∧ s.len > 0 := by
  induction fuel with
  | zero => intro _ _ len _ _ _ h; omega
  | succ fuel ih =>
    intro query subject len qbegin jbegin diags hf
    unfold score_diagonal_list
    exact score_diagonal_list_body_inv score_matrix query subject len qbegin jbegin
      min_low_score _ hm
      (fun e l d h1 h2 => ih (fun k => query (e + k)) (fun k => subject (e + k)) l (qbegin + e)
        (jbegin + e) d (by omega)) diags

/-- One pass of the loop of the list-producing `score_diagonal` makes its
recursive call on a window shorter than `len` only: refusing the other calls
changes nothing. -/
theorem score_diagonal_list_step_shorter (score_matrix : Letter → Letter → Int)
    (query subject : Int → Letter) (len qbegin jbegin min_low_score : Int)
    (call : Int → Int → List Diagonal_node → Option (List Diagonal_node))
    (hm : 1 ≤ min_low_score) (k : Int) (hk : k < len) (st : ScanState)
    (hinv : ListScanInv k st) :
    score_diagonal_list_step score_matrix query subject qbegin jbegin min_low_score
        (shorter_only len call) k st
      = score_diagonal_list_step score_matrix query subject qbegin jbegin min_low_score call k st
    ∧ ∀ st1, score_diagonal_list_step score_matrix query subject qbegin jbegin min_low_score
        call k st = some st1 → ListScanInv (k + 1) st1 := by
  obtain ⟨h1, h2, h3, h4⟩ := hinv
  unfold score_diagonal_list_step
  simp only []
  generalize st.score + score_matrix (query k) (subject k) = score
  by_cases hs : score ≤ 0
  · rw [if_pos hs, if_pos hs]
    by_cases hmax : st.max_score ≥ min_low_score
    · rw [if_pos hmax, if_pos hmax]
      obtain ⟨b1, b2, b3⟩ := h4 (by omega)
      have hg : shorter_only len call st.end_ (k - st.end_)
          (st.diags ++ [⟨qbegin + st.begin, jbegin + st.begin, st.end_ - st.begin,
            st.max_score⟩])
          = call st.end_ (k - st.end_)
            (st.diags ++ [⟨qbegin + st.begin, jbegin + st.begin, st.end_ - st.begin,
              st.max_score⟩]) := by
        unfold shorter_only
        rw [if_pos ⟨by omega, by omega⟩]
      rw [hg]
      refine ⟨rfl, ?_⟩
      intro st1 hst1
      cases hc : call st.end_ (k - st.end_)
          (st.diags ++ [⟨qbegin + st.begin, jbegin + st.begin, st.end_ - st.begin,
            st.max_score⟩]) with
      | none =>
        rw [hc] at hst1
        exact absurd hst1 (by simp)
      | some d =>
        rw [hc] at hst1
        simp only [Option.some.injEq] at hst1
        rw [← hst1]
        exact ⟨le_refl _, by dsimp only; omega, le_refl _, fun h => absurd h (lt_irrefl _)⟩
    · rw [if_neg hmax, if_neg hmax]
      refine ⟨rfl, ?_⟩
      intro st1 hst1
      simp only [Option.some.injEq] at hst1
      rw [← hst1]
      refine ⟨h1, by dsimp only; omega, le_refl _, ?_⟩
      intro h
      obtain ⟨b1, b2, b3⟩ := h4 h
      exact ⟨b1, b2, by dsimp only; omega⟩
  · rw [if_neg hs, if_neg hs]
    refine ⟨rfl, ?_⟩
    intro st1 hst1
    by_cases hgt : score > st.max_score
    · rw [if_pos hgt] at hst1
      simp only [Option.some.injEq] at hst1
      rw [← hst1]
      exact ⟨by dsimp only; omega, h2, by dsimp only; omega,
        fun _ => ⟨h2, by dsimp only; omega, le_refl _⟩⟩
    · rw [if_neg hgt] at hst1
      simp only [Option.some.injEq] at hst1
      rw [← hst1]
      refine ⟨h1, h2, by dsimp only; omega, ?_⟩
      intro h
      obtain ⟨b1, b2, b3⟩ := h4 h
      exact ⟨b1, b2, by dsimp only; omega⟩

theorem score_diagonal_list_loop_shorter (score_matrix : Letter → Letter → Int)
    (query subject : Int → Letter) (len qbegin jbegin min_low_score : Int)
    (call : Int → Int → List Diagonal_node → Option (List Diagonal_node))
    (hm : 1 ≤ min_low_score) (n : Nat) : ∀ (k : Int) (st : ScanState), k + n ≤ len →
    ListScanInv k st →
    score_diagonal_list_loop score_matrix query subject qbegin jbegin min_low_score
        (shorter_only len call) n k st
      = score_diagonal_list_loop score_matrix query subject qbegin jbegin min_low_score call n k
        st
    ∧ ∀ st1, score_diagonal_list_loop score_matrix query subject qbegin jbegin min_low_score
        call n k st = some st1 → ListScanInv (k + n) st1 := by
  induction n with
  | zero =>
    intro k st _ hinv
    refine ⟨rfl, ?_⟩
    intro st1 hst1
    unfold score_diagonal_list_loop at hst1
    simp only [Option.some.injEq] at hst1
    rw [← hst1]
    simp only [Nat.cast_zero, add_zero]
    exact hinv
  | succ n ih =>
    intro k st hk hinv
    obtain ⟨g1, g2⟩ := score_diagonal_list_step_shorter score_matrix query subject len qbegin
      jbegin min_low_score call hm k (by push_cast at hk; omega) st hinv
    have e : k + ((n + 1 : Nat) : Int) = k + 1 + n := by push_cast; ring
    unfold score_diagonal_list_loop
    rw [g1]
    cases hc : score_diagonal_list_step score_matrix query subject qbegin jbegin min_low_score
        call k st with
    | none => exact ⟨rfl, fun st1 h => absurd h (by simp)⟩
    | some st1 =>
      simp only []
      obtain ⟨g3, g4⟩ := ih (k + 1) st1 (by push_cast at hk; omega) (g2 st1 hc)
      rw [e]
      exact ⟨g3, g4⟩

/-- C25. For every window, of any length `len`, and every low threshold
`min_low_score >= 1`: the list-producing `score_diagonal` terminates (with fuel
for a recursion depth above `len` it returns); every recursive call that its
body makes, in the loop or behind it, is on a remainder of length `l` with
`0 <= l < len` (a handler that refuses all other calls gives the same result);
and every node appended has a score of at least `min_low_score` and a positive
length. -/
theorem score_diagonal_list_terminates (score_matrix : Letter → Letter → Int)
    (min_low_score : Int) (fuel : Nat) (query subject : Int → Letter) (len qbegin jbegin : Int)
    (diags : List Diagonal_node) (hm : 1 ≤ min_low_score) (hf : len.toNat < fuel) :
    (∃ fresh,
      score_diagonal_list score_matrix min_low_score fuel query subject len qbegin jbegin diags
        = some (diags ++ fresh)
      ∧ ∀ s ∈ fresh, s.score ≥ min_low_score ∧ s.len > 0)
    ∧ ∀ call,
        score_diagonal_list_body score_matrix query subject len qbegin jbegin min_low_score
          (shorter_only len call) diags
        = score_diagonal_list_body score_matrix query subject len qbegin jbegin min_low_score
          call diags := by
  refine ⟨score_diagonal_list_total score_matrix min_low_score hm fuel query subject len qbegin
    jbegin diags hf, ?_⟩
  intro call
  unfold score_diagonal_list_body
  rcases lt_or_le len 0 with hneg | hpos
  · have e : len.toNat = 0 := by omega
    rw [e]
    unfold score_diagonal_list_loop
    simp only []
    rw [if_neg (by omega), if_neg (by omega)]
  · obtain ⟨g1, g2⟩ := score_diagonal_list_loop_shorter score_matrix query subject len qbegin
      jbegin min_low_score call hm len.toNat 0 ⟨0, 0, 0, 0, 0, diags⟩ (by omega)
      ⟨le_refl _, le_refl _, le_refl _, fun h => absurd h (lt_irrefl _)⟩
    rw [g1]
    cases hc : score_diagonal_list_loop score_matrix query subject qbegin jbegin min_low_score
        call len.toNat 0 ⟨0, 0, 0, 0, 0, diags⟩ with
    | none => rfl
    | some st =>
      simp only []
      obtain ⟨_, _, _, g5⟩ := g2 st hc
      by_cases hmax : st.max_score ≥ min_low_score
      · rw [if_pos hmax, if_pos hmax]
        obtain ⟨b1, b2, b3⟩ := g5 (by omega)
        unfold shorter_only
        rw [if_pos ⟨by omega, by omega⟩]
      · rw [if_neg hmax, if_neg hmax]

theorem score_diagonal_list_terminates_witness :
    (∃ fresh,
      score_diagonal_list (fun a b => if a = b then 5 else -6) 5 11 (fun k => k.toNat % 3)
          (fun _ => 1) 10 100 200 [] = some ([] ++ fresh)
      ∧ ∀ s ∈ fresh, s.score ≥ 5 ∧ s.len > 0)
    ∧ ∀ call,
        score_diagonal_list_body (fun a b => if a = b then 5 else -6) (fun k => k.toNat % 3)
          (fun _ => 1) 10 100 200 5 (shorter_only 10 call) []
        = score_diagonal_list_body (fun a b => if a = b then 5 else -6) (fun k => k.toNat % 3)
          (fun _ => 1) 10 100 200 5 call [] :=
  score_diagonal_list_terminates _ 5 11 _ _ 10 100 200 [] (by decide) (by decide)

/-! ## Per-diagonal orchestration: what a call appends -/

theorem get_diag_range_step_diag (i j : Int) (d : Iterator)
    (begin last d0 block_len cutoff best_score : Int) (st : RangeState) :
    ∃ x, (get_diag_range_step i j d begin last d0 block_len cutoff best_score st).diags
        = st.diags ++ x
      ∧ ∀ s ∈ x, s.diag = i - j := by
  unfold get_diag_range_step
  simp only []
  generalize d.rd (get_diag_p1 d begin block_len st.end_)
    - (if get_low_idx d last (get_diag_p1 d begin block_len st.end_) d0 ≥ d0 then
        d.rd (get_low_idx d last (get_diag_p1 d begin block_len st.end_) d0) else 0) = score
  split_ifs
  · refine ⟨_, rfl, fun s hs => ?_⟩
    rw [List.mem_singleton.mp hs]
    unfold Diagonal_segment.diag
    dsimp only
    omega
  · exact ⟨[], by rw [List.append_nil], fun s hs => absurd hs (List.not_mem_nil _)⟩

theorem get_diag_range_loop_diag (i j : Int) (d : Iterator)
    (begin last d0 block_len cutoff best_score : Int) (fuel : Nat) :
    ∀ (st st1 : RangeState),
    get_diag_range_loop i j d begin last d0 block_len cutoff best_score fuel st = some st1 →
    ∃ acc, st1.diags = st.diags ++ acc ∧ ∀ s ∈ acc, s.diag = i - j := by
  induction fuel with
  | zero =>
    intro st st1 h
    unfold get_diag_range_loop at h
    exact absurd h (by simp)
  | succ fuel ih =>
    intro st st1 h
    unfold get_diag_range_loop at h
    split_ifs at h with hgt
    · obtain ⟨acc, hacc, hd⟩ := ih _ _ h
      obtain ⟨x, hx, hxd⟩ := get_diag_range_step_diag i j d begin last d0 block_len cutoff
        best_score st
      rw [hx] at hacc
      refine ⟨x ++ acc, by rw [hacc, List.append_assoc], fun s hs => ?_⟩
      rcases List.mem_append.mp hs with hs | hs
      · exact hxd s hs
      · exact hd s hs
    · simp only [Option.some.injEq] at h
      exact ⟨[], by rw [← h, List.append_nil], fun s hs => absurd hs (List.not_mem_nil _)⟩

/-- Exploiting a run that starts at `last` or later returns, in both modes and
whatever the cutoff; it changes the active mask at most and appends segments of
the diagonal `i - j` only. -/
theorem exploit_run_appends (fuel : Nat) (i j o cutoff : Int) (st : RowState)
    (hbl : 1 ≤ st.ds.block_len) (hd0 : j ≤ st.ds.dj0 o)
    (hfuel : (st.ds.dj1 o - j).toNat < fuel) (hlb : st.last ≤ st.begin) :
    ∃ flag ds1 acc, exploit_run fuel i j o cutoff st = some (flag, ds1, st.diags ++ acc)
      ∧ SameSession st.ds ds1 ∧ ∀ s ∈ acc, s.diag = i - j := by
  have hmul : st.last * st.ds.block_len ≤ st.begin * st.ds.block_len :=
    Int.mul_le_mul_of_nonneg_right hlb (by omega)
  have hfuel1 : ((min ((st.best + 1) * st.ds.block_len) (st.ds.dj1 o - j)
      - max (st.begin * st.ds.block_len) (st.ds.dj0 o - j)).toNat) < fuel := by
    have h1 : min ((st.best + 1) * st.ds.block_len) (st.ds.dj1 o - j) ≤ st.ds.dj1 o - j :=
      min_le_right _ _
    have h2 : st.ds.dj0 o - j ≤ max (st.begin * st.ds.block_len) (st.ds.dj0 o - j) :=
      le_max_right _ _
    have : (min ((st.best + 1) * st.ds.block_len) (st.ds.dj1 o - j)
      - max (st.begin * st.ds.block_len) (st.ds.dj0 o - j)).toNat ≤ (st.ds.dj1 o - j).toNat :=
      Int.toNat_le_toNat (by omega)
    omega
  have hinit : RangeRunInv j (max (st.last * st.ds.block_len) (st.ds.dj0 o - j)) st.diags
      ⟨min ((st.best + 1) * st.ds.block_len) (st.ds.dj1 o - j), INT_MAX, st.diags⟩ :=
    ⟨[], by simp, fun _ => rfl, fun h => absurd rfl h⟩
  obtain ⟨st1, hst, _, _⟩ := get_diag_range_loop_run i j (st.ds.score_buf.diag o)
    (max (st.begin * st.ds.block_len) (st.ds.dj0 o - j))
    (max (st.last * st.ds.block_len) (st.ds.dj0 o - j)) (st.ds.dj0 o - j) st.ds.block_len cutoff
    st.best_score st.diags hbl (by omega) (le_max_right _ _) (max_le_max hmul (le_refl _)) fuel
    ⟨min ((st.best + 1) * st.ds.block_len) (st.ds.dj1 o - j), INT_MAX, st.diags⟩ hfuel1 hinit
  obtain ⟨acc, hacc, hd⟩ := get_diag_range_loop_diag i j (st.ds.score_buf.diag o)
    (max (st.begin * st.ds.block_len) (st.ds.dj0 o - j))
    (max (st.last * st.ds.block_len) (st.ds.dj0 o - j)) (st.ds.dj0 o - j) st.ds.block_len cutoff
    st.best_score fuel _ st1 hst
  dsimp only at hacc
  unfold exploit_run get_diag_range
  simp only []
  rw [hst]
  simp only [Option.map_some']
  by_cases hz : st1.z < INT_MAX
  · rw [if_pos hz, hacc]
    exact ⟨true, _, acc, rfl, set_active_same_session st.ds o _ _, hd⟩
  · rw [if_neg hz, hacc]
    exact ⟨false, _, acc, rfl, SameSession.refl st.ds, hd⟩

/-- One pass of the `for` loop of `Diag_scores::get_diag` returns and keeps
`RowGrowInv`. -/
theorem get_diag_step_appends (ds0 : Diag_scores) (o i j : Int) (base : List Diagonal_node)
    (fuel : Nat) (cutoff : Int) (hbl : 1 ≤ ds0.block_len) (hd0 : j ≤ ds0.dj0 o)
    (hfuel : (ds0.dj1 o - j).toNat < fuel) (p : Int) (st : RowState)
    (hinv : RowGrowInv ds0 i j base p st) :
    ∃ st1, get_diag_step fuel i j o cutoff p st = some st1
      ∧ RowGrowInv ds0 i j base (p + 1) st1 := by
  obtain ⟨hs, hlp, hrun, acc, hdiags, hdg⟩ := hinv
  obtain ⟨_, _, _, f4, f5, f6⟩ := hs.fields
  unfold get_diag_step
  simp only []
  by_cases hq : st.ds.is_active o p = false ∧ (st.ds.local_max.diag o).rd p ≥ cutoff
      ∧ (p = 0 ∨ (st.ds.local_max.diag o).rd p > (st.ds.local_max.diag o).rd (p - 1))
  · rw [if_pos hq, Option.map_some']
    simp only []
    rw [if_neg (by rw [hq.1]; exact Bool.false_ne_true)]
    refine ⟨_, rfl, hs, by dsimp only; omega, ?_, acc, hdiags, hdg⟩
    intro _
    dsimp only
    by_cases hb : st.begin = -1
    · rw [if_pos hb]; omega
    · rw [if_neg hb]
      have := hrun hb
      omega
  · rw [if_neg hq]
    by_cases hb : st.begin ≠ -1
    · rw [if_pos hb]
      obtain ⟨r1, r2⟩ := hrun hb
      obtain ⟨flag, ds1, acc1, hex, hs1, hd1⟩ := exploit_run_appends fuel i j o cutoff st
        (by rw [f6]; exact hbl) (by rw [f4]; exact hd0) (by rw [f5]; exact hfuel) r1
      rw [hex]
      have hmem : ∀ s ∈ acc ++ acc1, s.diag = i - j := by
        intro s hsm
        rcases List.mem_append.mp hsm with hsm | hsm
        · exact hdg s hsm
        · exact hd1 s hsm
      cases flag with
      | true =>
        simp only [Option.map_some']
        by_cases ha : ds1.is_active o p = true
        · rw [if_pos ha]
          exact ⟨_, rfl, hs.trans hs1, by dsimp only; omega, fun h => absurd rfl h,
            acc ++ acc1, by dsimp only; rw [hdiags, List.append_assoc], hmem⟩
        · rw [if_neg ha]
          exact ⟨_, rfl, hs.trans hs1, by dsimp only; omega, fun h => absurd rfl h,
            acc ++ acc1, by dsimp only; rw [hdiags, List.append_assoc], hmem⟩
      | false =>
        simp only [Option.map_some']
        by_cases ha : ds1.is_active o p = true
        · rw [if_pos ha]
          exact ⟨_, rfl, hs.trans hs1, by dsimp only; omega, fun h => absurd rfl h,
            acc ++ acc1, by dsimp only; rw [hdiags, List.append_assoc], hmem⟩
        · rw [if_neg ha]
          exact ⟨_, rfl, hs.trans hs1, by dsimp only; omega, fun h => absurd rfl h,
            acc ++ acc1, by dsimp only; rw [hdiags, List.append_assoc], hmem⟩
    · rw [if_neg hb, Option.map_some']
      have hb1 : st.begin = -1 := by
        by_contra h; exact hb h
      by_cases ha : st.ds.is_active o p = true
      · rw [if_pos ha]
        exact ⟨_, rfl, hs, by dsimp only; omega, fun h => absurd hb1 h, acc, hdiags, hdg⟩
      · rw [if_neg ha]
        exact ⟨_, rfl, hs, by omega, fun h => absurd hb1 h, acc, hdiags, hdg⟩

theorem get_diag_blocks_appends (ds0 : Diag_scores) (o i j : Int) (base : List Diagonal_node)
    (fuel : Nat) (cutoff : Int) (hbl : 1 ≤ ds0.block_len) (hd0 : j ≤ ds0.dj0 o)
    (hfuel : (ds0.dj1 o - j).toNat < fuel) (n : Nat) :
    ∀ (p : Int) (st : RowState), RowGrowInv ds0 i j base p st →
    ∃ st1, get_diag_blocks fuel i j o cutoff n p st = some st1
      ∧ RowGrowInv ds0 i j base (p + n) st1 := by
  induction n with
  | zero =>
    intro p st h
    exact ⟨st, rfl, by simpa using h⟩
  | succ n ih =>
    intro p st h
    obtain ⟨st1, h1, h2⟩ := get_diag_step_appends ds0 o i j base fuel cutoff hbl hd0 hfuel p st h
    obtain ⟨st2, h3, h4⟩ := ih (p + 1) st1 h2
    refine ⟨st2, ?_, ?_⟩
    · unfold get_diag_blocks
      rw [h1]
      exact h3
    · have e : p + ((n + 1 : Nat) : Int) = p + 1 + n := by push_cast; ring
      rw [e]
      exact h4

/-- A call of `Diag_scores::get_diag(i, j, o, ...)` returns, in both modes and
whatever the column range and the cutoff; it changes the active mask at most,
and the list after the call is the list before it followed by segments of the
diagonal `i - j`. -/
theorem get_diag_appends (ds : Diag_scores) (fuel : Nat) (i j o j_begin j_end : Int)
    (diags : List Diagonal_node) (cutoff : Int) (hbl : 1 ≤ ds.block_len) (hd0 : j ≤ ds.dj0 o)
    (hfuel : (ds.dj1 o - j).toNat < fuel) :
    ∃ ds1 acc, ds.get_diag fuel i j o j_begin j_end diags cutoff = some (ds1, diags ++ acc)
      ∧ SameSession ds ds1 ∧ ∀ s ∈ acc, s.diag = i - j := by
  unfold Diag_scores.get_diag
  simp only []
  generalize Int.tdiv (ds.dj0 o - j) ds.block_len = b0
  generalize Int.tdiv (ds.dj1 o - j + ds.block_len - 1) ds.block_len = b1
  generalize max (Int.tdiv (j_begin - j) ds.block_len) b0 = p
  generalize min (Int.tdiv (j_end - j + ds.block_len - 1) ds.block_len) b1 = p_end
  obtain ⟨w1, _⟩ := walk_back_spec ds o b0 (p - b0).toNat p
  have hrow0 : RowGrowInv ds i j diags p
      ⟨-1, -1, -1, walk_back ds o b0 (p - b0).toNat p, ds, diags⟩ :=
    ⟨SameSession.refl ds, w1, fun h => absurd rfl h, [], by rw [List.append_nil],
      fun s hs => absurd hs (List.not_mem_nil _)⟩
  obtain ⟨st, hst, hs, hlp, hrun, acc, hdiags, hdg⟩ :=
    get_diag_blocks_appends ds o i j diags fuel cutoff hbl hd0 hfuel (p_end - p).toNat p _ hrow0
  obtain ⟨_, _, _, f4, f5, f6⟩ := hs.fields
  rw [hst]
  simp only []
  by_cases hb : st.begin ≠ -1
  · rw [if_pos hb]
    obtain ⟨r1, _⟩ := hrun hb
    have key : ∀ st1 : RowState, st1.ds = st.ds → st1.diags = st.diags → st1.last = st.last →
        st1.begin = st.begin →
        ∃ ds1 acc1, (exploit_run fuel i j o cutoff st1).map (fun r => (r.2.1, r.2.2))
            = some (ds1, diags ++ acc1)
          ∧ SameSession ds ds1 ∧ ∀ s ∈ acc1, s.diag = i - j := by
      intro st1 e1 e2 e3 e4
      obtain ⟨flag, ds1, acc1, hex, hs1, hd1⟩ := exploit_run_appends fuel i j o cutoff st1
        (by rw [e1, f6]; exact hbl) (by rw [e1, f4]; exact hd0) (by rw [e1, f5]; exact hfuel)
        (by rw [e3, e4]; exact r1)
      rw [hex, Option.map_some', e2, hdiags, List.append_assoc]
      refine ⟨ds1, acc ++ acc1, rfl, hs.trans (by rw [← e1]; exact hs1), fun s hsm => ?_⟩
      rcases List.mem_append.mp hsm with hsm | hsm
      · exact hdg s hsm
      · exact hd1 s hsm
    by_cases hbest : st.best = p_end - 1
    · rw [if_pos hbest]
      exact key _ rfl rfl rfl rfl
    · rw [if_neg hbest]
      exact key st rfl rfl rfl rfl
  · rw [if_neg hb]
    exact ⟨st.ds, acc, by rw [hdiags], hs, hdg⟩

theorem SameSession.geometry {ds ds1 : Diag_scores} (h : SameSession ds ds1) :
    ds1.d_begin = ds.d_begin ∧ ds1.d_end = ds.d_end ∧ ds1.i_begin = ds.i_begin
      ∧ ds1.j_begin = ds.j_begin ∧ ds1.min_diag_score = ds.min_diag_score
      ∧ ds1.min_low_score = ds.min_low_score ∧ ds1.sv_max = ds.sv_max ∧ ds1.slen = ds.slen := by
  unfold SameSession at h
  refine ⟨?_, ?_, ?_, ?_, ?_, ?_, ?_, ?_⟩ <;> rw [h]

/-! ## Linker: probed offsets and diagonals -/

/-- C23. For every session with `j_begin = i_begin - d_begin` (the assignment of
`scan_diags`) and every pair of segments whose diagonals lie in
`[d_begin, d_end)`: every call that `scan_ends` makes for the first segment,
and every call that `scan_vicinity` makes for the pair, is on a diagonal offset
`o` with `0 <= o < d_end - d_begin`, which is the offset whose overall maximum
gated the call, and passes `i = i_begin + o` and `j = j_begin`; and a call of
`Diag_scores::get_diag` with such arguments, in the session or in one that
differs from it in the active mask, returns and appends segments of the
diagonal `d_begin + o` only. The geometry of `get_diag` is asked of the diagonal
offsets of the band only: a block length of at least 1, the first column of
the row of an offset of the band at `j_begin` or later, and fuel for the
columns of such a row. -/
theorem scan_offsets_in_band (ds : Diag_scores) (diags : List Diagonal_node) (d_idx e_idx : Nat)
    (subject_len gap_open gap_extend : Int) (fuel fuel2 : Nat) (hge : 1 ≤ gap_extend)
    (hfuel : (ds.min_diag_score - gap_open).toNat < fuel)
    (hd : ds.d_begin ≤ (node_at diags d_idx).diag ∧ (node_at diags d_idx).diag < ds.d_end)
    (he : ds.d_begin ≤ (node_at diags e_idx).diag ∧ (node_at diags e_idx).diag < ds.d_end)
    (hgeo : ds.j_begin = ds.i_begin - ds.d_begin) (hbl : 1 ≤ ds.block_len)
    (hd0 : ∀ o, 0 ≤ o → o < ds.d_end - ds.d_begin → ds.j_begin ≤ ds.dj0 o)
    (hf2 : ∀ o, 0 ≤ o → o < ds.d_end - ds.d_begin → (ds.dj1 o - ds.j_begin).toNat < fuel2) :
    (∃ probes, scan_ends recorder fuel gap_open gap_extend d_idx subject_len ⟨ds, diags, []⟩
        = some ⟨ds, diags, probes⟩
      ∧ ∀ p ∈ probes, 0 ≤ p.o ∧ p.o < ds.d_end - ds.d_begin ∧ p.i = ds.i_begin + p.o
          ∧ p.j = ds.j_begin)
    ∧ (∃ probes, scan_vicinity recorder d_idx e_idx ⟨ds, diags, []⟩ = some ⟨ds, diags, probes⟩
      ∧ ∀ p ∈ probes, 0 ≤ p.o ∧ p.o < ds.d_end - ds.d_begin ∧ p.i = ds.i_begin + p.o
          ∧ p.j = ds.j_begin)
    ∧ (∀ (ds1 : Diag_scores) (base : List Diagonal_node) (p : Probe), SameSession ds ds1 →
        0 ≤ p.o → p.o < ds.d_end - ds.d_begin → p.i = ds.i_begin + p.o → p.j = ds.j_begin →
        ∃ ds2 acc, (session_linker fuel2).call (ds1, base) p = some (ds2, base ++ acc)
          ∧ SameSession ds ds2 ∧ ∀ s ∈ acc, s.diag = ds.d_begin + p.o)
    ∧ ∀ (ds0 : Diag_scores) (d_begin d_end qlen slen : Int) ( fast : Bool),
        (scan_diags_geometry ds0 d_begin d_end qlen slen fast).j_begin
          = (scan_diags_geometry ds0 d_begin d_end qlen slen fast).i_begin
            - (scan_diags_geometry ds0 d_begin d_end qlen slen fast).d_begin := by
  refine ⟨?_, ?_, ?_, fun _ _ _ _ _ _ => rfl⟩
  · have h := scan_ends_recorder fuel gap_open gap_extend d_idx subject_len ⟨ds, diags, []⟩ hge
      hfuel
    dsimp only at h
    rw [List.nil_append] at h
    refine ⟨_, h, fun p hp => ?_⟩
    obtain ⟨t, t1, _, t3⟩ := mem_shifts_probes ds gap_open gap_extend _ _ _ subject_len p _ 1 hp
    obtain ⟨_, _, m3, m4, m5, _⟩ := mem_shift_probes ds _ _ _ subject_len t _ p t3
    refine ⟨?_, ?_, m3, m4⟩
    · rcases m5 with ⟨a, b⟩ | ⟨a, b⟩ <;> omega
    · rcases m5 with ⟨a, b⟩ | ⟨a, b⟩ <;> omega
  · obtain ⟨fresh, h1, _, h3⟩ := scan_vicinity_recorder d_idx e_idx ⟨ds, diags, []⟩
    dsimp only at h1 h3
    rw [List.nil_append] at h1
    refine ⟨fresh, h1, fun p hp => ?_⟩
    obtain ⟨_, _, v3, v4, g, v5, v6⟩ := h3 p hp
    refine ⟨?_, ?_, v3, v4⟩
    · rcases v6 with a | a | a <;> omega
    · rcases v6 with a | a | a <;> omega
  · intro ds1 base p hs ho0 ho1 hi hj
    obtain ⟨_, _, _, f4, f5, f6⟩ := hs.fields
    obtain ⟨ds2, acc, h1, h2, h3⟩ := get_diag_appends ds1 fuel2 p.i p.j p.o p.j_begin p.j_end base
      p.cutoff (by rw [f6]; exact hbl) (by rw [f4, hj]; exact hd0 p.o ho0 ho1)
      (by rw [f5, hj]; exact hf2 p.o ho0 ho1)
    refine ⟨ds2, acc, h1, hs.trans h2, fun s hsm => ?_⟩
    rw [h3 s hsm, hi, hj, hgeo]
    omega

/-- C23, on a band of negative diagonals, `-16, ..., -1`, where `j_begin = 1` and the
row of the offset `o` starts at the subject position `16 - o`: the segments lie
on the diagonals `-5` and `-3`. -/
theorem scan_offsets_in_band_witness :
    (∃ probes, scan_ends recorder 9 11 1 0 40
          ⟨negative_band_session, [⟨5, 10, 10, 50⟩, ⟨2, 5, 5, 30⟩], []⟩
        = some ⟨negative_band_session, [⟨5, 10, 10, 50⟩, ⟨2, 5, 5, 30⟩], probes⟩
      ∧ ∀ p ∈ probes, 0 ≤ p.o
          ∧ p.o < negative_band_session.d_end - negative_band_session.d_begin
          ∧ p.i = negative_band_session.i_begin + p.o
          ∧ p.j = negative_band_session.j_begin)
    ∧ (∃ probes, scan_vicinity recorder 0 1
          ⟨negative_band_session, [⟨5, 10, 10, 50⟩, ⟨2, 5, 5, 30⟩], []⟩
        = some ⟨negative_band_session, [⟨5, 10, 10, 50⟩, ⟨2, 5, 5, 30⟩], probes⟩
      ∧ ∀ p ∈ probes, 0 ≤ p.o
          ∧ p.o < negative_band_session.d_end - negative_band_session.d_begin
          ∧ p.i = negative_band_session.i_begin + p.o
          ∧ p.j = negative_band_session.j_begin)
    ∧ (∀ (ds1 : Diag_scores) (base : List Diagonal_node) (p : Probe),
        SameSession negative_band_session ds1 →
        0 ≤ p.o → p.o < negative_band_session.d_end - negative_band_session.d_begin →
        p.i = negative_band_session.i_begin + p.o →
        p.j = negative_band_session.j_begin →
        ∃ ds2 acc, (session_linker 41).call (ds1, base) p = some (ds2, base ++ acc)
          ∧ SameSession negative_band_session ds2
          ∧ ∀ s ∈ acc, s.diag = negative_band_session.d_begin + p.o)
    ∧ ∀ (ds0 : Diag_scores) (d_begin d_end qlen slen : Int) ( fast : Bool),
        (scan_diags_geometry ds0 d_begin d_end qlen slen fast).j_begin
          = (scan_diags_geometry ds0 d_begin d_end qlen slen fast).i_begin
            - (scan_diags_geometry ds0 d_begin d_end qlen slen fast).d_begin :=
  scan_offsets_in_band negative_band_session [⟨5, 10, 10, 50⟩, ⟨2, 5, 5, 30⟩] 0 1 40 11 1 9 41
    (by decide) (by decide) ⟨by decide, by decide⟩ ⟨by decide, by decide⟩ (by decide)
    (by decide)
    (fun o h0 h1 => by
      have h2 : o < 16 := h1
      show (1 : Int) ≤ max (16 - o) 0
      omega)
    (fun _ _ _ => by show ((40 : Int) - 1).toNat < 41; decide)

/-! ## Linking pass: frame -/

theorem scan_ends_pair_frame {σ : Type} (L : Linker σ) (Inv : σ → Prop)
    (base : List Diagonal_node) (m lo hi : Int) (hF : LinkFrame L Inv base m lo hi)
    (o dj dj1 subject_len min_score : Int) (ho0 : 0 ≤ o) (ho1 : o < hi - lo) (st : σ)
    (hinv : Inv st) :
    ∃ st1, scan_ends_pair L o dj dj1 subject_len min_score st = some st1 ∧ Inv st1 := by
  unfold scan_ends_pair
  obtain ⟨st1, h1, i1⟩ := hF.1 st ⟨(L.ds st).i_begin + o, (L.ds st).j_begin, o,
    max (dj - scan_ends_len) 0, dj, min_score⟩ hinv rfl ho0 ho1
  rw [h1]
  exact hF.1 st1 _ i1 rfl ho0 ho1

theorem scan_ends_step_frame {σ : Type} (L : Linker σ) (Inv : σ → Prop)
    (base : List Diagonal_node) (m lo hi : Int) (hF : LinkFrame L Inv base m lo hi)
    (dd dj dj1 subject_len shift min_score : Int) (hdd : lo ≤ dd ∧ dd < hi) (hs : 1 ≤ shift)
    (st : σ) (hinv : Inv st) :
    ∃ st1, scan_ends_step L dd dj dj1 subject_len shift min_score st = some st1 ∧ Inv st1 := by
  unfold scan_ends_step
  simp only []
  obtain ⟨_, g2, g3⟩ := hF.2.1 st hinv
  have h1 : ∃ st1, (if dd + shift < (L.ds st).d_end then
        if (((L.ds st).sv_max (dd + shift - (L.ds st).d_begin)).val : Int) ≥ min_score then
          scan_ends_pair L (dd + shift - (L.ds st).d_begin) dj dj1 subject_len min_score st
        else some st
      else some st) = some st1 ∧ Inv st1 := by
    by_cases a : dd + shift < (L.ds st).d_end
    · rw [if_pos a]
      by_cases b : (((L.ds st).sv_max (dd + shift - (L.ds st).d_begin)).val : Int) ≥ min_score
      · rw [if_pos b]
        exact scan_ends_pair_frame L Inv base m lo hi hF _ dj dj1 subject_len min_score
          (by omega) (by omega) st hinv
      · rw [if_neg b]
        exact ⟨st, rfl, hinv⟩
    · rw [if_neg a]
      exact ⟨st, rfl, hinv⟩
  obtain ⟨st1, e1, i1⟩ := h1
  obtain ⟨_, k2, k3⟩ := hF.2.1 st1 i1
  rw [e1]
  simp only []
  by_cases a : dd - shift ≥ (L.ds st1).d_begin
  · rw [if_pos a]
    by_cases b : (((L.ds st1).sv_max (dd - shift - (L.ds st1).d_begin)).val : Int) ≥ min_score
    · rw [if_pos b]
      exact scan_ends_pair_frame L Inv base m lo hi hF _ dj dj1 subject_len min_score
        (by omega) (by omega) st1 i1
    · rw [if_neg b]
      exact ⟨st1, rfl, i1⟩
  · rw [if_neg a]
    exact ⟨st1, rfl, i1⟩

/-- The shift loop of `scan_ends` exits for `gap_extend >= 1`, over any linker
whose calls on the offsets of the band return: with fuel beyond the distance of
the first cutoff from `min_diag_score` the loop returns, and the invariant of
the states is kept. -/
theorem scan_ends_loop_frame {σ : Type} (L : Linker σ) (Inv : σ → Prop)
    (base : List Diagonal_node) (m lo hi : Int) (hF : LinkFrame L Inv base m lo hi)
    (gap_open gap_extend dd dj dj1 subject_len : Int) (hge : 1 ≤ gap_extend)
    (hdd : lo ≤ dd ∧ dd < hi) (fuel : Nat) :
    ∀ (shift : Int) (st : σ), 1 ≤ shift →
    (m - (gap_open + shift * gap_extend + 1)).toNat < fuel → Inv st →
    ∃ st1, scan_ends_loop L gap_open gap_extend dd dj dj1 subject_len fuel shift st = some st1
      ∧ Inv st1 := by
  induction fuel with
  | zero => intro shift st _ hf; omega
  | succ fuel ih =>
    intro shift st hs hf hinv
    unfold scan_ends_loop
    simp only []
    rw [(hF.2.1 st hinv).1]
    by_cases hlt : gap_open + shift * gap_extend + 1 < m
    · rw [if_pos hlt]
      obtain ⟨st1, e1, i1⟩ := scan_ends_step_frame L Inv base m lo hi hF dd dj dj1 subject_len
        shift (gap_open + shift * gap_extend + 1) hdd hs st hinv
      rw [e1]
      simp only []
      have e : (shift + 1) * gap_extend = shift * gap_extend + gap_extend := by ring
      exact ih (shift + 1) st1 (by omega) (by rw [e]; omega) i1
    · rw [if_neg hlt]
      exact ⟨st, rfl, hinv⟩

theorem scan_ends_frame {σ : Type} (L : Linker σ) (Inv : σ → Prop)
    (base : List Diagonal_node) (m lo hi : Int) (hF : LinkFrame L Inv base m lo hi)
    (hband : InBand base lo hi) (fuel : Nat) (gap_open gap_extend : Int) (d_idx : Nat)
    (hd : d_idx < base.length) (subject_len : Int)
    (hge : 1 ≤ gap_extend) (hfuel : (m - gap_open).toNat < fuel) (st : σ) (hinv : Inv st) :
    ∃ st1, scan_ends L fuel gap_open gap_extend d_idx subject_len st = some st1 ∧ Inv st1 := by
  unfold scan_ends
  simp only []
  rw [hF.2.2 st hinv d_idx hd]
  exact scan_ends_loop_frame L Inv base m lo hi hF gap_open gap_extend _ _ _ subject_len hge
    (hband d_idx hd) fuel 1 st (le_refl _) (by omega) hinv

theorem vicinity_probe_frame {σ : Type} (L : Linker σ) (Inv : σ → Prop)
    (base : List Diagonal_node) (m lo hi : Int) (hF : LinkFrame L Inv base m lo hi)
    (diag j0 j1 : Int) (hdiag : lo ≤ diag ∧ diag < hi) (st : σ) (hinv : Inv st) :
    ∃ st1, vicinity_probe L diag j0 j1 st = some st1 ∧ Inv st1 := by
  unfold vicinity_probe
  simp only []
  obtain ⟨_, g2, _⟩ := hF.2.1 st hinv
  split_ifs
  · exact hF.1 st _ hinv rfl (by dsimp only; omega) (by dsimp only; omega)
  · exact ⟨st, rfl, hinv⟩

theorem vicinity_up_frame {σ : Type} (L : Linker σ) (Inv : σ → Prop)
    (base : List Diagonal_node) (m lo hi : Int) (hF : LinkFrame L Inv base m lo hi)
    (j0 j1 : Int) (n : Nat) : ∀ (diag : Int) (st : σ), lo ≤ diag → diag + n ≤ hi → Inv st →
    ∃ st1, vicinity_up L j0 j1 n diag st = some st1 ∧ Inv st1 := by
  induction n with
  | zero => intro diag st _ _ hinv; exact ⟨st, rfl, hinv⟩
  | succ n ih =>
    intro diag st h0 h1 hinv
    obtain ⟨st1, e1, i1⟩ := vicinity_probe_frame L Inv base m lo hi hF diag j0 j1
      ⟨h0, by push_cast at h1; omega⟩ st hinv
    unfold vicinity_up
    rw [e1]
    exact ih (diag + 1) st1 (by omega) (by push_cast at h1; omega) i1

theorem vicinity_down_frame {σ : Type} (L : Linker σ) (Inv : σ → Prop)
    (base : List Diagonal_node) (m lo hi : Int) (hF : LinkFrame L Inv base m lo hi)
    (l : Int) (n : Nat) : ∀ (diag j : Int) (st : σ), diag < hi → lo ≤ diag - n + 1 → Inv st →
    ∃ st1, vicinity_down L l n diag j st = some st1 ∧ Inv st1 := by
  induction n with
  | zero => intro diag j st _ _ hinv; exact ⟨st, rfl, hinv⟩
  | succ n ih =>
    intro diag j st h0 h1 hinv
    obtain ⟨st1, e1, i1⟩ := vicinity_probe_frame L Inv base m lo hi hF diag j (j + l)
      ⟨by push_cast at h1; omega, h0⟩ st hinv
    unfold vicinity_down
    rw [e1]
    exact ih (diag - 1) (j + 1) st1 (by omega) (by push_cast at h1; omega) i1

theorem vicinity_sweep_frame {σ : Type} (L : Linker σ) (Inv : σ → Prop)
    (base : List Diagonal_node) (m lo hi : Int) (hF : LinkFrame L Inv base m lo hi)
    (dd de j0 l : Int) (hdd : lo ≤ dd ∧ dd < hi) (hde : lo ≤ de ∧ de < hi) (st : σ)
    (hinv : Inv st) :
    ∃ st1, vicinity_sweep L dd de j0 l st = some st1 ∧ Inv st1 := by
  obtain ⟨st1, e1, i1⟩ := vicinity_down_frame L Inv base m lo hi hF l (de - 1 - dd).toNat
    (de - 1) j0 st (by omega) (by omega) hinv
  obtain ⟨_, _, k3⟩ := hF.2.1 st1 i1
  unfold vicinity_sweep
  rw [e1]
  simp only []
  rw [k3]
  exact vicinity_up_frame L Inv base m lo hi hF j0 (j0 + l) _ (de + 1) st1 (by omega) (by omega)
    i1

/-- The vicinity scan for two segments of `base` returns over any linker whose
calls on the offsets of the band return, and keeps the invariant of the
states. -/
theorem scan_vicinity_frame {σ : Type} (L : Linker σ) (Inv : σ → Prop)
    (base : List Diagonal_node) (m lo hi : Int) (hF : LinkFrame L Inv base m lo hi)
    (hband : InBand base lo hi) (d_idx e_idx : Nat) (hd : d_idx < base.length)
    (he : e_idx < base.length) (st : σ) (hinv : Inv st) :
    ∃ st1, scan_vicinity L d_idx e_idx st = some st1 ∧ Inv st1 := by
  unfold scan_vicinity
  simp only []
  rw [hF.2.2 st hinv d_idx hd, hF.2.2 st hinv e_idx he]
  have hdd := hband d_idx hd
  have hde := hband e_idx he
  generalize (node_at base d_idx).diag = dd at hdd
  generalize (node_at base e_idx).diag = de at hde
  by_cases hpos : dd - de > 0
  · rw [if_pos hpos]
    obtain ⟨st1, e1, i1⟩ := vicinity_up_frame L Inv base m lo hi hF
      (min (node_at base e_idx).subject_end (node_at base d_idx).j)
      (min (max (node_at base d_idx).j (node_at base e_idx).subject_end)
        (node_at base d_idx).subject_end) (dd - (de + 1)).toNat (de + 1) st (by omega)
      (by omega) hinv
    obtain ⟨_, k2, _⟩ := hF.2.1 st1 i1
    rw [e1]
    simp only []
    rw [k2]
    have hr : reverse_diags = 2 := rfl
    rw [hr]
    exact vicinity_up_frame L Inv base m lo hi hF _ _ _ _ st1 (by omega) (by omega) i1
  · rw [if_neg hpos]
    by_cases hneg : dd - de < 0
    · rw [if_pos hneg]
      generalize (if (node_at base d_idx).j + (dd - de) > (node_at base e_idx).subject_end then
          some ((node_at base e_idx).subject_end,
            (node_at base d_idx).j + (dd - de) - (node_at base e_idx).subject_end)
        else if (node_at base d_idx).j + (dd - de) > (node_at base e_idx).j then
          some ((node_at base d_idx).j + (dd - de),
            min ((node_at base e_idx).subject_end - ((node_at base d_idx).j + (dd - de)))
              (node_at base d_idx).len)
        else if min ((node_at base d_idx).subject_end + (dd - de) - (node_at base e_idx).j)
            (node_at base e_idx).len ≤ 0 then none
        else some ((node_at base e_idx).j,
          min ((node_at base d_idx).subject_end + (dd - de) - (node_at base e_idx).j)
            (node_at base e_idx).len)) = r
      cases r with
      | none => exact ⟨st, rfl, hinv⟩
      | some r =>
        obtain ⟨j0, l⟩ := r
        exact vicinity_sweep_frame L Inv base m lo hi hF dd de j0 l hdd hde st hinv
    · rw [if_neg hneg]
      exact ⟨st, rfl, hinv⟩

theorem link_window_frame {σ : Type} (L : Linker σ) (Inv : σ → Prop)
    (base : List Diagonal_node) (m lo hi : Int) (hF : LinkFrame L Inv base m lo hi)
    (hband : InBand base lo hi) (node : Nat) (hn : node < base.length) (w : Window) :
    ∀ (st : σ), (∀ e ∈ w, e.2 < base.length) → Inv st →
    ∃ st1, link_window L node w st = some st1 ∧ Inv st1 := by
  induction w with
  | nil => intro st _ hinv; exact ⟨st, rfl, hinv⟩
  | cons e w ih =>
    intro st hw hinv
    have hw1 : ∀ x ∈ w, x.2 < base.length := fun x hx => hw x (List.mem_cons_of_mem _ hx)
    unfold link_window
    split_ifs with h
    · exact ih st hw1 hinv
    · obtain ⟨st1, e1, i1⟩ := scan_vicinity_frame L Inv base m lo hi hF hband node e.2 hn
        (hw e (List.mem_cons_self _ _)) st hinv
      rw [e1]
      exact ih st1 hw1 i1

theorem mem_window_evict (d : Diagonal_node) (w : Window) (e : Int × Nat)
    (h : e ∈ window_evict d w) : e ∈ w := by
  induction w with
  | nil => exact h
  | cons x w ih =>
    unfold window_evict at h
    split_ifs at h
    · exact List.mem_cons_of_mem _ (ih h)
    · exact h

/-- One pass through the loop body of the linking pass at a node of `base`, over
any linker whose calls on the offsets of the band return: the pass returns and
keeps the invariant of the states; a node below `min_diag_score` leaves the
state and the window as they are; the window after the pass refers to nodes up
to this one. -/
theorem link_node_frame {σ : Type} (L : Linker σ) (Inv : σ → Prop)
    (base : List Diagonal_node) (m lo hi : Int) (hF : LinkFrame L Inv base m lo hi)
    (hband : InBand base lo hi) (fuel : Nat) (gap_open gap_extend : Int) (hge : 1 ≤ gap_extend)
    (hfuel : (m - gap_open).toNat < fuel) (node : Nat) (hn : node < base.length) (st : σ)
    (w : Window) (hinv : Inv st) (hw : WindowRefers base m node w) :
    ∃ st1 w1, link_node L fuel gap_open gap_extend node st w = some (st1, w1) ∧ Inv st1
      ∧ WindowRefers base m (node + 1) w1
      ∧ ((node_at base node).score < m → st1 = st ∧ w1 = w) := by
  unfold link_node
  rw [(hF.2.1 st hinv).1, hF.2.2 st hinv node hn]
  by_cases hsc : (node_at base node).score < m
  · rw [if_pos hsc]
    refine ⟨st, w, rfl, hinv, fun e he => ?_, fun _ => ⟨rfl, rfl⟩⟩
    obtain ⟨a, b, c⟩ := hw e he
    exact ⟨by omega, b, c⟩
  · rw [if_neg hsc]
    obtain ⟨st1, e1, i1⟩ := scan_ends_frame L Inv base m lo hi hF hband fuel gap_open gap_extend
      node hn (L.ds st).slen hge hfuel st hinv
    rw [e1]
    simp only []
    obtain ⟨st2, e2, i2⟩ := link_window_frame L Inv base m lo hi hF hband node hn
      (window_evict (node_at (L.diags st1) node) w) st1
      (fun e he => by
        have := (hw e (mem_window_evict _ _ _ he)).1
        omega) i1
    rw [e2]
    simp only []
    refine ⟨_, _, rfl, i2, fun e he => ?_, fun h => absurd h hsc⟩
    rw [hF.2.2 st2 i2 node hn] at he
    rcases (mem_window_insert _ _ _ e).mp he with he | he
    · rw [he]
      exact ⟨Nat.lt_succ_self _, by dsimp only; omega, rfl⟩
    · obtain ⟨a, b, c⟩ := hw e (mem_window_evict _ _ _ he)
      exact ⟨by omega, b, c⟩

theorem link_nodes_frame {σ : Type} (L : Linker σ) (Inv : σ → Prop)
    (base : List Diagonal_node) (m lo hi : Int) (hF : LinkFrame L Inv base m lo hi)
    (hband : InBand base lo hi) (fuel : Nat) (gap_open gap_extend : Int) (hge : 1 ≤ gap_extend)
    (hfuel : (m - gap_open).toNat < fuel) (n : Nat) :
    ∀ (node : Nat) (st : σ) (w : Window), node + n ≤ base.length → Inv st →
    WindowRefers base m node w →
    ∃ st1 w1, link_nodes L fuel gap_open gap_extend n node st w = some (st1, w1) ∧ Inv st1
      ∧ WindowRefers base m (node + n) w1 := by
  induction n with
  | zero => intro node st w _ hinv hw; exact ⟨st, w, rfl, hinv, hw⟩
  | succ n ih =>
    intro node st w hn hinv hw
    obtain ⟨st1, w1, e1, i1, hw1, _⟩ := link_node_frame L Inv base m lo hi hF hband fuel gap_open
      gap_extend hge hfuel node (by omega) st w hinv hw
    obtain ⟨st2, w2, e2, i2, hw2⟩ := ih (node + 1) st1 w1 (by omega) i1 hw1
    unfold link_nodes
    rw [e1]
    refine ⟨st2, w2, e2, i2, ?_⟩
    have e : node + (n + 1) = node + 1 + n := by omega
    rw [e]
    exact hw2

theorem node_at_append (base acc : List Diagonal_node) (k : Nat) (hk : k < base.length) :
    node_at (base ++ acc) k = node_at base k := by
  unfold node_at
  exact List.getD_append base acc _ k hk

/-- The linker on the session satisfies `LinkFrame` for the states that differ
from `ds` in the active mask at most and whose list is `base` followed by
further segments. The geometry of `get_diag` is asked of the diagonal offsets of
the band only. -/
theorem session_linker_frame (ds : Diag_scores) (base : List Diagonal_node) (fuel : Nat)
    (hbl : 1 ≤ ds.block_len)
    (hd0 : ∀ o, 0 ≤ o → o < ds.d_end - ds.d_begin → ds.j_begin ≤ ds.dj0 o)
    (hf : ∀ o, 0 ≤ o → o < ds.d_end - ds.d_begin → (ds.dj1 o - ds.j_begin).toNat < fuel) :
    LinkFrame (session_linker fuel) (fun st => SameSession ds st.1 ∧ ∃ acc, st.2 = base ++ acc)
      base ds.min_diag_score ds.d_begin ds.d_end := by
  refine ⟨?_, ?_, ?_⟩
  · rintro ⟨ds1, diags1⟩ p ⟨hs, acc, hacc⟩ hj ho0 ho1
    obtain ⟨_, _, _, f4, f5, f6⟩ := hs.fields
    obtain ⟨_, _, _, g4, _⟩ := hs.geometry
    have hj1 : p.j = ds.j_begin := by rw [hj]; exact g4
    obtain ⟨ds2, acc2, h1, h2, _⟩ := get_diag_appends ds1 fuel p.i p.j p.o p.j_begin p.j_end
      diags1 p.cutoff (by rw [f6]; exact hbl) (by rw [f4, hj1]; exact hd0 p.o ho0 ho1)
      (by rw [f5, hj1]; exact hf p.o ho0 ho1)
    refine ⟨(ds2, diags1 ++ acc2), h1, hs.trans h2, acc ++ acc2, ?_⟩
    dsimp only at hacc ⊢
    rw [hacc, List.append_assoc]
  · rintro ⟨ds1, diags1⟩ ⟨hs, _⟩
    obtain ⟨g1, g2, _, _, g5, _⟩ := hs.geometry
    exact ⟨g5, g1, g2⟩
  · rintro ⟨ds1, diags1⟩ ⟨_, acc, hacc⟩ k hk
    dsimp only at hacc
    show node_at diags1 k = node_at base k
    rw [hacc]
    exact node_at_append base acc k hk

/-- C24. The linking pass of `scan_diags` only appends to the segment list, in
both modes, for every session and every list whose segments lie on diagonals of
the band `[d_begin, d_end)`, as the segments of the reconstruction do. The
geometry of `get_diag` is asked of the diagonal offsets of the band only (a
block length of at least 1, the first column of the row of such an offset at
`j_begin` or later, fuel for the columns of such a row), with `gap_extend >= 1`
and fuel for the shift loop. For every `n` up to the number `nodes` of segments
present when the pass starts, the pass over the nodes `0, ..., n - 1`, started
with an empty window, returns a session that differs in the active mask at most
and a list that is the initial list followed by further segments, so that the
entries at the indices below `nodes` are those of the initial list; every entry
of the window is a node below `n` that reached `min_diag_score`, stored under
the subject end of the segment the list holds at its index, which is the
segment of the initial list. The whole pass runs over the nodes
`0, ..., nodes - 1` and leaves the window empty; a node with a score below
`min_diag_score` leaves the state and the window as they are. -/
theorem link_pass_appends_only (ds : Diag_scores) (diags : List Diagonal_node)
    (fuel fuel2 : Nat) (gap_open gap_extend : Int) (hbl : 1 ≤ ds.block_len)
    (hband : ∀ k, k < diags.length →
      ds.d_begin ≤ (node_at diags k).diag ∧ (node_at diags k).diag < ds.d_end)
    (hd0 : ∀ o, 0 ≤ o → o < ds.d_end - ds.d_begin → ds.j_begin ≤ ds.dj0 o)
    (hf : ∀ o, 0 ≤ o → o < ds.d_end - ds.d_begin → (ds.dj1 o - ds.j_begin).toNat < fuel)
    (hge : 1 ≤ gap_extend) (hf2 : (ds.min_diag_score - gap_open).toNat < fuel2) :
    (∀ n, n ≤ diags.length →
      ∃ ds1 acc w, link_nodes (session_linker fuel) fuel2 gap_open gap_extend n 0 (ds, diags) []
          = some ((ds1, diags ++ acc), w)
        ∧ SameSession ds ds1
        ∧ (∀ k, k < diags.length → node_at (diags ++ acc) k = node_at diags k)
        ∧ ∀ e ∈ w, e.2 < n ∧ ds.min_diag_score ≤ (node_at diags e.2).score
            ∧ node_at (diags ++ acc) e.2 = node_at diags e.2
            ∧ e.1 = (node_at (diags ++ acc) e.2).subject_end)
    ∧ (∃ ds1 acc, link_pass (session_linker fuel) fuel2 gap_open gap_extend (ds, diags) []
          = some ((ds1, diags ++ acc), [])
        ∧ link_pass (session_linker fuel) fuel2 gap_open gap_extend (ds, diags) []
          = (link_nodes (session_linker fuel) fuel2 gap_open gap_extend diags.length 0
              (ds, diags) []).map (fun r => (r.1, []))
        ∧ SameSession ds ds1)
    ∧ ∀ (node : Nat) (st : Diag_scores × List Diagonal_node) (w : Window),
        (node_at st.2 node).score < st.1.min_diag_score →
        link_node (session_linker fuel) fuel2 gap_open gap_extend node st w = some (st, w) := by
  have hF := session_linker_frame ds diags fuel hbl hd0 hf
  have hrun : ∀ n, n ≤ diags.length →
      ∃ ds1 acc w, link_nodes (session_linker fuel) fuel2 gap_open gap_extend n 0 (ds, diags) []
          = some ((ds1, diags ++ acc), w)
        ∧ SameSession ds ds1 ∧ WindowRefers diags ds.min_diag_score n w := by
    intro n hn
    obtain ⟨⟨ds1, diags1⟩, w, e1, ⟨hs, acc, hacc⟩, hw⟩ := link_nodes_frame (session_linker fuel)
      _ diags ds.min_diag_score ds.d_begin ds.d_end hF hband fuel2 gap_open gap_extend hge hf2 n
      0 (ds, diags) [] (by omega) ⟨SameSession.refl ds, [], by rw [List.append_nil]⟩
      (fun e he => absurd he (List.not_mem_nil _))
    dsimp only at hacc
    rw [hacc] at e1
    rw [Nat.zero_add] at hw
    exact ⟨ds1, acc, w, e1, hs, hw⟩
  refine ⟨?_, ?_, ?_⟩
  · intro n hn
    obtain ⟨ds1, acc, w, e1, hs, hw⟩ := hrun n hn
    refine ⟨ds1, acc, w, e1, hs, fun k hk => node_at_append diags acc k hk, fun e he => ?_⟩
    obtain ⟨a, b, c⟩ := hw e he
    have hk := node_at_append diags acc e.2 (by omega)
    exact ⟨a, b, hk, by rw [hk]; exact c⟩
  · obtain ⟨ds1, acc, w, e1, hs, _⟩ := hrun diags.length (le_refl _)
    have hl : link_pass (session_linker fuel) fuel2 gap_open gap_extend (ds, diags) []
        = (link_nodes (session_linker fuel) fuel2 gap_open gap_extend diags.length 0
            (ds, diags) []).map (fun r => (r.1, [])) := by
      unfold link_pass
      have hd : (session_linker fuel).diags (ds, diags) = diags := rfl
      rw [hd]
      cases link_nodes (session_linker fuel) fuel2 gap_open gap_extend diags.length 0
        (ds, diags) [] <;> rfl
    refine ⟨ds1, acc, ?_, hl, hs⟩
    rw [hl, e1]
    rfl
  · intro node st w h
    unfold link_node
    have h1 : (node_at ((session_linker fuel).diags st) node).score
        < ((session_linker fuel).ds st).min_diag_score := h
    rw [if_pos h1]

/-- C24, on a band of negative diagonals, `-16, ..., -1`, where `j_begin = 1` and the
row of the offset `o` starts at the subject position `16 - o`: the two segments
lie on the diagonals `-3` and `-5`. -/
theorem link_pass_appends_only_witness :
    (∀ n, n ≤ ([⟨2, 5, 5, 30⟩, ⟨5, 10, 10, 50⟩] : List Diagonal_node).length →
      ∃ ds1 acc w, link_nodes (session_linker 41) 9 11 1 n 0
            (negative_band_session, [⟨2, 5, 5, 30⟩, ⟨5, 10, 10, 50⟩]) []
          = some ((ds1, [⟨2, 5, 5, 30⟩, ⟨5, 10, 10, 50⟩] ++ acc), w)
        ∧ SameSession negative_band_session ds1
        ∧ (∀ k, k < ([⟨2, 5, 5, 30⟩, ⟨5, 10, 10, 50⟩] : List Diagonal_node).length →
            node_at ([⟨2, 5, 5, 30⟩, ⟨5, 10, 10, 50⟩] ++ acc) k
              = node_at [⟨2, 5, 5, 30⟩, ⟨5, 10, 10, 50⟩] k)
        ∧ ∀ e ∈ w, e.2 < n
            ∧ negative_band_session.min_diag_score
                ≤ (node_at [⟨2, 5, 5, 30⟩, ⟨5, 10, 10, 50⟩] e.2).score
            ∧ node_at ([⟨2, 5, 5, 30⟩, ⟨5, 10, 10, 50⟩] ++ acc) e.2
                = node_at [⟨2, 5, 5, 30⟩, ⟨5, 10, 10, 50⟩] e.2
            ∧ e.1 = (node_at ([⟨2, 5, 5, 30⟩, ⟨5, 10, 10, 50⟩] ++ acc) e.2).subject_end)
    ∧ (∃ ds1 acc, link_pass (session_linker 41) 9 11 1
            (negative_band_session, [⟨2, 5, 5, 30⟩, ⟨5, 10, 10, 50⟩]) []
          = some ((ds1, [⟨2, 5, 5, 30⟩, ⟨5, 10, 10, 50⟩] ++ acc), [])
        ∧ link_pass (session_linker 41) 9 11 1
            (negative_band_session, [⟨2, 5, 5, 30⟩, ⟨5, 10, 10, 50⟩]) []
          = (link_nodes (session_linker 41) 9 11 1
              ([⟨2, 5, 5, 30⟩, ⟨5, 10, 10, 50⟩] : List Diagonal_node).length 0
              (negative_band_session, [⟨2, 5, 5, 30⟩, ⟨5, 10, 10, 50⟩]) []).map
              (fun r => (r.1, []))
        ∧ SameSession negative_band_session ds1)
    ∧ ∀ (node : Nat) (st : Diag_scores × List Diagonal_node) (w : Window),
        (node_at st.2 node).score < st.1.min_diag_score →
        link_node (session_linker 41) 9 11 1 node st w = some (st, w) :=
  link_pass_appends_only negative_band_session [⟨2, 5, 5, 30⟩, ⟨5, 10, 10, 50⟩] 41 9 11 1
    (by decide) (by decide)
    (fun o h0 h1 => by
      have h2 : o < 16 := h1
      show (1 : Int) ≤ max (16 - o) 0
      omega)
    (fun _ _ _ => by show ((40 : Int) - 1).toNat < 41; decide) (by decide) (by decide)

/-! ## Single-block reconstruction: first segment -/

/-- The first loop of the single-block form of `get_diag` stops at the leftmost
column of `[p, p + n)` that holds `max_score`, when there is one. -/
theorem get_diag_find_leftmost (d : Iterator) (max_score : Int) (n : Nat) : ∀ (p : Int),
    (∃ x, p ≤ x ∧ x < p + n ∧ d.rd x = max_score) →
    ∃ pL, p ≤ pL ∧ pL < p + n ∧ d.rd pL = max_score
      ∧ (∀ x, p ≤ x → x < pL → d.rd x ≠ max_score)
      ∧ get_diag_find d max_score n p = (pL, true) := by
  induction n with
  | zero =>
    rintro p ⟨x, x1, x2, _⟩
    simp only [Nat.cast_zero, add_zero] at x2
    omega
  | succ n ih =>
    rintro p ⟨x, x1, x2, x3⟩
    unfold get_diag_find
    by_cases h : d.rd p = max_score
    · rw [if_pos h]
      exact ⟨p, le_refl _, by push_cast; omega, h, fun y y1 y2 => by omega, rfl⟩
    · rw [if_neg h]
      have hx : x ≠ p := fun hc => h (hc ▸ x3)
      obtain ⟨pL, a, b, c, e, f⟩ := ih (p + 1) ⟨x, by omega, by push_cast at x2; omega, x3⟩
      refine ⟨pL, by omega, by push_cast; omega, c, fun y y1 y2 => ?_, f⟩
      rcases eq_or_lt_of_le y1 with hy | hy
      · rw [← hy]; exact h
      · exact e y (by omega) y2

/-- The inner loop of `get_zero_index`, over the `n` columns from `i` downwards,
all of them at 0 or above: the result is the nearest column at or below `i`
that holds 0, and `-1` when there is none. -/
theorem get_zero_index_inner_spec (d : Iterator) (n : Nat) : ∀ (i : Int), 0 ≤ i - n + 1 →
    (get_zero_index_inner d n i = -1 ∧ ∀ x, i - n < x → x ≤ i → d.rd x ≠ 0)
      ∨ (i - n < get_zero_index_inner d n i ∧ get_zero_index_inner d n i ≤ i
          ∧ d.rd (get_zero_index_inner d n i) = 0
          ∧ ∀ x, get_zero_index_inner d n i < x → x ≤ i → d.rd x ≠ 0) := by
  induction n with
  | zero =>
    intro i _
    left
    exact ⟨rfl, fun x x1 x2 => by simp only [Nat.cast_zero, sub_zero] at x1; omega⟩
  | succ n ih =>
    intro i hi
    unfold get_zero_index_inner
    by_cases h : d.rd i = 0
    · rw [if_pos h]
      right
      exact ⟨by push_cast; omega, le_refl _, h, fun x x1 x2 => by omega⟩
    · rw [if_neg h]
      rcases ih (i - 1) (by push_cast at hi; omega) with ⟨a, b⟩ | ⟨a, b, c, e⟩
      · left
        refine ⟨a, fun x x1 x2 => ?_⟩
        rcases eq_or_lt_of_le x2 with hx | hx
        · rw [hx]; exact h
        · exact b x (by push_cast at x1; omega) (by omega)
      · right
        refine ⟨by push_cast; omega, by omega, c, fun x x1 x2 => ?_⟩
        rcases eq_or_lt_of_le x2 with hx | hx
        · rw [hx]; exact h
        · exact e x x1 (by omega)

/-- The outer loop of `get_zero_index`, over the `n` columns from `i` downwards,
stops at the rightmost of them that holds `max_score > 0`, when there is one,
and hands the columns below it to the inner loop. -/
theorem get_zero_index_loop_rightmost (d : Iterator) (max_score : Int) (hm : 0 < max_score)
    (n : Nat) : ∀ (i z1 : Int), (∃ x, i - n < x ∧ x ≤ i ∧ d.rd x = max_score) →
    ∃ pR, i - n < pR ∧ pR ≤ i ∧ d.rd pR = max_score
      ∧ (∀ x, pR < x → x ≤ i → d.rd x ≠ max_score)
      ∧ (get_zero_index_loop d max_score n i z1).1
          = get_zero_index_inner d (pR - (i - n) - 1).toNat (pR - 1) := by
  induction n with
  | zero =>
    rintro i z1 ⟨x, x1, x2, _⟩
    simp only [Nat.cast_zero, sub_zero] at x1
    omega
  | succ n ih =>
    rintro i z1 ⟨x, x1, x2, x3⟩
    unfold get_zero_index_loop
    by_cases h : d.rd i = max_score
    · rw [if_neg (fun hc => by omega), if_pos h]
      refine ⟨i, by push_cast; omega, le_refl _, h, fun y y1 y2 => by omega, ?_⟩
      have e : (i - (i - ((n + 1 : Nat) : Int)) - 1).toNat = n := by push_cast; omega
      rw [e]
    · have hx : x ≠ i := fun hc => h (hc ▸ x3)
      have key : ∀ z, ∃ pR, i - ((n + 1 : Nat) : Int) < pR ∧ pR ≤ i ∧ d.rd pR = max_score
          ∧ (∀ y, pR < y → y ≤ i → d.rd y ≠ max_score)
          ∧ (get_zero_index_loop d max_score n (i - 1) z).1
              = get_zero_index_inner d (pR - (i - ((n + 1 : Nat) : Int)) - 1).toNat (pR - 1) := by
        intro z
        obtain ⟨pR, a, b, c, e, f⟩ := ih (i - 1) z ⟨x, by push_cast at x1; omega, by omega, x3⟩
        refine ⟨pR, by push_cast; omega, by omega, c, fun y y1 y2 => ?_, ?_⟩
        · rcases eq_or_lt_of_le y2 with hy | hy
          · rw [hy]; exact h
          · exact e y y1 (by omega)
        · rw [f]
          congr 2
          push_cast
          omega
      by_cases h0 : d.rd i = 0 ∧ z1 = -1
      · rw [if_pos h0]
        exact key i
      · rw [if_neg h0, if_neg h]
        exact key z1

theorem get_diag_tail_step_appends (i j : Int) (d : Iterator) (min_diag_score : Int)
    (st : TailState) :
    ∃ rest, (get_diag_tail_step i j d min_diag_score st).diags = st.diags ++ rest := by
  unfold get_diag_tail_step
  simp only []
  split_ifs
  all_goals first
    | exact ⟨_, rfl⟩
    | exact ⟨[], by simp⟩

theorem get_diag_tail_appends (i j : Int) (d : Iterator) (cols min_diag_score : Int) (n : Nat) :
    ∀ (st : TailState),
    ∃ rest, (get_diag_tail i j d cols min_diag_score n st).diags = st.diags ++ rest := by
  induction n with
  | zero => intro st; exact ⟨[], by simp [get_diag_tail]⟩
  | succ n ih =>
    intro st
    unfold get_diag_tail
    split_ifs
    · obtain ⟨r1, h1⟩ := get_diag_tail_step_appends i j d min_diag_score st
      obtain ⟨r2, h2⟩ := ih (get_diag_tail_step i j d min_diag_score st)
      exact ⟨r1 ++ r2, by rw [h2, h1, List.append_assoc]⟩
    · exact ⟨[], by simp⟩

/-- C18, as the code behaves. For every block window `[begin, begin + block_len)`
with `begin >= 0` of a raw-score diagonal in which `max_score > 0` occurs: let
`pL` and `pR` be the leftmost and the rightmost column of the window that hold
`max_score`. `get_zero_index` over the window returns as `z0` the nearest zero
cell of the window before `pR`, and `-1` when there is none; the single-block
form of `get_diag`, called with `zero = z0` and `extend = false`, appends as its
first segment the one that starts just after `z0`, has the score `max_score` and
ends at the LEFTMOST column `pL`: its length is `pL - z0`. The length is
positive exactly when no zero cell lies between `pL` and `pR`, in particular
when `max_score` occurs at one column only, where the segment ends at the
rightmost column. -/
theorem single_block_first_segment (i j : Int) (d : Iterator)
    (begin block_len max_score cols min_diag_score : Int) (diags : List Diagonal_node)
    (hb : 0 ≤ begin)
    (hm : 0 < max_score)
    (hocc : ∃ x, begin ≤ x ∧ x < begin + block_len ∧ d.rd x = max_score) :
    ∃ pL pR z0 rest,
      begin ≤ pL ∧ pL ≤ pR ∧ pR < begin + block_len
      ∧ d.rd pL = max_score ∧ d.rd pR = max_score
      ∧ (∀ x, begin ≤ x → x < begin + block_len → d.rd x = max_score → pL ≤ x ∧ x ≤ pR)
      ∧ (get_zero_index d begin (begin + block_len) max_score).1 = z0
      ∧ ((z0 = -1 ∧ ∀ x, begin ≤ x → x < pR → d.rd x ≠ 0)
        ∨ (begin ≤ z0 ∧ z0 < pR ∧ d.rd z0 = 0 ∧ ∀ x, z0 < x → x < pR → d.rd x ≠ 0))
      ∧ (get_diag_block i j d begin max_score z0 diags block_len cols false min_diag_score).2
          = diags ++ ⟨i + z0 + 1, j + z0 + 1, pL - z0, max_score⟩ :: rest
      ∧ (0 < pL - z0 ↔ ∀ x, pL < x → x < pR → d.rd x ≠ 0)
      ∧ (pL = pR → 0 < pL - z0) := by
  obtain ⟨x, x1, x2, x3⟩ := hocc
  have hbl : 0 < block_len := by omega
  obtain ⟨pL, l1, l2, l3, l4, l5⟩ := get_diag_find_leftmost d max_score block_len.toNat begin
    ⟨x, x1, by omega, x3⟩
  obtain ⟨pR, r1, r2, r3, r4, r5⟩ := get_zero_index_loop_rightmost d max_score hm
    (begin + block_len - begin).toNat (begin + block_len - 1) (-1) ⟨x, by omega, by omega, x3⟩
  have hLR : pL ≤ pR := by
    by_contra hc
    exact l4 pR (by omega) (by omega) r3
  have hz := get_zero_index_inner_spec d
    (pR - (begin + block_len - 1 - ((begin + block_len - begin).toNat : Int)) - 1).toNat (pR - 1)
    (by omega)
  have hz0 : (get_zero_index d begin (begin + block_len) max_score).1
      = get_zero_index_inner d
          (pR - (begin + block_len - 1 - ((begin + block_len - begin).toNat : Int)) - 1).toNat
          (pR - 1) := r5
  generalize get_zero_index_inner d
    (pR - (begin + block_len - 1 - ((begin + block_len - begin).toNat : Int)) - 1).toNat
    (pR - 1) = z0 at hz hz0
  have hcase : (z0 = -1 ∧ ∀ x, begin ≤ x → x < pR → d.rd x ≠ 0)
      ∨ (begin ≤ z0 ∧ z0 < pR ∧ d.rd z0 = 0 ∧ ∀ x, z0 < x → x < pR → d.rd x ≠ 0) := by
    rcases hz with ⟨a, b⟩ | ⟨a, b, c, e⟩
    · left
      exact ⟨a, fun y y1 y2 => b y (by omega) (by omega)⟩
    · right
      exact ⟨by omega, by omega, c, fun y y1 y2 => e y y1 (by omega)⟩
  have hzL : z0 ≠ pL := by
    intro hc
    rcases hcase with ⟨a, _⟩ | ⟨_, _, c, _⟩
    · omega
    · rw [hc, l3] at c
      omega
  have hiff : 0 < pL - z0 ↔ ∀ x, pL < x → x < pR → d.rd x ≠ 0 := by
    constructor
    · intro h y y1 y2
      rcases hcase with ⟨_, b⟩ | ⟨_, _, _, e⟩
      · exact b y (by omega) y2
      · exact e y (by omega) y2
    · intro h
      rcases hcase with ⟨a, _⟩ | ⟨a, b, c, _⟩
      · omega
      · by_contra hc
        exact h z0 (by omega) b c
  obtain ⟨rest, hrest⟩ := get_diag_tail_appends i j d cols min_diag_score (cols - (pL + 1)).toNat
    ⟨max_score, pL, 0, pL, pL + 1,
      diags ++ [⟨i + z0 + 1, j + z0 + 1, pL - z0, max_score⟩]⟩
  dsimp only at hrest
  have hblock : ∃ rest1,
      (get_diag_block i j d begin max_score z0 diags block_len cols false min_diag_score).2
        = diags ++ ⟨i + z0 + 1, j + z0 + 1, pL - z0, max_score⟩ :: rest1 := by
    unfold get_diag_block
    simp only []
    rw [l5]
    simp only [Bool.false_eq_true, and_false, if_false]
    rw [hrest]
    split_ifs
    · exact ⟨_, by simp only [List.append_assoc]; rfl⟩
    · exact ⟨rest, by simp only [List.append_assoc]; rfl⟩
  obtain ⟨rest1, hrest1⟩ := hblock
  refine ⟨pL, pR, z0, rest1, l1, hLR, by omega, l3, r3, ?_, hz0, hcase, hrest1, hiff, ?_⟩
  · intro y y1 y2 y3
    constructor
    · by_contra hc
      exact l4 y y1 (by omega) y3
    · by_contra hc
      exact r4 y (by omega) (by omega) y3
  · intro h
    exact hiff.mpr (fun y y1 y2 => by omega)

/-- C18 as amended, on the window `[0, 16)` of the row `two_block_row`, where the
maximum 20 occurs at column 5 only. -/
theorem single_block_first_segment_witness :
    ∃ pL pR z0 rest,
      (0 : Int) ≤ pL ∧ pL ≤ pR ∧ pR < 0 + 16
      ∧ two_block_row.rd pL = 20 ∧ two_block_row.rd pR = 20
      ∧ (∀ x, 0 ≤ x → x < 0 + 16 → two_block_row.rd x = 20 → pL ≤ x ∧ x ≤ pR)
      ∧ (get_zero_index two_block_row 0 (0 + 16) 20).1 = z0
      ∧ ((z0 = -1 ∧ ∀ x, 0 ≤ x → x < pR → two_block_row.rd x ≠ 0)
        ∨ (0 ≤ z0 ∧ z0 < pR ∧ two_block_row.rd z0 = 0
            ∧ ∀ x, z0 < x → x < pR → two_block_row.rd x ≠ 0))
      ∧ (get_diag_block 0 0 two_block_row 0 20 z0 [] 16 32 false 19).2
          = [] ++ ⟨0 + z0 + 1, 0 + z0 + 1, pL - z0, 20⟩ :: rest
      ∧ (0 < pL - z0 ↔ ∀ x, pL < x → x < pR → two_block_row.rd x ≠ 0)
      ∧ (pL = pR → 0 < pL - z0) :=
  single_block_first_segment 0 0 two_block_row 0 16 20 32 19 [] (by decide) (by decide)
    ⟨5, by decide, by decide, by decide⟩

/-! ## The column scanner: block maxima of a lane -/

end Diamond
